import Mathlib

/-!
Verification of the gateflow combinational-circuit core: the gate/wire/circuit
data model, gate evaluation, connectivity validation, Kahn's-algorithm
finalization, boolean propagation, NAND decomposition, and the propagation
scheduler.  Every definition is a shallow embedding of the corresponding C++
code (src/simulation/gate.cpp, wire.cpp, circuit.cpp, nand_decompose.cpp and
src/timing/propagation_scheduler.cpp).  Pointers are modelled as arena
indices: a gate or wire id is its index in the owning circuit's list, which
matches the C++ code because entities are only ever appended, never removed.
-/

namespace gateflow

/-- Gate types, from `enum class GateType` in gate.hpp. -/
inductive GateType where
  | NAND | AND | OR | XOR | NOT | BUFFER
deriving DecidableEq, Repr

open GateType

/-- `evaluate` from gate.cpp: pure evaluation of a gate type on an ordered
input list, throwing (here: returning `.error`) on arity violations. -/
def evaluate : GateType → List Bool → Except String Bool
  | NOT, inputs =>
      if inputs.length ≠ 1 then .error "NOT gate requires exactly 1 input"
      else .ok (! inputs.headD false)
  | BUFFER, inputs =>
      if inputs.length ≠ 1 then .error "BUFFER gate requires exactly 1 input"
      else .ok (inputs.headD false)
  | AND, inputs =>
      if inputs.length < 2 then .error "AND gate requires at least 2 inputs"
      else .ok (inputs.all (fun v => v))
  | NAND, inputs =>
      if inputs.length < 2 then .error "NAND gate requires at least 2 inputs"
      else .ok (! inputs.all (fun v => v))
  | OR, inputs =>
      if inputs.length < 2 then .error "OR gate requires at least 2 inputs"
      else .ok (inputs.any (fun v => v))
  | XOR, inputs =>
      if inputs.length < 2 then .error "XOR gate requires at least 2 inputs"
      else .ok (inputs.foldl (fun acc v => xor acc v) false)

/-- The `Gate` class from gate.hpp.  `inputs` and `output` hold wire ids. -/
structure Gate where
  id : Nat
  type : GateType
  inputs : List Nat
  output : Option Nat
  state : Bool
  dirty : Bool
deriving DecidableEq, Repr

/-- The `Wire` class from wire.hpp.  `source` holds a gate id; `destinations`
is a multiset of gate ids (a gate may read the same wire on two pins). -/
structure Wire where
  id : Nat
  value : Bool
  previousValue : Bool
  source : Option Nat
  destinations : List Nat
deriving DecidableEq, Repr

/-- `Wire::set_value`: saves the old value into `previousValue`. -/
def Wire.set_value (w : Wire) (v : Bool) : Wire :=
  { w with previousValue := w.value, value := v }

/-- `Wire::value_changed`. -/
def Wire.value_changed (w : Wire) : Bool := w.value != w.previousValue

/-- The `Circuit` class from circuit.hpp.  Gates and wires are stored in
arena order; a gate's (wire's) id equals its index in the list. -/
structure Circuit where
  gates : List Gate
  wires : List Wire
  inputWires : List Nat
  outputWires : List Nat
  topoOrder : List Nat
  finalized : Bool
deriving DecidableEq, Repr

/-- The empty circuit (`Circuit circuit;`). -/
def Circuit.empty : Circuit :=
  { gates := [], wires := [], inputWires := [], outputWires := [],
    topoOrder := [], finalized := false }

/-- Dereference a gate pointer (arena index). -/
def Circuit.gateAt (c : Circuit) (g : Nat) : Option Gate := c.gates.get? g

/-- Dereference a wire pointer (arena index). -/
def Circuit.wireAt (c : Circuit) (w : Nat) : Option Wire := c.wires.get? w

/-- In-place mutation of the gate object behind index `g` (pointer write). -/
def Circuit.updGate (c : Circuit) (g : Nat) (f : Gate → Gate) : Circuit :=
  match c.gates.get? g with
  | some gate => { c with gates := c.gates.set g (f gate) }
  | none => c

/-- In-place mutation of the wire object behind index `w` (pointer write). -/
def Circuit.updWire (c : Circuit) (w : Nat) (f : Wire → Wire) : Circuit :=
  match c.wires.get? w with
  | some wire => { c with wires := c.wires.set w (f wire) }
  | none => c

/-- `Circuit::add_gate`: allocates a gate in the arena, id = next index
(the C++ `next_gate_id_` counter always equals `gates_.size()`). -/
def Circuit.add_gate (c : Circuit) (t : GateType) : Circuit × Nat :=
  let id := c.gates.length
  ({ c with gates := c.gates ++
      [{ id := id, type := t, inputs := [], output := none,
         state := false, dirty := true }] }, id)

/-- `Circuit::add_wire`. -/
def Circuit.add_wire (c : Circuit) : Circuit × Nat :=
  let id := c.wires.length
  ({ c with wires := c.wires ++
      [{ id := id, value := false, previousValue := false,
         source := none, destinations := [] }] }, id)

/-- `Circuit::connect` from circuit.cpp.  `source`/`destination` are
optional gate ids (nullptr = `none`). -/
def Circuit.connect (c : Circuit) (wire : Option Nat) (source : Option Nat)
    (destination : Option Nat) : Except String Circuit := do
  match wire with
  | none => .error "connect() requires a non-null wire"
  | some wid =>
    match c.wireAt wid with
    | none => .error "connect() requires a non-null wire"
    | some w => do
      let c ← (match source with
        | none => pure c
        | some src => do
          if w.source.isSome ∧ w.source ≠ some src then
            throw "Wire already has a different source gate"
          else
            match c.gateAt src with
            | none => throw "Wire already has a different source gate"
            | some srcGate =>
              if srcGate.output.isSome ∧ srcGate.output ≠ some wid then
                throw "Gate already drives a different output wire"
              else
                pure (((c.updWire wid (fun w => { w with source := some src }))).updGate
                  src (fun g => { g with output := some wid })))
      match destination with
      | none => pure c
      | some dst =>
        pure ((c.updWire wid
          (fun w => { w with destinations := w.destinations ++ [dst] })).updGate
          dst (fun g => { g with inputs := g.inputs ++ [wid] }))

/-- `Circuit::mark_input`. -/
def Circuit.mark_input (c : Circuit) (w : Nat) : Circuit :=
  { c with inputWires := c.inputWires ++ [w] }

/-- `Circuit::mark_output`. -/
def Circuit.mark_output (c : Circuit) (w : Nat) : Circuit :=
  { c with outputWires := c.outputWires ++ [w] }

/-- The source gate of a wire, if any (`wire->get_source()`). -/
def Circuit.sourceOf (c : Circuit) (wid : Nat) : Option Nat :=
  (c.wireAt wid).bind (fun w => w.source)

/-- One gate's side of `Circuit::validate_connectivity`: its output back-link
and, for every input-wire occurrence, at least as many matching destination
occurrences on the wire side.  A dangling index is a C++ wild pointer; it is
treated as inconsistent (such circuits are unreachable through the API). -/
def gateSideOk (c : Circuit) (g : Gate) : Bool :=
  (match g.output with
   | none => true
   | some o =>
     match c.wireAt o with
     | none => false
     | some w => w.source == some g.id) &&
  g.inputs.all (fun wid =>
    match c.wireAt wid with
    | none => false
    | some w => g.inputs.count wid ≤ w.destinations.count g.id)

/-- One wire's side of `Circuit::validate_connectivity`. -/
def wireSideOk (c : Circuit) (w : Wire) : Bool :=
  (match w.source with
   | none => true
   | some s =>
     match c.gateAt s with
     | none => false
     | some g => g.output == some w.id) &&
  w.destinations.all (fun gid =>
    match c.gateAt gid with
    | none => false
    | some g => w.destinations.count gid ≤ g.inputs.count w.id)

/-- `Circuit::validate_connectivity` (true = no exception thrown). -/
def Circuit.validate_connectivity (c : Circuit) : Bool :=
  c.gates.all (gateSideOk c) && c.wires.all (wireSideOk c)

/-- Kahn in-degree of a gate: the number of its input wires that have a
non-null source (primary inputs contribute zero); from `Circuit::finalize`. -/
def Circuit.initIndeg (c : Circuit) (g : Gate) : Nat :=
  g.inputs.countP (fun wid => (c.sourceOf wid).isSome)

/-- The inner decrement loop of Kahn's algorithm: for each destination of the
dequeued gate's output wire, decrement its in-degree and enqueue it if the
in-degree reaches exactly zero.  In-degrees are `Int` like the C++ `int`. -/
def processDests (dests : List Nat) (indeg : List Int) (queue : List Nat) :
    List Int × List Nat :=
  match dests with
  | [] => (indeg, queue)
  | d :: rest =>
    let v := indeg.getD d 0 - 1
    let indeg' := indeg.set d v
    let queue' := if v = 0 then queue ++ [d] else queue
    processDests rest indeg' queue'

/-- The Kahn dequeue loop from `Circuit::finalize`.  The C++ `while` loop
terminates because every gate is enqueued at most once; here the same loop is
driven by fuel, and `finalize` passes `gates.length + 1` fuel, which the
invariant proofs show is never exhausted on a validated circuit. -/
def kahnLoop (c : Circuit) : Nat → List Nat → List Int → List Nat → List Nat
  | 0, _, _, acc => acc
  | _ + 1, [], _, acc => acc
  | fuel + 1, g :: rest, indeg, acc =>
    let acc' := acc ++ [g]
    match (c.gateAt g).bind (fun gate => gate.output) with
    | none => kahnLoop c fuel rest indeg acc'
    | some o =>
      let dests := ((c.wireAt o).map (fun w => w.destinations)).getD []
      let p := processDests dests indeg rest
      kahnLoop c fuel p.2 p.1 acc'

/-- The full Kahn run of `Circuit::finalize`: initial in-degrees, the seed
queue of in-degree-0 gates in arena order, then the dequeue loop. -/
def Circuit.kahnOrder (c : Circuit) : List Nat :=
  let n := c.gates.length
  let indeg : List Int := c.gates.map (fun g => (c.initIndeg g : Int))
  let seed := (List.range n).filter
    (fun i => (c.gates.get? i).all (fun g => c.initIndeg g = 0))
  kahnLoop c (n + 1) seed indeg []

/-- The cycle-error message thrown by `Circuit::finalize`. -/
def cycleErrorMsg : String := "Circuit contains a cycle - topological sort failed"

/-- `Circuit::finalize`: connectivity validation, Kahn's algorithm, the
cycle check, then setting the finalized flag.  Connectivity errors carry the
message of the first failing check in the C++; since no claim distinguishes
between the individual connectivity messages, they are reported uniformly. -/
def Circuit.finalize (c : Circuit) : Except String Circuit :=
  if ¬ c.validate_connectivity then .error "Inconsistent connectivity"
  else
    let order := c.kahnOrder
    if order.length ≠ c.gates.length then .error cycleErrorMsg
    else .ok { c with topoOrder := order, finalized := true }

/-- `Circuit::set_input`: bounds-checked write (no finalized check). -/
def Circuit.set_input (c : Circuit) (index : Nat) (value : Bool) :
    Except String Circuit :=
  if index < c.inputWires.length then
    .ok (c.updWire (c.inputWires.getD index 0) (fun w => w.set_value value))
  else .error "Input index out of range"

/-- `Circuit::get_output`: bounds-checked read (no finalized check). -/
def Circuit.get_output (c : Circuit) (index : Nat) : Except String Bool :=
  if index < c.outputWires.length then
    .ok ((((c.wireAt (c.outputWires.getD index 0))).map (fun w => w.value)).getD false)
  else .error "Output index out of range"

/-- `PropagationResult` from circuit.hpp. -/
structure PropagationResult where
  changed_gates : List Nat
  changed_wires : List Nat
deriving DecidableEq, Repr

/-- The body of the propagation loop for one gate: gather input values,
evaluate, store state, clear dirty, write the output wire, record changes. -/
def propStep (c : Circuit) (res : PropagationResult) (gid : Nat) :
    Except String (Circuit × PropagationResult) :=
  match c.gateAt gid with
  | none => .ok (c, res)
  | some gate =>
    let input_values := gate.inputs.map
      (fun wid => (((c.wireAt wid)).map (fun w => w.value)).getD false)
    match evaluate gate.type input_values with
    | .error e => .error e
    | .ok new_state =>
      let old_state := gate.state
      let c := c.updGate gid (fun g => { g with state := new_state, dirty := false })
      let step : Circuit × PropagationResult :=
        match gate.output with
        | none => (c, res)
        | some o =>
          let c := c.updWire o (fun w => w.set_value new_state)
          let changed := ((c.wireAt o).map Wire.value_changed).getD false
          (c, if changed then { res with changed_wires := res.changed_wires ++ [o] }
              else res)
      let c := step.1
      let res := step.2
      .ok (c, if new_state ≠ old_state
              then { res with changed_gates := res.changed_gates ++ [gid] }
              else res)

/-- The propagation loop over the topological order. -/
def propLoop (order : List Nat) (c : Circuit) (res : PropagationResult) :
    Except String (Circuit × PropagationResult) :=
  match order with
  | [] => .ok (c, res)
  | g :: rest =>
    match propStep c res g with
    | .error e => .error e
    | .ok p => propLoop rest p.1 p.2

/-- `Circuit::propagate` from circuit.cpp. -/
def Circuit.propagate (c : Circuit) : Except String (Circuit × PropagationResult) :=
  if ¬ c.finalized then .error "Circuit must be finalized before propagation"
  else propLoop c.topoOrder c ⟨[], []⟩

/-! ## NAND decomposition (nand_decompose.cpp) -/

/-- `link_input` from nand_decompose.cpp: append the wire to the gate's input
list and the gate to the wire's destination list. -/
def link_input (c : Circuit) (wid : Nat) (gid : Nat) : Circuit :=
  (c.updGate gid (fun g => { g with inputs := g.inputs ++ [wid] })).updWire
    wid (fun w => { w with destinations := w.destinations ++ [gid] })

/-- `link_output` from nand_decompose.cpp: `gate->set_output(wire)` stores
the wire pointer (a defined store even for a null pointer), then
`wire->set_source(gate)` dereferences it.  The wire argument is optional
because the rewrite loop passes a gate's (possibly null) original output
pointer; on null the `set_source` call dereferences null and the execution
has no defined continuation.  This total function performs only the defined
store in its `none` branch; `decompose_to_nand` reaches it exclusively
through `decomposeGateE`, which reports exactly those executions as
errors, so the `none` branch never feeds a defined result of the pass. -/
def link_output (c : Circuit) (wo : Option Nat) (gid : Nat) : Circuit :=
  let c := c.updGate gid (fun g => { g with output := wo })
  match wo with
  | some wid => c.updWire wid (fun w => { w with source := some gid })
  | none => c

/-- `disconnect_inputs` from nand_decompose.cpp: remove one destination
occurrence per input occurrence (`std::find` + `erase` removes the first
occurrence), then clear the gate's input list. -/
def disconnect_inputs (c : Circuit) (gid : Nat) : Circuit :=
  match c.gateAt gid with
  | none => c
  | some g =>
    let c := g.inputs.foldl
      (fun c wid => c.updWire wid
        (fun w => { w with destinations := w.destinations.erase gid })) c
    c.updGate gid (fun g => { g with inputs := [] })

/-- The body of the rewrite loop of `decompose_to_nand` for one snapshot
gate, reading the gate's current type/inputs/output like the C++ loop body.
A gate whose input list is too short for its case dereferences past the end
of a vector in C++ (undefined behavior); here the gate is left unchanged,
and every theorem's hypotheses rule the situation out.  The final
`link_output c original_output _` of the BUFFER/AND/OR/XOR cases likewise
dereferences a null pointer in C++ when the gate drives no output wire;
`decompose_to_nand` therefore runs this body through `decomposeGateE`,
which turns exactly those executions into errors, and this total rewrite
only describes the iterations that guard lets through. -/
def decomposeGate (c : Circuit) (gid : Nat) : Circuit :=
  match c.gateAt gid with
  | none => c
  | some g =>
    let original_output := g.output
    match g.type, g.inputs with
    | NOT, a :: _ =>
      let c := disconnect_inputs c gid
      let c := c.updGate gid (fun g => { g with type := NAND })
      let c := link_input c a gid
      link_input c a gid
    | BUFFER, a :: _ =>
      let c := disconnect_inputs c gid
      let c := c.updGate gid (fun g => { g with type := NAND })
      let c := link_input c a gid
      let c := link_input c a gid
      let p := c.add_wire
      let c := p.1
      let not_out := p.2
      let c := link_output c (some not_out) gid
      let q := c.add_gate NAND
      let c := q.1
      let nand2 := q.2
      let c := link_input c not_out nand2
      let c := link_input c not_out nand2
      link_output c original_output nand2
    | AND, a :: b :: _ =>
      let c := disconnect_inputs c gid
      let c := c.updGate gid (fun g => { g with type := NAND })
      let c := link_input c a gid
      let c := link_input c b gid
      let p := c.add_wire
      let c := p.1
      let nand_out := p.2
      let c := link_output c (some nand_out) gid
      let q := c.add_gate NAND
      let c := q.1
      let nand2 := q.2
      let c := link_input c nand_out nand2
      let c := link_input c nand_out nand2
      link_output c original_output nand2
    | OR, a :: b :: _ =>
      let c := disconnect_inputs c gid
      let c := c.updGate gid (fun g => { g with type := NAND })
      let c := link_input c a gid
      let c := link_input c a gid
      let p := c.add_wire
      let c := p.1
      let not_a_out := p.2
      let c := link_output c (some not_a_out) gid
      let q := c.add_gate NAND
      let c := q.1
      let not_b := q.2
      let c := link_input c b not_b
      let c := link_input c b not_b
      let p2 := c.add_wire
      let c := p2.1
      let not_b_out := p2.2
      let c := link_output c (some not_b_out) not_b
      let q2 := c.add_gate NAND
      let c := q2.1
      let final_nand := q2.2
      let c := link_input c not_a_out final_nand
      let c := link_input c not_b_out final_nand
      link_output c original_output final_nand
    | XOR, a :: b :: _ =>
      let c := disconnect_inputs c gid
      let c := c.updGate gid (fun g => { g with type := NAND })
      let c := link_input c a gid
      let c := link_input c b gid
      let p := c.add_wire
      let c := p.1
      let nand_ab_out := p.2
      let c := link_output c (some nand_ab_out) gid
      let q := c.add_gate NAND
      let c := q.1
      let nand_a := q.2
      let c := link_input c a nand_a
      let c := link_input c nand_ab_out nand_a
      let p2 := c.add_wire
      let c := p2.1
      let nand_a_out := p2.2
      let c := link_output c (some nand_a_out) nand_a
      let q2 := c.add_gate NAND
      let c := q2.1
      let nand_b := q2.2
      let c := link_input c b nand_b
      let c := link_input c nand_ab_out nand_b
      let p3 := c.add_wire
      let c := p3.1
      let nand_b_out := p3.2
      let c := link_output c (some nand_b_out) nand_b
      let q3 := c.add_gate NAND
      let c := q3.1
      let final_nand := q3.2
      let c := link_input c nand_a_out final_nand
      let c := link_input c nand_b_out final_nand
      link_output c original_output final_nand
    | NAND, _ => c
    | _, _ => c

/-- The loop-body executions of `decompose_to_nand` with no defined result:
in the BUFFER/AND/OR/XOR cases (entered after `inputs[0]`/`inputs[1]` have
been read, hence the input-length tests) the C++ body ends with
`link_output(original_output, ...)`, whose `wire->set_source(gate)`
dereferences the gate's original output pointer — null exactly when the
gate drives no wire.  The NOT and NAND cases never call `link_output`. -/
def nullLink (g : Gate) : Bool :=
  g.output == none &&
    ((g.type == GateType.BUFFER && decide (1 ≤ g.inputs.length)) ||
      ((g.type == GateType.AND || g.type == GateType.OR ||
        g.type == GateType.XOR) && decide (2 ≤ g.inputs.length)))

/-- One iteration of the rewrite loop of `decompose_to_nand`: the total
rewrite `decomposeGate` when the iteration has a defined result, and an
error for the null `set_source` dereference described at `nullLink`. -/
def decomposeGateE (c : Circuit) (gid : Nat) : Except String Circuit :=
  match c.gateAt gid with
  | none => .ok (decomposeGate c gid)
  | some g =>
    if nullLink g then .error "null wire dereference in link_output"
    else .ok (decomposeGate c gid)

/-- The rewrite loop of `decompose_to_nand` over the snapshot list. -/
def decomposeLoop (todo : List Nat) (c : Circuit) : Except String Circuit :=
  match todo with
  | [] => .ok c
  | gid :: rest =>
    match decomposeGateE c gid with
    | .error e => .error e
    | .ok c' => decomposeLoop rest c'

/-- `decompose_to_nand` from nand_decompose.cpp: snapshot the non-NAND
gates, rewrite each in arena order, then re-finalize. -/
def decompose_to_nand (c : Circuit) : Except String Circuit :=
  let original_gates := (c.gates.filter (fun g => g.type != NAND)).map (fun g => g.id)
  match decomposeLoop original_gates c with
  | .error e => .error e
  | .ok c' => c'.finalize

/-! ## Propagation scheduler (propagation_scheduler.cpp)

The C++ scheduler stores `current_depth_` and `speed_` as `float`; all
arithmetic performed on them (integer-valued depths, truncation, min) is
exact for the magnitudes involved, and is modelled over `ℚ`. -/

/-- `PlaybackMode` from propagation_scheduler.hpp. -/
inductive PlaybackMode where
  | REALTIME | PAUSED | STEP
deriving DecidableEq, Repr

/-- The scheduler state.  `gateDepths` models the `unordered_map` keyed by
gate pointer as an association list keyed by gate id (each gate of the
finalized topological order is inserted exactly once). -/
structure Scheduler where
  gateDepths : List (Nat × Int)
  maxDepth : Int
  currentDepth : ℚ
  speed : ℚ
  mode : PlaybackMode
  stepRequested : Bool
deriving DecidableEq, Repr

/-- The fold step of `PropagationScheduler::compute_depths` for one gate of
the topological order: depth = 1 + max over the already-assigned source
gates of its non-primary input wires (−1 + 1 = 0 when there are none). -/
def depthStep (c : Circuit) (st : List (Nat × Int) × Int) (gid : Nat) :
    List (Nat × Int) × Int :=
  match c.gateAt gid with
  | none => st
  | some g =>
    let max_input_depth := g.inputs.foldl
      (fun acc wid =>
        match c.sourceOf wid with
        | none => acc
        | some src =>
          match st.1.lookup src with
          | none => acc
          | some d => max acc d) (-1 : Int)
    let depth := max_input_depth + 1
    (st.1 ++ [(gid, depth)], max st.2 depth)

/-- `PropagationScheduler::compute_depths`: gate depths and `max_depth_`. -/
def computeDepths (c : Circuit) : List (Nat × Int) × Int :=
  c.topoOrder.foldl (depthStep c) ([], 0)

/-- The `PropagationScheduler` constructor: computes depths, starts at
current depth −1 in real-time mode with speed 3. -/
def mkScheduler (c : Circuit) : Scheduler :=
  let p := computeDepths c
  { gateDepths := p.1, maxDepth := p.2, currentDepth := -1, speed := 3,
    mode := .REALTIME, stepRequested := false }

/-- `static_cast<int>` on a float: truncation toward zero. -/
def truncToInt (q : ℚ) : Int := if q < 0 then ⌈q⌉ else ⌊q⌋

/-- `PropagationScheduler::tick`. -/
def Scheduler.tick (s : Scheduler) (delta_time : ℚ) : Scheduler :=
  if s.mode = .PAUSED ∧ ¬ s.stepRequested then s
  else if s.stepRequested then
    let target : ℚ := ((truncToInt s.currentDepth + 1 : Int) : ℚ)
    let target := if s.currentDepth < 0 then 0 else target
    { s with currentDepth := min target ((s.maxDepth : ℚ) + 1),
             stepRequested := false }
  else
    let d := s.currentDepth + s.speed * delta_time
    { s with currentDepth :=
        if (s.maxDepth : ℚ) + 1 < d then (s.maxDepth : ℚ) + 1 else d }

/-- `PropagationScheduler::reset`. -/
def Scheduler.reset (s : Scheduler) : Scheduler :=
  { s with currentDepth := -1,
           mode := if s.mode = .STEP then .PAUSED else s.mode }

/-- `PropagationScheduler::step`. -/
def Scheduler.step (s : Scheduler) : Scheduler :=
  { s with stepRequested := true,
           mode := if s.mode = .REALTIME then .PAUSED else s.mode }

/-- `PropagationScheduler::toggle_pause`. -/
def Scheduler.toggle_pause (s : Scheduler) : Scheduler :=
  { s with mode := if s.mode = .PAUSED then .REALTIME else .PAUSED }

/-- `PropagationScheduler::is_gate_resolved`. -/
def Scheduler.is_gate_resolved (s : Scheduler) (gid : Nat) : Bool :=
  match s.gateDepths.lookup gid with
  | none => false
  | some d => decide ((d : ℚ) ≤ s.currentDepth)

/-- `PropagationScheduler::gate_resolve_fraction`. -/
def Scheduler.gate_resolve_fraction (s : Scheduler) (gid : Nat) : ℚ :=
  match s.gateDepths.lookup gid with
  | none => 0
  | some d =>
    if s.currentDepth < (d : ℚ) then 0
    else min (s.currentDepth - (d : ℚ)) 1

/-- `PropagationScheduler::gate_depth`. -/
def Scheduler.gate_depth (s : Scheduler) (gid : Nat) : Int :=
  match s.gateDepths.lookup gid with
  | none => -1
  | some d => d

/-- `PropagationScheduler::is_complete`. -/
def Scheduler.is_complete (s : Scheduler) : Bool :=
  decide ((s.maxDepth : ℚ) + 1 ≤ s.currentDepth)

/-! ## Derived notions used by the specification claims -/

/-- The structural part of a gate: everything except the mutable
`state`/`dirty` evaluation fields. -/
def Gate.shape (g : Gate) : Nat × GateType × List Nat × Option Nat :=
  (g.id, g.type, g.inputs, g.output)

/-- The structural part of a wire: everything except the mutable
`value`/`previousValue` fields. -/
def Wire.shape (w : Wire) : Nat × Option Nat × List Nat :=
  (w.id, w.source, w.destinations)

/-- The whole graph topology of a circuit: gate and wire structure, pin
lists, topological order and the finalized flag — everything except wire
values and gate states. -/
def Circuit.shape (c : Circuit) :
    List (Nat × GateType × List Nat × Option Nat) × List (Nat × Option Nat × List Nat)
      × List Nat × List Nat × List Nat × Bool :=
  (c.gates.map Gate.shape, c.wires.map Wire.shape, c.inputWires, c.outputWires,
   c.topoOrder, c.finalized)

/-- The arity rule `evaluate` enforces for a gate type on an input count:
exactly 1 for NOT/BUFFER, at least 2 for the others. -/
def arityProp (t : GateType) (n : Nat) : Prop :=
  match t with
  | .NOT | .BUFFER => n = 1
  | _ => 2 ≤ n

/-- Whether a gate's input count satisfies the arity rule its type imposes in
`evaluate`: exactly 1 for NOT/BUFFER, at least 2 for the others. -/
def arityOkB (g : Gate) : Bool :=
  match g.type with
  | .NOT | .BUFFER => g.inputs.length == 1
  | _ => 2 ≤ g.inputs.length

/-- Arena well-formedness: every gate's (wire's) stored id equals its index.
The construction API only ever appends entities with id = index, so every
circuit built through it satisfies this. -/
def Circuit.wfB (c : Circuit) : Bool :=
  ((List.range c.gates.length).all fun i =>
    (c.gates.get? i).all fun g => g.id == i) &&
  ((List.range c.wires.length).all fun i =>
    (c.wires.get? i).all fun w => w.id == i)

/-- Assign a list of boolean values to the primary-input wires (the effect
of calling `set_input(i, bs[i])` for each i in range). -/
def Circuit.setInputs (c : Circuit) (bs : List Bool) : Circuit :=
  (List.zip (List.range bs.length) bs).foldl
    (fun c p => c.updWire (c.inputWires.getD p.1 0) (fun w => w.set_value p.2)) c

/-- The gate-dependency edge relation of the claims: there is an edge from
gate `u` to gate `v` when some wire has source `u` and lists `v` among its
destinations. -/
def Edge (c : Circuit) (u v : Nat) : Prop :=
  ∃ w ∈ c.wires, w.source = some u ∧ v ∈ w.destinations

/-- Acyclicity of the gate-dependency graph: no gate reaches itself through
a non-empty chain of edges. -/
def Acyclic (c : Circuit) : Prop := ∀ u, ¬ Relation.TransGen (Edge c) u u

/-- How many times Kahn's algorithm decrements gate `v`'s in-degree when
gate `u` is dequeued: the multiplicity of `v` among the destinations of
`u`'s output wire. -/
def multTo (c : Circuit) (u v : Nat) : Nat :=
  match (c.gateAt u).bind (fun g => g.output) with
  | none => 0
  | some o => (((c.wireAt o).map (fun w => w.destinations)).getD []).count v

/-- Total decrements gate `v` receives from dequeuing the gates of `S`. -/
def edgesFrom (c : Circuit) (S : List Nat) (v : Nat) : Nat :=
  (S.map (fun u => multTo c u v)).sum

/-- The initial Kahn in-degree of the gate with id `v` (0 for a dangling id). -/
def initIndegAt (c : Circuit) (v : Nat) : Nat :=
  match c.gateAt v with
  | some g => c.initIndeg g
  | none => 0

/-- One dequeue step of the Kahn loop, as acting on the in-degree array and
the remaining queue: decrement along the dequeued gate's output wire. -/
def kahnNext (c : Circuit) (g : Nat) (rest : List Nat) (indeg : List Int) :
    List Int × List Nat :=
  match (c.gateAt g).bind (fun gate => gate.output) with
  | none => (indeg, rest)
  | some o =>
    processDests (((c.wireAt o).map (fun w => w.destinations)).getD []) indeg rest

/-- The invariant of the Kahn dequeue loop: `acc` is the processed prefix of
the order, `queue` the pending queue, `indeg` the current in-degree array. -/
structure KahnInv (c : Circuit) (queue : List Nat) (indeg : List Int)
    (acc : List Nat) : Prop where
  len : indeg.length = c.gates.length
  nodup : (acc ++ queue).Nodup
  bounded : ∀ x ∈ acc ++ queue, x < c.gates.length
  spec : ∀ v < c.gates.length,
    indeg.getD v 0 = (initIndegAt c v : Int) - (edgesFrom c acc v : Int)
  zeroIn : ∀ v < c.gates.length,
    initIndegAt c v = edgesFrom c acc v → v ∈ acc ++ queue
  sound : ∀ k v, acc.get? k = some v → ∀ u, 0 < multTo c u v →
    ∃ j < k, acc.get? j = some u
  satAll : ∀ v ∈ acc ++ queue, edgesFrom c acc v = initIndegAt c v

/-! ## Denotational semantics used for the decomposition claim -/

/-- The value of every wire as currently stored, read straight off the
circuit: the environment a propagation run starts from (only the values of
source-less wires matter to the semantics). -/
def initEnv (c : Circuit) : Nat → Bool :=
  fun wid => ((c.wireAt wid).map (fun w => w.value)).getD false

/-- Fuel-indexed denotational value of a wire: a source-less wire holds its
environment value; a sourced wire holds its source gate's evaluation over
the denotations of that gate's input wires, one fuel step down (false when
the fuel runs out or the circuit is broken — on graded circuits the value
stabilizes once the fuel exceeds the source gate's rank). -/
def wireVal (c : Circuit) (env : Nat → Bool) : Nat → Nat → Bool
  | 0 => fun wid =>
    match c.sourceOf wid with
    | none => env wid
    | some _ => false
  | fuel + 1 => fun wid =>
    match c.sourceOf wid with
    | none => env wid
    | some gid =>
      match c.gateAt gid with
      | none => false
      | some g =>
        match evaluate g.type (g.inputs.map (wireVal c env fuel)) with
        | .ok b => b
        | .error _ => false

/-- Gate `u` feeds gate `v`: some input wire of `v` has source `u`.  Unlike
`Edge` this reads the gates' input lists, which is exactly what `wireVal`
and the propagation loop consult. -/
def Feeds (c : Circuit) (u v : Nat) : Prop :=
  ∃ g, c.gateAt v = some g ∧ ∃ wid ∈ g.inputs, c.sourceOf wid = some u

/-- A grading of the feeds relation — a witness of acyclicity that the
decomposition rewrites maintain step by step. -/
def Graded (c : Circuit) (rk : Nat → Nat) : Prop :=
  ∀ u v, Feeds c u v → rk u < rk v

/-- The eventual (stable) denotational value of a wire. -/
def Evals (c : Circuit) (env : Nat → Bool) (wid : Nat) (v : Bool) : Prop :=
  ∃ N, ∀ f, N ≤ f → wireVal c env f wid = v

/-- How many destination slots of wire `x` point at gate `v` (0 for a
dangling wire id): the quantity `validate_connectivity` compares. -/
def cntD (c : Circuit) (x v : Nat) : Nat :=
  ((c.wireAt x).map (fun w => w.destinations.count v)).getD 0

/-- The identity, source and value of wire `x` — every field the
decomposition rewrites must not clobber on pre-existing wires. -/
def wtriple (c : Circuit) (x : Nat) : Option (Nat × Option Nat × Bool) :=
  (c.wireAt x).map (fun w => (w.id, w.source, w.value))

/-- Every depth the scheduler records is nonnegative and bounded by the
running maximum, which is itself nonnegative. -/
def DepthsOk (st : List (Nat × Int) × Int) : Prop :=
  (∀ p ∈ st.1, 0 ≤ p.2 ∧ p.2 ≤ st.2) ∧ 0 ≤ st.2

/-- No gate among the first `k` of the order sources wire `x`. -/
def NoWriter (d : Circuit) (ord : List Nat) (k x : Nat) : Prop :=
  ∀ i u, i < k → ord.get? i = some u → d.sourceOf x ≠ some u

/-- The wire-value invariant of the propagation loop after the first `k`
gates of `ord` have been processed, relating the running circuit `e` back to
the starting circuit `d`: unwritten wires still hold their initial value,
and a wire written by the gate at position `i` holds the denotational value
that `wireVal` stabilizes to from fuel `i + 1` on. -/
def PropVals (d : Circuit) (ord : List Nat) (k : Nat) (e : Circuit) : Prop :=
  ∀ x w, e.wireAt x = some w →
    (NoWriter d ord k x → w.value = initEnv d x) ∧
    (∀ i u, i < k → ord.get? i = some u → d.sourceOf x = some u →
      ∀ f, i + 1 ≤ f → wireVal d (initEnv d) f x = w.value)

/-- What a successful `finalize` guarantees about an order: no duplicates,
only gate ids, all gate ids, and every dependency edge from earlier to
later. -/
def OrderOk (d : Circuit) (ord : List Nat) : Prop :=
  ord.Nodup ∧ (∀ g ∈ ord, g < d.gates.length) ∧
  (∀ g, g < d.gates.length → g ∈ ord) ∧
  (∀ u v, Edge d u v → ∀ i j, ord.get? i = some u → ord.get? j = some v →
    i < j)

/-- The loop invariant of `decompose_to_nand`'s rewrite fold: `d` is the
current circuit, `todo` the not-yet-rewritten snapshot gates, `c` the
starting circuit.  Well-formedness, validation, arity, gradedness and the
denotational values of the original wires are maintained; every gate is
already NAND or still pending; pending gates and the pin lists are
untouched; original source-less wires are untouched and every wire that had
or gained a source keeps one. -/
def DecompInv (c : Circuit) (todo : List Nat) (d : Circuit) : Prop :=
  d.wfB = true ∧
  d.validate_connectivity = true ∧
  (∀ v gv, d.gateAt v = some gv → arityOkB gv = true) ∧
  (∀ v gv, d.gateAt v = some gv → gv.type = GateType.NAND ∨ v ∈ todo) ∧
  (∀ v ∈ todo, d.gateAt v = c.gateAt v ∧ v < c.gates.length) ∧
  (∃ rk, Graded d rk) ∧
  (∀ env x v, x < c.wires.length → Evals c env x v → Evals d env x v) ∧
  d.inputWires = c.inputWires ∧ d.outputWires = c.outputWires ∧
  c.wires.length ≤ d.wires.length ∧ c.gates.length ≤ d.gates.length ∧
  (∀ x, x < c.wires.length → c.sourceOf x = none → wtriple d x = wtriple c x) ∧
  (∀ x, x < d.wires.length → c.wires.length ≤ x → d.sourceOf x ≠ none) ∧
  (∀ x, x < c.wires.length → c.sourceOf x ≠ none → d.sourceOf x ≠ none)

/-- Everything one `decomposeGate` rewrite of gate `gid` preserves or
establishes, as consumed by the fold invariant. -/
def StepOut (d d' : Circuit) (gid : Nat) : Prop :=
  d'.wfB = true ∧
  d'.validate_connectivity = true ∧
  (∀ v gv, d'.gateAt v = some gv → arityOkB gv = true) ∧
  (∀ v, v < d.gates.length → v ≠ gid → d'.gateAt v = d.gateAt v) ∧
  (∀ v gv, d'.gateAt v = some gv →
    gv.type = GateType.NAND ∨ (v < d.gates.length ∧ v ≠ gid)) ∧
  d'.inputWires = d.inputWires ∧ d'.outputWires = d.outputWires ∧
  d.wires.length ≤ d'.wires.length ∧ d.gates.length ≤ d'.gates.length ∧
  (∀ x, x < d.wires.length → d.sourceOf x = none →
    wtriple d' x = wtriple d x) ∧
  (∀ x, x < d'.wires.length → d.wires.length ≤ x → d'.sourceOf x ≠ none) ∧
  (∀ x, x < d.wires.length → d.sourceOf x ≠ none → d'.sourceOf x ≠ none)

/-! ## Concrete circuits used as witnesses -/

/-- A one-wire circuit whose single wire is both the primary input 0 and the
primary output 0, never finalized. -/
def oneWireCircuit : Circuit :=
  ((Circuit.empty.add_wire).1.mark_input 0).mark_output 0

/-- A half-adder before finalization: wires a=0, b=1, sum=2, carry=3; gate 0
is XOR(a,b) driving sum, gate 1 is AND(a,b) driving carry. -/
def halfAdder0 : Circuit :=
  let c := Circuit.empty
  let c := (c.add_wire).1
  let c := (c.add_wire).1
  let c := (c.add_wire).1
  let c := (c.add_wire).1
  let c := (c.add_gate .XOR).1
  let c := (c.add_gate .AND).1
  let c := ((c.connect (some 0) none (some 0)).toOption).getD c
  let c := ((c.connect (some 1) none (some 0)).toOption).getD c
  let c := ((c.connect (some 0) none (some 1)).toOption).getD c
  let c := ((c.connect (some 1) none (some 1)).toOption).getD c
  let c := ((c.connect (some 2) (some 0) none).toOption).getD c
  let c := ((c.connect (some 3) (some 1) none).toOption).getD c
  let c := c.mark_input 0
  let c := c.mark_input 1
  let c := c.mark_output 2
  c.mark_output 3

/-- The finalized half-adder. -/
def halfAdderF : Circuit := (halfAdder0.finalize.toOption).getD Circuit.empty

/-- The result of one propagation pass over the finalized half-adder. -/
def halfAdderP : Circuit × PropagationResult :=
  (halfAdderF.propagate.toOption).getD (Circuit.empty, ⟨[], []⟩)

/-- A circuit whose single AND gate drives no output wire: wires a=0 and
b=1 are primary inputs and feed gate 0 = AND(a,b), whose output is never
connected.  It validates and finalizes (a null gate output is skipped by
`validate_connectivity`), yet the NAND rewrite of its AND gate ends with
`link_output` on the null original output. -/
def danglingAnd0 : Circuit :=
  let c := Circuit.empty
  let c := (c.add_wire).1
  let c := (c.add_wire).1
  let c := (c.add_gate .AND).1
  let c := ((c.connect (some 0) none (some 0)).toOption).getD c
  let c := ((c.connect (some 1) none (some 0)).toOption).getD c
  let c := c.mark_input 0
  c.mark_input 1

/-- The finalized dangling-output AND circuit. -/
def danglingAndF : Circuit :=
  (danglingAnd0.finalize.toOption).getD Circuit.empty

/-! ## Helper lemmas about boolean folds -/

theorem all_id_eq_decide (xs : List Bool) :
    xs.all (fun v => v) = decide (∀ x ∈ xs, x = true) := by
  induction xs with
  | nil => simp
  | cons x t ih => cases x <;> simp [List.all_cons, ih]

theorem any_id_eq_decide (xs : List Bool) :
    xs.any (fun v => v) = decide (∃ x ∈ xs, x = true) := by
  induction xs with
  | nil => simp
  | cons x t ih => cases x <;> simp [List.any_cons, ih]

theorem foldl_xor_eq_parity (xs : List Bool) (b : Bool) :
    xs.foldl (fun acc v => xor acc v) b = xor b (decide (Odd (xs.count true))) := by
  induction xs generalizing b with
  | nil => simp
  | cons x t ih =>
    cases x
    · simpa [List.count_cons] using ih b
    · have h := ih (xor b true)
      simp only [List.foldl_cons] at *
      rw [h]
      have hodd : decide (Odd (List.count true (true :: t)))
          = ! decide (Odd (List.count true t)) := by
        have hc : List.count true (true :: t) = List.count true t + 1 := by
          simp [List.count_cons]
        rw [hc]
        by_cases ho : Odd (List.count true t) <;> simp [ho, Nat.odd_add_one]
      rw [hodd]
      generalize (decide (Odd (t.count true))) = d
      cases b <;> cases d <;> rfl

/-- `evaluate` succeeds exactly when the input count satisfies the arity
rule of the gate type. -/
theorem evaluate_isOk_iff (t : GateType) (xs : List Bool) :
    (∃ b, evaluate t xs = .ok b) ↔ arityProp t xs.length := by
  simp only [arityProp]
  cases t with
  | NOT => by_cases h : xs.length = 1 <;> simp [evaluate, h]
  | BUFFER => by_cases h : xs.length = 1 <;> simp [evaluate, h]
  | AND =>
    by_cases h : 2 ≤ xs.length
    · have h' : ¬ xs.length < 2 := by omega
      simp [evaluate, h', h]
    · have h' : xs.length < 2 := by omega
      simp [evaluate, h', h]
  | NAND =>
    by_cases h : 2 ≤ xs.length
    · have h' : ¬ xs.length < 2 := by omega
      simp [evaluate, h', h]
      exact (em (false ∈ xs)).symm
    · have h' : xs.length < 2 := by omega
      simp [evaluate, h', h]
  | OR =>
    by_cases h : 2 ≤ xs.length
    · have h' : ¬ xs.length < 2 := by omega
      simp [evaluate, h', h]
    · have h' : xs.length < 2 := by omega
      simp [evaluate, h', h]
  | XOR =>
    by_cases h : 2 ≤ xs.length
    · have h' : ¬ xs.length < 2 := by omega
      simp [evaluate, h', h]
    · have h' : xs.length < 2 := by omega
      simp [evaluate, h', h]

/-! ## C4: the gate evaluation table -/

/-- C4: `evaluate` satisfies the gate table — NOT/BUFFER take exactly one
input and return negation/identity; with at least two inputs, AND is the
conjunction, NAND its negation, OR the disjunction, and XOR the n-ary
parity of the inputs; and every arity violation yields an error instead of
a value. -/
theorem evaluate_gate_table :
    (∀ b : Bool, evaluate .NOT [b] = .ok (!b)) ∧
    (∀ b : Bool, evaluate .BUFFER [b] = .ok b) ∧
    (∀ xs : List Bool, 2 ≤ xs.length →
      (evaluate .AND xs = .ok (decide (∀ x ∈ xs, x = true)) ∧
       evaluate .NAND xs = .ok (!(decide (∀ x ∈ xs, x = true))) ∧
       evaluate .OR xs = .ok (decide (∃ x ∈ xs, x = true)) ∧
       evaluate .XOR xs = .ok (decide (Odd (xs.count true))))) ∧
    (∀ xs : List Bool, xs.length ≠ 1 →
      ((∃ e, evaluate .NOT xs = .error e) ∧ ∃ e, evaluate .BUFFER xs = .error e)) ∧
    (∀ t, t ∈ [GateType.AND, .NAND, .OR, .XOR] → ∀ xs : List Bool, xs.length < 2 →
      ∃ e, evaluate t xs = .error e) := by
  refine ⟨fun b => by simp [evaluate], fun b => by simp [evaluate], ?_, ?_, ?_⟩
  · intro xs hlen
    have hnot : ¬ xs.length < 2 := by omega
    refine ⟨?_, ?_, ?_, ?_⟩
    · simp [evaluate, hnot, all_id_eq_decide]
    · simp [evaluate, hnot, all_id_eq_decide]
    · simp [evaluate, hnot, any_id_eq_decide]
    · simp [evaluate, hnot, foldl_xor_eq_parity]
  · intro xs hlen
    exact ⟨⟨"NOT gate requires exactly 1 input", by simp [evaluate, hlen]⟩,
      ⟨"BUFFER gate requires exactly 1 input", by simp [evaluate, hlen]⟩⟩
  · intro t ht xs hlen
    simp only [List.mem_cons, List.not_mem_nil, or_false] at ht
    rcases ht with rfl | rfl | rfl | rfl
    · exact ⟨"AND gate requires at least 2 inputs", by simp [evaluate, hlen]⟩
    · exact ⟨"NAND gate requires at least 2 inputs", by simp [evaluate, hlen]⟩
    · exact ⟨"OR gate requires at least 2 inputs", by simp [evaluate, hlen]⟩
    · exact ⟨"XOR gate requires at least 2 inputs", by simp [evaluate, hlen]⟩

/-- Witness for C4: the theorem applied at concrete inputs. -/
theorem evaluate_gate_table_witness :
    evaluate .AND [true, true] = .ok (decide (∀ x ∈ [true, true], x = true)) ∧
    evaluate .XOR [true, true, true] = .ok (decide (Odd ([true, true, true].count true))) ∧
    (∃ e, evaluate .NOT [] = .error e) ∧
    (∃ e, evaluate .OR [true] = .error e) :=
  ⟨(evaluate_gate_table.2.2.1 [true, true] (by decide)).1,
   (evaluate_gate_table.2.2.1 [true, true, true] (by decide)).2.2.2,
   (evaluate_gate_table.2.2.2.1 [] (by decide)).1,
   evaluate_gate_table.2.2.2.2 .OR (by decide) [true] (by decide)⟩

/-! ## C6: tick with a pending step request -/

theorem tick_step_core (s : Scheduler) (dt : ℚ) (hs : s.stepRequested = true) :
    (s.tick dt).currentDepth =
      min (if s.currentDepth < 0 then 0 else ((truncToInt s.currentDepth + 1 : ℤ) : ℚ))
        ((s.maxDepth : ℚ) + 1) ∧
    (s.tick dt).stepRequested = false := by
  simp only [Scheduler.tick, hs]
  by_cases hneg : s.currentDepth < 0 <;> simp [hneg]

/-- C6: with `step_requested` set, `tick(dt)` moves `current_depth` to the
next integer boundary above it (to 0 from a negative value), clamped to
`max_depth + 1`, and clears the flag — for every mode and every `dt`; and
from an integer current depth `n ≥ -1` in Paused mode, a `step()` followed
by a `tick()` advances `current_depth` by exactly one unit (up to the
clamp), never more. -/
theorem tick_step_semantics :
    (∀ (s : Scheduler) (dt : ℚ), s.stepRequested = true →
      ((s.tick dt).stepRequested = false ∧
       (s.currentDepth < 0 →
         (s.tick dt).currentDepth = min 0 ((s.maxDepth : ℚ) + 1)) ∧
       (0 ≤ s.currentDepth →
         (s.tick dt).currentDepth =
           min ((⌊s.currentDepth⌋ : ℚ) + 1) ((s.maxDepth : ℚ) + 1)))) ∧
    (∀ (s : Scheduler) (dt : ℚ) (n : ℤ), s.mode = .PAUSED →
      s.currentDepth = (n : ℚ) → (-1 : ℤ) ≤ n →
      ((s.step.tick dt).currentDepth = min ((n : ℚ) + 1) ((s.maxDepth : ℚ) + 1) ∧
       (s.step.tick dt).currentDepth - s.currentDepth ≤ 1 ∧
       ((n : ℚ) + 1 ≤ (s.maxDepth : ℚ) + 1 →
         (s.step.tick dt).currentDepth = s.currentDepth + 1))) := by
  constructor
  · intro s dt hs
    obtain ⟨hcd, hflag⟩ := tick_step_core s dt hs
    refine ⟨hflag, ?_, ?_⟩
    · intro hneg
      rw [hcd, if_pos hneg]
    · intro hpos
      rw [hcd, if_neg (not_lt.mpr hpos)]
      have : truncToInt s.currentDepth = ⌊s.currentDepth⌋ := by
        simp [truncToInt, not_lt.mpr hpos]
      rw [this]
      push_cast
      ring_nf
  · intro s dt n hm hcd hn
    have hs' : (s.step).stepRequested = true := rfl
    obtain ⟨hc, _⟩ := tick_step_core s.step dt hs'
    have hmd : (s.step).maxDepth = s.maxDepth := rfl
    have hcd' : (s.step).currentDepth = (n : ℚ) := hcd
    rw [hmd, hcd'] at hc
    have hmain : (s.step.tick dt).currentDepth
        = min ((n : ℚ) + 1) ((s.maxDepth : ℚ) + 1) := by
      rcases lt_or_ge n 0 with h0 | h0
      · have hn1 : n = -1 := by omega
        subst hn1
        rw [hc, if_pos (by norm_num : ((-1 : ℤ) : ℚ) < 0)]
        norm_num
      · have hge : ¬ ((n : ℚ) < 0) := not_lt.mpr (by exact_mod_cast h0)
        rw [hc, if_neg hge]
        have ht : truncToInt ((n : ℤ) : ℚ) = n := by
          simp [truncToInt, hge]
        rw [ht]
        push_cast
        rfl
    refine ⟨hmain, ?_, ?_⟩
    · rw [hmain, hcd]
      have := min_le_left ((n : ℚ) + 1) ((s.maxDepth : ℚ) + 1)
      linarith
    · intro hle
      rw [hmain, min_eq_left hle, hcd]

/-- Witness for C6: the theorem applied at a concrete scheduler state. -/
theorem tick_step_semantics_witness :
    ((⟨[(0, 0)], 0, -1, 3, .PAUSED, true⟩ : Scheduler).tick 5).stepRequested = false ∧
    ((⟨[(0, 0)], 0, -1, 3, .PAUSED, false⟩ : Scheduler).step.tick 5).currentDepth
      = ((⟨[(0, 0)], 0, -1, 3, .PAUSED, false⟩ : Scheduler).currentDepth) + 1 :=
  ⟨(tick_step_semantics.1 ⟨[(0, 0)], 0, -1, 3, .PAUSED, true⟩ 5 rfl).1,
   (tick_step_semantics.2 ⟨[(0, 0)], 0, -1, 3, .PAUSED, false⟩ 5 (-1) rfl (by norm_num)
      (by norm_num)).2.2 (by norm_num)⟩

/-! ## C10: scheduler gate queries are total on unknown gates -/

/-- C10: for a gate the scheduler has never assigned a depth (no entry in
the depth map, e.g. a gate created by decomposition after the scheduler was
built), `is_gate_resolved` returns false, `gate_resolve_fraction` returns 0,
and `gate_depth` returns −1; none of the queries fails. -/
theorem scheduler_queries_total_on_unknown (s : Scheduler) (gid : Nat)
    (h : s.gateDepths.lookup gid = none) :
    s.is_gate_resolved gid = false ∧
    s.gate_resolve_fraction gid = 0 ∧
    s.gate_depth gid = -1 := by
  simp [Scheduler.is_gate_resolved, Scheduler.gate_resolve_fraction,
    Scheduler.gate_depth, h]

/-- Witness for C10: a scheduler over the half-adder knows only gates 0 and
1; gate 7 (as added later by decomposition) hits every `none` branch. -/
theorem scheduler_queries_total_on_unknown_witness :
    (mkScheduler halfAdderF).is_gate_resolved 7 = false ∧
    (mkScheduler halfAdderF).gate_resolve_fraction 7 = 0 ∧
    (mkScheduler halfAdderF).gate_depth 7 = -1 :=
  scheduler_queries_total_on_unknown (mkScheduler halfAdderF) 7 (by decide)

/-! ## Shape preservation of propagation (C8) -/

theorem set_self_of_get? {α : Type} (l : List α) (i : Nat) (a : α)
    (h : l.get? i = some a) : l.set i a = l := by
  apply List.ext_getElem?
  intro n
  rcases eq_or_ne n i with rfl | hne
  · have hlt : n < l.length := by
      by_contra hge
      rw [List.get?_eq_getElem?, List.getElem?_eq_none (by omega)] at h
      exact Option.noConfusion h
    rw [List.getElem?_set_self hlt]
    rw [List.get?_eq_getElem?] at h
    exact h.symm
  · exact List.getElem?_set_ne (Ne.symm hne)

theorem shape_updGate (c : Circuit) (i : Nat) (f : Gate → Gate)
    (hf : ∀ g, (f g).shape = g.shape) : (c.updGate i f).shape = c.shape := by
  unfold Circuit.updGate
  cases h : c.gates.get? i with
  | none => rfl
  | some g =>
    simp only [Circuit.shape]
    refine congrArg (fun l => (l, c.wires.map Wire.shape, c.inputWires,
      c.outputWires, c.topoOrder, c.finalized)) ?_
    rw [List.map_set, hf g]
    apply set_self_of_get?
    rw [List.get?_eq_getElem?, List.getElem?_map, ← List.get?_eq_getElem?, h]
    rfl

theorem shape_updWire (c : Circuit) (i : Nat) (f : Wire → Wire)
    (hf : ∀ w, (f w).shape = w.shape) : (c.updWire i f).shape = c.shape := by
  unfold Circuit.updWire
  cases h : c.wires.get? i with
  | none => rfl
  | some w =>
    simp only [Circuit.shape]
    refine congrArg (fun l => (c.gates.map Gate.shape, l, c.inputWires,
      c.outputWires, c.topoOrder, c.finalized)) ?_
    rw [List.map_set, hf w]
    apply set_self_of_get?
    rw [List.get?_eq_getElem?, List.getElem?_map, ← List.get?_eq_getElem?, h]
    rfl

theorem propStep_shape (c : Circuit) (res : PropagationResult) (gid : Nat)
    (p : Circuit × PropagationResult) (h : propStep c res gid = .ok p) :
    p.1.shape = c.shape := by
  cases hg : c.gateAt gid with
  | none =>
    simp only [propStep, hg] at h
    cases h
    rfl
  | some gate =>
    simp only [propStep, hg] at h
    cases he : evaluate gate.type (gate.inputs.map
        (fun wid => (((c.wireAt wid)).map (fun w => w.value)).getD false)) with
    | error e =>
      simp only [he] at h
      cases h
    | ok new_state =>
      simp only [he] at h
      have h1 : (c.updGate gid
          (fun g => { g with state := new_state, dirty := false })).shape = c.shape :=
        shape_updGate c gid _ (fun g => rfl)
      cases ho : gate.output with
      | none =>
        simp only [ho] at h
        cases h
        by_cases hst : new_state ≠ gate.state <;> simp [hst] <;> exact h1
      | some o =>
        simp only [ho] at h
        cases h
        by_cases hst : new_state ≠ gate.state <;>
          simp only [hst, if_pos, if_neg, reduceIte] <;>
          exact (shape_updWire _ o (fun w => w.set_value new_state)
            (fun w => rfl)).trans h1

theorem propLoop_shape (order : List Nat) (c : Circuit) (res : PropagationResult)
    (p : Circuit × PropagationResult) (h : propLoop order c res = .ok p) :
    p.1.shape = c.shape := by
  induction order generalizing c res with
  | nil =>
    unfold propLoop at h
    cases h
    rfl
  | cons g rest ih =>
    unfold propLoop at h
    cases hs : propStep c res g with
    | error e => rw [hs] at h; cases h
    | ok q =>
      rw [hs] at h
      exact (ih q.1 q.2 h).trans (propStep_shape c res g q hs)

/-- C8: a successful `propagate()` changes only wire values/previous values
and gate states/dirty flags — the gate and wire structure (ids, types, input
lists, outputs, sources, destinations), the pin lists, the topological order
and the finalized flag are all unchanged. -/
theorem propagate_mutates_only_values (c c' : Circuit) (r : PropagationResult)
    (h : c.propagate = .ok (c', r)) : c'.shape = c.shape := by
  unfold Circuit.propagate at h
  by_cases hf : c.finalized = true
  · rw [if_neg (by simp [hf])] at h
    exact propLoop_shape c.topoOrder c ⟨[], []⟩ (c', r) h
  · rw [if_pos (by simpa using hf)] at h
    cases h

/-- Witness for C8: propagation over the finalized half-adder. -/
theorem propagate_mutates_only_values_witness :
    halfAdderF.propagate = .ok (halfAdderP.1, halfAdderP.2) ∧
    halfAdderP.1.shape = halfAdderF.shape :=
  ⟨by rfl, propagate_mutates_only_values halfAdderF halfAdderP.1 halfAdderP.2
    (by rfl)⟩

/-! ## C3: error behavior of propagate / set_input / get_output -/

theorem arityOkB_iff (g : Gate) :
    arityOkB g = true ↔ arityProp g.type g.inputs.length := by
  cases ht : g.type <;> simp [arityOkB, arityProp, ht]

theorem arityOkB_of_shape {g₁ g₂ : Gate} (h : g₁.shape = g₂.shape) :
    arityOkB g₁ = arityOkB g₂ := by
  have ht : g₁.type = g₂.type := congrArg (fun s => s.2.1) h
  have hi : g₁.inputs = g₂.inputs := congrArg (fun s => s.2.2.1) h
  unfold arityOkB
  rw [ht, hi]

theorem gateAt_of_shape_eq {c₁ c₂ : Circuit} (h : c₁.shape = c₂.shape) (gid : Nat) :
    (c₁.gateAt gid).map Gate.shape = (c₂.gateAt gid).map Gate.shape := by
  have hg : c₁.gates.map Gate.shape = c₂.gates.map Gate.shape := congrArg Prod.fst h
  calc (c₁.gateAt gid).map Gate.shape
      = (c₁.gates.map Gate.shape).get? gid := by
        rw [Circuit.gateAt, List.get?_eq_getElem?, List.get?_eq_getElem?,
          List.getElem?_map]
    _ = (c₂.gates.map Gate.shape).get? gid := by rw [hg]
    _ = (c₂.gateAt gid).map Gate.shape := by
        rw [Circuit.gateAt, List.get?_eq_getElem?, List.get?_eq_getElem?,
          List.getElem?_map]

/-- Transfer the arity condition across shape-equal circuits. -/
theorem arity_cond_of_shape_eq {c₁ c₂ : Circuit} (h : c₁.shape = c₂.shape)
    (gid : Nat) (hc : ∀ g, c₂.gateAt gid = some g → arityOkB g = true) :
    ∀ g, c₁.gateAt gid = some g → arityOkB g = true := by
  intro g hg
  have hmap := gateAt_of_shape_eq h gid
  rw [hg] at hmap
  cases hq : c₂.gateAt gid with
  | none => rw [hq] at hmap; simp at hmap
  | some g' =>
    rw [hq] at hmap
    simp at hmap
    have := hc g' hq
    rw [arityOkB_of_shape hmap]
    exact this

theorem propLoop_cons (g : Nat) (rest : List Nat) (c : Circuit)
    (res : PropagationResult) :
    propLoop (g :: rest) c res =
      match propStep c res g with
      | .error e => .error e
      | .ok p => propLoop rest p.1 p.2 := rfl

theorem propStep_none (c : Circuit) (res : PropagationResult) (gid : Nat)
    (hg : c.gateAt gid = none) : propStep c res gid = .ok (c, res) := by
  simp [propStep, hg]

theorem propLoop_isOk (order : List Nat) : ∀ (c : Circuit) (res : PropagationResult),
    (∃ p, propLoop order c res = .ok p) ↔
      (∀ gid ∈ order, ∀ g, c.gateAt gid = some g → arityOkB g = true) := by
  induction order with
  | nil => intro c res; simp [propLoop]
  | cons gid rest ih =>
    intro c res
    cases hg : c.gateAt gid with
    | none =>
      have hloop : propLoop (gid :: rest) c res = propLoop rest c res := by
        rw [propLoop_cons, propStep_none c res gid hg]
      rw [hloop]
      constructor
      · intro hex gid' hmem g hgat
        rcases List.mem_cons.mp hmem with rfl | hmem'
        · rw [hg] at hgat; cases hgat
        · exact ((ih c res).mp hex) gid' hmem' g hgat
      · intro hall
        exact (ih c res).mpr (fun gid' hm g hgat =>
          hall gid' (List.mem_cons_of_mem _ hm) g hgat)
    | some gate =>
      by_cases ha : arityOkB gate = true
      · obtain ⟨b, hev⟩ := (evaluate_isOk_iff gate.type
          (gate.inputs.map (fun wid =>
            ((c.wireAt wid).map (fun w => w.value)).getD false))).mpr
          (by rw [List.length_map]; exact (arityOkB_iff gate).mp ha)
        obtain ⟨q, hstep⟩ : ∃ q, propStep c res gid = .ok q := by
          simp only [propStep, hg, hev]
          exact ⟨_, rfl⟩
        · have hsh := propStep_shape c res gid q hstep
          have hloop : propLoop (gid :: rest) c res = propLoop rest q.1 q.2 := by
            rw [propLoop_cons, hstep]
          rw [hloop]
          constructor
          · intro hex gid' hmem g hgat
            rcases List.mem_cons.mp hmem with rfl | hmem'
            · rw [hg] at hgat
              cases hgat
              exact ha
            · exact arity_cond_of_shape_eq hsh.symm gid'
                (fun g' hg' => ((ih q.1 q.2).mp hex) gid' hmem' g' hg') g hgat
          · intro hall
            exact (ih q.1 q.2).mpr (fun gid' hm g hgat =>
              arity_cond_of_shape_eq hsh gid'
                (fun g' hg' => hall gid' (List.mem_cons_of_mem _ hm) g' hg') g hgat)
      · constructor
        · intro hex
          exfalso
          obtain ⟨p, hp⟩ := hex
          obtain ⟨e, hev⟩ : ∃ e, evaluate gate.type (gate.inputs.map (fun wid =>
              ((c.wireAt wid).map (fun w => w.value)).getD false)) = .error e := by
            cases he : evaluate gate.type (gate.inputs.map (fun wid =>
                ((c.wireAt wid).map (fun w => w.value)).getD false)) with
            | error e => exact ⟨e, rfl⟩
            | ok b =>
              exact absurd ((arityOkB_iff gate).mpr
                (by
                  have := (evaluate_isOk_iff gate.type _).mp ⟨b, he⟩
                  rwa [List.length_map] at this)) ha
          have hstep : propStep c res gid = .error e := by
            simp [propStep, hg, hev]
          rw [propLoop_cons, hstep] at hp
          cases hp
        · intro hall
          exact absurd (hall gid (List.mem_cons_self gid rest) gate hg) ha

/-- C3 counterexample: on a never-finalized circuit with one pin wire,
`set_input(0, true)` and `get_output(0)` both succeed, refuting the claim
that they fail whenever called before `finalize()`. -/
theorem set_get_before_finalize_succeed :
    oneWireCircuit.finalized = false ∧
    (∃ c', oneWireCircuit.set_input 0 true = .ok c') ∧
    (∃ b, oneWireCircuit.get_output 0 = .ok b) :=
  ⟨rfl, ⟨_, rfl⟩, ⟨_, rfl⟩⟩

/-- C3 (amended): `propagate()` fails whenever called before `finalize()`
has succeeded, and — once finalized — succeeds exactly when every gate in
the topological order satisfies its arity rule; `set_input`/`get_output` do
not check finalization and fail exactly when the index is out of range of
the corresponding pin list. -/
theorem error_contract_amended :
    (∀ c : Circuit, c.finalized = false →
      c.propagate = .error "Circuit must be finalized before propagation") ∧
    (∀ c : Circuit, (∃ p, c.propagate = .ok p) ↔
      (c.finalized = true ∧
        ∀ gid ∈ c.topoOrder, ∀ g, c.gateAt gid = some g → arityOkB g = true)) ∧
    (∀ (c : Circuit) (i : Nat) (v : Bool),
      (∃ c', c.set_input i v = .ok c') ↔ i < c.inputWires.length) ∧
    (∀ (c : Circuit) (i : Nat),
      (∃ b, c.get_output i = .ok b) ↔ i < c.outputWires.length) := by
  refine ⟨?_, ?_, ?_, ?_⟩
  · intro c hc
    simp [Circuit.propagate, hc]
  · intro c
    by_cases hf : c.finalized = true
    · rw [Circuit.propagate, if_neg (by simp [hf])]
      simpa [hf] using propLoop_isOk c.topoOrder c ⟨[], []⟩
    · rw [Circuit.propagate, if_pos (by simpa using hf)]
      simp [hf]
  · intro c i v
    by_cases hi : i < c.inputWires.length <;> simp [Circuit.set_input, hi]
  · intro c i
    by_cases hi : i < c.outputWires.length <;> simp [Circuit.get_output, hi]

/-! ## Well-formedness and connectivity-validation extraction lemmas -/

theorem wf_gate_id {c : Circuit} (hwf : c.wfB = true) {gid : Nat} {g : Gate}
    (hg : c.gateAt gid = some g) : g.id = gid := by
  have hlen : gid < c.gates.length := by
    by_contra hge
    rw [Circuit.gateAt, List.get?_eq_getElem?, List.getElem?_eq_none (by omega)] at hg
    exact Option.noConfusion hg
  have h1 := (List.all_eq_true.mp ((Bool.and_eq_true _ _).mp hwf).1) gid
    (List.mem_range.mpr hlen)
  rw [Circuit.gateAt] at hg
  simp only [hg, Option.all_some] at h1
  simpa using h1

theorem wf_wire_id {c : Circuit} (hwf : c.wfB = true) {wid : Nat} {w : Wire}
    (hw : c.wireAt wid = some w) : w.id = wid := by
  have hlen : wid < c.wires.length := by
    by_contra hge
    rw [Circuit.wireAt, List.get?_eq_getElem?, List.getElem?_eq_none (by omega)] at hw
    exact Option.noConfusion hw
  have h1 := (List.all_eq_true.mp ((Bool.and_eq_true _ _).mp hwf).2) wid
    (List.mem_range.mpr hlen)
  rw [Circuit.wireAt] at hw
  simp only [hw, Option.all_some] at h1
  simpa using h1

theorem validate_gateSide {c : Circuit} (hval : c.validate_connectivity = true)
    {gid : Nat} {g : Gate} (hg : c.gateAt gid = some g) : gateSideOk c g = true :=
  (List.all_eq_true.mp
    ((Bool.and_eq_true _ _).mp hval).1) g (List.get?_mem hg)

theorem validate_wireSide {c : Circuit} (hval : c.validate_connectivity = true)
    {wid : Nat} {w : Wire} (hw : c.wireAt wid = some w) : wireSideOk c w = true :=
  (List.all_eq_true.mp
    ((Bool.and_eq_true _ _).mp hval).2) w (List.get?_mem hw)

/-- A gate's output pointer is mirrored by the wire's source pointer. -/
theorem gate_output_backlink {c : Circuit} (hwf : c.wfB = true)
    (hval : c.validate_connectivity = true) {u : Nat} {gu : Gate}
    (hg : c.gateAt u = some gu) {o : Nat} (ho : gu.output = some o) :
    ∃ w, c.wireAt o = some w ∧ w.source = some u := by
  have h := ((Bool.and_eq_true _ _).mp (validate_gateSide hval hg)).1
  simp only [ho] at h
  cases hw : c.wireAt o with
  | none => simp [hw] at h
  | some w =>
    simp only [hw] at h
    refine ⟨w, rfl, ?_⟩
    have : w.source = some gu.id := by simpa using h
    rwa [wf_gate_id hwf hg] at this

/-- A wire's source pointer is mirrored by the gate's output pointer. -/
theorem wire_source_backlink {c : Circuit} (hwf : c.wfB = true)
    (hval : c.validate_connectivity = true) {wid : Nat} {w : Wire}
    (hw : c.wireAt wid = some w) {s : Nat} (hs : w.source = some s) :
    ∃ g, c.gateAt s = some g ∧ g.output = some wid := by
  have h := ((Bool.and_eq_true _ _).mp (validate_wireSide hval hw)).1
  simp only [hs] at h
  cases hg : c.gateAt s with
  | none => simp [hg] at h
  | some g =>
    simp only [hg] at h
    refine ⟨g, rfl, ?_⟩
    have : g.output = some w.id := by simpa using h
    rwa [wf_wire_id hwf hw] at this

/-- Every input wire of a gate occurs at least as often among the wire's
destinations, and the wire id is live. -/
theorem gate_inputs_mirror {c : Circuit} (hval : c.validate_connectivity = true)
    {v : Nat} {gv : Gate} (hg : c.gateAt v = some gv) {wid : Nat}
    (hin : wid ∈ gv.inputs) :
    ∃ w, c.wireAt wid = some w ∧
      gv.inputs.count wid ≤ w.destinations.count gv.id := by
  have h := (List.all_eq_true.mp
    ((Bool.and_eq_true _ _).mp (validate_gateSide hval hg)).2) wid hin
  cases hw : c.wireAt wid with
  | none => simp [hw] at h
  | some w =>
    simp only [hw] at h
    exact ⟨w, rfl, by simpa using h⟩

/-- Every destination occurrence of a wire is mirrored among that gate's
inputs, and the gate id is live. -/
theorem wire_dests_mirror {c : Circuit} (hval : c.validate_connectivity = true)
    {wid : Nat} {w : Wire} (hw : c.wireAt wid = some w) {v : Nat}
    (hd : v ∈ w.destinations) :
    ∃ g, c.gateAt v = some g ∧ w.destinations.count v ≤ g.inputs.count w.id := by
  have h := (List.all_eq_true.mp
    ((Bool.and_eq_true _ _).mp (validate_wireSide hval hw)).2) v hd
  cases hg : c.gateAt v with
  | none => simp [hg] at h
  | some g =>
    simp only [hg] at h
    exact ⟨g, rfl, by simpa using h⟩

/-- The central multiset identity: under validation, the multiplicity of a
wire among a gate's inputs equals the multiplicity of the gate among the
wire's destinations. -/
theorem count_io {c : Circuit} (hwf : c.wfB = true)
    (hval : c.validate_connectivity = true) {wid : Nat} {w : Wire}
    (hw : c.wireAt wid = some w) {v : Nat} {gv : Gate}
    (hg : c.gateAt v = some gv) :
    gv.inputs.count wid = w.destinations.count v := by
  have hvid : gv.id = v := wf_gate_id hwf hg
  have hwid : w.id = wid := wf_wire_id hwf hw
  by_cases hin : wid ∈ gv.inputs
  · obtain ⟨w', hw', hle⟩ := gate_inputs_mirror hval hg hin
    rw [hw] at hw'
    cases hw'
    rw [hvid] at hle
    have hpos : 0 < w.destinations.count v := lt_of_lt_of_le
      (List.count_pos_iff.mpr hin) hle
    obtain ⟨g', hg', hle'⟩ := wire_dests_mirror hval hw (List.count_pos_iff.mp hpos)
    rw [hg] at hg'
    cases hg'
    rw [hwid] at hle'
    omega
  · have h0 : gv.inputs.count wid = 0 := List.count_eq_zero.mpr hin
    rw [h0]
    by_contra hne
    have hpos : 0 < w.destinations.count v := Nat.pos_of_ne_zero (fun h => hne h.symm)
    obtain ⟨g', hg', hle'⟩ := wire_dests_mirror hval hw (List.count_pos_iff.mp hpos)
    rw [hg] at hg'
    cases hg'
    rw [hwid, h0] at hle'
    omega

/-! ## Counting lemmas for Kahn's algorithm -/

theorem gateAt_lt {c : Circuit} {gid : Nat} {g : Gate} (hg : c.gateAt gid = some g) :
    gid < c.gates.length := by
  by_contra hge
  rw [Circuit.gateAt, List.get?_eq_getElem?, List.getElem?_eq_none (by omega)] at hg
  exact Option.noConfusion hg

theorem wireAt_lt {c : Circuit} {wid : Nat} {w : Wire} (hw : c.wireAt wid = some w) :
    wid < c.wires.length := by
  by_contra hge
  rw [Circuit.wireAt, List.get?_eq_getElem?, List.getElem?_eq_none (by omega)] at hw
  exact Option.noConfusion hw

theorem wireAt_of_lt {c : Circuit} {wid : Nat} (h : wid < c.wires.length) :
    ∃ w, c.wireAt wid = some w := by
  rw [Circuit.wireAt, List.get?_eq_getElem?]
  exact ⟨c.wires[wid], List.getElem?_eq_getElem h⟩

theorem multTo_pos_lt {c : Circuit} {u v : Nat} (h : 0 < multTo c u v) :
    u < c.gates.length := by
  cases hg : c.gateAt u with
  | none => simp [multTo, hg] at h
  | some g => exact gateAt_lt hg

theorem edgesFrom_append (c : Circuit) (S1 S2 : List Nat) (v : Nat) :
    edgesFrom c (S1 ++ S2) v = edgesFrom c S1 v + edgesFrom c S2 v := by
  simp [edgesFrom]

theorem edgesFrom_toFinset (c : Circuit) {S : List Nat} (hS : S.Nodup) (v : Nat) :
    S.toFinset.sum (fun u => multTo c u v) = edgesFrom c S v :=
  List.sum_toFinset _ hS

theorem countP_eq_sum_range (l : List Nat) (m : Nat) (p : Nat → Bool)
    (hl : ∀ x ∈ l, x < m) :
    l.countP p = ∑ x ∈ Finset.range m, (if p x then l.count x else 0) := by
  induction l with
  | nil => simp
  | cons a t ih =>
    have ha : a < m := hl a (List.mem_cons_self a t)
    have iht := ih (fun x hx => hl x (List.mem_cons_of_mem _ hx))
    rw [List.countP_cons, iht]
    have hterm : ∀ x, (if p x then (a :: t).count x else 0)
        = (if p x then t.count x else 0) + (if x = a then (if p x then 1 else 0) else 0) := by
      intro x
      by_cases hx : x = a
      · subst hx
        by_cases hp : p x <;> simp [hp, List.count_cons]
      · by_cases hp : p x <;> simp [hp, hx, List.count_cons]
    rw [Finset.sum_congr rfl (fun x _ => hterm x), Finset.sum_add_distrib]
    congr 1
    rw [Finset.sum_ite_eq' (Finset.range m) a (fun x => if p x then 1 else 0)]
    simp [ha]

/-- The total decrements over all gates equal the initial in-degree:
destination multiplicities and sourced-input counts agree globally. -/
theorem toFinset_list_range (n : Nat) : (List.range n).toFinset = Finset.range n := by
  ext x
  simp

theorem edgesFrom_range {c : Circuit} (hwf : c.wfB = true)
    (hval : c.validate_connectivity = true) {v : Nat} {gv : Gate}
    (hg : c.gateAt v = some gv) :
    edgesFrom c (List.range c.gates.length) v = initIndegAt c v := by
  have stepA : ∀ u, multTo c u v = ∑ wid ∈ Finset.range c.wires.length,
      (if (c.gateAt u).bind (fun g => g.output) = some wid
        then gv.inputs.count wid else 0) := by
    intro u
    cases hb : (c.gateAt u).bind (fun g => g.output) with
    | none => simp [multTo, hb]
    | some o =>
      obtain ⟨gu, hgu, ho⟩ := Option.bind_eq_some.mp hb
      obtain ⟨w, hwo, hws⟩ := gate_output_backlink hwf hval hgu ho
      have hom : o < c.wires.length := wireAt_lt hwo
      have hcnt : gv.inputs.count o = w.destinations.count v := count_io hwf hval hwo hg
      have h1 : multTo c u v = w.destinations.count v := by
        simp [multTo, hb, hwo]
      rw [h1, ← hcnt]
      have h2 : ∀ wid, (if (some o : Option Nat) = some wid
          then gv.inputs.count wid else 0) = (if wid = o then gv.inputs.count wid else 0) := by
        intro wid
        by_cases h : wid = o <;> simp [h]
        intro h'
        exact absurd h'.symm h
      rw [Finset.sum_congr rfl (fun wid _ => h2 wid),
        Finset.sum_ite_eq' (Finset.range c.wires.length) o
          (fun wid => gv.inputs.count wid)]
      simp [hom]
  have hrange : edgesFrom c (List.range c.gates.length) v
      = ∑ u ∈ Finset.range c.gates.length, multTo c u v := by
    rw [← edgesFrom_toFinset c (List.nodup_range _) v, toFinset_list_range]
  rw [hrange, Finset.sum_congr rfl (fun u _ => stepA u), Finset.sum_comm]
  have stepC : ∀ wid ∈ Finset.range c.wires.length,
      (∑ u ∈ Finset.range c.gates.length,
        (if (c.gateAt u).bind (fun g => g.output) = some wid
          then gv.inputs.count wid else 0))
      = (if (c.sourceOf wid).isSome then gv.inputs.count wid else 0) := by
    intro wid hwid
    obtain ⟨w, hw⟩ := wireAt_of_lt (Finset.mem_range.mp hwid)
    cases hs : w.source with
    | some s =>
      obtain ⟨gs, hgs, hos⟩ := wire_source_backlink hwf hval hw hs
      have hsn : s < c.gates.length := gateAt_lt hgs
      have hcond : ∀ u, ((c.gateAt u).bind (fun g => g.output) = some wid) ↔ u = s := by
        intro u
        constructor
        · intro hbu
          obtain ⟨gu, hgu, hou⟩ := Option.bind_eq_some.mp hbu
          obtain ⟨w', hw', hws'⟩ := gate_output_backlink hwf hval hgu hou
          rw [hw] at hw'
          cases hw'
          rw [hs] at hws'
          exact (Option.some.inj hws').symm
        · rintro rfl
          rw [hgs]
          simpa using hos
      have h3 : ∀ u, (if (c.gateAt u).bind (fun g => g.output) = some wid
          then gv.inputs.count wid else 0) = (if u = s then gv.inputs.count wid else 0) := by
        intro u
        by_cases h : u = s
        · simp [h, (hcond s).mpr rfl]
        · simp [h]
          intro hc
          exact absurd ((hcond u).mp hc) h
      rw [Finset.sum_congr rfl (fun u _ => h3 u),
        Finset.sum_ite_eq' (Finset.range c.gates.length) s
          (fun _ => gv.inputs.count wid)]
      simp [hsn, Circuit.sourceOf, hw, hs]
    | none =>
      have hz : ∀ u, (if (c.gateAt u).bind (fun g => g.output) = some wid
          then gv.inputs.count wid else 0) = 0 := by
        intro u
        by_cases hbu : (c.gateAt u).bind (fun g => g.output) = some wid
        · exfalso
          obtain ⟨gu, hgu, hou⟩ := Option.bind_eq_some.mp hbu
          obtain ⟨w', hw', hws'⟩ := gate_output_backlink hwf hval hgu hou
          rw [hw] at hw'
          cases hw'
          rw [hs] at hws'
          exact Option.noConfusion hws'
        · simp [hbu]
      rw [Finset.sum_congr rfl (fun u _ => hz u)]
      simp [Circuit.sourceOf, hw, hs]
  rw [Finset.sum_congr rfl stepC]
  have hinp : ∀ x ∈ gv.inputs, x < c.wires.length := by
    intro x hx
    obtain ⟨w, hw, _⟩ := gate_inputs_mirror hval hg hx
    exact wireAt_lt hw
  have hD := countP_eq_sum_range gv.inputs c.wires.length
    (fun wid => (c.sourceOf wid).isSome) hinp
  rw [← hD]
  simp [initIndegAt, hg, Circuit.initIndeg]

theorem edgesFrom_le_range (c : Circuit) {S : List Nat} (hS : S.Nodup)
    (hSb : ∀ x ∈ S, x < c.gates.length) (v : Nat) :
    edgesFrom c S v ≤ edgesFrom c (List.range c.gates.length) v := by
  rw [← edgesFrom_toFinset c hS v,
    ← edgesFrom_toFinset c (List.nodup_range c.gates.length) v]
  apply Finset.sum_le_sum_of_subset
  intro x hx
  rw [List.mem_toFinset] at hx
  rw [List.mem_toFinset, List.mem_range]
  exact hSb x hx


/-- A saturated gate has all its predecessors inside `S`. -/
theorem sat_all_in {c : Circuit} (hwf : c.wfB = true)
    (hval : c.validate_connectivity = true) {S : List Nat} {v : Nat} {gv : Gate}
    (hg : c.gateAt v = some gv) (hS : S.Nodup)
    (hSb : ∀ x ∈ S, x < c.gates.length)
    (hsat : edgesFrom c S v = initIndegAt c v) :
    ∀ u, 0 < multTo c u v → u ∈ S := by
  intro u hu
  by_contra hnot
  have hun : u < c.gates.length := multTo_pos_lt hu
  have hS' : (u :: S).Nodup := List.nodup_cons.mpr ⟨hnot, hS⟩
  have hSb' : ∀ x ∈ u :: S, x < c.gates.length := by
    intro x hx
    rcases List.mem_cons.mp hx with rfl | hx'
    · exact hun
    · exact hSb x hx'
  have hle := edgesFrom_le_range c hS' hSb' v
  rw [edgesFrom_range hwf hval hg] at hle
  have : edgesFrom c (u :: S) v = multTo c u v + edgesFrom c S v := by
    simp [edgesFrom]
  omega

/-- Conversely a gate with all predecessors inside `S` is saturated. -/
theorem all_in_sat {c : Circuit} (hwf : c.wfB = true)
    (hval : c.validate_connectivity = true) {S : List Nat} {v : Nat} {gv : Gate}
    (hg : c.gateAt v = some gv) (hS : S.Nodup)
    (hSb : ∀ x ∈ S, x < c.gates.length)
    (hall : ∀ u, 0 < multTo c u v → u ∈ S) :
    edgesFrom c S v = initIndegAt c v := by
  rw [← edgesFrom_toFinset c hS v]
  rw [← edgesFrom_range hwf hval hg,
    ← edgesFrom_toFinset c (List.nodup_range c.gates.length) v]
  apply Finset.sum_subset
  · intro x hx
    rw [List.mem_toFinset] at hx
    rw [List.mem_toFinset, List.mem_range]
    exact hSb x hx
  · intro x _ hxs
    by_contra h0
    exact hxs (List.mem_toFinset.mpr (hall x (Nat.pos_of_ne_zero h0)))

/-! ## The decrement loop of Kahn's algorithm -/

theorem getD_set_self (l : List Int) (i : Nat) (a : Int) (h : i < l.length) :
    (l.set i a).getD i 0 = a := by
  rw [List.getD_eq_getElem?_getD, List.getElem?_set_self h]
  rfl

theorem getD_set_ne (l : List Int) (i j : Nat) (a : Int) (h : j ≠ i) :
    (l.set i a).getD j 0 = l.getD j 0 := by
  rw [List.getD_eq_getElem?_getD, List.getElem?_set_ne (Ne.symm h),
    ← List.getD_eq_getElem?_getD]

theorem getD_oob (l : List Int) (i : Nat) (h : l.length ≤ i) : l.getD i 0 = 0 := by
  rw [List.getD_eq_getElem?_getD, List.getElem?_eq_none h]
  rfl

theorem processDests_fst_length (s : List Nat) : ∀ (indeg : List Int) (q : List Nat),
    (processDests s indeg q).1.length = indeg.length := by
  induction s with
  | nil => intro indeg q; rfl
  | cons d rest ih =>
    intro indeg q
    simp only [processDests]
    rw [ih]
    exact List.length_set indeg d _

theorem processDests_fst_getD (s : List Nat) : ∀ (indeg : List Int) (q : List Nat)
    (v : Nat), v < indeg.length →
    (processDests s indeg q).1.getD v 0 = indeg.getD v 0 - (s.count v : Int) := by
  induction s with
  | nil => intro indeg q v hv; simp [processDests]
  | cons d rest ih =>
    intro indeg q v hv
    simp only [processDests]
    have hlen : v < (indeg.set d (indeg.getD d 0 - 1)).length := by
      rw [List.length_set]; exact hv
    rw [ih _ _ v hlen]
    rcases eq_or_ne v d with rfl | hne
    · rw [getD_set_self indeg v _ hv, List.count_cons]
      simp
      omega
    · rw [getD_set_ne indeg d v _ hne, List.count_cons]
      simp [hne, hne.symm]

theorem processDests_snd_count (s : List Nat) : ∀ (indeg : List Int) (q : List Nat)
    (v : Nat),
    (processDests s indeg q).2.count v = q.count v +
      (if 1 ≤ indeg.getD v 0 ∧ indeg.getD v 0 ≤ (s.count v : Int) then 1 else 0) := by
  induction s with
  | nil =>
    intro indeg q v
    simp only [processDests, List.count_nil]
    rw [if_neg (by omega)]
    omega
  | cons d rest ih =>
    intro indeg q v
    simp only [processDests]
    rw [ih]
    rcases eq_or_ne v d with rfl | hne
    · by_cases hd : v < indeg.length
      · rw [getD_set_self indeg v _ hd]
        by_cases h0 : indeg.getD v 0 - 1 = 0
        · rw [if_pos h0]
          simp only [List.count_append, List.count_cons, List.count_nil,
            beq_self_eq_true, if_true]
          push_cast
          split_ifs <;> omega
        · rw [if_neg h0]
          simp only [List.count_cons, beq_self_eq_true, if_true]
          push_cast
          split_ifs <;> omega
      · have h0 : indeg.getD v 0 = 0 := getD_oob indeg v (by omega)
        have hset : indeg.set v (indeg.getD v 0 - 1) = indeg :=
          List.set_eq_of_length_le (by omega)
        rw [hset]
        rw [if_neg (show ¬ (indeg.getD v 0 - 1 = 0) by omega)]
        simp only [List.count_cons, beq_self_eq_true, if_true]
        rw [h0]
        norm_num
    · rw [getD_set_ne indeg d v _ hne]
      by_cases h0 : indeg.getD d 0 - 1 = 0
      · rw [if_pos h0]
        simp only [List.count_append, List.count_cons, List.count_nil,
          beq_self_eq_true, if_true]
        have hb : (d == v) = false := beq_eq_false_iff_ne.mpr (Ne.symm hne)
        rw [hb]
        simp
      · rw [if_neg h0]
        simp only [List.count_cons]
        have hb : (d == v) = false := beq_eq_false_iff_ne.mpr (Ne.symm hne)
        rw [hb]
        simp

/-! ## The Kahn dequeue step preserves the invariant -/

theorem gateAt_of_lt {c : Circuit} {gid : Nat} (h : gid < c.gates.length) :
    ∃ g, c.gateAt gid = some g := by
  rw [Circuit.gateAt, List.get?_eq_getElem?]
  exact ⟨c.gates[gid], List.getElem?_eq_getElem h⟩

theorem multTo_count {c : Circuit} {g : Nat} {o : Nat}
    (hb : (c.gateAt g).bind (fun gate => gate.output) = some o) (v : Nat) :
    multTo c g v = (((c.wireAt o).map (fun w => w.destinations)).getD []).count v := by
  simp [multTo, hb]

theorem multTo_zero {c : Circuit} {g : Nat}
    (hb : (c.gateAt g).bind (fun gate => gate.output) = none) (v : Nat) :
    multTo c g v = 0 := by
  simp [multTo, hb]

theorem kahnNext_fst_length (c : Circuit) (g : Nat) (rest : List Nat)
    (indeg : List Int) : (kahnNext c g rest indeg).1.length = indeg.length := by
  cases hb : (c.gateAt g).bind (fun gate => gate.output) with
  | none => simp [kahnNext, hb]
  | some o =>
    simp only [kahnNext, hb]
    exact processDests_fst_length _ _ _

theorem kahnNext_fst_getD (c : Circuit) (g : Nat) (rest : List Nat)
    (indeg : List Int) (v : Nat) (hv : v < indeg.length) :
    (kahnNext c g rest indeg).1.getD v 0 = indeg.getD v 0 - (multTo c g v : Int) := by
  cases hb : (c.gateAt g).bind (fun gate => gate.output) with
  | none =>
    rw [multTo_zero hb]
    simp [kahnNext, hb]
  | some o =>
    rw [multTo_count hb]
    simp only [kahnNext, hb]
    rw [processDests_fst_getD _ _ _ _ hv]

theorem kahnNext_snd_count (c : Circuit) (g : Nat) (rest : List Nat)
    (indeg : List Int) (v : Nat) :
    (kahnNext c g rest indeg).2.count v = rest.count v +
      (if 1 ≤ indeg.getD v 0 ∧ indeg.getD v 0 ≤ (multTo c g v : Int)
        then 1 else 0) := by
  cases hb : (c.gateAt g).bind (fun gate => gate.output) with
  | none =>
    rw [multTo_zero hb]
    rw [if_neg (by omega)]
    simp [kahnNext, hb]
  | some o =>
    rw [multTo_count hb]
    simp only [kahnNext, hb]
    rw [processDests_snd_count]

/-- The dequeue step of the Kahn loop preserves the loop invariant. -/
theorem kahn_step_inv {c : Circuit} (hwf : c.wfB = true)
    (hval : c.validate_connectivity = true) {g : Nat} {rest : List Nat}
    {indeg : List Int} {acc : List Nat}
    (hInv : KahnInv c (g :: rest) indeg acc) :
    KahnInv c (kahnNext c g rest indeg).2 (kahnNext c g rest indeg).1
      (acc ++ [g]) := by
  obtain ⟨hlen, hnodup, hbound, hspec, hzero, hsound, hsat⟩ := hInv
  have hassoc : (acc ++ [g]) ++ rest = acc ++ (g :: rest) := by simp
  have hgmem : g ∈ acc ++ g :: rest := by simp
  have hgn : g < c.gates.length := hbound g hgmem
  have hA'nodup : ((acc ++ [g]) ++ rest).Nodup := by rw [hassoc]; exact hnodup
  have hA'nodup' : (acc ++ [g]).Nodup := hA'nodup.sublist (List.sublist_append_left _ _)
  have hA'bound : ∀ x ∈ acc ++ [g], x < c.gates.length := by
    intro x hx
    rcases List.mem_append.mp hx with hx | hx
    · exact hbound x (by simp [hx])
    · simp at hx
      subst hx
      exact hgn
  have hEF : ∀ v, edgesFrom c (acc ++ [g]) v = edgesFrom c acc v + multTo c g v := by
    intro v
    rw [edgesFrom_append]
    simp [edgesFrom]
  -- the new edge sum never exceeds the initial in-degree
  have hEFle : ∀ v, v < c.gates.length →
      edgesFrom c (acc ++ [g]) v ≤ initIndegAt c v := by
    intro v hv
    obtain ⟨gv, hgv⟩ := gateAt_of_lt hv
    have := edgesFrom_le_range c hA'nodup' hA'bound v
    rwa [edgesFrom_range hwf hval hgv] at this
  -- members of the old processed-or-queued set receive no decrement from g
  have hmultZero : ∀ v ∈ acc ++ g :: rest, multTo c g v = 0 := by
    intro v hv
    have hvn : v < c.gates.length := hbound v hv
    have h1 := hEFle v hvn
    rw [hEF v, hsat v hv] at h1
    omega
  -- the enqueue condition of this step
  have hcondn : ∀ v, (1 ≤ indeg.getD v 0 ∧ indeg.getD v 0 ≤ (multTo c g v : Int)) →
      v < c.gates.length := by
    intro v hc
    by_contra hge
    rw [getD_oob indeg v (by omega)] at hc
    omega
  have hcondNotMem : ∀ v, (1 ≤ indeg.getD v 0 ∧ indeg.getD v 0 ≤ (multTo c g v : Int)) →
      v ∉ acc ++ g :: rest := by
    intro v hc hv
    have hvn : v < c.gates.length := hbound v hv
    rw [hspec v hvn, hsat v hv] at hc
    omega
  have hcondSat : ∀ v, (1 ≤ indeg.getD v 0 ∧ indeg.getD v 0 ≤ (multTo c g v : Int)) →
      edgesFrom c (acc ++ [g]) v = initIndegAt c v := by
    intro v hc
    have hvn : v < c.gates.length := hcondn v hc
    have h1 := hEFle v hvn
    rw [hEF v] at h1
    rw [hspec v hvn] at hc
    rw [hEF v]
    omega
  -- membership in the new queue
  have hQ'mem : ∀ v, v ∈ (kahnNext c g rest indeg).2 ↔
      (v ∈ rest ∨ (1 ≤ indeg.getD v 0 ∧ indeg.getD v 0 ≤ (multTo c g v : Int))) := by
    intro v
    constructor
    · intro hv
      have hcount := List.count_pos_iff.mpr hv
      rw [kahnNext_snd_count] at hcount
      by_cases hc : 1 ≤ indeg.getD v 0 ∧ indeg.getD v 0 ≤ (multTo c g v : Int)
      · exact Or.inr hc
      · rw [if_neg hc] at hcount
        exact Or.inl (List.count_pos_iff.mp (by omega))
    · intro hv
      apply List.count_pos_iff.mp
      rw [kahnNext_snd_count]
      rcases hv with hv | hc
      · have h1 := List.count_pos_iff.mpr hv
        have h2 : (0:Nat) ≤ if 1 ≤ indeg.getD v 0 ∧ indeg.getD v 0 ≤ (multTo c g v : Int)
            then 1 else 0 := Nat.zero_le _
        omega
      · rw [if_pos hc]
        omega
  refine ⟨?_, ?_, ?_, ?_, ?_, ?_, ?_⟩
  · rw [kahnNext_fst_length]; exact hlen
  · rw [List.nodup_iff_count_le_one]
    intro x
    have hold := List.nodup_iff_count_le_one.mp hnodup x
    rw [← hassoc, List.count_append] at hold
    have hgoal : ((acc ++ [g]) ++ (kahnNext c g rest indeg).2).count x
        = (acc ++ [g]).count x + (kahnNext c g rest indeg).2.count x :=
      List.count_append _ _ _
    rw [hgoal, kahnNext_snd_count]
    by_cases hc : 1 ≤ indeg.getD x 0 ∧ indeg.getD x 0 ≤ (multTo c g x : Int)
    · rw [if_pos hc]
      have h0 : ((acc ++ [g]) ++ rest).count x = 0 := by
        rw [hassoc]
        exact List.count_eq_zero.mpr (hcondNotMem x hc)
      rw [List.count_append] at h0
      omega
    · rw [if_neg hc]
      omega
  · intro x hx
    rcases List.mem_append.mp hx with hx | hx
    · exact hA'bound x hx
    · rcases (hQ'mem x).mp hx with hx | hc
      · exact hbound x (by simp [hx])
      · exact hcondn x hc
  · intro v hv
    rw [kahnNext_fst_getD c g rest indeg v (by omega), hspec v hv, hEF v]
    push_cast
    ring
  · intro v hv hsatv
    by_cases hmem : v ∈ acc ++ [g]
    · exact List.mem_append.mpr (Or.inl hmem)
    · refine List.mem_append.mpr (Or.inr ((hQ'mem v).mpr ?_))
      rw [hEF v] at hsatv
      by_cases hm0 : multTo c g v = 0
      · rw [hm0] at hsatv
        have hv' := hzero v hv (by omega)
        rcases List.mem_append.mp hv' with h | h
        · exact absurd (List.mem_append.mpr (Or.inl h)) hmem
        · rcases List.mem_cons.mp h with rfl | h
          · exact absurd (List.mem_append.mpr (Or.inr (by simp))) hmem
          · exact Or.inl h
      · right
        rw [hspec v hv]
        omega
  · intro k v hk u hu
    rcases lt_trichotomy k acc.length with hkl | hkl | hkl
    · rw [List.get?_append hkl] at hk
      obtain ⟨j, hj, hj2⟩ := hsound k v hk u hu
      exact ⟨j, hj, by rw [List.get?_append (lt_trans hj hkl)]; exact hj2⟩
    · subst hkl
      rw [List.get?_append_right (le_refl _)] at hk
      simp at hk
      rw [← hk] at hu
      have hsatg := hsat g hgmem
      obtain ⟨gg, hgg⟩ := gateAt_of_lt hgn
      have hin := sat_all_in hwf hval hgg
        (hnodup.sublist (List.sublist_append_left _ _))
        (fun x hx => hbound x (List.mem_append.mpr (Or.inl hx))) hsatg u hu
      obtain ⟨j, hj⟩ := List.mem_iff_get?.mp hin
      have hjl : j < acc.length := by
        by_contra hge
        rw [List.get?_eq_getElem?, List.getElem?_eq_none (by omega)] at hj
        exact Option.noConfusion hj
      exact ⟨j, hjl, by rw [List.get?_append hjl]; exact hj⟩
    · rw [List.get?_append_right (by omega)] at hk
      have : k - acc.length ≥ 1 := by omega
      rw [List.get?_eq_getElem?, List.getElem?_eq_none (by simp; omega)] at hk
      exact Option.noConfusion hk
  · intro v hv
    rcases List.mem_append.mp hv with hv | hv
    · rcases List.mem_append.mp hv with hv | hv
      · have hm := hmultZero v (List.mem_append.mpr (Or.inl hv))
        rw [hEF v, hm, hsat v (List.mem_append.mpr (Or.inl hv))]
        omega
      · simp at hv
        subst hv
        have hm := hmultZero v hgmem
        rw [hEF v, hm, hsat v hgmem]
        omega
    · rcases (hQ'mem v).mp hv with hv | hc
      · have hmem : v ∈ acc ++ g :: rest := by simp [hv]
        have hm := hmultZero v hmem
        rw [hEF v, hm, hsat v hmem]
        omega
      · exact hcondSat v hc

/-! ## Running the Kahn loop to completion -/

theorem kahnLoop_cons (c : Circuit) (fuel : Nat) (g : Nat) (rest : List Nat)
    (indeg : List Int) (acc : List Nat) :
    kahnLoop c (fuel + 1) (g :: rest) indeg acc
      = kahnLoop c fuel (kahnNext c g rest indeg).2 (kahnNext c g rest indeg).1
          (acc ++ [g]) := by
  cases hb : (c.gateAt g).bind (fun gate => gate.output) with
  | none => simp [kahnLoop, kahnNext, hb]
  | some o => simp [kahnLoop, kahnNext, hb]

theorem nodup_length_le {l : List Nat} {n : Nat} (hl : l.Nodup)
    (hb : ∀ x ∈ l, x < n) : l.length ≤ n := by
  rw [← List.toFinset_card_of_nodup hl]
  have hsub : l.toFinset ⊆ Finset.range n := by
    intro x hx
    rw [List.mem_toFinset] at hx
    rw [Finset.mem_range]
    exact hb x hx
  simpa using Finset.card_le_card hsub

theorem kahnLoop_run {c : Circuit} (hwf : c.wfB = true)
    (hval : c.validate_connectivity = true) :
    ∀ (fuel : Nat) (queue : List Nat) (indeg : List Int) (acc : List Nat),
    KahnInv c queue indeg acc → c.gates.length - acc.length < fuel →
    ∃ indegF, KahnInv c [] indegF (kahnLoop c fuel queue indeg acc) := by
  intro fuel
  induction fuel with
  | zero =>
    intro queue indeg acc _ hfuel
    omega
  | succ f ih =>
    intro queue indeg acc hInv hfuel
    cases queue with
    | nil =>
      refine ⟨indeg, ?_⟩
      simpa [kahnLoop] using hInv
    | cons g rest =>
      have hstep := kahn_step_inv hwf hval hInv
      have hle : (acc ++ g :: rest).length ≤ c.gates.length :=
        nodup_length_le hInv.nodup hInv.bounded
      rw [List.length_append, List.length_cons] at hle
      rw [kahnLoop_cons]
      apply ih _ _ _ hstep
      rw [List.length_append, List.length_singleton]
      omega

theorem initIndegAt_eq {c : Circuit} {v : Nat} {gv : Gate}
    (hgv : c.gateAt v = some gv) : initIndegAt c v = c.initIndeg gv := by
  simp [initIndegAt, hgv]

/-- The invariant holds before the loop starts. -/
theorem kahnInit {c : Circuit} (hwf : c.wfB = true)
    (hval : c.validate_connectivity = true) :
    KahnInv c
      ((List.range c.gates.length).filter
        (fun i => (c.gates.get? i).all (fun g => c.initIndeg g = 0)))
      (c.gates.map (fun g => (c.initIndeg g : Int))) [] := by
  have hmapD : ∀ v, v < c.gates.length →
      (c.gates.map (fun g => (c.initIndeg g : Int))).getD v 0
        = (initIndegAt c v : Int) := by
    intro v hv
    obtain ⟨gv, hgv⟩ := gateAt_of_lt hv
    have h2 : c.gates[v]? = some gv := by
      rwa [Circuit.gateAt, List.get?_eq_getElem?] at hgv
    rw [List.getD_eq_getElem?_getD, List.getElem?_map, h2, initIndegAt_eq hgv]
    rfl
  refine ⟨?_, ?_, ?_, ?_, ?_, ?_, ?_⟩
  · simp
  · simp only [List.nil_append]
    exact (List.nodup_range _).filter _
  · intro x hx
    simp only [List.nil_append, List.mem_filter, List.mem_range] at hx
    exact hx.1
  · intro v hv
    rw [hmapD v hv]
    simp [edgesFrom]
  · intro v hv hz
    obtain ⟨gv, hgv⟩ := gateAt_of_lt hv
    simp only [List.nil_append, List.mem_filter, List.mem_range]
    refine ⟨hv, ?_⟩
    have h1 := initIndegAt_eq hgv
    rw [Circuit.gateAt] at hgv
    rw [hgv]
    simp only [Option.all_some]
    simp only [edgesFrom, List.map_nil, List.sum_nil] at hz
    have hz0 : c.initIndeg gv = 0 := h1.symm.trans hz
    simp [hz0]
  · intro k v hk
    simp at hk
  · intro v hv
    simp only [List.nil_append, List.mem_filter, List.mem_range] at hv
    obtain ⟨hvn, hvz⟩ := hv
    obtain ⟨gv, hgv⟩ := gateAt_of_lt hvn
    have h1 := initIndegAt_eq hgv
    rw [Circuit.gateAt] at hgv
    rw [hgv] at hvz
    simp only [Option.all_some] at hvz
    have hz0 : c.initIndeg gv = 0 := by simpa using hvz
    simp only [edgesFrom, List.map_nil, List.sum_nil]
    rw [h1, hz0]

/-- The full Kahn run of `finalize` ends with the loop invariant at an
empty queue. -/
theorem kahnOrder_inv {c : Circuit} (hwf : c.wfB = true)
    (hval : c.validate_connectivity = true) :
    ∃ indegF, KahnInv c [] indegF c.kahnOrder := by
  have h := kahnLoop_run hwf hval (c.gates.length + 1) _ _ _ (kahnInit hwf hval)
    (by omega)
  simpa [Circuit.kahnOrder] using h

/-! ## Edges versus decrements, completeness and soundness of the order -/

theorem edge_iff_mult {c : Circuit} (hwf : c.wfB = true)
    (hval : c.validate_connectivity = true) (u v : Nat) :
    Edge c u v ↔ 0 < multTo c u v := by
  constructor
  · rintro ⟨w, hwmem, hsrc, hdest⟩
    obtain ⟨wid, hwid⟩ := List.mem_iff_get?.mp hwmem
    have hw : c.wireAt wid = some w := hwid
    obtain ⟨gu, hgu, hout⟩ := wire_source_backlink hwf hval hw hsrc
    have hm : multTo c u v = w.destinations.count v := by
      simp [multTo, hgu, hout, hw]
    rw [hm]
    exact List.count_pos_iff.mpr hdest
  · intro h
    cases hb : (c.gateAt u).bind (fun g => g.output) with
    | none => rw [multTo_zero hb] at h; omega
    | some o =>
      rw [multTo_count hb] at h
      obtain ⟨gu, hgu, ho⟩ := Option.bind_eq_some.mp hb
      obtain ⟨w, hw, hws⟩ := gate_output_backlink hwf hval hgu ho
      rw [hw] at h
      simp only [Option.map_some', Option.getD_some] at h
      exact ⟨w, List.get?_mem hw, hws, List.count_pos_iff.mp h⟩

theorem edge_src_lt {c : Circuit} (hwf : c.wfB = true)
    (hval : c.validate_connectivity = true) {u v : Nat} (he : Edge c u v) :
    u < c.gates.length := by
  obtain ⟨w, hwmem, hsrc, _⟩ := he
  obtain ⟨wid, hwid⟩ := List.mem_iff_get?.mp hwmem
  obtain ⟨gu, hgu, _⟩ := wire_source_backlink hwf hval hwid hsrc
  exact gateAt_lt hgu

/-- A complete run (order length = gate count) lists every gate. -/
theorem order_complete_mem {c : Circuit} {indegF : List Int} {accF : List Nat}
    (hend : KahnInv c [] indegF accF) (hlen : accF.length = c.gates.length) :
    ∀ v < c.gates.length, v ∈ accF := by
  intro v hv
  have hnd : accF.Nodup := by simpa using hend.nodup
  have hsub : accF.toFinset ⊆ Finset.range c.gates.length := by
    intro x hx
    rw [List.mem_toFinset] at hx
    rw [Finset.mem_range]
    exact hend.bounded x (by simpa using hx)
  have hcard : accF.toFinset.card = c.gates.length := by
    rw [List.toFinset_card_of_nodup hnd, hlen]
  have heq : accF.toFinset = Finset.range c.gates.length :=
    Finset.eq_of_subset_of_card_le hsub (by simp [hcard])
  have : v ∈ accF.toFinset := heq ▸ Finset.mem_range.mpr hv
  exact List.mem_toFinset.mp this

theorem nodup_get?_inj {l : List Nat} (hnd : l.Nodup) {i j : Nat} {a : Nat}
    (hi : l.get? i = some a) (hj : l.get? j = some a) : i = j := by
  have h0 : i < l.length := by
    by_contra hge
    rw [List.get?_eq_getElem?, List.getElem?_eq_none (by omega)] at hi
    exact Option.noConfusion hi
  apply List.getElem?_inj h0 hnd
  rw [← List.get?_eq_getElem?, ← List.get?_eq_getElem?, hi, hj]

/-- Transitive reachability forces strictly increasing positions in a
complete Kahn order. -/
theorem order_transGen_pos {c : Circuit} (hwf : c.wfB = true)
    (hval : c.validate_connectivity = true) {indegF : List Int} {accF : List Nat}
    (hend : KahnInv c [] indegF accF) (hlen : accF.length = c.gates.length) :
    ∀ u v, Relation.TransGen (Edge c) u v →
      ∀ i j, accF.get? i = some u → accF.get? j = some v → i < j := by
  have hnd : accF.Nodup := by simpa using hend.nodup
  intro u v h
  induction h with
  | single he =>
    intro i j hi hj
    have hmult := (edge_iff_mult hwf hval _ _).mp he
    obtain ⟨j', hj', hj'2⟩ := hend.sound j _ hj _ hmult
    have hji := nodup_get?_inj hnd hj'2 hi
    omega
  | tail hab hbc ih =>
    intro i j hi hj
    have hbn : _ < c.gates.length := edge_src_lt hwf hval hbc
    obtain ⟨k, hk⟩ := List.mem_iff_get?.mp (order_complete_mem hend hlen _ hbn)
    have h1 := ih i k hi hk
    have hmult := (edge_iff_mult hwf hval _ _).mp hbc
    obtain ⟨j', hj', hj'2⟩ := hend.sound j _ hj _ hmult
    have hjk := nodup_get?_inj hnd hj'2 hk
    omega

/-- On an acyclic circuit the Kahn run processes every gate. -/
theorem kahn_complete {c : Circuit} (hwf : c.wfB = true)
    (hval : c.validate_connectivity = true) {indegF : List Int} {accF : List Nat}
    (hend : KahnInv c [] indegF accF) (hacyc : Acyclic c) :
    accF.length = c.gates.length := by
  classical
  by_contra hne
  have hnd : accF.Nodup := by simpa using hend.nodup
  have hbnd : ∀ x ∈ accF, x < c.gates.length :=
    fun x hx => hend.bounded x (by simpa using hx)
  have hlt : accF.length < c.gates.length :=
    lt_of_le_of_ne (nodup_length_le hnd hbnd) hne
  -- the set of unprocessed gates
  have hex : ∃ v, v < c.gates.length ∧ v ∉ accF := by
    by_contra hall
    push_neg at hall
    have hsub : Finset.range c.gates.length ⊆ accF.toFinset := by
      intro x hx
      exact List.mem_toFinset.mpr (hall x (Finset.mem_range.mp hx))
    have := Finset.card_le_card hsub
    rw [List.toFinset_card_of_nodup hnd] at this
    simp at this
    omega
  obtain ⟨v₀, hv₀n, hv₀⟩ := hex
  have hpred : ∀ v, (v < c.gates.length ∧ v ∉ accF) →
      ∃ u, (u < c.gates.length ∧ u ∉ accF) ∧ Edge c u v := by
    rintro v ⟨hvn, hvmem⟩
    obtain ⟨gv, hgv⟩ := gateAt_of_lt hvn
    have hne' : edgesFrom c accF v ≠ initIndegAt c v := by
      intro heq
      exact hvmem (by simpa using hend.zeroIn v hvn heq.symm)
    by_contra hnone
    push_neg at hnone
    have hallin : ∀ u, 0 < multTo c u v → u ∈ accF := by
      intro u hu
      by_contra hu2
      have hun : u < c.gates.length := multTo_pos_lt hu
      exact (hnone u ⟨hun, hu2⟩) ((edge_iff_mult hwf hval u v).mpr hu)
    exact hne' (all_in_sat hwf hval hgv hnd hbnd hallin)
  choose f hfP hfE using hpred
  let pick : Nat → Nat := fun v =>
    if h : v < c.gates.length ∧ v ∉ accF then f v h else 0
  let orb : Nat → Nat := fun k => pick^[k] v₀
  have horb : ∀ k, orb k < c.gates.length ∧ orb k ∉ accF := by
    intro k
    induction k with
    | zero => exact ⟨hv₀n, hv₀⟩
    | succ k ihk =>
      show pick^[k + 1] v₀ < c.gates.length ∧ pick^[k + 1] v₀ ∉ accF
      rw [Function.iterate_succ_apply']
      show pick (orb k) < c.gates.length ∧ pick (orb k) ∉ accF
      have : pick (orb k) = f (orb k) ihk := dif_pos ihk
      rw [this]
      exact hfP (orb k) ihk
  have hedge : ∀ k, Edge c (orb (k + 1)) (orb k) := by
    intro k
    have h1 : orb (k + 1) = pick (orb k) := Function.iterate_succ_apply' pick k v₀
    have h2 : pick (orb k) = f (orb k) (horb k) := dif_pos (horb k)
    rw [h1, h2]
    exact hfE (orb k) (horb k)
  have hchain : ∀ k d, Relation.TransGen (Edge c) (orb (k + d + 1)) (orb k) := by
    intro k d
    induction d with
    | zero => exact Relation.TransGen.single (hedge k)
    | succ d ihd => exact Relation.TransGen.head (hedge (k + d + 1)) ihd
  have hmaps : ∀ k ∈ Finset.range (c.gates.length + 1),
      orb k ∈ (Finset.range c.gates.length) \ accF.toFinset := by
    intro k _
    have h := horb k
    simp [Finset.mem_sdiff, Finset.mem_range, List.mem_toFinset, h.1, h.2]
  have hcard : ((Finset.range c.gates.length) \ accF.toFinset).card
      < (Finset.range (c.gates.length + 1)).card := by
    have h1 := Finset.card_le_card
      (Finset.sdiff_subset : (Finset.range c.gates.length) \ accF.toFinset ⊆ _)
    simp only [Finset.card_range] at h1 ⊢
    omega
  obtain ⟨i, hi, j, hj, hneij, heq⟩ :=
    Finset.exists_ne_map_eq_of_card_lt_of_maps_to hcard hmaps
  rcases lt_or_gt_of_ne hneij with hij | hij
  · have h := hchain i (j - i - 1)
    have hj' : i + (j - i - 1) + 1 = j := by omega
    rw [hj'] at h
    exact hacyc _ (by rwa [← heq] at h)
  · have h := hchain j (i - j - 1)
    have hi' : j + (i - j - 1) + 1 = i := by omega
    rw [hi'] at h
    exact hacyc _ (by rwa [heq] at h)

/-! ## C2: finalize computes a topological order, or reports a cycle -/

/-- A rank function that increases along every wire edge certifies
acyclicity. -/
theorem acyclic_of_rank (c : Circuit) (rank : Nat → Nat)
    (h : ∀ w ∈ c.wires, ∀ s ∈ w.source.toList, ∀ d ∈ w.destinations,
      rank s < rank d) : Acyclic c := by
  have hmono : ∀ u v, Edge c u v → rank u < rank v := by
    rintro u v ⟨w, hwmem, hsrc, hdest⟩
    exact h w hwmem u (by simp [hsrc]) v hdest
  intro u hcyc
  have hlt : ∀ a b, Relation.TransGen (Edge c) a b → rank a < rank b := by
    intro a b hab
    induction hab with
    | single he => exact hmono _ _ he
    | tail _ he ih => exact lt_trans ih (hmono _ _ he)
  exact lt_irrefl _ (hlt u u hcyc)

/-- C2: on a circuit that passes connectivity validation (built through the
arena API, so ids equal indices): if the gate-dependency graph is acyclic,
`finalize()` succeeds and its topological order lists every gate exactly
once with every wire edge going from an earlier to a later position; if the
graph has a cycle, `finalize()` fails with the cycle error. -/
theorem finalize_topological_sort (c : Circuit) (hwf : c.wfB = true)
    (hval : c.validate_connectivity = true) :
    (Acyclic c → ∃ c', c.finalize = .ok c' ∧
       c'.topoOrder.length = c.gates.length ∧
       (∀ g, g < c.gates.length → c'.topoOrder.count g = 1) ∧
       (∀ g ∈ c'.topoOrder, g < c.gates.length) ∧
       (∀ u v, Edge c u v → ∀ i j, c'.topoOrder.get? i = some u →
          c'.topoOrder.get? j = some v → i < j)) ∧
    (¬ Acyclic c → c.finalize = .error cycleErrorMsg) := by
  obtain ⟨indegF, hend⟩ := kahnOrder_inv hwf hval
  have hnd : c.kahnOrder.Nodup := by simpa using hend.nodup
  constructor
  · intro hacyc
    have hlen := kahn_complete hwf hval hend hacyc
    refine ⟨{ c with topoOrder := c.kahnOrder, finalized := true }, ?_, ?_, ?_, ?_, ?_⟩
    · rw [Circuit.finalize, if_neg (by simp [hval])]
      show (if c.kahnOrder.length ≠ c.gates.length
          then (.error cycleErrorMsg : Except String Circuit)
          else .ok { c with topoOrder := c.kahnOrder, finalized := true })
        = .ok { c with topoOrder := c.kahnOrder, finalized := true }
      rw [if_neg (by omega)]
    · simpa using hlen
    · intro g hgn
      have h1 := List.nodup_iff_count_le_one.mp hnd g
      have h2 := List.count_pos_iff.mpr (order_complete_mem hend hlen g hgn)
      simp only []
      omega
    · intro g hg
      exact hend.bounded g (by simpa using hg)
    · intro u v he i j hi hj
      exact order_transGen_pos hwf hval hend hlen u v (Relation.TransGen.single he)
        i j hi hj
  · intro hncyc
    have hlen : c.kahnOrder.length ≠ c.gates.length := by
      intro hlen
      apply hncyc
      intro u hcyc
      have hun : u < c.gates.length := by
        rcases (Relation.TransGen.head'_iff.mp hcyc) with ⟨b, hub, _⟩
        exact edge_src_lt hwf hval hub
      obtain ⟨i, hi⟩ := List.mem_iff_get?.mp (order_complete_mem hend hlen u hun)
      exact lt_irrefl i (order_transGen_pos hwf hval hend hlen u u hcyc i i hi hi)
    rw [Circuit.finalize, if_neg (by simp [hval])]
    show (if c.kahnOrder.length ≠ c.gates.length
        then (.error cycleErrorMsg : Except String Circuit)
        else .ok { c with topoOrder := c.kahnOrder, finalized := true })
      = .error cycleErrorMsg
    rw [if_pos hlen]

/-- Witness for C2: the half-adder passes validation, is acyclic (ranks:
gate 0 and 1 both rank 0 — no gate feeds another), and finalizes to the
order [0, 1] with all the stated properties. -/
theorem finalize_topological_sort_witness :
    ∃ c', halfAdder0.finalize = .ok c' ∧
      c'.topoOrder.length = halfAdder0.gates.length ∧
      (∀ g, g < halfAdder0.gates.length → c'.topoOrder.count g = 1) ∧
      (∀ g ∈ c'.topoOrder, g < halfAdder0.gates.length) ∧
      (∀ u v, Edge halfAdder0 u v → ∀ i j, c'.topoOrder.get? i = some u →
        c'.topoOrder.get? j = some v → i < j) :=
  (finalize_topological_sort halfAdder0 (by decide) (by decide)).1
    (acyclic_of_rank halfAdder0 (fun g => g) (by decide))

/-! ## Successful finalize inverted, and scheduler depth facts -/

theorem finalize_ok_eq {c₀ c : Circuit} (h : c₀.finalize = .ok c) :
    c₀.validate_connectivity = true ∧ c₀.kahnOrder.length = c₀.gates.length ∧
    c = { c₀ with topoOrder := c₀.kahnOrder, finalized := true } := by
  simp only [Circuit.finalize] at h
  split at h
  · exact absurd h (by simp)
  · next hval =>
    split at h
    · exact absurd h (by simp)
    · next hlen =>
      refine ⟨by simpa using hval, by omega, (Except.ok.inj h).symm⟩

theorem foldl_max_ge (f : Nat → Int) :
    ∀ (l : List Nat) (a : Int), a ≤ l.foldl (fun acc x => max acc (f x)) a := by
  intro l
  induction l with
  | nil => intro a; exact le_refl a
  | cons x t ih =>
    intro a
    exact le_trans (le_max_left a (f x)) (ih (max a (f x)))

theorem depthStep_maxInput_ge (c : Circuit) (st : List (Nat × Int) × Int)
    (g : Gate) :
    (-1 : Int) ≤ g.inputs.foldl
      (fun acc wid =>
        match c.sourceOf wid with
        | none => acc
        | some src =>
          match st.1.lookup src with
          | none => acc
          | some d => max acc d) (-1 : Int) := by
  have : ∀ (l : List Nat) (a : Int), a ≤ l.foldl
      (fun acc wid =>
        match c.sourceOf wid with
        | none => acc
        | some src =>
          match st.1.lookup src with
          | none => acc
          | some d => max acc d) a := by
    intro l
    induction l with
    | nil => intro a; exact le_refl a
    | cons x t ih =>
      intro a
      rw [List.foldl_cons]
      refine le_trans ?_ (ih _)
      show a ≤ (match c.sourceOf x with
        | none => a
        | some src =>
          match st.1.lookup src with
          | none => a
          | some d => max a d)
      cases c.sourceOf x with
      | none => exact le_refl a
      | some src =>
        show a ≤ (match st.1.lookup src with
          | none => a
          | some d => max a d)
        cases st.1.lookup src with
        | none => exact le_refl a
        | some d => exact le_max_left a d
  exact this g.inputs (-1)

theorem depthStep_depthsOk (c : Circuit) (st : List (Nat × Int) × Int)
    (hst : DepthsOk st) (gid : Nat) : DepthsOk (depthStep c st gid) := by
  obtain ⟨hall, hmax⟩ := hst
  cases hg : c.gateAt gid with
  | none => simpa [depthStep, hg] using ⟨hall, hmax⟩
  | some g =>
    simp only [depthStep, hg]
    constructor
    · intro p hp
      rcases List.mem_append.mp hp with hp | hp
      · obtain ⟨h1, h2⟩ := hall p hp
        exact ⟨h1, le_trans h2 (le_max_left _ _)⟩
      · rw [List.mem_singleton] at hp
        obtain ⟨p1, p2⟩ := p
        cases hp
        have hge := depthStep_maxInput_ge c st g
        exact ⟨by omega, le_max_right _ _⟩
    · exact le_trans hmax (le_max_left _ _)

theorem computeDepths_depthsOk (c : Circuit) : DepthsOk (computeDepths c) := by
  have hgen : ∀ (l : List Nat) (st : List (Nat × Int) × Int), DepthsOk st →
      DepthsOk (l.foldl (depthStep c) st) := by
    intro l
    induction l with
    | nil => intro st h; exact h
    | cons x t ih => intro st h; exact ih _ (depthStep_depthsOk c st h x)
  exact hgen c.topoOrder ([], 0) ⟨by simp, le_refl 0⟩

theorem computeDepths_lookup_nonneg (c : Circuit) (gid : Nat) (d : Int)
    (h : (computeDepths c).1.lookup gid = some d) :
    0 ≤ d ∧ d ≤ (computeDepths c).2 := by
  obtain ⟨l₁, l₂, hsplit, _⟩ := List.lookup_eq_some_iff.mp h
  have hmem : (gid, d) ∈ (computeDepths c).1 := by
    rw [hsplit]
    simp
  exact (computeDepths_depthsOk c).1 (gid, d) hmem

theorem lookup_isSome_foldl_mono (c : Circuit) (gid : Nat) :
    ∀ (l : List Nat) (st : List (Nat × Int) × Int), (st.1.lookup gid).isSome →
      ((l.foldl (depthStep c) st).1.lookup gid).isSome := by
  intro l
  induction l with
  | nil => intro st h; exact h
  | cons x t ih =>
    intro st h
    apply ih
    cases hg : c.gateAt x with
    | none => simpa [depthStep, hg] using h
    | some g =>
      simp only [depthStep, hg]
      rw [List.lookup_append, Option.isSome_or, Bool.or_eq_true]
      exact Or.inl h

theorem computeDepths_lookup_isSome (c : Circuit) (gid : Nat)
    (hmem : gid ∈ c.topoOrder)
    (hgate : ∀ x ∈ c.topoOrder, ∃ gx, c.gateAt x = some gx) :
    ((computeDepths c).1.lookup gid).isSome := by
  have hgen : ∀ (l : List Nat) (st : List (Nat × Int) × Int),
      (∀ x ∈ l, ∃ gx, c.gateAt x = some gx) → gid ∈ l →
      ((l.foldl (depthStep c) st).1.lookup gid).isSome := by
    intro l
    induction l with
    | nil => intro st _ h; simp at h
    | cons x t ih =>
      intro st hg hmem'
      rcases List.mem_cons.mp hmem' with rfl | hmem'
      · rw [List.foldl_cons]
        apply lookup_isSome_foldl_mono
        obtain ⟨gx, hgx⟩ := hg gid (List.mem_cons_self _ _)
        simp only [depthStep, hgx]
        rw [List.lookup_append, Option.isSome_or, Bool.or_eq_true]
        by_cases hs : (st.1.lookup gid).isSome = true
        · exact Or.inl hs
        · exact Or.inr (by simp)
      · exact ih _ (fun y hy => hg y (List.mem_cons_of_mem _ hy)) hmem'
  exact hgen c.topoOrder ([], 0) (fun x hx => hgate x hx) hmem

/-- C7: straight after construction the scheduler sits at depth −1 with no
gate resolved; and in any scheduler state over the same computed depths
where `is_complete()` holds, every gate of the (finalized) circuit is
resolved. -/
theorem scheduler_initial_and_complete (c₀ c : Circuit)
    (hwf : c₀.wfB = true) (hfin : c₀.finalize = .ok c) :
    ((mkScheduler c).currentDepth = -1 ∧
     ∀ gid, (mkScheduler c).is_gate_resolved gid = false) ∧
    (∀ s : Scheduler, s.gateDepths = (computeDepths c).1 →
      s.maxDepth = (computeDepths c).2 → s.is_complete = true →
      ∀ gid < c.gates.length, s.is_gate_resolved gid = true) := by
  obtain ⟨hval, hlen, hceq⟩ := finalize_ok_eq hfin
  obtain ⟨indegF, hend⟩ := kahnOrder_inv hwf hval
  have htopo : c.topoOrder = c₀.kahnOrder := by rw [hceq]
  have hgates : c.gates = c₀.gates := by rw [hceq]
  have hmemtopo : ∀ gid, gid < c.gates.length → gid ∈ c.topoOrder := by
    intro gid hgid
    rw [htopo]
    exact order_complete_mem hend hlen gid (by rwa [hgates] at hgid)
  constructor
  · refine ⟨rfl, ?_⟩
    intro gid
    rw [Scheduler.is_gate_resolved]
    cases hl : (mkScheduler c).gateDepths.lookup gid with
    | none => rfl
    | some d =>
      have hd := (computeDepths_lookup_nonneg c gid d hl).1
      simp only [mkScheduler] at hl ⊢
      have : ¬ ((d : ℚ) ≤ (-1 : ℚ)) := by
        intro hle
        have : (0 : ℚ) ≤ (d : ℚ) := by exact_mod_cast hd
        linarith
      simp [this]
  · intro s hsd hsm hcomp gid hgid
    have hmem := hmemtopo gid hgid
    have hgate : ∀ x ∈ c.topoOrder, ∃ gx, c.gateAt x = some gx := by
      intro x hx
      apply gateAt_of_lt
      rw [htopo] at hx
      have := hend.bounded x (by simpa using hx)
      rwa [← hgates] at this
    have hsome := computeDepths_lookup_isSome c gid hmem hgate
    obtain ⟨d, hd⟩ := Option.isSome_iff_exists.mp hsome
    have hdle := (computeDepths_lookup_nonneg c gid d hd).2
    rw [Scheduler.is_gate_resolved, hsd, hd]
    rw [Scheduler.is_complete] at hcomp
    rw [hsm] at hcomp
    have hcd : ((computeDepths c).2 : ℚ) + 1 ≤ s.currentDepth :=
      of_decide_eq_true hcomp
    have : (d : ℚ) ≤ s.currentDepth := by
      have h1 : (d : ℚ) ≤ ((computeDepths c).2 : ℚ) := by exact_mod_cast hdle
      linarith
    simp [this]

/-- Witness for C7: the scheduler over the finalized half-adder. -/
theorem scheduler_initial_and_complete_witness :
    ((mkScheduler halfAdderF).currentDepth = -1 ∧
     (mkScheduler halfAdderF).is_gate_resolved 0 = false) ∧
    (∀ gid < halfAdderF.gates.length,
      (Scheduler.mk (computeDepths halfAdderF).1 (computeDepths halfAdderF).2
        5 3 .REALTIME false).is_gate_resolved gid = true) :=
  ⟨⟨(scheduler_initial_and_complete halfAdder0 halfAdderF (by decide) (by rfl)).1.1,
    (scheduler_initial_and_complete halfAdder0 halfAdderF (by decide) (by rfl)).1.2 0⟩,
   (scheduler_initial_and_complete halfAdder0 halfAdderF (by decide) (by rfl)).2
     (Scheduler.mk (computeDepths halfAdderF).1 (computeDepths halfAdderF).2
       5 3 .REALTIME false) rfl rfl
     (decide_eq_true (by
       show ((computeDepths halfAdderF).2 : ℚ) + 1 ≤ (5 : ℚ)
       rw [show (computeDepths halfAdderF).2 = 0 from by decide]
       norm_num))⟩

/-! ## C9: decomposition is a no-op on all-NAND circuits -/

theorem gateAt_congr {c1 c2 : Circuit} (hg : c1.gates = c2.gates) :
    c1.gateAt = c2.gateAt := by
  funext i
  rw [Circuit.gateAt, Circuit.gateAt, hg]

theorem wireAt_congr {c1 c2 : Circuit} (hw : c1.wires = c2.wires) :
    c1.wireAt = c2.wireAt := by
  funext i
  rw [Circuit.wireAt, Circuit.wireAt, hw]

theorem sourceOf_congr {c1 c2 : Circuit} (hw : c1.wires = c2.wires) :
    c1.sourceOf = c2.sourceOf := by
  funext i
  rw [Circuit.sourceOf, Circuit.sourceOf, wireAt_congr hw]

theorem gateSideOk_congr {c1 c2 : Circuit} (hw : c1.wires = c2.wires) :
    gateSideOk c1 = gateSideOk c2 := by
  funext g
  unfold gateSideOk
  rw [wireAt_congr hw]

theorem wireSideOk_congr {c1 c2 : Circuit} (hg : c1.gates = c2.gates) :
    wireSideOk c1 = wireSideOk c2 := by
  funext w
  unfold wireSideOk
  rw [gateAt_congr hg]

theorem validate_congr {c1 c2 : Circuit} (hg : c1.gates = c2.gates)
    (hw : c1.wires = c2.wires) :
    c1.validate_connectivity = c2.validate_connectivity := by
  unfold Circuit.validate_connectivity
  rw [hg, hw, gateSideOk_congr hw, wireSideOk_congr hg]

theorem initIndeg_congr {c1 c2 : Circuit} (hw : c1.wires = c2.wires) :
    c1.initIndeg = c2.initIndeg := by
  funext g
  unfold Circuit.initIndeg
  rw [sourceOf_congr hw]

theorem kahnLoop_congr {c1 c2 : Circuit} (hg : c1.gates = c2.gates)
    (hw : c1.wires = c2.wires) :
    ∀ (fuel : Nat) (q : List Nat) (indeg : List Int) (acc : List Nat),
      kahnLoop c1 fuel q indeg acc = kahnLoop c2 fuel q indeg acc := by
  intro fuel
  induction fuel with
  | zero => intro q indeg acc; rfl
  | succ f ih =>
    intro q indeg acc
    cases q with
    | nil => rfl
    | cons g rest =>
      simp only [kahnLoop]
      rw [gateAt_congr hg, wireAt_congr hw]
      cases (c2.gateAt g).bind (fun gate => gate.output) with
      | none => exact ih rest indeg (acc ++ [g])
      | some o => exact ih _ _ (acc ++ [g])

theorem kahnOrder_congr {c1 c2 : Circuit} (hg : c1.gates = c2.gates)
    (hw : c1.wires = c2.wires) : c1.kahnOrder = c2.kahnOrder := by
  simp only [Circuit.kahnOrder]
  rw [hg, initIndeg_congr hw, kahnLoop_congr hg hw]

/-- C9: on a finalized circuit whose gates are already all NAND,
`decompose_to_nand` succeeds and leaves the gate count and the wire count
unchanged (the snapshot of non-NAND gates is empty, so the pass only
re-finalizes). -/
theorem decompose_allnand_noop (c₀ c : Circuit) (hfin : c₀.finalize = .ok c)
    (hnand : ∀ g ∈ c.gates, g.type = .NAND) :
    ∃ c', decompose_to_nand c = .ok c' ∧
      c'.gates.length = c.gates.length ∧ c'.wires.length = c.wires.length := by
  obtain ⟨hval, hlen, hceq⟩ := finalize_ok_eq hfin
  have hgates : c.gates = c₀.gates := by rw [hceq]
  have hwires : c.wires = c₀.wires := by rw [hceq]
  have hfilter : c.gates.filter (fun g => g.type != GateType.NAND) = [] := by
    rw [List.filter_eq_nil]
    intro g hgmem
    simp [hnand g hgmem]
  have hvalc : c.validate_connectivity = true := by
    rw [validate_congr hgates hwires]
    exact hval
  have hkahn : c.kahnOrder = c₀.kahnOrder := kahnOrder_congr hgates hwires
  have hlenc : c.kahnOrder.length = c.gates.length := by
    rw [hkahn, hgates]
    exact hlen
  refine ⟨{ c with topoOrder := c.kahnOrder, finalized := true }, ?_, by simp, by simp⟩
  unfold decompose_to_nand
  rw [hfilter]
  show c.finalize = _
  rw [Circuit.finalize, if_neg (by simp [hvalc])]
  show (if c.kahnOrder.length ≠ c.gates.length
      then (.error cycleErrorMsg : Except String Circuit)
      else .ok { c with topoOrder := c.kahnOrder, finalized := true })
    = .ok { c with topoOrder := c.kahnOrder, finalized := true }
  rw [if_neg (by omega)]

/-- Witness for C9: the all-NAND circuit obtained by decomposing the
half-adder, re-decomposed. -/
theorem decompose_allnand_noop_witness :
    ∃ c', decompose_to_nand ((decompose_to_nand halfAdderF).toOption.getD
        Circuit.empty) = .ok c' ∧
      c'.gates.length = ((decompose_to_nand halfAdderF).toOption.getD
        Circuit.empty).gates.length ∧
      c'.wires.length = ((decompose_to_nand halfAdderF).toOption.getD
        Circuit.empty).wires.length :=
  decompose_allnand_noop
    ((halfAdderF.gates.filter (fun g => g.type != GateType.NAND)).map
        (fun g => g.id) |>.foldl decomposeGate halfAdderF)
    ((decompose_to_nand halfAdderF).toOption.getD Circuit.empty)
    (by rfl) (by decide)

/-! ## C5: the depth recurrence computed by the scheduler constructor -/

theorem mk_gate_depth_of_lookup (c : Circuit) (gid : Nat) (d : Int)
    (h : (computeDepths c).1.lookup gid = some d) :
    (mkScheduler c).gate_depth gid = d := by
  rw [Scheduler.gate_depth]
  have hgd : (mkScheduler c).gateDepths = (computeDepths c).1 := rfl
  rw [hgd, h]

/-- The depth fold only ever appends entries, so an existing binding keeps
its (first-match) lookup value all the way to the end. -/
theorem depth_lookup_stable (c : Circuit) :
    ∀ (l : List Nat) (st : List (Nat × Int) × Int) (x : Nat) (d : Int),
      st.1.lookup x = some d →
      (l.foldl (depthStep c) st).1.lookup x = some d := by
  intro l
  induction l with
  | nil => intro st x d h; exact h
  | cons y t ih =>
    intro st x d h
    rw [List.foldl_cons]
    apply ih
    cases hg : c.gateAt y with
    | none => simpa [depthStep, hg] using h
    | some g =>
      simp only [depthStep, hg]
      rw [List.lookup_append, h]
      rfl

/-- When every source gate of the listed input wires already has a recorded
depth that survives to the final table, the scheduler's inner fold over the
running table equals the fold of the final per-gate depths over the sourced
inputs. -/
theorem depth_innerfold_spec (c : Circuit) (m : List (Nat × Int)) :
    ∀ (l : List Nat) (a : Int),
      (∀ wid ∈ l, ∀ src, c.sourceOf wid = some src →
        ∃ d, m.lookup src = some d ∧ (computeDepths c).1.lookup src = some d) →
      l.foldl (fun acc wid =>
        match c.sourceOf wid with
        | none => acc
        | some src =>
          match m.lookup src with
          | none => acc
          | some d => max acc d) a
      = ((l.filterMap c.sourceOf).map (mkScheduler c).gate_depth).foldl max a := by
  intro l
  induction l with
  | nil => intro a _; simp
  | cons wid t ih =>
    intro a h
    rw [List.foldl_cons]
    cases hs : c.sourceOf wid with
    | none =>
      simp only [hs]
      simp only [List.filterMap_cons, hs]
      exact ih a (fun w hw src hsrc => h w (List.mem_cons_of_mem _ hw) src hsrc)
    | some src =>
      obtain ⟨d, hmd, hFd⟩ := h wid (List.mem_cons_self _ _) src hs
      simp only [hs, hmd]
      simp only [List.filterMap_cons, hs]
      rw [List.map_cons, List.foldl_cons]
      rw [mk_gate_depth_of_lookup c src d hFd]
      exact ih (max a d) (fun w hw src' hsrc' =>
        h w (List.mem_cons_of_mem _ hw) src' hsrc')

/-- The invariant of `compute_depths`' fold over the topological order: the
processed prefix `done` is exactly the keyed set, and each processed gate's
final recorded depth is one more than the fold-max of its sources' final
depths (−1 when it has no sourced input), while the running maximum tracks
the fold-max of the processed depths. -/
theorem depthsFold_spec (c : Circuit)
    (hEarlier : ∀ i gid, c.topoOrder.get? i = some gid →
      ∀ g, c.gateAt gid = some g → ∀ wid ∈ g.inputs, ∀ src,
        c.sourceOf wid = some src → ∃ j < i, c.topoOrder.get? j = some src)
    (hnd : c.topoOrder.Nodup)
    (hAll : ∀ x ∈ c.topoOrder, ∃ g, c.gateAt x = some g) :
    ∀ (todo done : List Nat) (st : List (Nat × Int) × Int),
      c.topoOrder = done ++ todo →
      st = done.foldl (depthStep c) ([], 0) →
      (∀ x, (st.1.lookup x).isSome = true ↔ x ∈ done) →
      st.2 = (done.map (mkScheduler c).gate_depth).foldl max 0 →
      (∀ gid ∈ todo, ∀ g, c.gateAt gid = some g →
        (computeDepths c).1.lookup gid =
          some (1 + ((g.inputs.filterMap c.sourceOf).map
            (mkScheduler c).gate_depth).foldl max (-1))) ∧
      (computeDepths c).2 =
        (c.topoOrder.map (mkScheduler c).gate_depth).foldl max 0 := by
  intro todo
  induction todo with
  | nil =>
    intro done st hsplit hst hkeys hmax
    have hceq : computeDepths c = st := by
      rw [computeDepths, hsplit, List.append_nil, ← hst]
    refine ⟨fun gid h => absurd h (List.not_mem_nil gid), ?_⟩
    rw [hceq, hmax, hsplit, List.append_nil]
  | cons gid rest ih =>
    intro done st hsplit hst hkeys hmax
    have hgidmem : gid ∈ c.topoOrder := by
      rw [hsplit]
      exact List.mem_append_right _ (List.mem_cons_self _ _)
    obtain ⟨g, hg⟩ := hAll gid hgidmem
    have hpos : c.topoOrder.get? done.length = some gid := by
      rw [hsplit, List.get?_append_right (le_refl done.length)]
      simp
    have hsrcdone : ∀ wid ∈ g.inputs, ∀ src,
        c.sourceOf wid = some src → src ∈ done := by
      intro wid hwid src hsrc
      obtain ⟨j, hj, hjget⟩ := hEarlier done.length gid hpos g hg wid hwid src hsrc
      rw [hsplit, List.get?_append hj] at hjget
      exact List.get?_mem hjget
    have hfinal : computeDepths c =
        rest.foldl (depthStep c) (depthStep c st gid) := by
      rw [computeDepths, hsplit, List.foldl_append, ← hst, List.foldl_cons]
    set M : Int := g.inputs.foldl (fun acc wid =>
        match c.sourceOf wid with
        | none => acc
        | some src =>
          match st.1.lookup src with
          | none => acc
          | some d => max acc d) (-1 : Int) with hM
    have hstep1 : (depthStep c st gid).1 = st.1 ++ [(gid, M + 1)] := by
      rw [hM]
      simp only [depthStep, hg]
    have hstep2 : (depthStep c st gid).2 = max st.2 (M + 1) := by
      rw [hM]
      simp only [depthStep, hg]
    have hnd' : (done ++ gid :: rest).Nodup := hsplit ▸ hnd
    have hgidnotdone : gid ∉ done := by
      intro hmem
      exact (List.nodup_append.mp hnd').2.2 hmem (List.mem_cons_self _ _)
    have hnone : st.1.lookup gid = none := by
      cases h : st.1.lookup gid with
      | none => rfl
      | some dd => exact absurd ((hkeys gid).mp (by rw [h]; rfl)) hgidnotdone
    have hsrcfact : ∀ wid ∈ g.inputs, ∀ src, c.sourceOf wid = some src →
        ∃ d, st.1.lookup src = some d ∧
          (computeDepths c).1.lookup src = some d := by
      intro wid hwid src hsrc
      have hmem := hsrcdone wid hwid src hsrc
      have hsome := (hkeys src).mpr hmem
      obtain ⟨d, hd⟩ := Option.isSome_iff_exists.mp hsome
      refine ⟨d, hd, ?_⟩
      have hstep : (depthStep c st gid).1.lookup src = some d := by
        rw [hstep1, List.lookup_append, hd]
        rfl
      rw [hfinal]
      exact depth_lookup_stable c rest _ src d hstep
    have hspec : ((g.inputs.filterMap c.sourceOf).map
        (mkScheduler c).gate_depth).foldl max (-1) = M := by
      rw [hM]
      exact (depth_innerfold_spec c st.1 g.inputs (-1) hsrcfact).symm
    have hlookup_gid : (depthStep c st gid).1.lookup gid = some (M + 1) := by
      rw [hstep1, List.lookup_append, hnone]
      simp [List.lookup]
    have hFgid : (computeDepths c).1.lookup gid = some (M + 1) := by
      rw [hfinal]
      exact depth_lookup_stable c rest (depthStep c st gid) gid (M + 1) hlookup_gid
    have hgd : (mkScheduler c).gate_depth gid = M + 1 :=
      mk_gate_depth_of_lookup c gid (M + 1) hFgid
    have hsplit' : c.topoOrder = (done ++ [gid]) ++ rest := by
      rw [hsplit, List.append_assoc, List.singleton_append]
    have hst' : depthStep c st gid = (done ++ [gid]).foldl (depthStep c) ([], 0) := by
      rw [List.foldl_append, ← hst]
      rfl
    have hkeys' : ∀ x, ((depthStep c st gid).1.lookup x).isSome = true ↔
        x ∈ done ++ [gid] := by
      intro x
      rw [hstep1, List.lookup_append, Option.isSome_or, Bool.or_eq_true]
      constructor
      · rintro (h | h)
        · exact List.mem_append_left _ ((hkeys x).mp h)
        · have hx : x = gid := by
            by_contra hxe
            rw [show ([(gid, M + 1)] : List (Nat × Int)).lookup x = none from by
              simp [List.lookup, beq_eq_false_iff_ne.mpr hxe]] at h
            simp at h
          exact List.mem_append_right _ (by simp [hx])
      · intro hmem
        rcases List.mem_append.mp hmem with h | h
        · exact Or.inl ((hkeys x).mpr h)
        · rw [List.mem_singleton] at h
          subst h
          right
          simp [List.lookup]
    have hmax' : (depthStep c st gid).2 =
        ((done ++ [gid]).map (mkScheduler c).gate_depth).foldl max 0 := by
      rw [hstep2, hmax, List.map_append, List.foldl_append]
      simp only [List.map_cons, List.map_nil, List.foldl_cons, List.foldl_nil]
      rw [hgd]
    obtain ⟨ihA, ihB⟩ := ih (done ++ [gid]) (depthStep c st gid) hsplit' hst'
      hkeys' hmax'
    refine ⟨?_, ihB⟩
    intro gid' hmem' g' hg'
    rcases List.mem_cons.mp hmem' with rfl | hmem'
    · have hgg : g' = g := by
        rw [hg] at hg'
        exact (Option.some.inj hg').symm
      subst hgg
      rw [hFgid, hspec]
      have : M + 1 = 1 + M := by omega
      rw [this]
    · exact ihA gid' hmem' g' hg'

/-- C5: for every finalized circuit, the scheduler's constructor assigns each
gate of the topological order a depth equal to 1 plus the fold-maximum
(seeded at −1) of the depths of the source gates of its sourced input wires —
so 0 when every input wire is primary — and `max_depth` is the fold-maximum
(seeded at 0) of these depths over all gates. -/
theorem scheduler_depths_recurrence (c₀ c : Circuit) (hwf : c₀.wfB = true)
    (hfin : c₀.finalize = .ok c) :
    (∀ gid ∈ c.topoOrder, ∀ g, c.gateAt gid = some g →
      (mkScheduler c).gate_depth gid =
        1 + ((g.inputs.filterMap c.sourceOf).map
          (mkScheduler c).gate_depth).foldl max (-1)) ∧
    (mkScheduler c).maxDepth =
      (c.topoOrder.map (mkScheduler c).gate_depth).foldl max 0 := by
  obtain ⟨hval, hlen, hceq⟩ := finalize_ok_eq hfin
  obtain ⟨indegF, hend⟩ := kahnOrder_inv hwf hval
  have htopo : c.topoOrder = c₀.kahnOrder := by rw [hceq]
  have hgates : c.gates = c₀.gates := by rw [hceq]
  have hwires : c.wires = c₀.wires := by rw [hceq]
  have hga : c.gateAt = c₀.gateAt := gateAt_congr hgates
  have hso : c.sourceOf = c₀.sourceOf := sourceOf_congr hwires
  have hnd : c.topoOrder.Nodup := by
    rw [htopo]
    simpa using hend.nodup
  have hAll : ∀ x ∈ c.topoOrder, ∃ g, c.gateAt x = some g := by
    intro x hx
    rw [hga]
    refine gateAt_of_lt (hend.bounded x ?_)
    rw [htopo] at hx
    simpa using hx
  have hEarlier : ∀ i gid, c.topoOrder.get? i = some gid →
      ∀ g, c.gateAt gid = some g → ∀ wid ∈ g.inputs, ∀ src,
        c.sourceOf wid = some src → ∃ j < i, c.topoOrder.get? j = some src := by
    intro i gid hi g hg wid hwid src hsrc
    rw [hga] at hg
    rw [hso] at hsrc
    rw [htopo] at hi
    obtain ⟨w, hwAt, hwsrc⟩ := Option.bind_eq_some.mp hsrc
    have hedge : Edge c₀ src gid := by
      refine ⟨w, List.get?_mem hwAt, hwsrc, ?_⟩
      have hcnt := count_io hwf hval hwAt hg
      have hposc : 0 < g.inputs.count wid := List.count_pos_iff.mpr hwid
      rw [hcnt] at hposc
      exact List.count_pos_iff.mp hposc
    have hmult := (edge_iff_mult hwf hval _ _).mp hedge
    obtain ⟨j, hj, hjget⟩ := hend.sound i gid hi src hmult
    refine ⟨j, hj, ?_⟩
    rw [htopo]
    exact hjget
  obtain ⟨h1, h2⟩ := depthsFold_spec c hEarlier hnd hAll c.topoOrder [] ([], 0)
    (by simp) rfl (by intro x; simp [List.lookup]) (by simp)
  refine ⟨?_, h2⟩
  intro gid hmem g hg
  exact mk_gate_depth_of_lookup c gid _ (h1 gid hmem g hg)

/-- Witness for C5: the finalized half-adder; gate 1 (the AND) has both its
inputs primary, so its depth is 0, and the maximum-depth equation is checked
over the order [0, 1]. -/
theorem scheduler_depths_recurrence_witness :
    ((mkScheduler halfAdderF).maxDepth =
      (halfAdderF.topoOrder.map (mkScheduler halfAdderF).gate_depth).foldl
        max 0) ∧
    (∀ g, halfAdderF.gateAt 1 = some g →
      (mkScheduler halfAdderF).gate_depth 1 =
        1 + ((g.inputs.filterMap halfAdderF.sourceOf).map
          (mkScheduler halfAdderF).gate_depth).foldl max (-1)) :=
  ⟨(scheduler_depths_recurrence halfAdder0 halfAdderF (by decide) (by rfl)).2,
   (scheduler_depths_recurrence halfAdder0 halfAdderF (by decide) (by rfl)).1
     1 (by decide)⟩

/-- Witness for the amended C3 at concrete circuits. -/
theorem error_contract_amended_witness :
    Circuit.empty.propagate = .error "Circuit must be finalized before propagation" ∧
    (∃ p, halfAdderF.propagate = .ok p) ∧
    (∃ c', oneWireCircuit.set_input 0 true = .ok c') ∧
    ¬ (∃ b, oneWireCircuit.get_output 5 = .ok b) :=
  ⟨error_contract_amended.1 Circuit.empty rfl,
   (error_contract_amended.2.1 halfAdderF).mpr (by decide),
   (error_contract_amended.2.2.1 oneWireCircuit 0 true).mpr (by decide),
   fun h => absurd ((error_contract_amended.2.2.2 oneWireCircuit 5).mp h) (by decide)⟩

/-! ## C1 groundwork: list-set lookups and the editing primitives -/

theorem get?_set_self {α : Type} : ∀ (l : List α) (i : Nat) (a : α),
    i < l.length → (l.set i a).get? i = some a := by
  intro l
  induction l with
  | nil => intro i a h; simp at h
  | cons x t ih =>
    intro i a h
    cases i with
    | zero => rfl
    | succ n => exact ih n a (by simpa using h)

theorem get?_set_ne {α : Type} : ∀ (l : List α) (i j : Nat) (a : α),
    i ≠ j → (l.set i a).get? j = l.get? j := by
  intro l
  induction l with
  | nil => intro i j a _; rfl
  | cons x t ih =>
    intro i j a h
    cases i with
    | zero =>
      cases j with
      | zero => exact absurd rfl h
      | succ m => rfl
    | succ n =>
      cases j with
      | zero => rfl
      | succ m => exact ih n m a (fun he => h (by rw [he]))

theorem updWire_gates (c : Circuit) (w : Nat) (f : Wire → Wire) :
    (c.updWire w f).gates = c.gates := by
  unfold Circuit.updWire
  cases c.wires.get? w <;> rfl

theorem updWire_inputWires (c : Circuit) (w : Nat) (f : Wire → Wire) :
    (c.updWire w f).inputWires = c.inputWires := by
  unfold Circuit.updWire
  cases c.wires.get? w <;> rfl

theorem updWire_outputWires (c : Circuit) (w : Nat) (f : Wire → Wire) :
    (c.updWire w f).outputWires = c.outputWires := by
  unfold Circuit.updWire
  cases c.wires.get? w <;> rfl

theorem updWire_topo (c : Circuit) (w : Nat) (f : Wire → Wire) :
    (c.updWire w f).topoOrder = c.topoOrder := by
  unfold Circuit.updWire
  cases c.wires.get? w <;> rfl

theorem updWire_finalized (c : Circuit) (w : Nat) (f : Wire → Wire) :
    (c.updWire w f).finalized = c.finalized := by
  unfold Circuit.updWire
  cases c.wires.get? w <;> rfl

theorem updWire_wires_length (c : Circuit) (w : Nat) (f : Wire → Wire) :
    (c.updWire w f).wires.length = c.wires.length := by
  unfold Circuit.updWire
  cases c.wires.get? w with
  | none => rfl
  | some x => simp

theorem wireAt_updWire_ne (c : Circuit) (w x : Nat) (f : Wire → Wire)
    (h : w ≠ x) : (c.updWire w f).wireAt x = c.wireAt x := by
  unfold Circuit.updWire Circuit.wireAt
  cases c.wires.get? w with
  | none => rfl
  | some y => exact get?_set_ne _ _ _ _ h

theorem wireAt_updWire_self (c : Circuit) (w : Nat) (f : Wire → Wire) :
    (c.updWire w f).wireAt w = (c.wireAt w).map f := by
  unfold Circuit.updWire Circuit.wireAt
  cases hw : c.wires.get? w with
  | none => rw [hw]; rfl
  | some y =>
    simp only [hw, Option.map_some']
    exact get?_set_self _ _ _ (by
      by_contra hge
      rw [List.get?_eq_getElem?, List.getElem?_eq_none (by omega)] at hw
      exact Option.noConfusion hw)

theorem updGate_wires (c : Circuit) (g : Nat) (f : Gate → Gate) :
    (c.updGate g f).wires = c.wires := by
  unfold Circuit.updGate
  cases c.gates.get? g <;> rfl

theorem updGate_inputWires (c : Circuit) (g : Nat) (f : Gate → Gate) :
    (c.updGate g f).inputWires = c.inputWires := by
  unfold Circuit.updGate
  cases c.gates.get? g <;> rfl

theorem updGate_outputWires (c : Circuit) (g : Nat) (f : Gate → Gate) :
    (c.updGate g f).outputWires = c.outputWires := by
  unfold Circuit.updGate
  cases c.gates.get? g <;> rfl

theorem updGate_topo (c : Circuit) (g : Nat) (f : Gate → Gate) :
    (c.updGate g f).topoOrder = c.topoOrder := by
  unfold Circuit.updGate
  cases c.gates.get? g <;> rfl

theorem updGate_finalized (c : Circuit) (g : Nat) (f : Gate → Gate) :
    (c.updGate g f).finalized = c.finalized := by
  unfold Circuit.updGate
  cases c.gates.get? g <;> rfl

theorem updGate_gates_length (c : Circuit) (g : Nat) (f : Gate → Gate) :
    (c.updGate g f).gates.length = c.gates.length := by
  unfold Circuit.updGate
  cases c.gates.get? g with
  | none => rfl
  | some x => simp

theorem gateAt_updGate_ne (c : Circuit) (g x : Nat) (f : Gate → Gate)
    (h : g ≠ x) : (c.updGate g f).gateAt x = c.gateAt x := by
  unfold Circuit.updGate Circuit.gateAt
  cases c.gates.get? g with
  | none => rfl
  | some y => exact get?_set_ne _ _ _ _ h

theorem gateAt_updGate_self (c : Circuit) (g : Nat) (f : Gate → Gate) :
    (c.updGate g f).gateAt g = (c.gateAt g).map f := by
  unfold Circuit.updGate Circuit.gateAt
  cases hg : c.gates.get? g with
  | none => rw [hg]; rfl
  | some y =>
    simp only [hg, Option.map_some']
    exact get?_set_self _ _ _ (by
      by_contra hge
      rw [List.get?_eq_getElem?, List.getElem?_eq_none (by omega)] at hg
      exact Option.noConfusion hg)

theorem sourceOf_updGate (c : Circuit) (g : Nat) (f : Gate → Gate) :
    (c.updGate g f).sourceOf = c.sourceOf :=
  sourceOf_congr (updGate_wires c g f)

theorem add_wire_gates (c : Circuit) : (c.add_wire).1.gates = c.gates := rfl

theorem add_wire_inputWires (c : Circuit) :
    (c.add_wire).1.inputWires = c.inputWires := rfl

theorem add_wire_outputWires (c : Circuit) :
    (c.add_wire).1.outputWires = c.outputWires := rfl

theorem add_wire_topo (c : Circuit) : (c.add_wire).1.topoOrder = c.topoOrder := rfl

theorem add_wire_finalized (c : Circuit) :
    (c.add_wire).1.finalized = c.finalized := rfl

theorem add_wire_snd (c : Circuit) : (c.add_wire).2 = c.wires.length := rfl

theorem add_wire_length (c : Circuit) :
    (c.add_wire).1.wires.length = c.wires.length + 1 := by
  show (c.wires ++ [_]).length = c.wires.length + 1
  simp

theorem wireAt_add_wire_ne (c : Circuit) (x : Nat) (h : x ≠ c.wires.length) :
    (c.add_wire).1.wireAt x = c.wireAt x := by
  show (c.wires ++ [_]).get? x = c.wires.get? x
  rcases Nat.lt_or_ge x c.wires.length with hx | hx
  · exact List.get?_append hx
  · have hgt : c.wires.length < x := lt_of_le_of_ne hx (Ne.symm h)
    rw [List.get?_eq_getElem?, List.getElem?_eq_none (by simp; omega),
      List.get?_eq_getElem?, List.getElem?_eq_none (by omega)]

theorem wireAt_add_wire_self (c : Circuit) :
    (c.add_wire).1.wireAt c.wires.length =
      some { id := c.wires.length, value := false, previousValue := false,
             source := none, destinations := [] } := by
  show (c.wires ++ [_]).get? c.wires.length = _
  rw [List.get?_append_right (le_refl _)]
  simp

theorem add_gate_wires (c : Circuit) (t : GateType) :
    (c.add_gate t).1.wires = c.wires := rfl

theorem add_gate_inputWires (c : Circuit) (t : GateType) :
    (c.add_gate t).1.inputWires = c.inputWires := rfl

theorem add_gate_outputWires (c : Circuit) (t : GateType) :
    (c.add_gate t).1.outputWires = c.outputWires := rfl

theorem add_gate_topo (c : Circuit) (t : GateType) :
    (c.add_gate t).1.topoOrder = c.topoOrder := rfl

theorem add_gate_finalized (c : Circuit) (t : GateType) :
    (c.add_gate t).1.finalized = c.finalized := rfl

theorem add_gate_snd (c : Circuit) (t : GateType) :
    (c.add_gate t).2 = c.gates.length := rfl

theorem add_gate_length (c : Circuit) (t : GateType) :
    (c.add_gate t).1.gates.length = c.gates.length + 1 := by
  show (c.gates ++ [_]).length = c.gates.length + 1
  simp

theorem gateAt_add_gate_ne (c : Circuit) (t : GateType) (x : Nat)
    (h : x ≠ c.gates.length) : (c.add_gate t).1.gateAt x = c.gateAt x := by
  show (c.gates ++ [_]).get? x = c.gates.get? x
  rcases Nat.lt_or_ge x c.gates.length with hx | hx
  · exact List.get?_append hx
  · have hgt : c.gates.length < x := lt_of_le_of_ne hx (Ne.symm h)
    rw [List.get?_eq_getElem?, List.getElem?_eq_none (by simp; omega),
      List.get?_eq_getElem?, List.getElem?_eq_none (by omega)]

theorem gateAt_add_gate_self (c : Circuit) (t : GateType) :
    (c.add_gate t).1.gateAt c.gates.length =
      some { id := c.gates.length, type := t, inputs := [], output := none,
             state := false, dirty := true } := by
  show (c.gates ++ [_]).get? c.gates.length = _
  rw [List.get?_append_right (le_refl _)]
  simp

theorem sourceOf_add_gate (c : Circuit) (t : GateType) :
    (c.add_gate t).1.sourceOf = c.sourceOf :=
  sourceOf_congr (add_gate_wires c t)

/-! ## C1 groundwork: unfolding and congruence for the semantics -/

theorem wireVal_sourceless (c : Circuit) (env : Nat → Bool) (f wid : Nat)
    (h : c.sourceOf wid = none) : wireVal c env f wid = env wid := by
  cases f with
  | zero => simp [wireVal, h]
  | succ n => simp [wireVal, h]

theorem wireVal_succ_of_gate (c : Circuit) (env : Nat → Bool) (f gid wid : Nat)
    (g : Gate) (hs : c.sourceOf wid = some gid) (hg : c.gateAt gid = some g) :
    wireVal c env (f + 1) wid =
      match evaluate g.type (g.inputs.map (wireVal c env f)) with
      | .ok b => b
      | .error _ => false := by
  simp only [wireVal, hs, hg]

theorem wireVal_env_congr (c : Circuit) (e₁ e₂ : Nat → Bool)
    (h : ∀ wid, c.sourceOf wid = none → e₁ wid = e₂ wid) :
    ∀ f wid, wireVal c e₁ f wid = wireVal c e₂ f wid := by
  intro f
  induction f with
  | zero =>
    intro wid
    cases hs : c.sourceOf wid with
    | none => simp [wireVal, hs, h wid hs]
    | some gid => simp [wireVal, hs]
  | succ n ih =>
    intro wid
    cases hs : c.sourceOf wid with
    | none => simp [wireVal, hs, h wid hs]
    | some gid =>
      simp only [wireVal, hs]
      cases hg : c.gateAt gid with
      | none => rfl
      | some g =>
        show (match evaluate g.type (g.inputs.map (wireVal c e₁ n)) with
          | .ok b => b
          | .error _ => false) =
          (match evaluate g.type (g.inputs.map (wireVal c e₂ n)) with
          | .ok b => b
          | .error _ => false)
        rw [show g.inputs.map (wireVal c e₁ n) = g.inputs.map (wireVal c e₂ n)
          from List.map_congr_left (fun x _ => ih x)]

theorem wireVal_struct_congr (c₁ c₂ : Circuit)
    (hs : ∀ wid, c₁.sourceOf wid = c₂.sourceOf wid)
    (hg : ∀ gid, (c₁.gateAt gid).map (fun g => (g.type, g.inputs)) =
      (c₂.gateAt gid).map (fun g => (g.type, g.inputs))) :
    ∀ f wid env, wireVal c₁ env f wid = wireVal c₂ env f wid := by
  intro f
  induction f with
  | zero =>
    intro wid env
    simp only [wireVal]
    rw [hs wid]
  | succ n ih =>
    intro wid env
    simp only [wireVal]
    rw [hs wid]
    cases hsw : c₂.sourceOf wid with
    | none => rfl
    | some gid =>
      simp only []
      have hgg := hg gid
      cases h1 : c₁.gateAt gid with
      | none =>
        rw [h1] at hgg
        cases h2 : c₂.gateAt gid with
        | none => rfl
        | some g₂ => rw [h2] at hgg; simp at hgg
      | some g₁ =>
        rw [h1] at hgg
        cases h2 : c₂.gateAt gid with
        | none => rw [h2] at hgg; simp at hgg
        | some g₂ =>
          rw [h2] at hgg
          simp only [Option.map_some'] at hgg
          obtain ⟨hty, hin⟩ : g₁.type = g₂.type ∧ g₁.inputs = g₂.inputs := by
            have hp := Option.some.inj hgg
            exact ⟨congrArg Prod.fst hp, congrArg Prod.snd hp⟩
          show (match evaluate g₁.type (g₁.inputs.map (wireVal c₁ env n)) with
            | .ok b => b
            | .error _ => false) =
            (match evaluate g₂.type (g₂.inputs.map (wireVal c₂ env n)) with
            | .ok b => b
            | .error _ => false)
          rw [hty, hin]
          rw [show g₂.inputs.map (wireVal c₁ env n) =
            g₂.inputs.map (wireVal c₂ env n)
            from List.map_congr_left (fun x _ => ih x env)]

/-! ## C1 groundwork: the nand_decompose helper operations, pointwise -/

theorem gateAt_updWire (c : Circuit) (w : Nat) (f : Wire → Wire) :
    (c.updWire w f).gateAt = c.gateAt :=
  gateAt_congr (updWire_gates c w f)

theorem wireAt_updGate (c : Circuit) (g : Nat) (f : Gate → Gate) :
    (c.updGate g f).wireAt = c.wireAt :=
  wireAt_congr (updGate_wires c g f)

theorem link_input_gates_length (c : Circuit) (wid gid : Nat) :
    (link_input c wid gid).gates.length = c.gates.length := by
  rw [link_input, updWire_gates, updGate_gates_length]

theorem link_input_wires_length (c : Circuit) (wid gid : Nat) :
    (link_input c wid gid).wires.length = c.wires.length := by
  rw [link_input, updWire_wires_length, updGate_wires]

theorem link_input_inputWires (c : Circuit) (wid gid : Nat) :
    (link_input c wid gid).inputWires = c.inputWires := by
  rw [link_input, updWire_inputWires, updGate_inputWires]

theorem link_input_outputWires (c : Circuit) (wid gid : Nat) :
    (link_input c wid gid).outputWires = c.outputWires := by
  rw [link_input, updWire_outputWires, updGate_outputWires]

theorem link_input_gateAt_ne (c : Circuit) (wid gid x : Nat) (h : gid ≠ x) :
    (link_input c wid gid).gateAt x = c.gateAt x := by
  rw [link_input, gateAt_updWire, gateAt_updGate_ne c gid x _ h]

theorem link_input_gateAt_self (c : Circuit) (wid gid : Nat) :
    (link_input c wid gid).gateAt gid =
      (c.gateAt gid).map (fun g => { g with inputs := g.inputs ++ [wid] }) := by
  rw [link_input, gateAt_updWire]
  exact gateAt_updGate_self c gid _

theorem link_input_wireAt_ne (c : Circuit) (wid gid x : Nat) (h : wid ≠ x) :
    (link_input c wid gid).wireAt x = c.wireAt x := by
  rw [link_input, wireAt_updWire_ne _ wid x _ h, wireAt_updGate]

theorem link_input_wireAt_self (c : Circuit) (wid gid : Nat) :
    (link_input c wid gid).wireAt wid =
      (c.wireAt wid).map
        (fun w => { w with destinations := w.destinations ++ [gid] }) := by
  rw [link_input, wireAt_updWire_self, wireAt_updGate]

theorem link_input_sourceOf (c : Circuit) (wid gid x : Nat) :
    (link_input c wid gid).sourceOf x = c.sourceOf x := by
  by_cases h : wid = x
  · subst h
    rw [Circuit.sourceOf, Circuit.sourceOf, link_input_wireAt_self]
    cases c.wireAt wid <;> rfl
  · rw [Circuit.sourceOf, Circuit.sourceOf, link_input_wireAt_ne c wid gid x h]

theorem link_output_gates_length (c : Circuit) (wo : Option Nat) (gid : Nat) :
    (link_output c wo gid).gates.length = c.gates.length := by
  simp only [link_output]
  cases wo with
  | none => exact updGate_gates_length c gid _
  | some o => rw [updWire_gates, updGate_gates_length]

theorem link_output_wires_length (c : Circuit) (wo : Option Nat) (gid : Nat) :
    (link_output c wo gid).wires.length = c.wires.length := by
  simp only [link_output]
  cases wo with
  | none => rw [updGate_wires]
  | some o => rw [updWire_wires_length, updGate_wires]

theorem link_output_inputWires (c : Circuit) (wo : Option Nat) (gid : Nat) :
    (link_output c wo gid).inputWires = c.inputWires := by
  simp only [link_output]
  cases wo with
  | none => exact updGate_inputWires c gid _
  | some o => rw [updWire_inputWires, updGate_inputWires]

theorem link_output_outputWires (c : Circuit) (wo : Option Nat) (gid : Nat) :
    (link_output c wo gid).outputWires = c.outputWires := by
  simp only [link_output]
  cases wo with
  | none => exact updGate_outputWires c gid _
  | some o => rw [updWire_outputWires, updGate_outputWires]

theorem link_output_gateAt_ne (c : Circuit) (wo : Option Nat) (gid x : Nat)
    (h : gid ≠ x) : (link_output c wo gid).gateAt x = c.gateAt x := by
  simp only [link_output]
  cases wo with
  | none => exact gateAt_updGate_ne c gid x _ h
  | some o => rw [gateAt_updWire, gateAt_updGate_ne c gid x _ h]

theorem link_output_gateAt_self (c : Circuit) (wo : Option Nat) (gid : Nat) :
    (link_output c wo gid).gateAt gid =
      (c.gateAt gid).map (fun g => { g with output := wo }) := by
  simp only [link_output]
  cases wo with
  | none => exact gateAt_updGate_self c gid _
  | some o => rw [gateAt_updWire]; exact gateAt_updGate_self c gid _

theorem link_output_wireAt_none (c : Circuit) (gid : Nat) (x : Nat) :
    (link_output c none gid).wireAt x = c.wireAt x := by
  simp only [link_output]
  rw [wireAt_updGate]

theorem link_output_wireAt_some_ne (c : Circuit) (o gid x : Nat) (h : o ≠ x) :
    (link_output c (some o) gid).wireAt x = c.wireAt x := by
  simp only [link_output]
  rw [wireAt_updWire_ne _ o x _ h, wireAt_updGate]

theorem link_output_wireAt_some_self (c : Circuit) (o gid : Nat) :
    (link_output c (some o) gid).wireAt o =
      (c.wireAt o).map (fun w => { w with source := some gid }) := by
  simp only [link_output]
  rw [wireAt_updWire_self, wireAt_updGate]

/-! ## C1 groundwork: the erase fold of disconnect_inputs -/

theorem eraseFold_gates (gid : Nat) : ∀ (l : List Nat) (c : Circuit),
    (l.foldl (fun c wid => c.updWire wid
      (fun w => { w with destinations := w.destinations.erase gid })) c).gates
      = c.gates := by
  intro l
  induction l with
  | nil => intro c; rfl
  | cons y t ih => intro c; rw [List.foldl_cons, ih, updWire_gates]

theorem eraseFold_inputWires (gid : Nat) : ∀ (l : List Nat) (c : Circuit),
    (l.foldl (fun c wid => c.updWire wid
      (fun w => { w with destinations := w.destinations.erase gid })) c).inputWires
      = c.inputWires := by
  intro l
  induction l with
  | nil => intro c; rfl
  | cons y t ih => intro c; rw [List.foldl_cons, ih, updWire_inputWires]

theorem eraseFold_outputWires (gid : Nat) : ∀ (l : List Nat) (c : Circuit),
    (l.foldl (fun c wid => c.updWire wid
      (fun w => { w with destinations := w.destinations.erase gid })) c).outputWires
      = c.outputWires := by
  intro l
  induction l with
  | nil => intro c; rfl
  | cons y t ih => intro c; rw [List.foldl_cons, ih, updWire_outputWires]

theorem eraseFold_wires_length (gid : Nat) : ∀ (l : List Nat) (c : Circuit),
    (l.foldl (fun c wid => c.updWire wid
      (fun w => { w with destinations := w.destinations.erase gid })) c).wires.length
      = c.wires.length := by
  intro l
  induction l with
  | nil => intro c; rfl
  | cons y t ih => intro c; rw [List.foldl_cons, ih, updWire_wires_length]

theorem eraseFold_wire_triple (gid : Nat) : ∀ (l : List Nat) (c : Circuit) (x : Nat),
    ((l.foldl (fun c wid => c.updWire wid
        (fun w => { w with destinations := w.destinations.erase gid })) c).wireAt x).map
      (fun w => (w.id, w.source, w.value))
      = (c.wireAt x).map (fun w => (w.id, w.source, w.value)) := by
  intro l
  induction l with
  | nil => intro c x; rfl
  | cons y t ih =>
    intro c x
    rw [List.foldl_cons, ih]
    by_cases hyx : y = x
    · subst hyx
      rw [wireAt_updWire_self]
      cases c.wireAt y <;> rfl
    · rw [wireAt_updWire_ne c y x _ hyx]

theorem eraseFold_count_ne (gid v : Nat) (hv : v ≠ gid) :
    ∀ (l : List Nat) (c : Circuit) (x : Nat),
    ((l.foldl (fun c wid => c.updWire wid
        (fun w => { w with destinations := w.destinations.erase gid })) c).wireAt x).map
      (fun w => w.destinations.count v)
      = (c.wireAt x).map (fun w => w.destinations.count v) := by
  intro l
  induction l with
  | nil => intro c x; rfl
  | cons y t ih =>
    intro c x
    rw [List.foldl_cons, ih]
    by_cases hyx : y = x
    · subst hyx
      rw [wireAt_updWire_self]
      cases c.wireAt y with
      | none => rfl
      | some w =>
        simp only [Option.map_some']
        congr 1
        exact List.count_erase_of_ne hv w.destinations
    · rw [wireAt_updWire_ne c y x _ hyx]

theorem eraseFold_count_self (gid : Nat) : ∀ (l : List Nat) (c : Circuit) (x : Nat),
    ((l.foldl (fun c wid => c.updWire wid
        (fun w => { w with destinations := w.destinations.erase gid })) c).wireAt x).map
      (fun w => w.destinations.count gid)
      = (c.wireAt x).map (fun w => w.destinations.count gid - l.count x) := by
  intro l
  induction l with
  | nil =>
    intro c x
    rw [List.foldl_nil]
    cases h : c.wireAt x with
    | none => rfl
    | some w => simp
  | cons y t ih =>
    intro c x
    rw [List.foldl_cons, ih]
    by_cases hyx : y = x
    · subst hyx
      rw [wireAt_updWire_self]
      cases c.wireAt y with
      | none => rfl
      | some w =>
        simp only [Option.map_map, Option.map_some', Function.comp]
        congr 1
        rw [List.count_erase_self, List.count_cons]
        simp
        omega
    · rw [wireAt_updWire_ne c y x _ hyx]
      cases c.wireAt x with
      | none => rfl
      | some w =>
        simp only [Option.map_some']
        congr 1
        rw [List.count_cons, if_neg (by simpa using hyx)]
        omega

/-! ## C1 groundwork: disconnect_inputs, pointwise -/

theorem disconnect_gateAt_self (c : Circuit) (gid : Nat) (g : Gate)
    (hg : c.gateAt gid = some g) :
    (disconnect_inputs c gid).gateAt gid = some { g with inputs := [] } := by
  simp only [disconnect_inputs, hg]
  rw [gateAt_updGate_self]
  rw [show (g.inputs.foldl (fun c wid => c.updWire wid
      (fun w => { w with destinations := w.destinations.erase gid })) c).gateAt gid
      = c.gateAt gid from gateAt_congr (eraseFold_gates gid g.inputs c) ▸ rfl]
  rw [hg]
  rfl

theorem disconnect_gateAt_ne (c : Circuit) (gid x : Nat) (h : gid ≠ x) :
    (disconnect_inputs c gid).gateAt x = c.gateAt x := by
  cases hg : c.gateAt gid with
  | none => simp only [disconnect_inputs, hg]
  | some g =>
    simp only [disconnect_inputs, hg]
    rw [gateAt_updGate_ne _ gid x _ h]
    exact congrFun (gateAt_congr (eraseFold_gates gid g.inputs c)) x

theorem disconnect_gates_length (c : Circuit) (gid : Nat) :
    (disconnect_inputs c gid).gates.length = c.gates.length := by
  cases hg : c.gateAt gid with
  | none => simp only [disconnect_inputs, hg]
  | some g =>
    simp only [disconnect_inputs, hg]
    rw [updGate_gates_length, eraseFold_gates]

theorem disconnect_wires_length (c : Circuit) (gid : Nat) :
    (disconnect_inputs c gid).wires.length = c.wires.length := by
  cases hg : c.gateAt gid with
  | none => simp only [disconnect_inputs, hg]
  | some g =>
    simp only [disconnect_inputs, hg]
    rw [updGate_wires, eraseFold_wires_length]

theorem disconnect_inputWires (c : Circuit) (gid : Nat) :
    (disconnect_inputs c gid).inputWires = c.inputWires := by
  cases hg : c.gateAt gid with
  | none => simp only [disconnect_inputs, hg]
  | some g =>
    simp only [disconnect_inputs, hg]
    rw [updGate_inputWires, eraseFold_inputWires]

theorem disconnect_outputWires (c : Circuit) (gid : Nat) :
    (disconnect_inputs c gid).outputWires = c.outputWires := by
  cases hg : c.gateAt gid with
  | none => simp only [disconnect_inputs, hg]
  | some g =>
    simp only [disconnect_inputs, hg]
    rw [updGate_outputWires, eraseFold_outputWires]

theorem disconnect_wire_triple (c : Circuit) (gid : Nat) (g : Gate)
    (hg : c.gateAt gid = some g) (x : Nat) :
    ((disconnect_inputs c gid).wireAt x).map (fun w => (w.id, w.source, w.value))
      = (c.wireAt x).map (fun w => (w.id, w.source, w.value)) := by
  simp only [disconnect_inputs, hg]
  rw [congrFun (wireAt_updGate _ gid _) x]
  exact eraseFold_wire_triple gid g.inputs c x

theorem disconnect_count_ne (c : Circuit) (gid : Nat) (g : Gate)
    (hg : c.gateAt gid = some g) (v : Nat) (hv : v ≠ gid) (x : Nat) :
    ((disconnect_inputs c gid).wireAt x).map (fun w => w.destinations.count v)
      = (c.wireAt x).map (fun w => w.destinations.count v) := by
  simp only [disconnect_inputs, hg]
  rw [congrFun (wireAt_updGate _ gid _) x]
  exact eraseFold_count_ne gid v hv g.inputs c x

theorem disconnect_count_self (c : Circuit) (gid : Nat) (g : Gate)
    (hg : c.gateAt gid = some g) (x : Nat) :
    ((disconnect_inputs c gid).wireAt x).map (fun w => w.destinations.count gid)
      = (c.wireAt x).map
          (fun w => w.destinations.count gid - g.inputs.count x) := by
  simp only [disconnect_inputs, hg]
  rw [congrFun (wireAt_updGate _ gid _) x]
  exact eraseFold_count_self gid g.inputs c x

/-! ## C1 groundwork: option projections and stability on graded circuits -/

theorem wire_triple_projections {c₁ c₂ : Circuit} {x : Nat}
    (h : (c₁.wireAt x).map (fun w => (w.id, w.source, w.value)) =
      (c₂.wireAt x).map (fun w => (w.id, w.source, w.value))) :
    (c₁.wireAt x).map Wire.source = (c₂.wireAt x).map Wire.source ∧
    (c₁.wireAt x).map Wire.value = (c₂.wireAt x).map Wire.value ∧
    (c₁.wireAt x).map Wire.id = (c₂.wireAt x).map Wire.id ∧
    (c₁.wireAt x).isSome = (c₂.wireAt x).isSome := by
  cases h1 : c₁.wireAt x with
  | none =>
    rw [h1] at h
    cases h2 : c₂.wireAt x with
    | none => exact ⟨rfl, rfl, rfl, rfl⟩
    | some w => rw [h2] at h; simp at h
  | some w =>
    rw [h1] at h
    cases h2 : c₂.wireAt x with
    | none => rw [h2] at h; simp at h
    | some w2 =>
      rw [h2] at h
      simp only [Option.map_some'] at h ⊢
      have hp := Option.some.inj h
      refine ⟨?_, ?_, ?_, rfl⟩
      · exact congrArg (fun t => some t.2.1) hp
      · exact congrArg (fun t => some t.2.2) hp
      · exact congrArg (fun t => some t.1) hp

theorem sourceOf_of_wire_source {c₁ c₂ : Circuit} {x : Nat}
    (h : (c₁.wireAt x).map Wire.source = (c₂.wireAt x).map Wire.source) :
    c₁.sourceOf x = c₂.sourceOf x := by
  rw [Circuit.sourceOf, Circuit.sourceOf]
  cases h1 : c₁.wireAt x with
  | none =>
    rw [h1] at h
    cases h2 : c₂.wireAt x with
    | none => rfl
    | some w => rw [h2] at h; simp at h
  | some w =>
    rw [h1] at h
    cases h2 : c₂.wireAt x with
    | none => rw [h2] at h; simp at h
    | some w2 =>
      rw [h2] at h
      simp only [Option.map_some'] at h
      show w.source = w2.source
      exact Option.some.inj h

theorem wireVal_succ_no_gate (c : Circuit) (env : Nat → Bool) (f gid wid : Nat)
    (hs : c.sourceOf wid = some gid) (hg : c.gateAt gid = none) :
    wireVal c env (f + 1) wid = false := by
  simp only [wireVal, hs, hg]

theorem wireVal_stable_of_graded (c : Circuit) (rk : Nat → Nat)
    (hgr : Graded c rk) (env : Nat → Bool) :
    ∀ r wid s, c.sourceOf wid = some s → rk s < r →
      ∀ f₁ f₂, rk s + 1 ≤ f₁ → rk s + 1 ≤ f₂ →
        wireVal c env f₁ wid = wireVal c env f₂ wid := by
  intro r
  induction r with
  | zero => intro wid s _ h; omega
  | succ m ih =>
    intro wid s hs hlt f₁ f₂ h₁ h₂
    obtain ⟨a₁, rfl⟩ : ∃ a, f₁ = a + 1 := ⟨f₁ - 1, by omega⟩
    obtain ⟨a₂, rfl⟩ : ∃ a, f₂ = a + 1 := ⟨f₂ - 1, by omega⟩
    cases hg : c.gateAt s with
    | none =>
      rw [wireVal_succ_no_gate c env a₁ s wid hs hg,
        wireVal_succ_no_gate c env a₂ s wid hs hg]
    | some g =>
      rw [wireVal_succ_of_gate c env a₁ s wid g hs hg,
        wireVal_succ_of_gate c env a₂ s wid g hs hg]
      have hm : g.inputs.map (wireVal c env a₁) = g.inputs.map (wireVal c env a₂) := by
        apply List.map_congr_left
        intro x hx
        cases hsx : c.sourceOf x with
        | none =>
          rw [wireVal_sourceless c env _ x hsx, wireVal_sourceless c env _ x hsx]
        | some u =>
          have hu : rk u < rk s := hgr u s ⟨g, hg, x, hx, hsx⟩
          exact ih x u hsx (by omega) a₁ a₂ (by omega) (by omega)
      rw [hm]

theorem evals_of_graded (c : Circuit) (rk : Nat → Nat) (hgr : Graded c rk)
    (env : Nat → Bool) (wid : Nat) : ∃ v, Evals c env wid v := by
  cases hs : c.sourceOf wid with
  | none => exact ⟨env wid, 0, fun f _ => wireVal_sourceless c env f wid hs⟩
  | some s =>
    exact ⟨wireVal c env (rk s + 1) wid, rk s + 1, fun f hf =>
      wireVal_stable_of_graded c rk hgr env (rk s + 1) wid s hs (by omega)
        f (rk s + 1) hf (le_refl _)⟩

theorem evals_unique {c : Circuit} {env : Nat → Bool} {wid : Nat} {v₁ v₂ : Bool}
    (h₁ : Evals c env wid v₁) (h₂ : Evals c env wid v₂) : v₁ = v₂ := by
  obtain ⟨N₁, h₁⟩ := h₁
  obtain ⟨N₂, h₂⟩ := h₂
  rw [← h₁ (N₁ + N₂) (by omega), ← h₂ (N₁ + N₂) (by omega)]

/-! ## C1 groundwork: counts and triples through each primitive edit -/

theorem count_singleton_self (a : Nat) : List.count a [a] = 1 := by simp

theorem count_singleton_ne (a b : Nat) (h : b ≠ a) : List.count a [b] = 0 := by
  rw [List.count_cons, List.count_nil, if_neg (by simpa using h)]

theorem wtriple_updGate (c : Circuit) (g : Nat) (f : Gate → Gate) (x : Nat) :
    wtriple (c.updGate g f) x = wtriple c x := by
  rw [wtriple, wtriple, congrFun (wireAt_updGate c g f) x]

theorem cntD_updGate (c : Circuit) (g : Nat) (f : Gate → Gate) (x v : Nat) :
    cntD (c.updGate g f) x v = cntD c x v := by
  rw [cntD, cntD, congrFun (wireAt_updGate c g f) x]

theorem wtriple_link_input (c : Circuit) (wid gid x : Nat) :
    wtriple (link_input c wid gid) x = wtriple c x := by
  rw [wtriple, wtriple]
  by_cases h : wid = x
  · subst h
    rw [link_input_wireAt_self]
    cases c.wireAt wid <;> rfl
  · rw [link_input_wireAt_ne c wid gid x h]

theorem cntD_link_input_ne (c : Circuit) (wid gid x v : Nat) (hv : v ≠ gid) :
    cntD (link_input c wid gid) x v = cntD c x v := by
  rw [cntD, cntD]
  by_cases h : wid = x
  · subst h
    rw [link_input_wireAt_self]
    cases c.wireAt wid with
    | none => rfl
    | some w =>
      simp only [Option.map_map, Option.map_some', Option.getD_some, Function.comp]
      rw [List.count_append, count_singleton_ne v gid (Ne.symm hv)]
      omega
  · rw [link_input_wireAt_ne c wid gid x h]

theorem cntD_link_input_self (c : Circuit) (wid gid x : Nat)
    (hx : x < c.wires.length) :
    cntD (link_input c wid gid) x gid = cntD c x gid + List.count x [wid] := by
  rw [cntD, cntD]
  by_cases h : wid = x
  · subst h
    obtain ⟨w, hw⟩ := wireAt_of_lt hx
    rw [link_input_wireAt_self, hw]
    simp only [Option.map_some', Option.getD_some]
    rw [List.count_append, count_singleton_self, count_singleton_self]
  · rw [link_input_wireAt_ne c wid gid x h, count_singleton_ne x wid h]
    omega

theorem cntD_link_output (c : Circuit) (wo : Option Nat) (gid : Nat) (x v : Nat) :
    cntD (link_output c wo gid) x v = cntD c x v := by
  rw [cntD, cntD]
  cases wo with
  | none => rw [link_output_wireAt_none]
  | some o =>
    by_cases h : o = x
    · subst h
      rw [link_output_wireAt_some_self]
      cases c.wireAt o <;> rfl
    · rw [link_output_wireAt_some_ne c o gid x h]

theorem wtriple_link_output_none (c : Circuit) (gid x : Nat) :
    wtriple (link_output c none gid) x = wtriple c x := by
  rw [wtriple, wtriple, link_output_wireAt_none]

theorem wtriple_link_output_ne (c : Circuit) (o gid x : Nat) (h : o ≠ x) :
    wtriple (link_output c (some o) gid) x = wtriple c x := by
  rw [wtriple, wtriple, link_output_wireAt_some_ne c o gid x h]

theorem wtriple_link_output_self (c : Circuit) (o gid : Nat) :
    wtriple (link_output c (some o) gid) o =
      (c.wireAt o).map (fun w => (w.id, some gid, w.value)) := by
  rw [wtriple, link_output_wireAt_some_self]
  cases c.wireAt o <;> rfl

theorem wtriple_disconnect (c : Circuit) (gid : Nat) (g : Gate)
    (hg : c.gateAt gid = some g) (x : Nat) :
    wtriple (disconnect_inputs c gid) x = wtriple c x := by
  rw [wtriple, wtriple]
  exact disconnect_wire_triple c gid g hg x

theorem cntD_disconnect_ne (c : Circuit) (gid : Nat) (g : Gate)
    (hg : c.gateAt gid = some g) (v : Nat) (hv : v ≠ gid) (x : Nat) :
    cntD (disconnect_inputs c gid) x v = cntD c x v := by
  rw [cntD, cntD, disconnect_count_ne c gid g hg v hv x]

theorem cntD_disconnect_self (c : Circuit) (gid : Nat) (g : Gate)
    (hg : c.gateAt gid = some g) (x : Nat) :
    cntD (disconnect_inputs c gid) x gid = cntD c x gid - List.count x g.inputs := by
  rw [cntD, cntD, disconnect_count_self c gid g hg x]
  cases c.wireAt x with
  | none => simp
  | some w => rfl

theorem wtriple_add_wire (c : Circuit) (x : Nat) (h : x ≠ c.wires.length) :
    wtriple (c.add_wire).1 x = wtriple c x := by
  rw [wtriple, wtriple, wireAt_add_wire_ne c x h]

theorem cntD_add_wire (c : Circuit) (x v : Nat) (h : x ≠ c.wires.length) :
    cntD (c.add_wire).1 x v = cntD c x v := by
  rw [cntD, cntD, wireAt_add_wire_ne c x h]

theorem cntD_add_wire_new (c : Circuit) (v : Nat) :
    cntD (c.add_wire).1 c.wires.length v = 0 := by
  rw [cntD, wireAt_add_wire_self]
  rfl

theorem wtriple_add_gate (c : Circuit) (t : GateType) (x : Nat) :
    wtriple (c.add_gate t).1 x = wtriple c x := by
  rw [wtriple, wtriple, congrFun (wireAt_congr (add_gate_wires c t)) x]

theorem cntD_add_gate (c : Circuit) (t : GateType) (x v : Nat) :
    cntD (c.add_gate t).1 x v = cntD c x v := by
  rw [cntD, cntD, congrFun (wireAt_congr (add_gate_wires c t)) x]

/-! ## C1 groundwork: the three composite stages of every rewrite case -/

theorem updGate_wires_length (c : Circuit) (g : Nat) (f : Gate → Gate) :
    (c.updGate g f).wires.length = c.wires.length := by
  rw [updGate_wires]

theorem add_wire_gates_length (c : Circuit) :
    (c.add_wire).1.gates.length = c.gates.length := rfl

theorem add_gate_wires_length (c : Circuit) (t : GateType) :
    (c.add_gate t).1.wires.length = c.wires.length := rfl

theorem nfy_gates_len (c : Circuit) (gid i₁ i₂ : Nat) :
    (link_input (link_input ((disconnect_inputs c gid).updGate gid
      (fun g => { g with type := NAND })) i₁ gid) i₂ gid).gates.length
      = c.gates.length := by
  rw [link_input_gates_length, link_input_gates_length, updGate_gates_length,
    disconnect_gates_length]

theorem nfy_wires_len (c : Circuit) (gid i₁ i₂ : Nat) :
    (link_input (link_input ((disconnect_inputs c gid).updGate gid
      (fun g => { g with type := NAND })) i₁ gid) i₂ gid).wires.length
      = c.wires.length := by
  rw [link_input_wires_length, link_input_wires_length, updGate_wires_length,
    disconnect_wires_length]

theorem nfy_inputWires (c : Circuit) (gid i₁ i₂ : Nat) :
    (link_input (link_input ((disconnect_inputs c gid).updGate gid
      (fun g => { g with type := NAND })) i₁ gid) i₂ gid).inputWires
      = c.inputWires := by
  rw [link_input_inputWires, link_input_inputWires, updGate_inputWires,
    disconnect_inputWires]

theorem nfy_outputWires (c : Circuit) (gid i₁ i₂ : Nat) :
    (link_input (link_input ((disconnect_inputs c gid).updGate gid
      (fun g => { g with type := NAND })) i₁ gid) i₂ gid).outputWires
      = c.outputWires := by
  rw [link_input_outputWires, link_input_outputWires, updGate_outputWires,
    disconnect_outputWires]

theorem nfy_gateAt_ne (c : Circuit) (gid i₁ i₂ u : Nat) (h : gid ≠ u) :
    (link_input (link_input ((disconnect_inputs c gid).updGate gid
      (fun g => { g with type := NAND })) i₁ gid) i₂ gid).gateAt u
      = c.gateAt u := by
  rw [link_input_gateAt_ne _ _ _ _ h, link_input_gateAt_ne _ _ _ _ h,
    gateAt_updGate_ne _ _ _ _ h, disconnect_gateAt_ne c gid u h]

theorem nfy_gateAt_self (c : Circuit) (gid : Nat) (g : Gate) (i₁ i₂ : Nat)
    (hg : c.gateAt gid = some g) :
    (link_input (link_input ((disconnect_inputs c gid).updGate gid
      (fun g => { g with type := NAND })) i₁ gid) i₂ gid).gateAt gid
      = some { g with type := NAND, inputs := [i₁, i₂] } := by
  rw [link_input_gateAt_self, link_input_gateAt_self, gateAt_updGate_self,
    disconnect_gateAt_self c gid g hg]
  rfl

theorem nfy_wtriple (c : Circuit) (gid : Nat) (g : Gate) (i₁ i₂ : Nat)
    (hg : c.gateAt gid = some g) (x : Nat) :
    wtriple (link_input (link_input ((disconnect_inputs c gid).updGate gid
      (fun g => { g with type := NAND })) i₁ gid) i₂ gid) x
      = wtriple c x := by
  rw [wtriple_link_input, wtriple_link_input, wtriple_updGate,
    wtriple_disconnect c gid g hg x]

theorem nfy_cnt_ne (c : Circuit) (gid : Nat) (g : Gate) (i₁ i₂ : Nat)
    (hg : c.gateAt gid = some g) (v : Nat) (hv : v ≠ gid) (x : Nat) :
    cntD (link_input (link_input ((disconnect_inputs c gid).updGate gid
      (fun g => { g with type := NAND })) i₁ gid) i₂ gid) x v
      = cntD c x v := by
  rw [cntD_link_input_ne _ _ _ _ _ hv, cntD_link_input_ne _ _ _ _ _ hv,
    cntD_updGate, cntD_disconnect_ne c gid g hg v hv x]

theorem nfy_cnt_self (c : Circuit) (gid : Nat) (g : Gate) (i₁ i₂ : Nat)
    (hg : c.gateAt gid = some g) (x : Nat) (hx : x < c.wires.length) :
    cntD (link_input (link_input ((disconnect_inputs c gid).updGate gid
      (fun g => { g with type := NAND })) i₁ gid) i₂ gid) x gid
      = cntD c x gid - List.count x g.inputs + List.count x [i₁, i₂] := by
  rw [cntD_link_input_self _ _ _ _ (by
      rw [link_input_wires_length, updGate_wires_length, disconnect_wires_length]
      exact hx),
    cntD_link_input_self _ _ _ _ (by
      rw [updGate_wires_length, disconnect_wires_length]
      exact hx),
    cntD_updGate, cntD_disconnect_self c gid g hg x]
  simp only [List.count_cons, List.count_nil]
  omega

theorem nwo_gates_len (d : Circuit) (v : Nat) :
    (link_output ((d.add_wire).1) (some d.wires.length) v).gates.length
      = d.gates.length := by
  rw [link_output_gates_length, add_wire_gates_length]

theorem nwo_wires_len (d : Circuit) (v : Nat) :
    (link_output ((d.add_wire).1) (some d.wires.length) v).wires.length
      = d.wires.length + 1 := by
  rw [link_output_wires_length, add_wire_length]

theorem nwo_inputWires (d : Circuit) (v : Nat) :
    (link_output ((d.add_wire).1) (some d.wires.length) v).inputWires
      = d.inputWires := by
  rw [link_output_inputWires, add_wire_inputWires]

theorem nwo_outputWires (d : Circuit) (v : Nat) :
    (link_output ((d.add_wire).1) (some d.wires.length) v).outputWires
      = d.outputWires := by
  rw [link_output_outputWires, add_wire_outputWires]

theorem nwo_gateAt_ne (d : Circuit) (v u : Nat) (h : v ≠ u) :
    (link_output ((d.add_wire).1) (some d.wires.length) v).gateAt u
      = d.gateAt u := by
  rw [link_output_gateAt_ne _ _ _ _ h]
  exact congrFun (gateAt_congr (add_wire_gates d)) u

theorem nwo_gateAt_self (d : Circuit) (v : Nat) :
    (link_output ((d.add_wire).1) (some d.wires.length) v).gateAt v
      = (d.gateAt v).map (fun g => { g with output := some d.wires.length }) := by
  rw [link_output_gateAt_self]
  rw [congrFun (gateAt_congr (add_wire_gates d)) v]

theorem nwo_wireAt_old (d : Circuit) (v x : Nat) (h : x ≠ d.wires.length) :
    (link_output ((d.add_wire).1) (some d.wires.length) v).wireAt x
      = d.wireAt x := by
  rw [link_output_wireAt_some_ne _ _ _ _ (fun he => h he.symm),
    wireAt_add_wire_ne d x h]

theorem nwo_wireAt_new (d : Circuit) (v : Nat) :
    (link_output ((d.add_wire).1) (some d.wires.length) v).wireAt d.wires.length
      = some { id := d.wires.length, value := false, previousValue := false,
               source := some v, destinations := [] } := by
  rw [link_output_wireAt_some_self]
  rw [wireAt_add_wire_self]
  rfl

theorem ng2_gates_len (d : Circuit) (w₁ w₂ : Nat) :
    (link_input (link_input ((d.add_gate NAND).1) w₁ d.gates.length)
      w₂ d.gates.length).gates.length = d.gates.length + 1 := by
  rw [link_input_gates_length, link_input_gates_length, add_gate_length]

theorem ng2_wires_len (d : Circuit) (w₁ w₂ : Nat) :
    (link_input (link_input ((d.add_gate NAND).1) w₁ d.gates.length)
      w₂ d.gates.length).wires.length = d.wires.length := by
  rw [link_input_wires_length, link_input_wires_length, add_gate_wires_length]

theorem ng2_inputWires (d : Circuit) (w₁ w₂ : Nat) :
    (link_input (link_input ((d.add_gate NAND).1) w₁ d.gates.length)
      w₂ d.gates.length).inputWires = d.inputWires := by
  rw [link_input_inputWires, link_input_inputWires, add_gate_inputWires]

theorem ng2_outputWires (d : Circuit) (w₁ w₂ : Nat) :
    (link_input (link_input ((d.add_gate NAND).1) w₁ d.gates.length)
      w₂ d.gates.length).outputWires = d.outputWires := by
  rw [link_input_outputWires, link_input_outputWires, add_gate_outputWires]

theorem ng2_gateAt_ne (d : Circuit) (w₁ w₂ u : Nat) (h : u ≠ d.gates.length) :
    (link_input (link_input ((d.add_gate NAND).1) w₁ d.gates.length)
      w₂ d.gates.length).gateAt u = d.gateAt u := by
  rw [link_input_gateAt_ne _ _ _ _ (fun he => h he.symm),
    link_input_gateAt_ne _ _ _ _ (fun he => h he.symm),
    gateAt_add_gate_ne d NAND u h]

theorem ng2_gateAt_self (d : Circuit) (w₁ w₂ : Nat) :
    (link_input (link_input ((d.add_gate NAND).1) w₁ d.gates.length)
      w₂ d.gates.length).gateAt d.gates.length
      = some { id := d.gates.length, type := NAND, inputs := [w₁, w₂],
               output := none, state := false, dirty := true } := by
  rw [link_input_gateAt_self, link_input_gateAt_self, gateAt_add_gate_self]
  rfl

theorem ng2_wtriple (d : Circuit) (w₁ w₂ x : Nat) :
    wtriple (link_input (link_input ((d.add_gate NAND).1) w₁ d.gates.length)
      w₂ d.gates.length) x = wtriple d x := by
  rw [wtriple_link_input, wtriple_link_input, wtriple_add_gate]

theorem ng2_cnt_ne (d : Circuit) (w₁ w₂ : Nat) (v : Nat)
    (hv : v ≠ d.gates.length) (x : Nat) :
    cntD (link_input (link_input ((d.add_gate NAND).1) w₁ d.gates.length)
      w₂ d.gates.length) x v = cntD d x v := by
  rw [cntD_link_input_ne _ _ _ _ _ hv, cntD_link_input_ne _ _ _ _ _ hv,
    cntD_add_gate]

theorem ng2_cnt_self (d : Circuit) (w₁ w₂ : Nat) (x : Nat)
    (hx : x < d.wires.length) :
    cntD (link_input (link_input ((d.add_gate NAND).1) w₁ d.gates.length)
      w₂ d.gates.length) x d.gates.length
      = cntD d x d.gates.length + List.count x [w₁, w₂] := by
  rw [cntD_link_input_self _ _ _ _ (by
      rw [link_input_wires_length, add_gate_wires_length]
      exact hx),
    cntD_link_input_self _ _ _ _ (by
      rw [add_gate_wires_length]
      exact hx),
    cntD_add_gate]
  simp only [List.count_cons, List.count_nil]
  omega

/-! ## C1 groundwork: each rewrite case as a normalized stage composition -/

theorem decomposeGate_NOT_eq (c : Circuit) (gid : Nat) (g : Gate)
    (hg : c.gateAt gid = some g) (hty : g.type = NOT) (a : Nat)
    (hin : g.inputs = [a]) :
    decomposeGate c gid =
      link_input (link_input ((disconnect_inputs c gid).updGate gid
        (fun g => { g with type := NAND })) a gid) a gid := by
  simp only [decomposeGate, hg, hty, hin]

theorem decomposeGate_BUFFER_eq (c : Circuit) (gid : Nat) (g : Gate)
    (hg : c.gateAt gid = some g) (hty : g.type = BUFFER) (a : Nat)
    (hin : g.inputs = [a]) :
    decomposeGate c gid =
      link_output
        (link_input
          (link_input
            (((link_output
                ((link_input (link_input ((disconnect_inputs c gid).updGate gid
                  (fun g => { g with type := NAND })) a gid) a gid).add_wire).1
                (some c.wires.length) gid).add_gate NAND).1)
            c.wires.length c.gates.length)
          c.wires.length c.gates.length)
        g.output c.gates.length := by
  simp only [decomposeGate, hg, hty, hin, add_wire_snd, add_gate_snd,
    link_input_gates_length, link_input_wires_length, link_output_gates_length,
    link_output_wires_length, disconnect_gates_length, disconnect_wires_length,
    updGate_gates_length, updGate_wires_length, add_wire_length, add_gate_length,
    add_wire_gates_length, add_gate_wires_length]

theorem decomposeGate_AND_eq (c : Circuit) (gid : Nat) (g : Gate)
    (hg : c.gateAt gid = some g) (hty : g.type = AND) (a b : Nat)
    (hin : g.inputs = [a, b]) :
    decomposeGate c gid =
      link_output
        (link_input
          (link_input
            (((link_output
                ((link_input (link_input ((disconnect_inputs c gid).updGate gid
                  (fun g => { g with type := NAND })) a gid) b gid).add_wire).1
                (some c.wires.length) gid).add_gate NAND).1)
            c.wires.length c.gates.length)
          c.wires.length c.gates.length)
        g.output c.gates.length := by
  simp only [decomposeGate, hg, hty, hin, add_wire_snd, add_gate_snd,
    link_input_gates_length, link_input_wires_length, link_output_gates_length,
    link_output_wires_length, disconnect_gates_length, disconnect_wires_length,
    updGate_gates_length, updGate_wires_length, add_wire_length, add_gate_length,
    add_wire_gates_length, add_gate_wires_length]

theorem decomposeGate_OR_eq (c : Circuit) (gid : Nat) (g : Gate)
    (hg : c.gateAt gid = some g) (hty : g.type = OR) (a b : Nat)
    (hin : g.inputs = [a, b]) :
    decomposeGate c gid =
      link_output
        (link_input
          (link_input
            (((link_output
                ((link_input (link_input (((link_output
                    ((link_input (link_input ((disconnect_inputs c gid).updGate gid
                      (fun g => { g with type := NAND })) a gid) a gid).add_wire).1
                    (some c.wires.length) gid).add_gate NAND).1)
                  b c.gates.length) b c.gates.length).add_wire).1
                (some (c.wires.length + 1)) c.gates.length).add_gate NAND).1)
            c.wires.length (c.gates.length + 1))
          (c.wires.length + 1) (c.gates.length + 1))
        g.output (c.gates.length + 1) := by
  simp only [decomposeGate, hg, hty, hin, add_wire_snd, add_gate_snd,
    link_input_gates_length, link_input_wires_length, link_output_gates_length,
    link_output_wires_length, disconnect_gates_length, disconnect_wires_length,
    updGate_gates_length, updGate_wires_length, add_wire_length, add_gate_length,
    add_wire_gates_length, add_gate_wires_length]

theorem decomposeGate_XOR_eq (c : Circuit) (gid : Nat) (g : Gate)
    (hg : c.gateAt gid = some g) (hty : g.type = XOR) (a b : Nat)
    (hin : g.inputs = [a, b]) :
    decomposeGate c gid =
      link_output
        (link_input
          (link_input
            (((link_output
                ((link_input (link_input (((link_output
                    ((link_input (link_input (((link_output
                        ((link_input (link_input ((disconnect_inputs c gid).updGate
                            gid (fun g => { g with type := NAND })) a gid)
                          b gid).add_wire).1
                        (some c.wires.length) gid).add_gate NAND).1)
                      a c.gates.length) c.wires.length c.gates.length).add_wire).1
                    (some (c.wires.length + 1)) c.gates.length).add_gate NAND).1)
                  b (c.gates.length + 1)) c.wires.length
                  (c.gates.length + 1)).add_wire).1
                (some (c.wires.length + 1 + 1)) (c.gates.length + 1)).add_gate
              NAND).1)
            (c.wires.length + 1) (c.gates.length + 1 + 1))
          (c.wires.length + 1 + 1) (c.gates.length + 1 + 1))
        g.output (c.gates.length + 1 + 1) := by
  simp only [decomposeGate, hg, hty, hin, add_wire_snd, add_gate_snd,
    link_input_gates_length, link_input_wires_length, link_output_gates_length,
    link_output_wires_length, disconnect_gates_length, disconnect_wires_length,
    updGate_gates_length, updGate_wires_length, add_wire_length, add_gate_length,
    add_wire_gates_length, add_gate_wires_length]

/-! ## C1 groundwork: stage lemmas with the fresh ids as free variables -/

theorem cntD_link_input_wire_ne (c : Circuit) (wid gid x v : Nat) (h : wid ≠ x) :
    cntD (link_input c wid gid) x v = cntD c x v := by
  rw [cntD, cntD, link_input_wireAt_ne c wid gid x h]

theorem link_output_wireAt_skip (c : Circuit) (wo : Option Nat) (v x : Nat)
    (h : wo ≠ some x) : (link_output c wo v).wireAt x = c.wireAt x := by
  cases wo with
  | none => exact link_output_wireAt_none c v x
  | some o => exact link_output_wireAt_some_ne c o v x (fun he => h (by rw [he]))

theorem wtriple_link_output_skip (c : Circuit) (wo : Option Nat) (v x : Nat)
    (h : wo ≠ some x) : wtriple (link_output c wo v) x = wtriple c x := by
  rw [wtriple, wtriple, link_output_wireAt_skip c wo v x h]

theorem wtriple_to_fixed_source {c₁ c₂ : Circuit} {x : Nat} (s : Option Nat)
    (h : wtriple c₁ x = wtriple c₂ x) :
    (c₁.wireAt x).map (fun w => (w.id, s, w.value)) =
      (c₂.wireAt x).map (fun w => (w.id, s, w.value)) := by
  rw [wtriple, wtriple] at h
  cases h1 : c₁.wireAt x with
  | none =>
    rw [h1] at h
    cases h2 : c₂.wireAt x with
    | none => rfl
    | some w => rw [h2] at h; simp at h
  | some w =>
    rw [h1] at h
    cases h2 : c₂.wireAt x with
    | none => rw [h2] at h; simp at h
    | some w2 =>
      rw [h2] at h
      simp only [Option.map_some'] at h ⊢
      have hp := Option.some.inj h
      have hid : w.id = w2.id := congrArg Prod.fst hp
      have hv : w.value = w2.value := congrArg (fun t => t.2.2) hp
      rw [hid, hv]

theorem lov_gates_len (d : Circuit) (v mv : Nat) :
    (link_output ((d.add_wire).1) (some mv) v).gates.length = d.gates.length := by
  rw [link_output_gates_length, add_wire_gates_length]

theorem lov_wires_len (d : Circuit) (v mv : Nat) :
    (link_output ((d.add_wire).1) (some mv) v).wires.length
      = d.wires.length + 1 := by
  rw [link_output_wires_length, add_wire_length]

theorem lov_inputWires (d : Circuit) (v mv : Nat) :
    (link_output ((d.add_wire).1) (some mv) v).inputWires = d.inputWires := by
  rw [link_output_inputWires, add_wire_inputWires]

theorem lov_outputWires (d : Circuit) (v mv : Nat) :
    (link_output ((d.add_wire).1) (some mv) v).outputWires = d.outputWires := by
  rw [link_output_outputWires, add_wire_outputWires]

theorem lov_gateAt_ne (d : Circuit) (v mv u : Nat) (h : v ≠ u) :
    (link_output ((d.add_wire).1) (some mv) v).gateAt u = d.gateAt u := by
  rw [link_output_gateAt_ne _ _ _ _ h]
  exact congrFun (gateAt_congr (add_wire_gates d)) u

theorem lov_gateAt_self (d : Circuit) (v mv : Nat) :
    (link_output ((d.add_wire).1) (some mv) v).gateAt v
      = (d.gateAt v).map (fun g => { g with output := some mv }) := by
  rw [link_output_gateAt_self]
  rw [congrFun (gateAt_congr (add_wire_gates d)) v]

theorem lov_wireAt_old (d : Circuit) (v mv x : Nat) (hm : mv = d.wires.length)
    (h : x ≠ mv) : (link_output ((d.add_wire).1) (some mv) v).wireAt x
      = d.wireAt x := by
  subst hm
  exact nwo_wireAt_old d v x h

theorem lov_wireAt_new (d : Circuit) (v mv : Nat) (hm : mv = d.wires.length) :
    (link_output ((d.add_wire).1) (some mv) v).wireAt mv
      = some { id := mv, value := false, previousValue := false,
               source := some v, destinations := [] } := by
  subst hm
  exact nwo_wireAt_new d v

theorem lov_wtriple_old (d : Circuit) (v mv x : Nat) (hm : mv = d.wires.length)
    (h : x ≠ mv) : wtriple (link_output ((d.add_wire).1) (some mv) v) x
      = wtriple d x := by
  rw [wtriple, wtriple, lov_wireAt_old d v mv x hm h]

theorem lov_cnt_old (d : Circuit) (v mv x u : Nat) (hm : mv = d.wires.length)
    (h : x ≠ mv) : cntD (link_output ((d.add_wire).1) (some mv) v) x u
      = cntD d x u := by
  rw [cntD, cntD, lov_wireAt_old d v mv x hm h]

theorem ngv_gates_len (d : Circuit) (w₁ w₂ nv : Nat) :
    (link_input (link_input ((d.add_gate NAND).1) w₁ nv) w₂ nv).gates.length
      = d.gates.length + 1 := by
  rw [link_input_gates_length, link_input_gates_length, add_gate_length]

theorem ngv_wires_len (d : Circuit) (w₁ w₂ nv : Nat) :
    (link_input (link_input ((d.add_gate NAND).1) w₁ nv) w₂ nv).wires.length
      = d.wires.length := by
  rw [link_input_wires_length, link_input_wires_length, add_gate_wires_length]

theorem ngv_inputWires (d : Circuit) (w₁ w₂ nv : Nat) :
    (link_input (link_input ((d.add_gate NAND).1) w₁ nv) w₂ nv).inputWires
      = d.inputWires := by
  rw [link_input_inputWires, link_input_inputWires, add_gate_inputWires]

theorem ngv_outputWires (d : Circuit) (w₁ w₂ nv : Nat) :
    (link_input (link_input ((d.add_gate NAND).1) w₁ nv) w₂ nv).outputWires
      = d.outputWires := by
  rw [link_input_outputWires, link_input_outputWires, add_gate_outputWires]

theorem ngv_gateAt_ne (d : Circuit) (w₁ w₂ nv u : Nat) (h1 : nv ≠ u)
    (h2 : u ≠ d.gates.length) :
    (link_input (link_input ((d.add_gate NAND).1) w₁ nv) w₂ nv).gateAt u
      = d.gateAt u := by
  rw [link_input_gateAt_ne _ _ _ _ h1, link_input_gateAt_ne _ _ _ _ h1,
    gateAt_add_gate_ne d NAND u h2]

theorem ngv_gateAt_self (d : Circuit) (w₁ w₂ nv : Nat)
    (hn : nv = d.gates.length) :
    (link_input (link_input ((d.add_gate NAND).1) w₁ nv) w₂ nv).gateAt nv
      = some { id := nv, type := NAND, inputs := [w₁, w₂],
               output := none, state := false, dirty := true } := by
  subst hn
  exact ng2_gateAt_self d w₁ w₂

theorem ngv_wtriple (d : Circuit) (w₁ w₂ nv x : Nat) :
    wtriple (link_input (link_input ((d.add_gate NAND).1) w₁ nv) w₂ nv) x
      = wtriple d x := by
  rw [wtriple_link_input, wtriple_link_input, wtriple_add_gate]

theorem ngv_cnt_ne (d : Circuit) (w₁ w₂ nv x v : Nat) (hv : v ≠ nv) :
    cntD (link_input (link_input ((d.add_gate NAND).1) w₁ nv) w₂ nv) x v
      = cntD d x v := by
  rw [cntD_link_input_ne _ _ _ _ _ hv, cntD_link_input_ne _ _ _ _ _ hv,
    cntD_add_gate]

theorem ngv_cnt_other (d : Circuit) (w₁ w₂ nv x v : Nat) (h1 : w₁ ≠ x)
    (h2 : w₂ ≠ x) :
    cntD (link_input (link_input ((d.add_gate NAND).1) w₁ nv) w₂ nv) x v
      = cntD d x v := by
  rw [cntD_link_input_wire_ne _ _ _ _ _ h2, cntD_link_input_wire_ne _ _ _ _ _ h1,
    cntD_add_gate]

theorem ngv_cnt_self (d : Circuit) (w₁ w₂ nv x : Nat) (hx : x < d.wires.length) :
    cntD (link_input (link_input ((d.add_gate NAND).1) w₁ nv) w₂ nv) x nv
      = cntD d x nv + List.count x [w₁, w₂] := by
  rw [cntD_link_input_self _ _ _ _ (by
      rw [link_input_wires_length, add_gate_wires_length]
      exact hx),
    cntD_link_input_self _ _ _ _ (by
      rw [add_gate_wires_length]
      exact hx),
    cntD_add_gate]
  simp only [List.count_cons, List.count_nil]
  omega

/-! ## C1 groundwork: everything the AND rewrite does to the circuit -/

theorem decomposeGate_AND_facts (c : Circuit) (gid : Nat) (g : Gate)
    (hg : c.gateAt gid = some g) (hty : g.type = AND) (a b : Nat)
    (hin : g.inputs = [a, b])
    (hom : ∀ o, g.output = some o → o < c.wires.length) :
    (decomposeGate c gid).gates.length = c.gates.length + 1 ∧
    (decomposeGate c gid).wires.length = c.wires.length + 1 ∧
    (decomposeGate c gid).inputWires = c.inputWires ∧
    (decomposeGate c gid).outputWires = c.outputWires ∧
    (∀ u, gid ≠ u → u ≠ c.gates.length →
      (decomposeGate c gid).gateAt u = c.gateAt u) ∧
    (decomposeGate c gid).gateAt gid =
      some { g with
             type := NAND,
             inputs := [a, b],
             output := some c.wires.length } ∧
    (decomposeGate c gid).gateAt c.gates.length =
      some { id := c.gates.length, type := NAND,
             inputs := [c.wires.length, c.wires.length],
             output := g.output, state := false, dirty := true } ∧
    (∀ x, x ≠ c.wires.length → g.output ≠ some x →
      wtriple (decomposeGate c gid) x = wtriple c x) ∧
    (∀ o, g.output = some o →
      wtriple (decomposeGate c gid) o =
        (c.wireAt o).map (fun w => (w.id, some c.gates.length, w.value))) ∧
    (decomposeGate c gid).wireAt c.wires.length =
      some { id := c.wires.length, value := false, previousValue := false,
             source := some gid,
             destinations := [c.gates.length, c.gates.length] } ∧
    (∀ x v, x ≠ c.wires.length → v ≠ gid →
      cntD (decomposeGate c gid) x v = cntD c x v) ∧
    (∀ x, x < c.wires.length →
      cntD (decomposeGate c gid) x gid =
        cntD c x gid - List.count x g.inputs + List.count x [a, b]) := by
  have hmN : c.wires.length =
      (link_input (link_input ((disconnect_inputs c gid).updGate gid
        (fun g => { g with type := NAND })) a gid) b gid).wires.length :=
    (nfy_wires_len c gid a b).symm
  have hgy : gid ≠ c.gates.length := Nat.ne_of_lt (gateAt_lt hg)
  have hgn : c.gates.length ≠ gid := Ne.symm hgy
  rw [decomposeGate_AND_eq c gid g hg hty a b hin]
  refine ⟨?_, ?_, ?_, ?_, ?_, ?_, ?_, ?_, ?_, ?_, ?_, ?_⟩
  · rw [link_output_gates_length, ngv_gates_len, lov_gates_len, nfy_gates_len]
  · rw [link_output_wires_length, ngv_wires_len, lov_wires_len, nfy_wires_len]
  · rw [link_output_inputWires, ngv_inputWires, lov_inputWires, nfy_inputWires]
  · rw [link_output_outputWires, ngv_outputWires, lov_outputWires,
      nfy_outputWires]
  · intro u hu1 hu2
    rw [link_output_gateAt_ne _ _ _ _ (fun he => hu2 he.symm)]
    rw [ngv_gateAt_ne _ _ _ _ _ (fun he => hu2 he.symm)
      (by rw [lov_gates_len, nfy_gates_len]; exact hu2)]
    rw [lov_gateAt_ne _ _ _ _ hu1]
    exact nfy_gateAt_ne c gid a b u hu1
  · rw [link_output_gateAt_ne _ _ _ _ hgn]
    rw [ngv_gateAt_ne _ _ _ _ _ hgn
      (by rw [lov_gates_len, nfy_gates_len]; exact hgy)]
    rw [lov_gateAt_self]
    rw [nfy_gateAt_self c gid g a b hg]
    rfl
  · rw [link_output_gateAt_self]
    rw [ngv_gateAt_self _ _ _ _ (by rw [lov_gates_len, nfy_gates_len])]
    rfl
  · intro x hxm hwo
    rw [wtriple_link_output_skip _ _ _ _ hwo]
    rw [ngv_wtriple]
    rw [lov_wtriple_old _ _ _ _ hmN hxm]
    exact nfy_wtriple c gid g a b hg x
  · intro o ho
    have hol : o < c.wires.length := hom o ho
    have hone : o ≠ c.wires.length := Nat.ne_of_lt hol
    rw [ho]
    rw [wtriple_link_output_self]
    have hch : wtriple (link_input (link_input (((link_output
        ((link_input (link_input ((disconnect_inputs c gid).updGate gid
          (fun g => { g with type := NAND })) a gid) b gid).add_wire).1
        (some c.wires.length) gid).add_gate NAND).1)
        c.wires.length c.gates.length) c.wires.length c.gates.length) o
        = wtriple c o := by
      rw [ngv_wtriple, lov_wtriple_old _ _ _ _ hmN hone,
        nfy_wtriple c gid g a b hg o]
    rw [wtriple_to_fixed_source (some c.gates.length) hch]
  · have hwom : g.output ≠ some c.wires.length := by
      intro he
      exact absurd (hom _ he) (lt_irrefl _)
    rw [link_output_wireAt_skip _ _ _ _ hwom]
    rw [link_input_wireAt_self, link_input_wireAt_self,
      congrFun (wireAt_congr (add_gate_wires _ NAND)) c.wires.length]
    rw [lov_wireAt_new _ _ _ hmN]
    rfl
  · intro x v hxm hvg
    rw [cntD_link_output]
    rw [ngv_cnt_other _ _ _ _ _ _ (Ne.symm hxm) (Ne.symm hxm)]
    rw [lov_cnt_old _ _ _ _ _ hmN hxm]
    exact nfy_cnt_ne c gid g a b hg v hvg x
  · intro x hx
    rw [cntD_link_output]
    rw [ngv_cnt_other _ _ _ _ _ _ (Ne.symm (Nat.ne_of_lt hx))
      (Ne.symm (Nat.ne_of_lt hx))]
    rw [lov_cnt_old _ _ _ _ _ hmN (Nat.ne_of_lt hx)]
    exact nfy_cnt_self c gid g a b hg x hx

/-- The BUFFER rewrite differs from the AND rewrite only in linking the
single input twice. -/
theorem decomposeGate_BUFFER_facts (c : Circuit) (gid : Nat) (g : Gate)
    (hg : c.gateAt gid = some g) (hty : g.type = BUFFER) (a : Nat)
    (hin : g.inputs = [a])
    (hom : ∀ o, g.output = some o → o < c.wires.length) :
    (decomposeGate c gid).gates.length = c.gates.length + 1 ∧
    (decomposeGate c gid).wires.length = c.wires.length + 1 ∧
    (decomposeGate c gid).inputWires = c.inputWires ∧
    (decomposeGate c gid).outputWires = c.outputWires ∧
    (∀ u, gid ≠ u → u ≠ c.gates.length →
      (decomposeGate c gid).gateAt u = c.gateAt u) ∧
    (decomposeGate c gid).gateAt gid =
      some { g with
             type := NAND,
             inputs := [a, a],
             output := some c.wires.length } ∧
    (decomposeGate c gid).gateAt c.gates.length =
      some { id := c.gates.length, type := NAND,
             inputs := [c.wires.length, c.wires.length],
             output := g.output, state := false, dirty := true } ∧
    (∀ x, x ≠ c.wires.length → g.output ≠ some x →
      wtriple (decomposeGate c gid) x = wtriple c x) ∧
    (∀ o, g.output = some o →
      wtriple (decomposeGate c gid) o =
        (c.wireAt o).map (fun w => (w.id, some c.gates.length, w.value))) ∧
    (decomposeGate c gid).wireAt c.wires.length =
      some { id := c.wires.length, value := false, previousValue := false,
             source := some gid,
             destinations := [c.gates.length, c.gates.length] } ∧
    (∀ x v, x ≠ c.wires.length → v ≠ gid →
      cntD (decomposeGate c gid) x v = cntD c x v) ∧
    (∀ x, x < c.wires.length →
      cntD (decomposeGate c gid) x gid =
        cntD c x gid - List.count x g.inputs + List.count x [a, a]) := by
  have hmN : c.wires.length =
      (link_input (link_input ((disconnect_inputs c gid).updGate gid
        (fun g => { g with type := NAND })) a gid) a gid).wires.length :=
    (nfy_wires_len c gid a a).symm
  have hgy : gid ≠ c.gates.length := Nat.ne_of_lt (gateAt_lt hg)
  have hgn : c.gates.length ≠ gid := Ne.symm hgy
  rw [decomposeGate_BUFFER_eq c gid g hg hty a hin]
  refine ⟨?_, ?_, ?_, ?_, ?_, ?_, ?_, ?_, ?_, ?_, ?_, ?_⟩
  · rw [link_output_gates_length, ngv_gates_len, lov_gates_len, nfy_gates_len]
  · rw [link_output_wires_length, ngv_wires_len, lov_wires_len, nfy_wires_len]
  · rw [link_output_inputWires, ngv_inputWires, lov_inputWires, nfy_inputWires]
  · rw [link_output_outputWires, ngv_outputWires, lov_outputWires,
      nfy_outputWires]
  · intro u hu1 hu2
    rw [link_output_gateAt_ne _ _ _ _ (fun he => hu2 he.symm)]
    rw [ngv_gateAt_ne _ _ _ _ _ (fun he => hu2 he.symm)
      (by rw [lov_gates_len, nfy_gates_len]; exact hu2)]
    rw [lov_gateAt_ne _ _ _ _ hu1]
    exact nfy_gateAt_ne c gid a a u hu1
  · rw [link_output_gateAt_ne _ _ _ _ hgn]
    rw [ngv_gateAt_ne _ _ _ _ _ hgn
      (by rw [lov_gates_len, nfy_gates_len]; exact hgy)]
    rw [lov_gateAt_self]
    rw [nfy_gateAt_self c gid g a a hg]
    rfl
  · rw [link_output_gateAt_self]
    rw [ngv_gateAt_self _ _ _ _ (by rw [lov_gates_len, nfy_gates_len])]
    rfl
  · intro x hxm hwo
    rw [wtriple_link_output_skip _ _ _ _ hwo]
    rw [ngv_wtriple]
    rw [lov_wtriple_old _ _ _ _ hmN hxm]
    exact nfy_wtriple c gid g a a hg x
  · intro o ho
    have hol : o < c.wires.length := hom o ho
    have hone : o ≠ c.wires.length := Nat.ne_of_lt hol
    rw [ho]
    rw [wtriple_link_output_self]
    have hch : wtriple (link_input (link_input (((link_output
        ((link_input (link_input ((disconnect_inputs c gid).updGate gid
          (fun g => { g with type := NAND })) a gid) a gid).add_wire).1
        (some c.wires.length) gid).add_gate NAND).1)
        c.wires.length c.gates.length) c.wires.length c.gates.length) o
        = wtriple c o := by
      rw [ngv_wtriple, lov_wtriple_old _ _ _ _ hmN hone,
        nfy_wtriple c gid g a a hg o]
    rw [wtriple_to_fixed_source (some c.gates.length) hch]
  · have hwom : g.output ≠ some c.wires.length := by
      intro he
      exact absurd (hom _ he) (lt_irrefl _)
    rw [link_output_wireAt_skip _ _ _ _ hwom]
    rw [link_input_wireAt_self, link_input_wireAt_self,
      congrFun (wireAt_congr (add_gate_wires _ NAND)) c.wires.length]
    rw [lov_wireAt_new _ _ _ hmN]
    rfl
  · intro x v hxm hvg
    rw [cntD_link_output]
    rw [ngv_cnt_other _ _ _ _ _ _ (Ne.symm hxm) (Ne.symm hxm)]
    rw [lov_cnt_old _ _ _ _ _ hmN hxm]
    exact nfy_cnt_ne c gid g a a hg v hvg x
  · intro x hx
    rw [cntD_link_output]
    rw [ngv_cnt_other _ _ _ _ _ _ (Ne.symm (Nat.ne_of_lt hx))
      (Ne.symm (Nat.ne_of_lt hx))]
    rw [lov_cnt_old _ _ _ _ _ hmN (Nat.ne_of_lt hx)]
    exact nfy_cnt_self c gid g a a hg x hx

/-! ## C1 groundwork: the NOT and OR rewrites, fully described -/

theorem decomposeGate_NOT_facts (c : Circuit) (gid : Nat) (g : Gate)
    (hg : c.gateAt gid = some g) (hty : g.type = NOT) (a : Nat)
    (hin : g.inputs = [a]) :
    (decomposeGate c gid).gates.length = c.gates.length ∧
    (decomposeGate c gid).wires.length = c.wires.length ∧
    (decomposeGate c gid).inputWires = c.inputWires ∧
    (decomposeGate c gid).outputWires = c.outputWires ∧
    (∀ u, gid ≠ u → (decomposeGate c gid).gateAt u = c.gateAt u) ∧
    (decomposeGate c gid).gateAt gid =
      some { g with type := NAND, inputs := [a, a] } ∧
    (∀ x, wtriple (decomposeGate c gid) x = wtriple c x) ∧
    (∀ x v, v ≠ gid → cntD (decomposeGate c gid) x v = cntD c x v) ∧
    (∀ x, x < c.wires.length →
      cntD (decomposeGate c gid) x gid =
        cntD c x gid - List.count x g.inputs + List.count x [a, a]) := by
  rw [decomposeGate_NOT_eq c gid g hg hty a hin]
  exact ⟨nfy_gates_len c gid a a, nfy_wires_len c gid a a,
    nfy_inputWires c gid a a, nfy_outputWires c gid a a,
    fun u hu => nfy_gateAt_ne c gid a a u hu,
    nfy_gateAt_self c gid g a a hg,
    fun x => nfy_wtriple c gid g a a hg x,
    fun x v hv => nfy_cnt_ne c gid g a a hg v hv x,
    fun x hx => nfy_cnt_self c gid g a a hg x hx⟩

theorem decomposeGate_OR_facts (c : Circuit) (gid : Nat) (g : Gate)
    (hg : c.gateAt gid = some g) (hty : g.type = OR) (a b : Nat)
    (hin : g.inputs = [a, b])
    (hom : ∀ o, g.output = some o → o < c.wires.length)
    (hbl : b < c.wires.length) :
    (decomposeGate c gid).gates.length = c.gates.length + 1 + 1 ∧
    (decomposeGate c gid).wires.length = c.wires.length + 1 + 1 ∧
    (decomposeGate c gid).inputWires = c.inputWires ∧
    (decomposeGate c gid).outputWires = c.outputWires ∧
    (∀ u, gid ≠ u → u ≠ c.gates.length → u ≠ c.gates.length + 1 →
      (decomposeGate c gid).gateAt u = c.gateAt u) ∧
    (decomposeGate c gid).gateAt gid =
      some { g with
             type := NAND,
             inputs := [a, a],
             output := some c.wires.length } ∧
    (decomposeGate c gid).gateAt c.gates.length =
      some { id := c.gates.length, type := NAND, inputs := [b, b],
             output := some (c.wires.length + 1), state := false,
             dirty := true } ∧
    (decomposeGate c gid).gateAt (c.gates.length + 1) =
      some { id := c.gates.length + 1, type := NAND,
             inputs := [c.wires.length, c.wires.length + 1],
             output := g.output, state := false, dirty := true } ∧
    (∀ x, x ≠ c.wires.length → x ≠ c.wires.length + 1 → g.output ≠ some x →
      wtriple (decomposeGate c gid) x = wtriple c x) ∧
    (∀ o, g.output = some o →
      wtriple (decomposeGate c gid) o =
        (c.wireAt o).map (fun w => (w.id, some (c.gates.length + 1), w.value))) ∧
    (decomposeGate c gid).wireAt c.wires.length =
      some { id := c.wires.length, value := false, previousValue := false,
             source := some gid, destinations := [c.gates.length + 1] } ∧
    (decomposeGate c gid).wireAt (c.wires.length + 1) =
      some { id := c.wires.length + 1, value := false, previousValue := false,
             source := some c.gates.length,
             destinations := [c.gates.length + 1] } ∧
    (∀ x v, x ≠ c.wires.length → x ≠ c.wires.length + 1 → v ≠ gid →
      v ≠ c.gates.length → cntD (decomposeGate c gid) x v = cntD c x v) ∧
    (∀ x, x < c.wires.length →
      cntD (decomposeGate c gid) x gid =
        cntD c x gid - List.count x g.inputs + List.count x [a, a]) ∧
    (∀ x, x < c.wires.length →
      cntD (decomposeGate c gid) x c.gates.length =
        cntD c x c.gates.length + List.count x [b, b]) := by
  have hglt : gid < c.gates.length := gateAt_lt hg
  have hgy : gid ≠ c.gates.length := Nat.ne_of_lt hglt
  rw [decomposeGate_OR_eq c gid g hg hty a b hin]
  set N := link_input (link_input ((disconnect_inputs c gid).updGate gid
    (fun g => { g with type := NAND })) a gid) a gid with hN
  set W₁ := link_output ((N.add_wire).1) (some c.wires.length) gid with hW₁
  set G₁ := link_input (link_input ((W₁.add_gate NAND).1) b c.gates.length)
    b c.gates.length with hG₁
  set W₂ := link_output ((G₁.add_wire).1) (some (c.wires.length + 1))
    c.gates.length with hW₂
  set G₂ := link_input (link_input ((W₂.add_gate NAND).1) c.wires.length
    (c.gates.length + 1)) (c.wires.length + 1) (c.gates.length + 1) with hG₂
  have hmN : c.wires.length = N.wires.length := by
    rw [hN, nfy_wires_len]
  have hW1g : W₁.gates.length = c.gates.length := by
    rw [hW₁, lov_gates_len, hN, nfy_gates_len]
  have hW1w : W₁.wires.length = c.wires.length + 1 := by
    rw [hW₁, lov_wires_len, ← hmN]
  have hG1g : G₁.gates.length = c.gates.length + 1 := by
    rw [hG₁, ngv_gates_len, hW1g]
  have hG1w : c.wires.length + 1 = G₁.wires.length := by
    rw [hG₁, ngv_wires_len, hW1w]
  have hW2g : W₂.gates.length = c.gates.length + 1 := by
    rw [hW₂, lov_gates_len, hG1g]
  have hW2w : W₂.wires.length = c.wires.length + 1 + 1 := by
    rw [hW₂, lov_wires_len, ← hG1w]
  refine ⟨?_, ?_, ?_, ?_, ?_, ?_, ?_, ?_, ?_, ?_, ?_, ?_, ?_, ?_, ?_⟩
  · rw [link_output_gates_length, ngv_gates_len, hW2g]
  · rw [link_output_wires_length, ngv_wires_len, hW2w]
  · rw [link_output_inputWires, ngv_inputWires, hW₂, lov_inputWires, hG₁,
      ngv_inputWires, hW₁, lov_inputWires, hN, nfy_inputWires]
  · rw [link_output_outputWires, ngv_outputWires, hW₂, lov_outputWires, hG₁,
      ngv_outputWires, hW₁, lov_outputWires, hN, nfy_outputWires]
  · intro u hu1 hu2 hu3
    rw [link_output_gateAt_ne _ _ _ _ (fun he => hu3 he.symm)]
    rw [ngv_gateAt_ne _ _ _ _ _ (fun he => hu3 he.symm)
      (by rw [hW2g]; exact hu3)]
    rw [hW₂, lov_gateAt_ne _ _ _ _ (fun he => hu2 he.symm)]
    rw [hG₁, ngv_gateAt_ne _ _ _ _ _ (fun he => hu2 he.symm)
      (by rw [hW1g]; exact hu2)]
    rw [hW₁, lov_gateAt_ne _ _ _ _ hu1]
    rw [hN]
    exact nfy_gateAt_ne c gid a a u hu1
  · have h1 : c.gates.length + 1 ≠ gid := by omega
    rw [link_output_gateAt_ne _ _ _ _ h1]
    rw [ngv_gateAt_ne _ _ _ _ _ h1 (by rw [hW2g]; omega)]
    rw [hW₂, lov_gateAt_ne _ _ _ _ (Ne.symm hgy)]
    rw [hG₁, ngv_gateAt_ne _ _ _ _ _ (Ne.symm hgy) (by rw [hW1g]; exact hgy)]
    rw [hW₁, lov_gateAt_self, hN, nfy_gateAt_self c gid g a a hg]
    rfl
  · have h1 : c.gates.length + 1 ≠ c.gates.length := by omega
    rw [link_output_gateAt_ne _ _ _ _ h1]
    rw [ngv_gateAt_ne _ _ _ _ _ h1 (by rw [hW2g]; omega)]
    rw [hW₂, lov_gateAt_self]
    rw [hG₁, ngv_gateAt_self _ _ _ _ hW1g.symm]
    rfl
  · rw [link_output_gateAt_self]
    rw [ngv_gateAt_self _ _ _ _ hW2g.symm]
    rfl
  · intro x hx1 hx2 hwo
    rw [wtriple_link_output_skip _ _ _ _ hwo]
    rw [hG₂, ngv_wtriple]
    rw [hW₂, lov_wtriple_old _ _ _ _ hG1w hx2]
    rw [hG₁, ngv_wtriple]
    rw [hW₁, lov_wtriple_old _ _ _ _ hmN hx1]
    rw [hN]
    exact nfy_wtriple c gid g a a hg x
  · intro o ho
    have hol : o < c.wires.length := hom o ho
    rw [ho]
    rw [wtriple_link_output_self]
    have hch : wtriple G₂ o = wtriple c o := by
      rw [hG₂, ngv_wtriple]
      rw [hW₂, lov_wtriple_old _ _ _ _ hG1w (by omega)]
      rw [hG₁, ngv_wtriple]
      rw [hW₁, lov_wtriple_old _ _ _ _ hmN (by omega)]
      rw [hN]
      exact nfy_wtriple c gid g a a hg o
    rw [wtriple_to_fixed_source (some (c.gates.length + 1)) hch]
  · have hwom : g.output ≠ some c.wires.length := by
      intro he
      exact absurd (hom _ he) (lt_irrefl _)
    rw [link_output_wireAt_skip _ _ _ _ hwom]
    rw [hG₂]
    rw [link_input_wireAt_ne _ _ _ _ (by omega)]
    rw [link_input_wireAt_self]
    rw [congrFun (wireAt_congr (add_gate_wires _ NAND)) c.wires.length]
    rw [hW₂, lov_wireAt_old _ _ _ _ hG1w (by omega)]
    rw [hG₁]
    rw [link_input_wireAt_ne _ _ _ _ (by omega)]
    rw [link_input_wireAt_ne _ _ _ _ (by omega)]
    rw [congrFun (wireAt_congr (add_gate_wires _ NAND)) c.wires.length]
    rw [hW₁, lov_wireAt_new _ _ _ hmN]
    rfl
  · have hwom : g.output ≠ some (c.wires.length + 1) := by
      intro he
      have := hom _ he
      omega
    rw [link_output_wireAt_skip _ _ _ _ hwom]
    rw [hG₂]
    rw [link_input_wireAt_self]
    rw [link_input_wireAt_ne _ _ _ _ (by omega)]
    rw [congrFun (wireAt_congr (add_gate_wires _ NAND)) (c.wires.length + 1)]
    rw [hW₂, lov_wireAt_new _ _ _ hG1w]
    rfl
  · intro x v hx1 hx2 hv1 hv2
    rw [cntD_link_output]
    rw [hG₂, ngv_cnt_other _ _ _ _ _ _ (Ne.symm hx1) (Ne.symm hx2)]
    rw [hW₂, lov_cnt_old _ _ _ _ _ hG1w hx2]
    rw [hG₁, ngv_cnt_ne _ _ _ _ _ _ hv2]
    rw [hW₁, lov_cnt_old _ _ _ _ _ hmN hx1]
    rw [hN]
    exact nfy_cnt_ne c gid g a a hg v hv1 x
  · intro x hx
    rw [cntD_link_output]
    rw [hG₂, ngv_cnt_other _ _ _ _ _ _ (by omega) (by omega)]
    rw [hW₂, lov_cnt_old _ _ _ _ _ hG1w (by omega)]
    rw [hG₁, ngv_cnt_ne _ _ _ _ _ _ hgy]
    rw [hW₁, lov_cnt_old _ _ _ _ _ hmN (by omega)]
    rw [hN]
    exact nfy_cnt_self c gid g a a hg x hx
  · intro x hx
    rw [cntD_link_output]
    rw [hG₂, ngv_cnt_other _ _ _ _ _ _ (by omega) (by omega)]
    rw [hW₂, lov_cnt_old _ _ _ _ _ hG1w (by omega)]
    have hxb : x < W₁.wires.length := by rw [hW1w]; omega
    rw [hG₁, ngv_cnt_self _ _ _ _ _ hxb]
    rw [hW₁, lov_cnt_old _ _ _ _ _ hmN (by omega)]
    rw [hN, nfy_cnt_ne c gid g a a hg _ (Ne.symm hgy) x]

/-! ## C1 groundwork: the XOR rewrite, fully described -/

theorem decomposeGate_XOR_facts (c : Circuit) (gid : Nat) (g : Gate)
    (hg : c.gateAt gid = some g) (hty : g.type = XOR) (a b : Nat)
    (hin : g.inputs = [a, b])
    (hom : ∀ o, g.output = some o → o < c.wires.length)
    (hal : a < c.wires.length) (hbl : b < c.wires.length) :
    (decomposeGate c gid).gates.length = c.gates.length + 1 + 1 + 1 ∧
    (decomposeGate c gid).wires.length = c.wires.length + 1 + 1 + 1 ∧
    (decomposeGate c gid).inputWires = c.inputWires ∧
    (decomposeGate c gid).outputWires = c.outputWires ∧
    (∀ u, gid ≠ u → u ≠ c.gates.length → u ≠ c.gates.length + 1 →
      u ≠ c.gates.length + 1 + 1 →
      (decomposeGate c gid).gateAt u = c.gateAt u) ∧
    (decomposeGate c gid).gateAt gid =
      some { g with
             type := NAND,
             inputs := [a, b],
             output := some c.wires.length } ∧
    (decomposeGate c gid).gateAt c.gates.length =
      some { id := c.gates.length, type := NAND, inputs := [a, c.wires.length],
             output := some (c.wires.length + 1), state := false,
             dirty := true } ∧
    (decomposeGate c gid).gateAt (c.gates.length + 1) =
      some { id := c.gates.length + 1, type := NAND,
             inputs := [b, c.wires.length],
             output := some (c.wires.length + 1 + 1), state := false,
             dirty := true } ∧
    (decomposeGate c gid).gateAt (c.gates.length + 1 + 1) =
      some { id := c.gates.length + 1 + 1, type := NAND,
             inputs := [c.wires.length + 1, c.wires.length + 1 + 1],
             output := g.output, state := false, dirty := true } ∧
    (∀ x, x ≠ c.wires.length → x ≠ c.wires.length + 1 →
      x ≠ c.wires.length + 1 + 1 → g.output ≠ some x →
      wtriple (decomposeGate c gid) x = wtriple c x) ∧
    (∀ o, g.output = some o →
      wtriple (decomposeGate c gid) o =
        (c.wireAt o).map
          (fun w => (w.id, some (c.gates.length + 1 + 1), w.value))) ∧
    (decomposeGate c gid).wireAt c.wires.length =
      some { id := c.wires.length, value := false, previousValue := false,
             source := some gid,
             destinations := [c.gates.length, c.gates.length + 1] } ∧
    (decomposeGate c gid).wireAt (c.wires.length + 1) =
      some { id := c.wires.length + 1, value := false, previousValue := false,
             source := some c.gates.length,
             destinations := [c.gates.length + 1 + 1] } ∧
    (decomposeGate c gid).wireAt (c.wires.length + 1 + 1) =
      some { id := c.wires.length + 1 + 1, value := false,
             previousValue := false, source := some (c.gates.length + 1),
             destinations := [c.gates.length + 1 + 1] } ∧
    (∀ x v, x ≠ c.wires.length → x ≠ c.wires.length + 1 →
      x ≠ c.wires.length + 1 + 1 → v ≠ gid → v ≠ c.gates.length →
      v ≠ c.gates.length + 1 →
      cntD (decomposeGate c gid) x v = cntD c x v) ∧
    (∀ x, x < c.wires.length →
      cntD (decomposeGate c gid) x gid =
        cntD c x gid - List.count x g.inputs + List.count x [a, b]) ∧
    (∀ x, x < c.wires.length →
      cntD (decomposeGate c gid) x c.gates.length =
        cntD c x c.gates.length + List.count x [a, c.wires.length]) ∧
    (∀ x, x < c.wires.length →
      cntD (decomposeGate c gid) x (c.gates.length + 1) =
        cntD c x (c.gates.length + 1) + List.count x [b, c.wires.length]) := by
  have hglt : gid < c.gates.length := gateAt_lt hg
  have hgy : gid ≠ c.gates.length := Nat.ne_of_lt hglt
  have hgn1 : gid ≠ c.gates.length + 1 := by omega
  have hnn1 : c.gates.length ≠ c.gates.length + 1 := by omega
  have hn1n : c.gates.length + 1 ≠ c.gates.length := by omega
  have ham : a ≠ c.wires.length := Nat.ne_of_lt hal
  have hbm : b ≠ c.wires.length := Nat.ne_of_lt hbl
  have hbm1 : b ≠ c.wires.length + 1 := by omega
  have hm1m : c.wires.length + 1 ≠ c.wires.length := by omega
  have hm2m : c.wires.length + 1 + 1 ≠ c.wires.length := by omega
  have hm2m1 : c.wires.length + 1 + 1 ≠ c.wires.length + 1 := by omega
  have hmm1 : c.wires.length ≠ c.wires.length + 1 := by omega
  have hmm2 : c.wires.length ≠ c.wires.length + 1 + 1 := by omega
  have hm1m2 : c.wires.length + 1 ≠ c.wires.length + 1 + 1 := by omega
  rw [decomposeGate_XOR_eq c gid g hg hty a b hin]
  set N := link_input (link_input ((disconnect_inputs c gid).updGate gid
    (fun g => { g with type := NAND })) a gid) b gid with hN
  set W₁ := link_output ((N.add_wire).1) (some c.wires.length) gid with hW₁
  set G₁ := link_input (link_input ((W₁.add_gate NAND).1) a c.gates.length)
    c.wires.length c.gates.length with hG₁
  set W₂ := link_output ((G₁.add_wire).1) (some (c.wires.length + 1))
    c.gates.length with hW₂
  set G₂ := link_input (link_input ((W₂.add_gate NAND).1) b
    (c.gates.length + 1)) c.wires.length (c.gates.length + 1) with hG₂
  set W₃ := link_output ((G₂.add_wire).1) (some (c.wires.length + 1 + 1))
    (c.gates.length + 1) with hW₃
  set G₃ := link_input (link_input ((W₃.add_gate NAND).1) (c.wires.length + 1)
    (c.gates.length + 1 + 1)) (c.wires.length + 1 + 1)
    (c.gates.length + 1 + 1) with hG₃
  have hmN : c.wires.length = N.wires.length := by
    rw [hN, nfy_wires_len]
  have hW1g : W₁.gates.length = c.gates.length := by
    rw [hW₁, lov_gates_len, hN, nfy_gates_len]
  have hW1w : W₁.wires.length = c.wires.length + 1 := by
    rw [hW₁, lov_wires_len, ← hmN]
  have hG1g : G₁.gates.length = c.gates.length + 1 := by
    rw [hG₁, ngv_gates_len, hW1g]
  have hG1w : c.wires.length + 1 = G₁.wires.length := by
    rw [hG₁, ngv_wires_len, hW1w]
  have hW2g : W₂.gates.length = c.gates.length + 1 := by
    rw [hW₂, lov_gates_len, hG1g]
  have hW2w : W₂.wires.length = c.wires.length + 1 + 1 := by
    rw [hW₂, lov_wires_len, ← hG1w]
  have hG2g : G₂.gates.length = c.gates.length + 1 + 1 := by
    rw [hG₂, ngv_gates_len, hW2g]
  have hG2w : c.wires.length + 1 + 1 = G₂.wires.length := by
    rw [hG₂, ngv_wires_len, hW2w]
  have hW3g : W₃.gates.length = c.gates.length + 1 + 1 := by
    rw [hW₃, lov_gates_len, hG2g]
  have hW3w : W₃.wires.length = c.wires.length + 1 + 1 + 1 := by
    rw [hW₃, lov_wires_len, ← hG2w]
  refine ⟨?_, ?_, ?_, ?_, ?_, ?_, ?_, ?_, ?_, ?_, ?_, ?_, ?_, ?_, ?_, ?_, ?_,
    ?_⟩
  · rw [link_output_gates_length, ngv_gates_len, hW3g]
  · rw [link_output_wires_length, ngv_wires_len, hW3w]
  · rw [link_output_inputWires, ngv_inputWires, hW₃, lov_inputWires, hG₂,
      ngv_inputWires, hW₂, lov_inputWires, hG₁, ngv_inputWires, hW₁,
      lov_inputWires, hN, nfy_inputWires]
  · rw [link_output_outputWires, ngv_outputWires, hW₃, lov_outputWires, hG₂,
      ngv_outputWires, hW₂, lov_outputWires, hG₁, ngv_outputWires, hW₁,
      lov_outputWires, hN, nfy_outputWires]
  · intro u hu1 hu2 hu3 hu4
    rw [link_output_gateAt_ne _ _ _ _ (fun he => hu4 he.symm)]
    rw [ngv_gateAt_ne _ _ _ _ _ (fun he => hu4 he.symm)
      (by rw [hW3g]; exact hu4)]
    rw [hW₃, lov_gateAt_ne _ _ _ _ (fun he => hu3 he.symm)]
    rw [hG₂, ngv_gateAt_ne _ _ _ _ _ (fun he => hu3 he.symm)
      (by rw [hW2g]; exact hu3)]
    rw [hW₂, lov_gateAt_ne _ _ _ _ (fun he => hu2 he.symm)]
    rw [hG₁, ngv_gateAt_ne _ _ _ _ _ (fun he => hu2 he.symm)
      (by rw [hW1g]; exact hu2)]
    rw [hW₁, lov_gateAt_ne _ _ _ _ hu1]
    rw [hN]
    exact nfy_gateAt_ne c gid a b u hu1
  · have h2 : c.gates.length + 1 + 1 ≠ gid := by omega
    have h1 : c.gates.length + 1 ≠ gid := by omega
    rw [link_output_gateAt_ne _ _ _ _ h2]
    rw [ngv_gateAt_ne _ _ _ _ _ h2 (by rw [hW3g]; omega)]
    rw [hW₃, lov_gateAt_ne _ _ _ _ h1]
    rw [hG₂, ngv_gateAt_ne _ _ _ _ _ h1 (by rw [hW2g]; omega)]
    rw [hW₂, lov_gateAt_ne _ _ _ _ (Ne.symm hgy)]
    rw [hG₁, ngv_gateAt_ne _ _ _ _ _ (Ne.symm hgy) (by rw [hW1g]; exact hgy)]
    rw [hW₁, lov_gateAt_self, hN, nfy_gateAt_self c gid g a b hg]
    rfl
  · have h2 : c.gates.length + 1 + 1 ≠ c.gates.length := by omega
    have h1 : c.gates.length + 1 ≠ c.gates.length := by omega
    rw [link_output_gateAt_ne _ _ _ _ h2]
    rw [ngv_gateAt_ne _ _ _ _ _ h2 (by rw [hW3g]; omega)]
    rw [hW₃, lov_gateAt_ne _ _ _ _ h1]
    rw [hG₂, ngv_gateAt_ne _ _ _ _ _ h1 (by rw [hW2g]; omega)]
    rw [hW₂, lov_gateAt_self]
    rw [hG₁, ngv_gateAt_self _ _ _ _ hW1g.symm]
    rfl
  · have h2 : c.gates.length + 1 + 1 ≠ c.gates.length + 1 := by omega
    rw [link_output_gateAt_ne _ _ _ _ h2]
    rw [ngv_gateAt_ne _ _ _ _ _ h2 (by rw [hW3g]; omega)]
    rw [hW₃, lov_gateAt_self]
    rw [hG₂, ngv_gateAt_self _ _ _ _ hW2g.symm]
    rfl
  · rw [link_output_gateAt_self]
    rw [ngv_gateAt_self _ _ _ _ hW3g.symm]
    rfl
  · intro x hx1 hx2 hx3 hwo
    rw [wtriple_link_output_skip _ _ _ _ hwo]
    rw [hG₃, ngv_wtriple]
    rw [hW₃, lov_wtriple_old _ _ _ _ hG2w hx3]
    rw [hG₂, ngv_wtriple]
    rw [hW₂, lov_wtriple_old _ _ _ _ hG1w hx2]
    rw [hG₁, ngv_wtriple]
    rw [hW₁, lov_wtriple_old _ _ _ _ hmN hx1]
    rw [hN]
    exact nfy_wtriple c gid g a b hg x
  · intro o ho
    have hol : o < c.wires.length := hom o ho
    rw [ho, wtriple_link_output_self]
    have hch : wtriple G₃ o = wtriple c o := by
      rw [hG₃, ngv_wtriple]
      rw [hW₃, lov_wtriple_old _ _ _ _ hG2w (by omega)]
      rw [hG₂, ngv_wtriple]
      rw [hW₂, lov_wtriple_old _ _ _ _ hG1w (by omega)]
      rw [hG₁, ngv_wtriple]
      rw [hW₁, lov_wtriple_old _ _ _ _ hmN (by omega)]
      rw [hN]
      exact nfy_wtriple c gid g a b hg o
    rw [wtriple_to_fixed_source (some (c.gates.length + 1 + 1)) hch]
  · have hwom : g.output ≠ some c.wires.length := by
      intro he
      exact absurd (hom _ he) (lt_irrefl _)
    rw [link_output_wireAt_skip _ _ _ _ hwom]
    rw [hG₃]
    rw [link_input_wireAt_ne _ _ _ _ hm2m]
    rw [link_input_wireAt_ne _ _ _ _ hm1m]
    rw [congrFun (wireAt_congr (add_gate_wires _ NAND)) c.wires.length]
    rw [hW₃, lov_wireAt_old _ _ _ _ hG2w hmm2]
    rw [hG₂]
    rw [link_input_wireAt_self]
    rw [link_input_wireAt_ne _ _ _ _ hbm]
    rw [congrFun (wireAt_congr (add_gate_wires _ NAND)) c.wires.length]
    rw [hW₂, lov_wireAt_old _ _ _ _ hG1w hmm1]
    rw [hG₁]
    rw [link_input_wireAt_self]
    rw [link_input_wireAt_ne _ _ _ _ ham]
    rw [congrFun (wireAt_congr (add_gate_wires _ NAND)) c.wires.length]
    rw [hW₁, lov_wireAt_new _ _ _ hmN]
    rfl
  · have hwom1 : g.output ≠ some (c.wires.length + 1) := by
      intro he
      have := hom _ he
      omega
    rw [link_output_wireAt_skip _ _ _ _ hwom1]
    rw [hG₃]
    rw [link_input_wireAt_ne _ _ _ _ hm2m1]
    rw [link_input_wireAt_self]
    rw [congrFun (wireAt_congr (add_gate_wires _ NAND)) (c.wires.length + 1)]
    rw [hW₃, lov_wireAt_old _ _ _ _ hG2w hm1m2]
    rw [hG₂]
    rw [link_input_wireAt_ne _ _ _ _ hmm1]
    rw [link_input_wireAt_ne _ _ _ _ hbm1]
    rw [congrFun (wireAt_congr (add_gate_wires _ NAND)) (c.wires.length + 1)]
    rw [hW₂, lov_wireAt_new _ _ _ hG1w]
    rfl
  · have hwom2 : g.output ≠ some (c.wires.length + 1 + 1) := by
      intro he
      have := hom _ he
      omega
    rw [link_output_wireAt_skip _ _ _ _ hwom2]
    rw [hG₃]
    rw [link_input_wireAt_self]
    rw [link_input_wireAt_ne _ _ _ _ hm1m2]
    rw [congrFun (wireAt_congr (add_gate_wires _ NAND))
      (c.wires.length + 1 + 1)]
    rw [hW₃, lov_wireAt_new _ _ _ hG2w]
    rfl
  · intro x v hx1 hx2 hx3 hv1 hv2 hv3
    rw [cntD_link_output]
    rw [hG₃, ngv_cnt_other _ _ _ _ _ _ (Ne.symm hx2) (Ne.symm hx3)]
    rw [hW₃, lov_cnt_old _ _ _ _ _ hG2w hx3]
    rw [hG₂, ngv_cnt_ne _ _ _ _ _ _ hv3]
    rw [hW₂, lov_cnt_old _ _ _ _ _ hG1w hx2]
    rw [hG₁, ngv_cnt_ne _ _ _ _ _ _ hv2]
    rw [hW₁, lov_cnt_old _ _ _ _ _ hmN hx1]
    rw [hN]
    exact nfy_cnt_ne c gid g a b hg v hv1 x
  · intro x hx
    have hx1 : x ≠ c.wires.length := by omega
    have hx2 : x ≠ c.wires.length + 1 := by omega
    have hx3 : x ≠ c.wires.length + 1 + 1 := by omega
    rw [cntD_link_output]
    rw [hG₃, ngv_cnt_other _ _ _ _ _ _ (Ne.symm hx2) (Ne.symm hx3)]
    rw [hW₃, lov_cnt_old _ _ _ _ _ hG2w hx3]
    rw [hG₂, ngv_cnt_ne _ _ _ _ _ _ hgn1]
    rw [hW₂, lov_cnt_old _ _ _ _ _ hG1w hx2]
    rw [hG₁, ngv_cnt_ne _ _ _ _ _ _ hgy]
    rw [hW₁, lov_cnt_old _ _ _ _ _ hmN hx1]
    rw [hN]
    exact nfy_cnt_self c gid g a b hg x hx
  · intro x hx
    have hx1 : x ≠ c.wires.length := by omega
    have hx2 : x ≠ c.wires.length + 1 := by omega
    have hx3 : x ≠ c.wires.length + 1 + 1 := by omega
    have hxW1 : x < W₁.wires.length := by rw [hW1w]; omega
    rw [cntD_link_output]
    rw [hG₃, ngv_cnt_other _ _ _ _ _ _ (Ne.symm hx2) (Ne.symm hx3)]
    rw [hW₃, lov_cnt_old _ _ _ _ _ hG2w hx3]
    rw [hG₂, ngv_cnt_ne _ _ _ _ _ _ hnn1]
    rw [hW₂, lov_cnt_old _ _ _ _ _ hG1w hx2]
    rw [hG₁, ngv_cnt_self _ _ _ _ _ hxW1]
    rw [hW₁, lov_cnt_old _ _ _ _ _ hmN hx1]
    rw [hN, nfy_cnt_ne c gid g a b hg _ (Ne.symm hgy) x]
  · intro x hx
    have hx1 : x ≠ c.wires.length := by omega
    have hx2 : x ≠ c.wires.length + 1 := by omega
    have hx3 : x ≠ c.wires.length + 1 + 1 := by omega
    have hxW2 : x < W₂.wires.length := by rw [hW2w]; omega
    rw [cntD_link_output]
    rw [hG₃, ngv_cnt_other _ _ _ _ _ _ (Ne.symm hx2) (Ne.symm hx3)]
    rw [hW₃, lov_cnt_old _ _ _ _ _ hG2w hx3]
    rw [hG₂, ngv_cnt_self _ _ _ _ _ hxW2]
    rw [hW₂, lov_cnt_old _ _ _ _ _ hG1w hx2]
    rw [hG₁, ngv_cnt_ne _ _ _ _ _ _ hn1n]
    rw [hW₁, lov_cnt_old _ _ _ _ _ hmN hx1]
    rw [hN, nfy_cnt_ne c gid g a b hg _ (Ne.symm hgn1) x]

/-! ## C1: eventual values propagate through gates, and a transfer scaffold -/

theorem forall₂_evals_bound {c : Circuit} {env : Nat → Bool} :
    ∀ {l : List Nat} {vs : List Bool}, List.Forall₂ (Evals c env) l vs →
      ∃ N, ∀ f, N ≤ f → l.map (wireVal c env f) = vs := by
  intro l vs h
  induction h with
  | nil => exact ⟨0, fun f _ => rfl⟩
  | cons hy hrest ih =>
    obtain ⟨N₁, h₁⟩ := hy
    obtain ⟨N₂, h₂⟩ := ih
    refine ⟨N₁ + N₂, fun f hf => ?_⟩
    rw [List.map_cons, h₁ f (by omega), h₂ f (by omega)]

theorem evals_gate (c : Circuit) (env : Nat → Bool) (x u : Nat) (g : Gate)
    (hs : c.sourceOf x = some u) (hg : c.gateAt u = some g)
    (vs : List Bool) (hvs : List.Forall₂ (Evals c env) g.inputs vs) :
    Evals c env x
      (match evaluate g.type vs with | .ok b => b | .error _ => false) := by
  obtain ⟨N, hN⟩ := forall₂_evals_bound hvs
  refine ⟨N + 1, fun f hf => ?_⟩
  obtain ⟨f', rfl⟩ : ∃ f', f = f' + 1 := ⟨f - 1, by omega⟩
  rw [wireVal_succ_of_gate c env f' u x g hs hg, hN f' (by omega)]

theorem sourceOf_of_wtriple {c : Circuit} {y : Nat} {t : Nat × Option Nat × Bool}
    (h : wtriple c y = some t) : c.sourceOf y = t.2.1 := by
  rw [wtriple] at h
  cases hw : c.wireAt y with
  | none => rw [hw] at h; simp at h
  | some w =>
    rw [hw] at h
    simp only [Option.map_some'] at h
    rw [Circuit.sourceOf, hw]
    show w.source = t.2.1
    rw [← Option.some.inj h]

/-- The transfer scaffold: if the rewrite keeps every wire that the original
gate does not drive pointing at its old source, keeps every other gate, and
re-implements the driven wire's value from the same input limits (`hB`),
then every pre-existing wire's eventual value carries over. -/
theorem evals_preserved_scaffold (c c' : Circuit) (gid : Nat) (g : Gate)
    (hwf : c.wfB = true) (hval : c.validate_connectivity = true)
    (hg : c.gateAt gid = some g)
    (rk : Nat → Nat) (hgr : Graded c rk) (env : Nat → Bool)
    (hsrc_pres : ∀ y, y < c.wires.length → g.output ≠ some y →
      c'.sourceOf y = c.sourceOf y)
    (hgate_pres : ∀ u, u ≠ gid → u < c.gates.length → c'.gateAt u = c.gateAt u)
    (hB : ∀ x, g.output = some x → ∀ vs,
      List.Forall₂ (Evals c env) g.inputs vs →
      List.Forall₂ (Evals c' env) g.inputs vs →
      Evals c' env x
        (match evaluate g.type vs with | .ok b => b | .error _ => false)) :
    ∀ x v, x < c.wires.length → Evals c env x v → Evals c' env x v := by
  have hnone : ∀ y, y < c.wires.length → c.sourceOf y = none →
      Evals c' env y (env y) := by
    intro y hy hsy
    have hgo : g.output ≠ some y := by
      intro ho'
      obtain ⟨wy, hwy, hws⟩ := gate_output_backlink hwf hval hg ho'
      rw [Circuit.sourceOf, hwy] at hsy
      simp [hws] at hsy
    refine ⟨0, fun f _ => ?_⟩
    rw [wireVal_sourceless _ env f y (by rw [hsrc_pres y hy hgo, hsy])]
  have main : ∀ r x u v, x < c.wires.length → c.sourceOf x = some u →
      rk u < r → Evals c env x v → Evals c' env x v := by
    intro r
    induction r with
    | zero => intro x u v _ _ h; omega
    | succ rr ih =>
      intro x u v hx hs hr hE
      have htrans : ∀ y, y < c.wires.length →
          (∀ uy, c.sourceOf y = some uy → rk uy < rr) →
          ∀ w, Evals c env y w → Evals c' env y w := by
        intro y hy hrk w hw
        cases hsy : c.sourceOf y with
        | none =>
          have hwv : w = env y := evals_unique hw
            ⟨0, fun f _ => wireVal_sourceless c env f y hsy⟩
          subst hwv
          exact hnone y hy hsy
        | some uy => exact ih y uy w hy hsy (hrk uy hsy) hw
      have hlist : ∀ (l : List Nat), (∀ y ∈ l, y < c.wires.length) →
          (∀ y ∈ l, ∀ uy, c.sourceOf y = some uy → rk uy < rr) →
          ∃ vs, List.Forall₂ (Evals c env) l vs ∧
            List.Forall₂ (Evals c' env) l vs := by
        intro l
        induction l with
        | nil => exact fun _ _ => ⟨[], List.Forall₂.nil, List.Forall₂.nil⟩
        | cons y t iht =>
          intro h1 h2
          obtain ⟨vs, hvs, hvs'⟩ := iht
            (fun z hz => h1 z (List.mem_cons_of_mem _ hz))
            (fun z hz => h2 z (List.mem_cons_of_mem _ hz))
          obtain ⟨vy, hvy⟩ := evals_of_graded c rk hgr env y
          exact ⟨vy :: vs, .cons hvy hvs,
            .cons (htrans y (h1 y (List.mem_cons_self _ _))
              (h2 y (List.mem_cons_self _ _)) vy hvy) hvs'⟩
      obtain ⟨wx, hwxAt, hwxsrc⟩ := Option.bind_eq_some.mp hs
      obtain ⟨gu, hgu, hguo⟩ := wire_source_backlink hwf hval hwxAt hwxsrc
      have hin_lt : ∀ y ∈ gu.inputs, y < c.wires.length := by
        intro y hy
        obtain ⟨w', hw', _⟩ := gate_inputs_mirror hval hgu hy
        exact wireAt_lt hw'
      have hin_rk : ∀ y ∈ gu.inputs, ∀ uy, c.sourceOf y = some uy →
          rk uy < rr := by
        intro y hy uy hsy
        have := hgr uy u ⟨gu, hgu, y, hy, hsy⟩
        omega
      obtain ⟨vs, hvs, hvs'⟩ := hlist gu.inputs hin_lt hin_rk
      have hcx := evals_gate c env x u gu hs hgu vs hvs
      have hveq : v = (match evaluate gu.type vs with
          | .ok b => b | .error _ => false) := evals_unique hE hcx
      rw [hveq]
      by_cases hu : u = gid
      · subst hu
        rw [hg] at hgu
        cases Option.some.inj hgu
        exact hB x hguo vs hvs hvs'
      · have hgo : g.output ≠ some x := by
          intro ho'
          obtain ⟨wy, hwy, hws⟩ := gate_output_backlink hwf hval hg ho'
          rw [hwxAt] at hwy
          cases Option.some.inj hwy
          rw [hws] at hwxsrc
          exact hu (Option.some.inj hwxsrc).symm
        have hs' : c'.sourceOf x = some u := by
          rw [hsrc_pres x hx hgo, hs]
        have hgu' : c'.gateAt u = some gu := by
          rw [hgate_pres u hu (gateAt_lt hgu), hgu]
        exact evals_gate c' env x u gu hs' hgu' vs hvs'
  intro x v hx hE
  cases hs : c.sourceOf x with
  | none =>
    have hv : v = env x := evals_unique hE
      ⟨0, fun f _ => wireVal_sourceless c env f x hs⟩
    subst hv
    exact hnone x hx hs
  | some u => exact main (rk u + 1) x u v hx hs (by omega) hE

/-! ## C1: transfer of eventual values across each rewrite case -/

theorem forall₂_single_inv {R : Nat → Bool → Prop} {a : Nat} {vs : List Bool}
    (h : List.Forall₂ R [a] vs) : ∃ va, vs = [va] ∧ R a va := by
  rw [List.forall₂_cons_left_iff] at h
  obtain ⟨va, vs1, hva, h1, rfl⟩ := h
  rw [List.forall₂_nil_left_iff] at h1
  subst h1
  exact ⟨va, rfl, hva⟩

theorem forall₂_single_elim {R : Nat → Bool → Prop} {a : Nat} {va : Bool}
    (h : List.Forall₂ R [a] [va]) : R a va := by
  obtain ⟨x, heq, h1⟩ := forall₂_single_inv h
  injection heq with e1 _
  subst e1
  exact h1

theorem forall₂_pair_inv {R : Nat → Bool → Prop} {a b : Nat} {vs : List Bool}
    (h : List.Forall₂ R [a, b] vs) :
    ∃ va vb, vs = [va, vb] ∧ R a va ∧ R b vb := by
  rw [List.forall₂_cons_left_iff] at h
  obtain ⟨va, vs1, hva, h1, rfl⟩ := h
  rw [List.forall₂_cons_left_iff] at h1
  obtain ⟨vb, vs2, hvb, h2, rfl⟩ := h1
  rw [List.forall₂_nil_left_iff] at h2
  subst h2
  exact ⟨va, vb, rfl, hva, hvb⟩

theorem forall₂_pair_elim {R : Nat → Bool → Prop} {a b : Nat} {va vb : Bool}
    (h : List.Forall₂ R [a, b] [va, vb]) : R a va ∧ R b vb := by
  obtain ⟨x, y, heq, h1, h2⟩ := forall₂_pair_inv h
  injection heq with e1 e2
  injection e2 with e3 _
  subst e1
  subst e3
  exact ⟨h1, h2⟩

theorem decomposeGate_NOT_evals (c : Circuit) (gid : Nat) (g : Gate)
    (hwf : c.wfB = true) (hval : c.validate_connectivity = true)
    (hg : c.gateAt gid = some g) (hty : g.type = NOT) (a : Nat)
    (hin : g.inputs = [a])
    (rk : Nat → Nat) (hgr : Graded c rk) :
    ∀ env x v, x < c.wires.length → Evals c env x v →
      Evals (decomposeGate c gid) env x v := by
  obtain ⟨h1, h2, h3, h4, hgat_old, hgat_gid, hwt_all, hcnt_ne, hcnt_gid⟩ :=
    decomposeGate_NOT_facts c gid g hg hty a hin
  intro env
  apply evals_preserved_scaffold c _ gid g hwf hval hg rk hgr env
  · intro y hy hgo
    have h5 := hwt_all y
    rw [wtriple, wtriple] at h5
    exact sourceOf_of_wire_source (wire_triple_projections h5).1
  · intro u hu hlt
    exact hgat_old u (Ne.symm hu)
  · intro x ho vs hvs hvs'
    rw [hin] at hvs hvs'
    obtain ⟨va, rfl, hva⟩ := forall₂_single_inv hvs
    have hva' := forall₂_single_elim hvs'
    have h5 := hwt_all x
    rw [wtriple, wtriple] at h5
    have hsx : (decomposeGate c gid).sourceOf x = some gid := by
      rw [sourceOf_of_wire_source (wire_triple_projections h5).1]
      obtain ⟨wx, hwx, hwxs⟩ := gate_output_backlink hwf hval hg ho
      rw [Circuit.sourceOf, hwx]
      exact hwxs
    have h_x := evals_gate (decomposeGate c gid) env x gid _ hsx hgat_gid
      [va, va] (.cons hva' (.cons hva' .nil))
    rw [hty]
    convert h_x using 2
    cases va <;> rfl

theorem decomposeGate_BUFFER_evals (c : Circuit) (gid : Nat) (g : Gate)
    (hwf : c.wfB = true) (hval : c.validate_connectivity = true)
    (hg : c.gateAt gid = some g) (hty : g.type = BUFFER) (a : Nat)
    (hin : g.inputs = [a])
    (hom : ∀ o, g.output = some o → o < c.wires.length)
    (rk : Nat → Nat) (hgr : Graded c rk) :
    ∀ env x v, x < c.wires.length → Evals c env x v →
      Evals (decomposeGate c gid) env x v := by
  obtain ⟨h1, h2, h3, h4, hgat_old, hgat_gid, hgat_n, hwt_old, hwt_o, hwm,
    hcnt_old, hcnt_gid⟩ :=
    decomposeGate_BUFFER_facts c gid g hg hty a hin hom
  intro env
  apply evals_preserved_scaffold c _ gid g hwf hval hg rk hgr env
  · intro y hy hgo
    have h5 := hwt_old y (by omega) hgo
    rw [wtriple, wtriple] at h5
    exact sourceOf_of_wire_source (wire_triple_projections h5).1
  · intro u hu hlt
    exact hgat_old u (Ne.symm hu) (by omega)
  · intro x ho vs hvs hvs'
    rw [hin] at hvs hvs'
    obtain ⟨va, rfl, hva⟩ := forall₂_single_inv hvs
    have hva' := forall₂_single_elim hvs'
    have hom' : x < c.wires.length := hom x ho
    have hsm : (decomposeGate c gid).sourceOf c.wires.length = some gid := by
      rw [Circuit.sourceOf, hwm]
      rfl
    have hso : (decomposeGate c gid).sourceOf x = some c.gates.length := by
      obtain ⟨wx, hwx⟩ := wireAt_of_lt hom'
      have h6 := hwt_o x ho
      rw [hwx] at h6
      simp only [Option.map_some'] at h6
      exact sourceOf_of_wtriple h6
    have h_m := evals_gate (decomposeGate c gid) env c.wires.length gid _
      hsm hgat_gid [va, va] (.cons hva' (.cons hva' .nil))
    have h_x := evals_gate (decomposeGate c gid) env x c.gates.length _
      hso hgat_n [_, _] (.cons h_m (.cons h_m .nil))
    rw [hty]
    convert h_x using 2
    cases va <;> rfl

theorem decomposeGate_AND_evals (c : Circuit) (gid : Nat) (g : Gate)
    (hwf : c.wfB = true) (hval : c.validate_connectivity = true)
    (hg : c.gateAt gid = some g) (hty : g.type = AND) (a b : Nat)
    (hin : g.inputs = [a, b])
    (hom : ∀ o, g.output = some o → o < c.wires.length)
    (rk : Nat → Nat) (hgr : Graded c rk) :
    ∀ env x v, x < c.wires.length → Evals c env x v →
      Evals (decomposeGate c gid) env x v := by
  obtain ⟨h1, h2, h3, h4, hgat_old, hgat_gid, hgat_n, hwt_old, hwt_o, hwm,
    hcnt_old, hcnt_gid⟩ :=
    decomposeGate_AND_facts c gid g hg hty a b hin hom
  intro env
  apply evals_preserved_scaffold c _ gid g hwf hval hg rk hgr env
  · intro y hy hgo
    have h5 := hwt_old y (by omega) hgo
    rw [wtriple, wtriple] at h5
    exact sourceOf_of_wire_source (wire_triple_projections h5).1
  · intro u hu hlt
    exact hgat_old u (Ne.symm hu) (by omega)
  · intro x ho vs hvs hvs'
    rw [hin] at hvs hvs'
    obtain ⟨va, vb, rfl, hva, hvb⟩ := forall₂_pair_inv hvs
    obtain ⟨hva', hvb'⟩ := forall₂_pair_elim hvs'
    have hom' : x < c.wires.length := hom x ho
    have hsm : (decomposeGate c gid).sourceOf c.wires.length = some gid := by
      rw [Circuit.sourceOf, hwm]
      rfl
    have hso : (decomposeGate c gid).sourceOf x = some c.gates.length := by
      obtain ⟨wx, hwx⟩ := wireAt_of_lt hom'
      have h6 := hwt_o x ho
      rw [hwx] at h6
      simp only [Option.map_some'] at h6
      exact sourceOf_of_wtriple h6
    have h_m := evals_gate (decomposeGate c gid) env c.wires.length gid _
      hsm hgat_gid [va, vb] (.cons hva' (.cons hvb' .nil))
    have h_x := evals_gate (decomposeGate c gid) env x c.gates.length _
      hso hgat_n [_, _] (.cons h_m (.cons h_m .nil))
    rw [hty]
    convert h_x using 2
    cases va <;> cases vb <;> rfl

theorem decomposeGate_OR_evals (c : Circuit) (gid : Nat) (g : Gate)
    (hwf : c.wfB = true) (hval : c.validate_connectivity = true)
    (hg : c.gateAt gid = some g) (hty : g.type = OR) (a b : Nat)
    (hin : g.inputs = [a, b])
    (hom : ∀ o, g.output = some o → o < c.wires.length)
    (hbl : b < c.wires.length)
    (rk : Nat → Nat) (hgr : Graded c rk) :
    ∀ env x v, x < c.wires.length → Evals c env x v →
      Evals (decomposeGate c gid) env x v := by
  obtain ⟨h1, h2, h3, h4, hgat_old, hgat_gid, hgat_n, hgat_n1, hwt_old, hwt_o,
    hwm, hwm1, hcnt_old, hcnt_gid, hcnt_n⟩ :=
    decomposeGate_OR_facts c gid g hg hty a b hin hom hbl
  intro env
  apply evals_preserved_scaffold c _ gid g hwf hval hg rk hgr env
  · intro y hy hgo
    have h5 := hwt_old y (by omega) (by omega) hgo
    rw [wtriple, wtriple] at h5
    exact sourceOf_of_wire_source (wire_triple_projections h5).1
  · intro u hu hlt
    exact hgat_old u (Ne.symm hu) (by omega) (by omega)
  · intro x ho vs hvs hvs'
    rw [hin] at hvs hvs'
    obtain ⟨va, vb, rfl, hva, hvb⟩ := forall₂_pair_inv hvs
    obtain ⟨hva', hvb'⟩ := forall₂_pair_elim hvs'
    have hom' : x < c.wires.length := hom x ho
    have hsm : (decomposeGate c gid).sourceOf c.wires.length = some gid := by
      rw [Circuit.sourceOf, hwm]
      rfl
    have hsm1 : (decomposeGate c gid).sourceOf (c.wires.length + 1) =
        some c.gates.length := by
      rw [Circuit.sourceOf, hwm1]
      rfl
    have hso : (decomposeGate c gid).sourceOf x =
        some (c.gates.length + 1) := by
      obtain ⟨wx, hwx⟩ := wireAt_of_lt hom'
      have h6 := hwt_o x ho
      rw [hwx] at h6
      simp only [Option.map_some'] at h6
      exact sourceOf_of_wtriple h6
    have h_m := evals_gate (decomposeGate c gid) env c.wires.length gid _
      hsm hgat_gid [va, va] (.cons hva' (.cons hva' .nil))
    have h_m1 := evals_gate (decomposeGate c gid) env (c.wires.length + 1)
      c.gates.length _ hsm1 hgat_n [vb, vb] (.cons hvb' (.cons hvb' .nil))
    have h_x := evals_gate (decomposeGate c gid) env x
      (c.gates.length + 1) _ hso hgat_n1 [_, _]
      (.cons h_m (.cons h_m1 .nil))
    rw [hty]
    convert h_x using 2
    cases va <;> cases vb <;> rfl

theorem decomposeGate_XOR_evals (c : Circuit) (gid : Nat) (g : Gate)
    (hwf : c.wfB = true) (hval : c.validate_connectivity = true)
    (hg : c.gateAt gid = some g) (hty : g.type = XOR) (a b : Nat)
    (hin : g.inputs = [a, b])
    (hom : ∀ o, g.output = some o → o < c.wires.length)
    (hal : a < c.wires.length) (hbl : b < c.wires.length)
    (rk : Nat → Nat) (hgr : Graded c rk) :
    ∀ env x v, x < c.wires.length → Evals c env x v →
      Evals (decomposeGate c gid) env x v := by
  obtain ⟨h1, h2, h3, h4, hgat_old, hgat_gid, hgat_n, hgat_n1, hgat_n2,
    hwt_old, hwt_o, hwm, hwm1, hwm2, hcnt_old, hcnt_gid, hcnt_n, hcnt_n1⟩ :=
    decomposeGate_XOR_facts c gid g hg hty a b hin hom hal hbl
  intro env
  apply evals_preserved_scaffold c _ gid g hwf hval hg rk hgr env
  · intro y hy hgo
    have h5 := hwt_old y (by omega) (by omega) (by omega) hgo
    rw [wtriple, wtriple] at h5
    exact sourceOf_of_wire_source (wire_triple_projections h5).1
  · intro u hu hlt
    exact hgat_old u (Ne.symm hu) (by omega) (by omega) (by omega)
  · intro x ho vs hvs hvs'
    rw [hin] at hvs hvs'
    obtain ⟨va, vb, rfl, hva, hvb⟩ := forall₂_pair_inv hvs
    obtain ⟨hva', hvb'⟩ := forall₂_pair_elim hvs'
    have hom' : x < c.wires.length := hom x ho
    have hsm : (decomposeGate c gid).sourceOf c.wires.length = some gid := by
      rw [Circuit.sourceOf, hwm]
      rfl
    have hsm1 : (decomposeGate c gid).sourceOf (c.wires.length + 1) =
        some c.gates.length := by
      rw [Circuit.sourceOf, hwm1]
      rfl
    have hsm2 : (decomposeGate c gid).sourceOf (c.wires.length + 1 + 1) =
        some (c.gates.length + 1) := by
      rw [Circuit.sourceOf, hwm2]
      rfl
    have hso : (decomposeGate c gid).sourceOf x =
        some (c.gates.length + 1 + 1) := by
      obtain ⟨wx, hwx⟩ := wireAt_of_lt hom'
      have h6 := hwt_o x ho
      rw [hwx] at h6
      simp only [Option.map_some'] at h6
      exact sourceOf_of_wtriple h6
    have h_m := evals_gate (decomposeGate c gid) env c.wires.length gid _
      hsm hgat_gid [va, vb] (.cons hva' (.cons hvb' .nil))
    have h_m1 := evals_gate (decomposeGate c gid) env (c.wires.length + 1)
      c.gates.length _ hsm1 hgat_n [va, _] (.cons hva' (.cons h_m .nil))
    have h_m2 := evals_gate (decomposeGate c gid) env (c.wires.length + 1 + 1)
      (c.gates.length + 1) _ hsm2 hgat_n1 [vb, _] (.cons hvb' (.cons h_m .nil))
    have h_x := evals_gate (decomposeGate c gid) env x
      (c.gates.length + 1 + 1) _ hso hgat_n2 [_, _]
      (.cons h_m1 (.cons h_m2 .nil))
    rw [hty]
    convert h_x using 2
    cases va <;> cases vb <;> rfl

/-! ## C1: liveness, self-loop freedom and validation reconstruction -/

theorem gateAt_none_of_ge {c : Circuit} {gid : Nat}
    (h : c.gates.length ≤ gid) : c.gateAt gid = none := by
  rw [Circuit.gateAt, List.get?_eq_getElem?]
  exact List.getElem?_eq_none h

theorem wireAt_none_of_ge {c : Circuit} {wid : Nat}
    (h : c.wires.length ≤ wid) : c.wireAt wid = none := by
  rw [Circuit.wireAt, List.get?_eq_getElem?]
  exact List.getElem?_eq_none h

theorem sourceOf_none_of_ge {c : Circuit} {wid : Nat}
    (h : c.wires.length ≤ wid) : c.sourceOf wid = none := by
  rw [Circuit.sourceOf, wireAt_none_of_ge h]
  rfl

theorem input_lt_wires {c : Circuit} (hval : c.validate_connectivity = true)
    {v : Nat} {gv : Gate} (hg : c.gateAt v = some gv) {wid : Nat}
    (hin : wid ∈ gv.inputs) : wid < c.wires.length := by
  obtain ⟨w, hw, _⟩ := gate_inputs_mirror hval hg hin
  exact wireAt_lt hw

theorem source_lt_gates {c : Circuit} (hwf : c.wfB = true)
    (hval : c.validate_connectivity = true) {wid u : Nat}
    (hs : c.sourceOf wid = some u) : u < c.gates.length := by
  cases hw : c.wireAt wid with
  | none =>
    rw [Circuit.sourceOf, hw] at hs
    exact absurd hs (by simp)
  | some w =>
    have hws : w.source = some u := by
      rw [Circuit.sourceOf, hw] at hs
      exact hs
    obtain ⟨g, hg, _⟩ := wire_source_backlink hwf hval hw hws
    exact gateAt_lt hg

/-- On a graded circuit no gate's output wire is also one of its inputs. -/
theorem input_ne_output {c : Circuit} (hwf : c.wfB = true)
    (hval : c.validate_connectivity = true) {gid : Nat} {g : Gate}
    (hg : c.gateAt gid = some g) {rk : Nat → Nat} (hgr : Graded c rk)
    {wid : Nat} (hin : wid ∈ g.inputs) {o : Nat} (ho : g.output = some o) :
    wid ≠ o := by
  intro he
  subst he
  obtain ⟨w, hw, hws⟩ := gate_output_backlink hwf hval hg ho
  have hsrc : c.sourceOf wid = some gid := by
    rw [Circuit.sourceOf, hw]
    exact hws
  exact absurd (hgr gid gid ⟨g, hg, wid, hin, hsrc⟩) (lt_irrefl _)

theorem gateAt_of_mem {c : Circuit} {g : Gate} (h : g ∈ c.gates) :
    ∃ v, c.gateAt v = some g :=
  List.mem_iff_get?.mp h

theorem wireAt_of_mem {c : Circuit} {w : Wire} (h : w ∈ c.wires) :
    ∃ x, c.wireAt x = some w :=
  List.mem_iff_get?.mp h

theorem mem_of_gateAt {c : Circuit} {v : Nat} {g : Gate}
    (h : c.gateAt v = some g) : g ∈ c.gates :=
  List.mem_iff_get?.mpr ⟨v, h⟩

theorem mem_of_wireAt {c : Circuit} {x : Nat} {w : Wire}
    (h : c.wireAt x = some w) : w ∈ c.wires :=
  List.mem_iff_get?.mpr ⟨x, h⟩

/-- Reconstruct arena well-formedness from indexed id facts. -/
theorem wfB_of {c : Circuit}
    (h1 : ∀ v g, c.gateAt v = some g → g.id = v)
    (h2 : ∀ x w, c.wireAt x = some w → w.id = x) :
    c.wfB = true := by
  rw [Circuit.wfB, Bool.and_eq_true]
  constructor <;> rw [List.all_eq_true] <;> intro i _
  · cases hg : c.gates.get? i with
    | none => rfl
    | some g => simp [Option.all_some, h1 i g hg]
  · cases hw : c.wires.get? i with
    | none => rfl
    | some w => simp [Option.all_some, h2 i w hw]

/-- Reconstruct `validate_connectivity` from backlinks, liveness of the
referenced indices and the input/destination multiplicity identity. -/
theorem validate_of {c : Circuit} (hwf : c.wfB = true)
    (h1 : ∀ v g, c.gateAt v = some g → ∀ o, g.output = some o →
      ∃ w, c.wireAt o = some w ∧ w.source = some v)
    (h2 : ∀ x w, c.wireAt x = some w → ∀ s, w.source = some s →
      ∃ gs, c.gateAt s = some gs ∧ gs.output = some x)
    (h3 : ∀ v g, c.gateAt v = some g → ∀ wid ∈ g.inputs,
      wid < c.wires.length)
    (h4 : ∀ x w, c.wireAt x = some w → ∀ v ∈ w.destinations,
      v < c.gates.length)
    (h5 : ∀ v g, c.gateAt v = some g → ∀ x, x < c.wires.length →
      g.inputs.count x = cntD c x v) :
    c.validate_connectivity = true := by
  rw [Circuit.validate_connectivity, Bool.and_eq_true]
  constructor <;> rw [List.all_eq_true]
  · intro g hgmem
    obtain ⟨v, hg⟩ := gateAt_of_mem hgmem
    have hid : g.id = v := wf_gate_id hwf hg
    rw [gateSideOk, Bool.and_eq_true]
    constructor
    · cases ho : g.output with
      | none => rfl
      | some o =>
        obtain ⟨w, hw, hws⟩ := h1 v g hg o ho
        simp [hw, hws, hid]
    · rw [List.all_eq_true]
      intro wid hwid
      obtain ⟨w, hw⟩ := wireAt_of_lt (h3 v g hg wid hwid)
      have hcnt : g.inputs.count wid = w.destinations.count g.id := by
        rw [hid, h5 v g hg wid (h3 v g hg wid hwid), cntD, hw]
        rfl
      simp only [hw]
      simp [hcnt]
  · intro w hwmem
    obtain ⟨x, hw⟩ := wireAt_of_mem hwmem
    have hid : w.id = x := wf_wire_id hwf hw
    rw [wireSideOk, Bool.and_eq_true]
    constructor
    · cases hs : w.source with
      | none => rfl
      | some s =>
        obtain ⟨gs, hg, hgo⟩ := h2 x w hw s hs
        simp [hg, hgo, hid]
    · rw [List.all_eq_true]
      intro v hv
      obtain ⟨g, hg⟩ := gateAt_of_lt (h4 x w hw v hv)
      have hcnt : g.inputs.count w.id = w.destinations.count v := by
        rw [hid, h5 v g hg x (wireAt_lt hw), cntD, hw]
        rfl
      simp only [hg]
      simp [hcnt]

theorem cntD_of_wireAt {c : Circuit} {x : Nat} {w : Wire}
    (hw : c.wireAt x = some w) {v : Nat} :
    cntD c x v = w.destinations.count v := by
  rw [cntD, hw]
  rfl

/-- A dangling gate id never occurs among validated destinations. -/
theorem cntD_ge_gates {c : Circuit} (hval : c.validate_connectivity = true)
    {x v : Nat} (hv : c.gates.length ≤ v) : cntD c x v = 0 := by
  cases hw : c.wireAt x with
  | none => rw [cntD, hw]; rfl
  | some w =>
    rw [cntD_of_wireAt hw]
    by_contra hne
    obtain ⟨g, hg, _⟩ := wire_dests_mirror hval hw
      (List.count_pos_iff.mp (Nat.pos_of_ne_zero hne))
    exact absurd (gateAt_lt hg) (by omega)

theorem wtriple_some_elim {c₁ c₂ : Circuit} {x : Nat}
    (h : wtriple c₁ x = wtriple c₂ x) {w : Wire}
    (hw : c₁.wireAt x = some w) :
    ∃ w', c₂.wireAt x = some w' ∧ w'.id = w.id ∧ w'.source = w.source ∧
      w'.value = w.value := by
  rw [wtriple, wtriple, hw] at h
  cases hw2 : c₂.wireAt x with
  | none => rw [hw2] at h; simp at h
  | some w' =>
    rw [hw2] at h
    simp only [Option.map_some'] at h
    have hp := Option.some.inj h
    exact ⟨w', rfl, (congrArg (fun t => t.1) hp).symm,
      (congrArg (fun t => t.2.1) hp).symm, (congrArg (fun t => t.2.2) hp).symm⟩

theorem sourceOf_of_wtriple_eq {c₁ c₂ : Circuit} {x : Nat}
    (h : wtriple c₁ x = wtriple c₂ x) : c₁.sourceOf x = c₂.sourceOf x := by
  rw [wtriple, wtriple] at h
  exact sourceOf_of_wire_source (wire_triple_projections h).1

/-- A grading of the feeds relation is a certificate of acyclicity of the
claims' edge relation. -/
theorem graded_acyclic {c : Circuit} (hwf : c.wfB = true)
    (hval : c.validate_connectivity = true) {rk : Nat → Nat}
    (hgr : Graded c rk) : Acyclic c := by
  apply acyclic_of_rank c rk
  intro w hwmem s hs d hd
  obtain ⟨x, hw⟩ := wireAt_of_mem hwmem
  have hid : w.id = x := wf_wire_id hwf hw
  have hsrc : w.source = some s := by
    cases ho : w.source with
    | none => rw [ho] at hs; simp at hs
    | some s' =>
      rw [ho] at hs
      simp only [Option.toList_some, List.mem_singleton] at hs
      subst hs
      rfl
  obtain ⟨g, hgd, hcnt⟩ := wire_dests_mirror hval hw hd
  have hmem : w.id ∈ g.inputs := List.count_pos_iff.mp
    (lt_of_lt_of_le (List.count_pos_iff.mpr hd) hcnt)
  have hsx : c.sourceOf w.id = some s := by
    rw [hid, Circuit.sourceOf, hw]
    exact hsrc
  exact hgr s d ⟨g, hgd, w.id, hmem, hsx⟩

/-! ## C1: each rewrite case keeps the feeds relation graded -/

theorem decomposeGate_NOT_graded (c : Circuit) (gid : Nat) (g : Gate)
    (hg : c.gateAt gid = some g) (hty : g.type = NOT) (a : Nat)
    (hin : g.inputs = [a])
    (rk : Nat → Nat) (hgr : Graded c rk) :
    ∃ rk', Graded (decomposeGate c gid) rk' := by
  obtain ⟨h1, h2, h3, h4, hgat_old, hgat_gid, hwt_all, hcnt_ne, hcnt_gid⟩ :=
    decomposeGate_NOT_facts c gid g hg hty a hin
  refine ⟨rk, ?_⟩
  intro u v hf
  obtain ⟨gv, hgv, wid, hwid, hsrc⟩ := hf
  rw [sourceOf_of_wtriple_eq (hwt_all wid)] at hsrc
  by_cases hv : v = gid
  · subst hv
    rw [hgat_gid] at hgv
    injection hgv with he
    subst he
    have hwid' : wid ∈ [a, a] := hwid
    have hwa : wid = a := by simpa using hwid'
    subst hwa
    exact hgr u v ⟨g, hg, wid, by rw [hin]; exact List.mem_singleton_self wid,
      hsrc⟩
  · have hgv2 : c.gateAt v = some gv := by
      rw [← hgat_old v (fun he => hv he.symm)]
      exact hgv
    exact hgr u v ⟨gv, hgv2, wid, hwid, hsrc⟩

theorem decomposeGate_BUFFER_graded (c : Circuit) (gid : Nat) (g : Gate)
    (hwf : c.wfB = true) (hval : c.validate_connectivity = true)
    (hg : c.gateAt gid = some g) (hty : g.type = BUFFER) (a : Nat)
    (hin : g.inputs = [a])
    (hom : ∀ o, g.output = some o → o < c.wires.length)
    (rk : Nat → Nat) (hgr : Graded c rk) :
    ∃ rk', Graded (decomposeGate c gid) rk' := by
  obtain ⟨h1, h2, h3, h4, hgat_old, hgat_gid, hgat_n, hwt_old, hwt_o, hwm,
    hcnt_old, hcnt_gid⟩ := decomposeGate_BUFFER_facts c gid g hg hty a hin hom
  have hglt : gid < c.gates.length := gateAt_lt hg
  have hal : a < c.wires.length := input_lt_wires hval hg (by rw [hin]; simp)
  have hsm : (decomposeGate c gid).sourceOf c.wires.length = some gid := by
    rw [Circuit.sourceOf, hwm]
    rfl
  have hsold : ∀ y, y < c.wires.length → g.output ≠ some y →
      (decomposeGate c gid).sourceOf y = c.sourceOf y := by
    intro y hy hgo
    exact sourceOf_of_wtriple_eq (hwt_old y (by omega) hgo)
  have hso : ∀ o, g.output = some o →
      (decomposeGate c gid).sourceOf o = some c.gates.length := by
    intro o ho
    obtain ⟨wx, hwx⟩ := wireAt_of_lt (hom o ho)
    have h6 := hwt_o o ho
    rw [hwx] at h6
    simp only [Option.map_some'] at h6
    exact sourceOf_of_wtriple h6
  refine ⟨fun u => if u = c.gates.length then 4 * rk gid + 1 else 4 * rk u, ?_⟩
  intro u v hf
  obtain ⟨gv, hgv, wid, hwid, hsrc⟩ := hf
  show (if u = c.gates.length then 4 * rk gid + 1 else 4 * rk u) <
    (if v = c.gates.length then 4 * rk gid + 1 else 4 * rk v)
  by_cases hvg : v = gid
  · subst hvg
    rw [hgat_gid] at hgv
    injection hgv with he
    subst he
    have hwid' : wid ∈ [a, a] := hwid
    have hwa : wid = a := by simpa using hwid'
    subst hwa
    have hmem : wid ∈ g.inputs := by rw [hin]; exact List.mem_singleton_self wid
    have hgo : g.output ≠ some wid := fun ho =>
      (input_ne_output hwf hval hg hgr hmem ho) rfl
    rw [hsold wid hal hgo] at hsrc
    have hult : u < c.gates.length := source_lt_gates hwf hval hsrc
    have hlt := hgr u v ⟨g, hg, wid, hmem, hsrc⟩
    have hn1 : ¬(u = c.gates.length) := by omega
    have hn2 : ¬(v = c.gates.length) := by omega
    rw [if_neg hn1, if_neg hn2]
    omega
  · by_cases hvn : v = c.gates.length
    · subst hvn
      rw [hgat_n] at hgv
      injection hgv with he
      subst he
      have hwid' : wid ∈ [c.wires.length, c.wires.length] := hwid
      have hwme : wid = c.wires.length := by simpa using hwid'
      subst hwme
      rw [hsm] at hsrc
      injection hsrc with he2
      subst he2
      have hn1 : ¬(gid = c.gates.length) := by omega
      rw [if_neg hn1, if_pos rfl]
      omega
    · have hvl : v < c.gates.length := by
        by_contra hge
        have hnone : (decomposeGate c gid).gateAt v = none := by
          apply gateAt_none_of_ge
          rw [h1]
          omega
        rw [hnone] at hgv
        exact Option.noConfusion hgv
      have hgv2 : c.gateAt v = some gv := by
        rw [← hgat_old v (fun he => hvg he.symm) hvn]
        exact hgv
      have hwl : wid < c.wires.length := input_lt_wires hval hgv2 hwid
      by_cases hwo : g.output = some wid
      · rw [hso wid hwo] at hsrc
        injection hsrc with he2
        subst he2
        obtain ⟨w, hw, hws⟩ := gate_output_backlink hwf hval hg hwo
        have hsrcc : c.sourceOf wid = some gid := by
          rw [Circuit.sourceOf, hw]
          exact hws
        have hlt := hgr gid v ⟨gv, hgv2, wid, hwid, hsrcc⟩
        have hn2 : ¬(v = c.gates.length) := by omega
        rw [if_pos rfl, if_neg hn2]
        omega
      · rw [hsold wid hwl hwo] at hsrc
        have hlt := hgr u v ⟨gv, hgv2, wid, hwid, hsrc⟩
        have hult : u < c.gates.length := source_lt_gates hwf hval hsrc
        have hn1 : ¬(u = c.gates.length) := by omega
        have hn2 : ¬(v = c.gates.length) := by omega
        rw [if_neg hn1, if_neg hn2]
        omega

theorem decomposeGate_AND_graded (c : Circuit) (gid : Nat) (g : Gate)
    (hwf : c.wfB = true) (hval : c.validate_connectivity = true)
    (hg : c.gateAt gid = some g) (hty : g.type = AND) (a b : Nat)
    (hin : g.inputs = [a, b])
    (hom : ∀ o, g.output = some o → o < c.wires.length)
    (rk : Nat → Nat) (hgr : Graded c rk) :
    ∃ rk', Graded (decomposeGate c gid) rk' := by
  obtain ⟨h1, h2, h3, h4, hgat_old, hgat_gid, hgat_n, hwt_old, hwt_o, hwm,
    hcnt_old, hcnt_gid⟩ := decomposeGate_AND_facts c gid g hg hty a b hin hom
  have hglt : gid < c.gates.length := gateAt_lt hg
  have hal : a < c.wires.length := input_lt_wires hval hg (by rw [hin]; simp)
  have hbl : b < c.wires.length := input_lt_wires hval hg (by rw [hin]; simp)
  have hsm : (decomposeGate c gid).sourceOf c.wires.length = some gid := by
    rw [Circuit.sourceOf, hwm]
    rfl
  have hsold : ∀ y, y < c.wires.length → g.output ≠ some y →
      (decomposeGate c gid).sourceOf y = c.sourceOf y := by
    intro y hy hgo
    exact sourceOf_of_wtriple_eq (hwt_old y (by omega) hgo)
  have hso : ∀ o, g.output = some o →
      (decomposeGate c gid).sourceOf o = some c.gates.length := by
    intro o ho
    obtain ⟨wx, hwx⟩ := wireAt_of_lt (hom o ho)
    have h6 := hwt_o o ho
    rw [hwx] at h6
    simp only [Option.map_some'] at h6
    exact sourceOf_of_wtriple h6
  refine ⟨fun u => if u = c.gates.length then 4 * rk gid + 1 else 4 * rk u, ?_⟩
  intro u v hf
  obtain ⟨gv, hgv, wid, hwid, hsrc⟩ := hf
  show (if u = c.gates.length then 4 * rk gid + 1 else 4 * rk u) <
    (if v = c.gates.length then 4 * rk gid + 1 else 4 * rk v)
  by_cases hvg : v = gid
  · subst hvg
    rw [hgat_gid] at hgv
    injection hgv with he
    subst he
    have hwid' : wid ∈ [a, b] := hwid
    have hmem : wid ∈ g.inputs := by rw [hin]; exact hwid'
    have hwl : wid < c.wires.length := by
      rcases (show wid = a ∨ wid = b by simpa using hwid') with rfl | rfl <;>
        omega
    have hgo : g.output ≠ some wid := fun ho =>
      (input_ne_output hwf hval hg hgr hmem ho) rfl
    rw [hsold wid hwl hgo] at hsrc
    have hult : u < c.gates.length := source_lt_gates hwf hval hsrc
    have hlt := hgr u v ⟨g, hg, wid, hmem, hsrc⟩
    have hn1 : ¬(u = c.gates.length) := by omega
    have hn2 : ¬(v = c.gates.length) := by omega
    rw [if_neg hn1, if_neg hn2]
    omega
  · by_cases hvn : v = c.gates.length
    · subst hvn
      rw [hgat_n] at hgv
      injection hgv with he
      subst he
      have hwid' : wid ∈ [c.wires.length, c.wires.length] := hwid
      have hwme : wid = c.wires.length := by simpa using hwid'
      subst hwme
      rw [hsm] at hsrc
      injection hsrc with he2
      subst he2
      have hn1 : ¬(gid = c.gates.length) := by omega
      rw [if_neg hn1, if_pos rfl]
      omega
    · have hvl : v < c.gates.length := by
        by_contra hge
        have hnone : (decomposeGate c gid).gateAt v = none := by
          apply gateAt_none_of_ge
          rw [h1]
          omega
        rw [hnone] at hgv
        exact Option.noConfusion hgv
      have hgv2 : c.gateAt v = some gv := by
        rw [← hgat_old v (fun he => hvg he.symm) hvn]
        exact hgv
      have hwl : wid < c.wires.length := input_lt_wires hval hgv2 hwid
      by_cases hwo : g.output = some wid
      · rw [hso wid hwo] at hsrc
        injection hsrc with he2
        subst he2
        obtain ⟨w, hw, hws⟩ := gate_output_backlink hwf hval hg hwo
        have hsrcc : c.sourceOf wid = some gid := by
          rw [Circuit.sourceOf, hw]
          exact hws
        have hlt := hgr gid v ⟨gv, hgv2, wid, hwid, hsrcc⟩
        have hn2 : ¬(v = c.gates.length) := by omega
        rw [if_pos rfl, if_neg hn2]
        omega
      · rw [hsold wid hwl hwo] at hsrc
        have hlt := hgr u v ⟨gv, hgv2, wid, hwid, hsrc⟩
        have hult : u < c.gates.length := source_lt_gates hwf hval hsrc
        have hn1 : ¬(u = c.gates.length) := by omega
        have hn2 : ¬(v = c.gates.length) := by omega
        rw [if_neg hn1, if_neg hn2]
        omega

theorem decomposeGate_OR_graded (c : Circuit) (gid : Nat) (g : Gate)
    (hwf : c.wfB = true) (hval : c.validate_connectivity = true)
    (hg : c.gateAt gid = some g) (hty : g.type = OR) (a b : Nat)
    (hin : g.inputs = [a, b])
    (hom : ∀ o, g.output = some o → o < c.wires.length)
    (rk : Nat → Nat) (hgr : Graded c rk) :
    ∃ rk', Graded (decomposeGate c gid) rk' := by
  have hal : a < c.wires.length := input_lt_wires hval hg (by rw [hin]; simp)
  have hbl : b < c.wires.length := input_lt_wires hval hg (by rw [hin]; simp)
  obtain ⟨h1, h2, h3, h4, hgat_old, hgat_gid, hgat_n, hgat_n1, hwt_old, hwt_o,
    hwm, hwm1, hcnt_old, hcnt_gid, hcnt_n⟩ :=
    decomposeGate_OR_facts c gid g hg hty a b hin hom hbl
  have hglt : gid < c.gates.length := gateAt_lt hg
  have hsm : (decomposeGate c gid).sourceOf c.wires.length = some gid := by
    rw [Circuit.sourceOf, hwm]
    rfl
  have hsm1 : (decomposeGate c gid).sourceOf (c.wires.length + 1) =
      some c.gates.length := by
    rw [Circuit.sourceOf, hwm1]
    rfl
  have hsold : ∀ y, y < c.wires.length → g.output ≠ some y →
      (decomposeGate c gid).sourceOf y = c.sourceOf y := by
    intro y hy hgo
    exact sourceOf_of_wtriple_eq (hwt_old y (by omega) (by omega) hgo)
  have hso : ∀ o, g.output = some o →
      (decomposeGate c gid).sourceOf o = some (c.gates.length + 1) := by
    intro o ho
    obtain ⟨wx, hwx⟩ := wireAt_of_lt (hom o ho)
    have h6 := hwt_o o ho
    rw [hwx] at h6
    simp only [Option.map_some'] at h6
    exact sourceOf_of_wtriple h6
  refine ⟨fun u => if u = c.gates.length then 4 * rk gid + 1
    else if u = c.gates.length + 1 then 4 * rk gid + 2 else 4 * rk u, ?_⟩
  intro u v hf
  obtain ⟨gv, hgv, wid, hwid, hsrc⟩ := hf
  show (if u = c.gates.length then 4 * rk gid + 1
      else if u = c.gates.length + 1 then 4 * rk gid + 2 else 4 * rk u) <
    (if v = c.gates.length then 4 * rk gid + 1
      else if v = c.gates.length + 1 then 4 * rk gid + 2 else 4 * rk v)
  by_cases hvg : v = gid
  · subst hvg
    rw [hgat_gid] at hgv
    injection hgv with he
    subst he
    have hwid' : wid ∈ [a, a] := hwid
    have hwa : wid = a := by simpa using hwid'
    subst hwa
    have hmem : wid ∈ g.inputs := by rw [hin]; simp
    have hgo : g.output ≠ some wid := fun ho =>
      (input_ne_output hwf hval hg hgr hmem ho) rfl
    rw [hsold wid hal hgo] at hsrc
    have hult : u < c.gates.length := source_lt_gates hwf hval hsrc
    have hlt := hgr u v ⟨g, hg, wid, hmem, hsrc⟩
    have hn1 : ¬(u = c.gates.length) := by omega
    have hn2 : ¬(u = c.gates.length + 1) := by omega
    have hn3 : ¬(v = c.gates.length) := by omega
    have hn4 : ¬(v = c.gates.length + 1) := by omega
    rw [if_neg hn1, if_neg hn2, if_neg hn3, if_neg hn4]
    omega
  · by_cases hvn : v = c.gates.length
    · subst hvn
      rw [hgat_n] at hgv
      injection hgv with he
      subst he
      have hwid' : wid ∈ [b, b] := hwid
      have hwb : wid = b := by simpa using hwid'
      subst hwb
      have hmem : wid ∈ g.inputs := by rw [hin]; simp
      have hgo : g.output ≠ some wid := fun ho =>
        (input_ne_output hwf hval hg hgr hmem ho) rfl
      rw [hsold wid hbl hgo] at hsrc
      have hult : u < c.gates.length := source_lt_gates hwf hval hsrc
      have hlt := hgr u gid ⟨g, hg, wid, hmem, hsrc⟩
      have hn1 : ¬(u = c.gates.length) := by omega
      have hn2 : ¬(u = c.gates.length + 1) := by omega
      rw [if_neg hn1, if_neg hn2, if_pos rfl]
      omega
    · by_cases hvn1 : v = c.gates.length + 1
      · subst hvn1
        rw [hgat_n1] at hgv
        injection hgv with he
        subst he
        have hwid' : wid ∈ [c.wires.length, c.wires.length + 1] := hwid
        have hn3 : ¬(c.gates.length + 1 = c.gates.length) := by omega
        rcases (show wid = c.wires.length ∨ wid = c.wires.length + 1 by
            simpa using hwid') with rfl | rfl
        · rw [hsm] at hsrc
          injection hsrc with he2
          subst he2
          have hn1 : ¬(gid = c.gates.length) := by omega
          have hn2 : ¬(gid = c.gates.length + 1) := by omega
          rw [if_neg hn1, if_neg hn2, if_neg hn3, if_pos rfl]
          omega
        · rw [hsm1] at hsrc
          injection hsrc with he2
          subst he2
          rw [if_pos rfl, if_neg hn3, if_pos rfl]
          omega
      · have hvl : v < c.gates.length := by
          by_contra hge
          have hnone : (decomposeGate c gid).gateAt v = none := by
            apply gateAt_none_of_ge
            rw [h1]
            omega
          rw [hnone] at hgv
          exact Option.noConfusion hgv
        have hgv2 : c.gateAt v = some gv := by
          rw [← hgat_old v (fun he => hvg he.symm) hvn hvn1]
          exact hgv
        have hwl : wid < c.wires.length := input_lt_wires hval hgv2 hwid
        by_cases hwo : g.output = some wid
        · rw [hso wid hwo] at hsrc
          injection hsrc with he2
          subst he2
          obtain ⟨w, hw, hws⟩ := gate_output_backlink hwf hval hg hwo
          have hsrcc : c.sourceOf wid = some gid := by
            rw [Circuit.sourceOf, hw]
            exact hws
          have hlt := hgr gid v ⟨gv, hgv2, wid, hwid, hsrcc⟩
          have hn2 : ¬(c.gates.length + 1 = c.gates.length) := by omega
          have hn3 : ¬(v = c.gates.length) := by omega
          have hn4 : ¬(v = c.gates.length + 1) := by omega
          rw [if_neg hn2, if_pos rfl, if_neg hn3, if_neg hn4]
          omega
        · rw [hsold wid hwl hwo] at hsrc
          have hlt := hgr u v ⟨gv, hgv2, wid, hwid, hsrc⟩
          have hult : u < c.gates.length := source_lt_gates hwf hval hsrc
          have hn1 : ¬(u = c.gates.length) := by omega
          have hn2 : ¬(u = c.gates.length + 1) := by omega
          have hn3 : ¬(v = c.gates.length) := by omega
          have hn4 : ¬(v = c.gates.length + 1) := by omega
          rw [if_neg hn1, if_neg hn2, if_neg hn3, if_neg hn4]
          omega

theorem decomposeGate_XOR_graded (c : Circuit) (gid : Nat) (g : Gate)
    (hwf : c.wfB = true) (hval : c.validate_connectivity = true)
    (hg : c.gateAt gid = some g) (hty : g.type = XOR) (a b : Nat)
    (hin : g.inputs = [a, b])
    (hom : ∀ o, g.output = some o → o < c.wires.length)
    (rk : Nat → Nat) (hgr : Graded c rk) :
    ∃ rk', Graded (decomposeGate c gid) rk' := by
  have hal : a < c.wires.length := input_lt_wires hval hg (by rw [hin]; simp)
  have hbl : b < c.wires.length := input_lt_wires hval hg (by rw [hin]; simp)
  obtain ⟨h1, h2, h3, h4, hgat_old, hgat_gid, hgat_n, hgat_n1, hgat_n2,
    hwt_old, hwt_o, hwm, hwm1, hwm2, hcnt_old, hcnt_gid, hcnt_n, hcnt_n1⟩ :=
    decomposeGate_XOR_facts c gid g hg hty a b hin hom hal hbl
  have hglt : gid < c.gates.length := gateAt_lt hg
  have hsm : (decomposeGate c gid).sourceOf c.wires.length = some gid := by
    rw [Circuit.sourceOf, hwm]
    rfl
  have hsm1 : (decomposeGate c gid).sourceOf (c.wires.length + 1) =
      some c.gates.length := by
    rw [Circuit.sourceOf, hwm1]
    rfl
  have hsm2 : (decomposeGate c gid).sourceOf (c.wires.length + 1 + 1) =
      some (c.gates.length + 1) := by
    rw [Circuit.sourceOf, hwm2]
    rfl
  have hsold : ∀ y, y < c.wires.length → g.output ≠ some y →
      (decomposeGate c gid).sourceOf y = c.sourceOf y := by
    intro y hy hgo
    exact sourceOf_of_wtriple_eq (hwt_old y (by omega) (by omega) (by omega)
      hgo)
  have hso : ∀ o, g.output = some o →
      (decomposeGate c gid).sourceOf o = some (c.gates.length + 1 + 1) := by
    intro o ho
    obtain ⟨wx, hwx⟩ := wireAt_of_lt (hom o ho)
    have h6 := hwt_o o ho
    rw [hwx] at h6
    simp only [Option.map_some'] at h6
    exact sourceOf_of_wtriple h6
  refine ⟨fun u => if u = c.gates.length then 4 * rk gid + 1
    else if u = c.gates.length + 1 then 4 * rk gid + 1
    else if u = c.gates.length + 1 + 1 then 4 * rk gid + 2
    else 4 * rk u, ?_⟩
  intro u v hf
  obtain ⟨gv, hgv, wid, hwid, hsrc⟩ := hf
  show (if u = c.gates.length then 4 * rk gid + 1
      else if u = c.gates.length + 1 then 4 * rk gid + 1
      else if u = c.gates.length + 1 + 1 then 4 * rk gid + 2
      else 4 * rk u) <
    (if v = c.gates.length then 4 * rk gid + 1
      else if v = c.gates.length + 1 then 4 * rk gid + 1
      else if v = c.gates.length + 1 + 1 then 4 * rk gid + 2
      else 4 * rk v)
  by_cases hvg : v = gid
  · subst hvg
    rw [hgat_gid] at hgv
    injection hgv with he
    subst he
    have hwid' : wid ∈ [a, b] := hwid
    have hmem : wid ∈ g.inputs := by rw [hin]; exact hwid'
    have hwl : wid < c.wires.length := by
      rcases (show wid = a ∨ wid = b by simpa using hwid') with rfl | rfl <;>
        omega
    have hgo : g.output ≠ some wid := fun ho =>
      (input_ne_output hwf hval hg hgr hmem ho) rfl
    rw [hsold wid hwl hgo] at hsrc
    have hult : u < c.gates.length := source_lt_gates hwf hval hsrc
    have hlt := hgr u v ⟨g, hg, wid, hmem, hsrc⟩
    have hn1 : ¬(u = c.gates.length) := by omega
    have hn2 : ¬(u = c.gates.length + 1) := by omega
    have hn3 : ¬(u = c.gates.length + 1 + 1) := by omega
    have hn4 : ¬(v = c.gates.length) := by omega
    have hn5 : ¬(v = c.gates.length + 1) := by omega
    have hn6 : ¬(v = c.gates.length + 1 + 1) := by omega
    rw [if_neg hn1, if_neg hn2, if_neg hn3, if_neg hn4, if_neg hn5,
      if_neg hn6]
    omega
  · by_cases hvn : v = c.gates.length
    · subst hvn
      rw [hgat_n] at hgv
      injection hgv with he
      subst he
      have hwid' : wid ∈ [a, c.wires.length] := hwid
      rcases (show wid = a ∨ wid = c.wires.length by simpa using hwid') with
        rfl | rfl
      · have hmem : wid ∈ g.inputs := by rw [hin]; simp
        have hgo : g.output ≠ some wid := fun ho =>
          (input_ne_output hwf hval hg hgr hmem ho) rfl
        rw [hsold wid hal hgo] at hsrc
        have hult : u < c.gates.length := source_lt_gates hwf hval hsrc
        have hlt := hgr u gid ⟨g, hg, wid, hmem, hsrc⟩
        have hn1 : ¬(u = c.gates.length) := by omega
        have hn2 : ¬(u = c.gates.length + 1) := by omega
        have hn3 : ¬(u = c.gates.length + 1 + 1) := by omega
        rw [if_neg hn1, if_neg hn2, if_neg hn3, if_pos rfl]
        omega
      · rw [hsm] at hsrc
        injection hsrc with he2
        subst he2
        have hn1 : ¬(gid = c.gates.length) := by omega
        have hn2 : ¬(gid = c.gates.length + 1) := by omega
        have hn3 : ¬(gid = c.gates.length + 1 + 1) := by omega
        rw [if_neg hn1, if_neg hn2, if_neg hn3, if_pos rfl]
        omega
    · by_cases hvn1 : v = c.gates.length + 1
      · subst hvn1
        rw [hgat_n1] at hgv
        injection hgv with he
        subst he
        have hwid' : wid ∈ [b, c.wires.length] := hwid
        have hx1 : ¬(c.gates.length + 1 = c.gates.length) := by omega
        rcases (show wid = b ∨ wid = c.wires.length by simpa using hwid') with
          rfl | rfl
        · have hmem : wid ∈ g.inputs := by rw [hin]; simp
          have hgo : g.output ≠ some wid := fun ho =>
            (input_ne_output hwf hval hg hgr hmem ho) rfl
          rw [hsold wid hbl hgo] at hsrc
          have hult : u < c.gates.length := source_lt_gates hwf hval hsrc
          have hlt := hgr u gid ⟨g, hg, wid, hmem, hsrc⟩
          have hn1 : ¬(u = c.gates.length) := by omega
          have hn2 : ¬(u = c.gates.length + 1) := by omega
          have hn3 : ¬(u = c.gates.length + 1 + 1) := by omega
          rw [if_neg hn1, if_neg hn2, if_neg hn3, if_neg hx1, if_pos rfl]
          omega
        · rw [hsm] at hsrc
          injection hsrc with he2
          subst he2
          have hn1 : ¬(gid = c.gates.length) := by omega
          have hn2 : ¬(gid = c.gates.length + 1) := by omega
          have hn3 : ¬(gid = c.gates.length + 1 + 1) := by omega
          rw [if_neg hn1, if_neg hn2, if_neg hn3, if_neg hx1, if_pos rfl]
          omega
      · by_cases hvn2 : v = c.gates.length + 1 + 1
        · subst hvn2
          rw [hgat_n2] at hgv
          injection hgv with he
          subst he
          have hwid' : wid ∈ [c.wires.length + 1, c.wires.length + 1 + 1] :=
            hwid
          have hx1 : ¬(c.gates.length + 1 + 1 = c.gates.length) := by omega
          have hx2 : ¬(c.gates.length + 1 + 1 = c.gates.length + 1) := by
            omega
          rcases (show wid = c.wires.length + 1 ∨ wid = c.wires.length + 1 + 1
              by simpa using hwid') with rfl | rfl
          · rw [hsm1] at hsrc
            injection hsrc with he2
            subst he2
            rw [if_pos rfl, if_neg hx1, if_neg hx2, if_pos rfl]
            omega
          · rw [hsm2] at hsrc
            injection hsrc with he2
            subst he2
            have hn1 : ¬(c.gates.length + 1 = c.gates.length) := by omega
            rw [if_neg hn1, if_pos rfl, if_neg hx1, if_neg hx2, if_pos rfl]
            omega
        · have hvl : v < c.gates.length := by
            by_contra hge
            have hnone : (decomposeGate c gid).gateAt v = none := by
              apply gateAt_none_of_ge
              rw [h1]
              omega
            rw [hnone] at hgv
            exact Option.noConfusion hgv
          have hgv2 : c.gateAt v = some gv := by
            rw [← hgat_old v (fun he => hvg he.symm) hvn hvn1 hvn2]
            exact hgv
          have hwl : wid < c.wires.length := input_lt_wires hval hgv2 hwid
          by_cases hwo : g.output = some wid
          · rw [hso wid hwo] at hsrc
            injection hsrc with he2
            subst he2
            obtain ⟨w, hw, hws⟩ := gate_output_backlink hwf hval hg hwo
            have hsrcc : c.sourceOf wid = some gid := by
              rw [Circuit.sourceOf, hw]
              exact hws
            have hlt := hgr gid v ⟨gv, hgv2, wid, hwid, hsrcc⟩
            have hn1 : ¬(c.gates.length + 1 + 1 = c.gates.length) := by omega
            have hn2 : ¬(c.gates.length + 1 + 1 = c.gates.length + 1) := by
              omega
            have hn3 : ¬(v = c.gates.length) := by omega
            have hn4 : ¬(v = c.gates.length + 1) := by omega
            have hn5 : ¬(v = c.gates.length + 1 + 1) := by omega
            rw [if_neg hn1, if_neg hn2, if_pos rfl, if_neg hn3, if_neg hn4,
              if_neg hn5]
            omega
          · rw [hsold wid hwl hwo] at hsrc
            have hlt := hgr u v ⟨gv, hgv2, wid, hwid, hsrc⟩
            have hult : u < c.gates.length := source_lt_gates hwf hval hsrc
            have hn1 : ¬(u = c.gates.length) := by omega
            have hn2 : ¬(u = c.gates.length + 1) := by omega
            have hn3 : ¬(u = c.gates.length + 1 + 1) := by omega
            have hn4 : ¬(v = c.gates.length) := by omega
            have hn5 : ¬(v = c.gates.length + 1) := by omega
            have hn6 : ¬(v = c.gates.length + 1 + 1) := by omega
            rw [if_neg hn1, if_neg hn2, if_neg hn3, if_neg hn4, if_neg hn5,
              if_neg hn6]
            omega

/-! ## C1: generic pieces of the per-case validation maintenance -/

theorem count_one (x p : Nat) : List.count x [p] = if p = x then 1 else 0 := by
  by_cases h1 : p = x <;> simp [List.count_cons, List.count_nil, h1]

theorem count_two (x p q : Nat) :
    List.count x [p, q] = (if p = x then 1 else 0) + (if q = x then 1 else 0) := by
  by_cases h1 : p = x <;> by_cases h2 : q = x <;>
    simp [List.count_cons, List.count_nil, h1, h2]

theorem count_inputs_ge {c : Circuit} (hval : c.validate_connectivity = true)
    {v : Nat} {gv : Gate} (hg : c.gateAt v = some gv) {x : Nat}
    (hx : c.wires.length ≤ x) : gv.inputs.count x = 0 :=
  List.count_eq_zero.mpr (fun hmem =>
    absurd (input_lt_wires hval hg hmem) (by omega))

theorem wtriple_omap_elim {c' c : Circuit} {x : Nat} {s : Nat}
    (h : wtriple c' x = (c.wireAt x).map (fun w => (w.id, some s, w.value)))
    {w : Wire} (hw : c'.wireAt x = some w) :
    ∃ w0, c.wireAt x = some w0 ∧ w.id = w0.id ∧ w.source = some s ∧
      w.value = w0.value := by
  rw [wtriple, hw] at h
  cases hw0 : c.wireAt x with
  | none => rw [hw0] at h; simp at h
  | some w0 =>
    rw [hw0] at h
    simp only [Option.map_some'] at h
    have hp := Option.some.inj h
    exact ⟨w0, rfl, congrArg (fun t => t.1) hp,
      congrArg (fun t => t.2.1) hp, congrArg (fun t => t.2.2) hp⟩

/-- Wire-side backlinks survive a rewrite that fixes all wires away from the
rewritten gate's output. -/
theorem source_backlink_transfer {c d' : Circuit} (hwf : c.wfB = true)
    (hval : c.validate_connectivity = true) {gid : Nat} {g : Gate}
    (hg : c.gateAt gid = some g)
    (hpres : ∀ y, y < c.wires.length → g.output ≠ some y →
      wtriple d' y = wtriple c y)
    (hgat_pres : ∀ v, v < c.gates.length → v ≠ gid →
      d'.gateAt v = c.gateAt v)
    {x : Nat} (hx : x < c.wires.length) (hwo : g.output ≠ some x)
    {w : Wire} (hw : d'.wireAt x = some w) {s : Nat} (hs : w.source = some s) :
    ∃ gs, d'.gateAt s = some gs ∧ gs.output = some x := by
  obtain ⟨w0, hw0, hid, hsrc0, hval0⟩ := wtriple_some_elim (hpres x hx hwo) hw
  have hws0 : w0.source = some s := by rw [hsrc0, hs]
  obtain ⟨gs, hgs, hout⟩ := wire_source_backlink hwf hval hw0 hws0
  have hslt : s < c.gates.length := gateAt_lt hgs
  by_cases hsg : s = gid
  · subst hsg
    rw [hg] at hgs
    injection hgs with he
    subst he
    exact absurd hout hwo
  · exact ⟨gs, by rw [hgat_pres s hslt hsg]; exact hgs, hout⟩

/-- Output back-links of untouched gates survive the rewrite. -/
theorem output_backlink_transfer {c d' : Circuit} (hwf : c.wfB = true)
    (hval : c.validate_connectivity = true) {gid : Nat} {g : Gate}
    (hg : c.gateAt gid = some g)
    (hpres : ∀ y, y < c.wires.length → g.output ≠ some y →
      wtriple d' y = wtriple c y)
    {v : Nat} (hvg : v ≠ gid) {gv : Gate} (hgv : c.gateAt v = some gv)
    {o : Nat} (ho : gv.output = some o) :
    ∃ w, d'.wireAt o = some w ∧ w.source = some v := by
  obtain ⟨w0, hw0, hws0⟩ := gate_output_backlink hwf hval hgv ho
  have hol : o < c.wires.length := wireAt_lt hw0
  have hgo : g.output ≠ some o := by
    intro he
    obtain ⟨w1, hw1, hws1⟩ := gate_output_backlink hwf hval hg he
    rw [hw0] at hw1
    injection hw1 with he1
    subst he1
    rw [hws0] at hws1
    injection hws1 with he2
    exact hvg he2
  obtain ⟨w', hw', hid, hsrc, hv⟩ :=
    wtriple_some_elim (hpres o hol hgo).symm hw0
  exact ⟨w', hw', by rw [hsrc, hws0]⟩

/-- Source-less original wires are untouched by a rewrite that fixes all
wires away from the rewritten gate's output. -/
theorem sourceless_wtriple_transfer {c d' : Circuit} (hwf : c.wfB = true)
    (hval : c.validate_connectivity = true) {gid : Nat} {g : Gate}
    (hg : c.gateAt gid = some g)
    (hpres : ∀ y, y < c.wires.length → g.output ≠ some y →
      wtriple d' y = wtriple c y) :
    ∀ x, x < c.wires.length → c.sourceOf x = none →
      wtriple d' x = wtriple c x := by
  intro x hx hnone
  apply hpres x hx
  intro he
  obtain ⟨w, hw, hws⟩ := gate_output_backlink hwf hval hg he
  have h2 : w.source = none := by
    rw [Circuit.sourceOf, hw] at hnone
    exact hnone
  rw [hws] at h2
  exact Option.noConfusion h2

/-- Wires with a source keep one across a rewrite. -/
theorem sourced_stays_transfer {c d' : Circuit} {g : Gate}
    (hpres : ∀ y, y < c.wires.length → g.output ≠ some y →
      wtriple d' y = wtriple c y)
    (hso_ne : ∀ o, g.output = some o → d'.sourceOf o ≠ none) :
    ∀ x, x < c.wires.length → c.sourceOf x ≠ none → d'.sourceOf x ≠ none := by
  intro x hx hsome
  by_cases hwo : g.output = some x
  · exact hso_ne x hwo
  · rw [sourceOf_of_wtriple_eq (hpres x hx hwo)]
    exact hsome

/-! ## C1: per-case maintenance of the fold invariant's circuit facts -/

theorem decomposeGate_NOT_maintain (c : Circuit) (gid : Nat) (g : Gate)
    (hwf : c.wfB = true) (hval : c.validate_connectivity = true)
    (harity : ∀ v gv, c.gateAt v = some gv → arityOkB gv = true)
    (hg : c.gateAt gid = some g) (hty : g.type = NOT) (a : Nat)
    (hin : g.inputs = [a]) :
    StepOut c (decomposeGate c gid) gid := by
  obtain ⟨h1, h2, h3, h4, hgat_old, hgat_gid, hwt_all, hcnt_ne, hcnt_gid⟩ :=
    decomposeGate_NOT_facts c gid g hg hty a hin
  have hglt : gid < c.gates.length := gateAt_lt hg
  have hal : a < c.wires.length := input_lt_wires hval hg (by rw [hin]; simp)
  have hpres : ∀ y, y < c.wires.length → g.output ≠ some y →
      wtriple (decomposeGate c gid) y = wtriple c y := fun y _ _ => hwt_all y
  have hgat_pres : ∀ v, v < c.gates.length → v ≠ gid →
      (decomposeGate c gid).gateAt v = c.gateAt v :=
    fun v _ hv => hgat_old v (fun he => hv he.symm)
  have hclassify : ∀ v gv, (decomposeGate c gid).gateAt v = some gv →
      (v = gid ∧ gv = { g with type := NAND, inputs := [a, a] }) ∨
      (v < c.gates.length ∧ v ≠ gid ∧ c.gateAt v = some gv) := by
    intro v gv hgv
    by_cases hvg : v = gid
    · subst hvg
      rw [hgat_gid] at hgv
      injection hgv with he
      exact Or.inl ⟨rfl, he.symm⟩
    · right
      have hvl : v < c.gates.length := by
        by_contra hge
        rw [gateAt_none_of_ge (by rw [h1]; omega)] at hgv
        exact Option.noConfusion hgv
      exact ⟨hvl, hvg, by rw [← hgat_pres v hvl hvg]; exact hgv⟩
  have hso_ne : ∀ o, g.output = some o →
      (decomposeGate c gid).sourceOf o ≠ none := by
    intro o ho
    rw [sourceOf_of_wtriple_eq (hwt_all o)]
    obtain ⟨w, hw, hws⟩ := gate_output_backlink hwf hval hg ho
    rw [Circuit.sourceOf, hw]
    simp [hws]
  have hwf' : (decomposeGate c gid).wfB = true := by
    apply wfB_of
    · intro v gv hgv
      rcases hclassify v gv hgv with ⟨heq, hrec⟩ | ⟨hvl, hvg, hgv2⟩
      · subst heq
        subst hrec
        show g.id = v
        exact wf_gate_id hwf hg
      · exact wf_gate_id hwf hgv2
    · intro x w hw
      obtain ⟨w0, hw0, hid, hsrc, hvalv⟩ := wtriple_some_elim (hwt_all x) hw
      rw [← hid]
      exact wf_wire_id hwf hw0
  have harity' : ∀ v gv, (decomposeGate c gid).gateAt v = some gv →
      arityOkB gv = true := by
    intro v gv hgv
    rcases hclassify v gv hgv with ⟨heq, hrec⟩ | ⟨hvl, hvg, hgv2⟩
    · subst hrec
      rfl
    · exact harity v gv hgv2
  have hval' : (decomposeGate c gid).validate_connectivity = true := by
    apply validate_of hwf'
    · intro v gv hgv o ho
      rcases hclassify v gv hgv with ⟨heq, hrec⟩ | ⟨hvl, hvg, hgv2⟩
      · subst heq
        subst hrec
        have ho' : g.output = some o := ho
        obtain ⟨w0, hw0, hws0⟩ := gate_output_backlink hwf hval hg ho'
        obtain ⟨w', hw', hid, hsrc, hv⟩ :=
          wtriple_some_elim (hwt_all o).symm hw0
        exact ⟨w', hw', by rw [hsrc, hws0]⟩
      · exact output_backlink_transfer hwf hval hg hpres hvg hgv2 ho
    · intro x w hw s hs
      have hxl : x < c.wires.length := by
        have := wireAt_lt hw
        rwa [h2] at this
      by_cases hwo : g.output = some x
      · obtain ⟨w0, hw0, hid, hsrc, _⟩ := wtriple_some_elim (hwt_all x) hw
        obtain ⟨w1, hw1, hws1⟩ := gate_output_backlink hwf hval hg hwo
        rw [hw0] at hw1
        injection hw1 with he1
        subst he1
        have hsg : s = gid := by
          have h3 : w0.source = some s := by rw [hsrc, hs]
          rw [hws1] at h3
          exact (Option.some.inj h3).symm
        subst hsg
        exact ⟨_, hgat_gid, hwo⟩
      · exact source_backlink_transfer hwf hval hg hpres hgat_pres hxl hwo
          hw hs
    · intro v gv hgv wid hwid
      rw [h2]
      rcases hclassify v gv hgv with ⟨heq, hrec⟩ | ⟨hvl, hvg, hgv2⟩
      · subst hrec
        have hwid' : wid ∈ [a, a] := hwid
        have hwa : wid = a := by simpa using hwid'
        omega
      · exact input_lt_wires hval hgv2 hwid
    · intro x w hw v hv
      have hxl : x < c.wires.length := by
        have := wireAt_lt hw
        rwa [h2] at this
      have hcp : 0 < cntD (decomposeGate c gid) x v := by
        rw [cntD_of_wireAt hw]
        exact List.count_pos_iff.mpr hv
      rw [h1]
      by_cases hvg : v = gid
      · omega
      · rw [hcnt_ne x v hvg] at hcp
        obtain ⟨w0, hw0⟩ := wireAt_of_lt hxl
        rw [cntD_of_wireAt hw0] at hcp
        obtain ⟨gv, hgv, _⟩ := wire_dests_mirror hval hw0
          (List.count_pos_iff.mp hcp)
        exact gateAt_lt hgv
    · intro v gv hgv x hxd
      have hx : x < c.wires.length := by rwa [h2] at hxd
      obtain ⟨w0, hw0⟩ := wireAt_of_lt hx
      rcases hclassify v gv hgv with ⟨heq, hrec⟩ | ⟨hvl, hvg, hgv2⟩
      · subst heq
        subst hrec
        have hio := count_io hwf hval hw0 hg
        have hD : cntD c x v = w0.destinations.count v :=
          cntD_of_wireAt hw0
        rw [hcnt_gid x hx, hin]
        show List.count x [a, a] = cntD c x v - List.count x [a] +
          List.count x [a, a]
        have h5 : List.count x [a] = cntD c x v := by
          rw [hD, ← hin]
          exact hio
        omega
      · rw [hcnt_ne x v hvg, cntD_of_wireAt hw0]
        exact count_io hwf hval hw0 hgv2
  refine ⟨hwf', hval', harity', hgat_pres, ?_, h3, h4, le_of_eq h2.symm,
    le_of_eq h1.symm, sourceless_wtriple_transfer hwf hval hg hpres, ?_,
    sourced_stays_transfer hpres hso_ne⟩
  · intro v gv hgv
    rcases hclassify v gv hgv with ⟨heq, hrec⟩ | ⟨hvl, hvg, hgv2⟩
    · subst hrec
      exact Or.inl rfl
    · exact Or.inr ⟨hvl, hvg⟩
  · intro x hx1 hx2
    rw [h2] at hx1
    exact absurd hx1 (by omega)

theorem decomposeGate_AND_maintain (c : Circuit) (gid : Nat) (g : Gate)
    (hwf : c.wfB = true) (hval : c.validate_connectivity = true)
    (harity : ∀ v gv, c.gateAt v = some gv → arityOkB gv = true)
    (hg : c.gateAt gid = some g) (hty : g.type = AND) (a b : Nat)
    (hin : g.inputs = [a, b]) :
    StepOut c (decomposeGate c gid) gid := by
  have hom : ∀ o, g.output = some o → o < c.wires.length := by
    intro o ho
    obtain ⟨w, hw, _⟩ := gate_output_backlink hwf hval hg ho
    exact wireAt_lt hw
  obtain ⟨h1, h2, h3, h4, hgat_old, hgat_gid, hgat_n, hwt_old, hwt_o, hwm,
    hcnt_old, hcnt_gid⟩ := decomposeGate_AND_facts c gid g hg hty a b hin hom
  have hglt : gid < c.gates.length := gateAt_lt hg
  have hal : a < c.wires.length := input_lt_wires hval hg (by rw [hin]; simp)
  have hbl : b < c.wires.length := input_lt_wires hval hg (by rw [hin]; simp)
  have hpres : ∀ y, y < c.wires.length → g.output ≠ some y →
      wtriple (decomposeGate c gid) y = wtriple c y :=
    fun y hy hgo => hwt_old y (by omega) hgo
  have hgat_pres : ∀ v, v < c.gates.length → v ≠ gid →
      (decomposeGate c gid).gateAt v = c.gateAt v :=
    fun v hvl hv => hgat_old v (fun he => hv he.symm) (by omega)
  have hsm : (decomposeGate c gid).sourceOf c.wires.length = some gid := by
    rw [Circuit.sourceOf, hwm]
    rfl
  have hso : ∀ o, g.output = some o →
      (decomposeGate c gid).sourceOf o = some c.gates.length := by
    intro o ho
    obtain ⟨wx, hwx⟩ := wireAt_of_lt (hom o ho)
    have h6 := hwt_o o ho
    rw [hwx] at h6
    simp only [Option.map_some'] at h6
    exact sourceOf_of_wtriple h6
  have hclassify : ∀ v gv, (decomposeGate c gid).gateAt v = some gv →
      (v = gid ∧ gv = { g with
                        type := GateType.NAND,
                        inputs := [a, b],
                        output := some c.wires.length }) ∨
      (v = c.gates.length ∧ gv = { id := c.gates.length,
                                   type := GateType.NAND,
                                   inputs := [c.wires.length, c.wires.length],
                                   output := g.output, state := false,
                                   dirty := true }) ∨
      (v < c.gates.length ∧ v ≠ gid ∧ c.gateAt v = some gv) := by
    intro v gv hgv
    by_cases hvg : v = gid
    · subst hvg
      rw [hgat_gid] at hgv
      injection hgv with he
      exact Or.inl ⟨rfl, he.symm⟩
    · by_cases hvn : v = c.gates.length
      · subst hvn
        rw [hgat_n] at hgv
        injection hgv with he
        exact Or.inr (Or.inl ⟨rfl, he.symm⟩)
      · refine Or.inr (Or.inr ⟨?_, hvg, ?_⟩)
        · by_contra hge
          rw [gateAt_none_of_ge (by rw [h1]; omega)] at hgv
          exact Option.noConfusion hgv
        · rw [← hgat_old v (fun he => hvg he.symm) hvn]
          exact hgv
  have hwire_classify : ∀ x w, (decomposeGate c gid).wireAt x = some w →
      x < c.wires.length ∨
      (x = c.wires.length ∧
        w = { id := c.wires.length, value := false, previousValue := false,
              source := some gid,
              destinations := [c.gates.length, c.gates.length] }) := by
    intro x w hw
    by_cases hxm : x = c.wires.length
    · subst hxm
      rw [hwm] at hw
      injection hw with he
      exact Or.inr ⟨rfl, he.symm⟩
    · left
      have hlt := wireAt_lt hw
      rw [h2] at hlt
      omega
  have hso_ne : ∀ o, g.output = some o →
      (decomposeGate c gid).sourceOf o ≠ none := by
    intro o ho
    rw [hso o ho]
    simp
  have hwf' : (decomposeGate c gid).wfB = true := by
    apply wfB_of
    · intro v gv hgv
      rcases hclassify v gv hgv with ⟨heq, hrec⟩ | ⟨heq, hrec⟩ |
        ⟨hvl, hvg, hgv2⟩
      · subst heq
        subst hrec
        show g.id = v
        exact wf_gate_id hwf hg
      · subst heq
        subst hrec
        rfl
      · exact wf_gate_id hwf hgv2
    · intro x w hw
      rcases hwire_classify x w hw with hx | ⟨heq, hrec⟩
      · by_cases hwo : g.output = some x
        · obtain ⟨w0, hw0, hid, hsrc, _⟩ :=
            wtriple_omap_elim (hwt_o x hwo) hw
          rw [hid]
          exact wf_wire_id hwf hw0
        · obtain ⟨w0, hw0, hid, hsrc, _⟩ :=
            wtriple_some_elim (hwt_old x (by omega) hwo) hw
          rw [← hid]
          exact wf_wire_id hwf hw0
      · subst heq
        subst hrec
        rfl
  have harity' : ∀ v gv, (decomposeGate c gid).gateAt v = some gv →
      arityOkB gv = true := by
    intro v gv hgv
    rcases hclassify v gv hgv with ⟨heq, hrec⟩ | ⟨heq, hrec⟩ |
      ⟨hvl, hvg, hgv2⟩
    · subst hrec
      rfl
    · subst hrec
      rfl
    · exact harity v gv hgv2
  have hval' : (decomposeGate c gid).validate_connectivity = true := by
    apply validate_of hwf'
    · intro v gv hgv o ho
      rcases hclassify v gv hgv with ⟨heq, hrec⟩ | ⟨heq, hrec⟩ |
        ⟨hvl, hvg, hgv2⟩
      · subst heq
        subst hrec
        have ho' : some c.wires.length = some o := ho
        injection ho' with he2
        subst he2
        exact ⟨_, hwm, rfl⟩
      · subst heq
        subst hrec
        have ho' : g.output = some o := ho
        obtain ⟨w', hw'⟩ := wireAt_of_lt
          (show o < (decomposeGate c gid).wires.length by
            rw [h2]
            have := hom o ho'
            omega)
        obtain ⟨w0, hw0, hid, hsrc, _⟩ := wtriple_omap_elim (hwt_o o ho') hw'
        exact ⟨w', hw', hsrc⟩
      · exact output_backlink_transfer hwf hval hg hpres hvg hgv2 ho
    · intro x w hw s hs
      rcases hwire_classify x w hw with hx | ⟨heq, hrec⟩
      · by_cases hwo : g.output = some x
        · obtain ⟨w0, hw0, hid, hsrc, _⟩ :=
            wtriple_omap_elim (hwt_o x hwo) hw
          rw [hsrc] at hs
          injection hs with he2
          subst he2
          exact ⟨_, hgat_n, hwo⟩
        · exact source_backlink_transfer hwf hval hg hpres hgat_pres hx hwo
            hw hs
      · subst heq
        subst hrec
        have hs' : some gid = some s := hs
        injection hs' with he2
        subst he2
        exact ⟨_, hgat_gid, rfl⟩
    · intro v gv hgv wid hwid
      rw [h2]
      rcases hclassify v gv hgv with ⟨heq, hrec⟩ | ⟨heq, hrec⟩ |
        ⟨hvl, hvg, hgv2⟩
      · subst hrec
        have hwid' : wid ∈ [a, b] := hwid
        rcases (show wid = a ∨ wid = b by simpa using hwid') with rfl | rfl <;>
          omega
      · subst hrec
        have hwid' : wid ∈ [c.wires.length, c.wires.length] := hwid
        have : wid = c.wires.length := by simpa using hwid'
        omega
      · have := input_lt_wires hval hgv2 hwid
        omega
    · intro x w hw v hv
      rw [h1]
      rcases hwire_classify x w hw with hx | ⟨heq, hrec⟩
      · have hcp : 0 < cntD (decomposeGate c gid) x v := by
          rw [cntD_of_wireAt hw]
          exact List.count_pos_iff.mpr hv
        by_cases hvg : v = gid
        · omega
        · by_cases hvn : v = c.gates.length
          · omega
          · rw [hcnt_old x v (by omega) hvg] at hcp
            obtain ⟨w0, hw0⟩ := wireAt_of_lt hx
            rw [cntD_of_wireAt hw0] at hcp
            obtain ⟨gv, hgv, _⟩ := wire_dests_mirror hval hw0
              (List.count_pos_iff.mp hcp)
            have := gateAt_lt hgv
            omega
      · subst hrec
        have hv' : v ∈ [c.gates.length, c.gates.length] := hv
        have : v = c.gates.length := by simpa using hv'
        omega
    · intro v gv hgv x hxd
      rw [h2] at hxd
      rcases hclassify v gv hgv with ⟨heq, hrec⟩ | ⟨heq, hrec⟩ |
        ⟨hvl, hvg, hgv2⟩
      · subst heq
        subst hrec
        by_cases hxm : x = c.wires.length
        · subst hxm
          have hL : List.count c.wires.length [a, b] = 0 := by
            rw [count_two, if_neg (show ¬a = c.wires.length by omega),
              if_neg (show ¬b = c.wires.length by omega)]
          rw [cntD_of_wireAt hwm]
          show List.count c.wires.length [a, b] =
            List.count v [c.gates.length, c.gates.length]
          have hR : List.count v [c.gates.length, c.gates.length] = 0 := by
            rw [count_two, if_neg (show ¬c.gates.length = v by omega)]
          omega
        · have hx : x < c.wires.length := by omega
          obtain ⟨w0, hw0⟩ := wireAt_of_lt hx
          have hio := count_io hwf hval hw0 hg
          have hD : cntD c x v = w0.destinations.count v :=
            cntD_of_wireAt hw0
          rw [hcnt_gid x hx, hin]
          show List.count x [a, b] = cntD c x v - List.count x [a, b] +
            List.count x [a, b]
          have h5 : List.count x [a, b] = cntD c x v := by
            rw [hD, ← hin]
            exact hio
          omega
      · subst heq
        subst hrec
        by_cases hxm : x = c.wires.length
        · subst hxm
          have hL : List.count c.wires.length
              [c.wires.length, c.wires.length] = 1 + 1 := by
            rw [count_two, if_pos rfl]
          rw [cntD_of_wireAt hwm]
          show List.count c.wires.length [c.wires.length, c.wires.length] =
            List.count c.gates.length [c.gates.length, c.gates.length]
          have hR : List.count c.gates.length
              [c.gates.length, c.gates.length] = 1 + 1 := by
            rw [count_two, if_pos rfl]
          omega
        · have hx : x < c.wires.length := by omega
          have hL : List.count x [c.wires.length, c.wires.length] = 0 := by
            rw [count_two, if_neg (show ¬c.wires.length = x by omega)]
          rw [hcnt_old x c.gates.length (by omega) (by omega),
            cntD_ge_gates hval (le_refl _)]
          show List.count x [c.wires.length, c.wires.length] = 0
          exact hL
      · by_cases hxm : x = c.wires.length
        · subst hxm
          rw [count_inputs_ge hval hgv2 (le_refl _), cntD_of_wireAt hwm]
          show 0 = List.count v [c.gates.length, c.gates.length]
          have hR : List.count v [c.gates.length, c.gates.length] = 0 := by
            rw [count_two, if_neg (show ¬c.gates.length = v by omega)]
          omega
        · have hx : x < c.wires.length := by omega
          obtain ⟨w0, hw0⟩ := wireAt_of_lt hx
          rw [hcnt_old x v (by omega) hvg, cntD_of_wireAt hw0]
          exact count_io hwf hval hw0 hgv2
  refine ⟨hwf', hval', harity', hgat_pres, ?_, h3, h4, by omega, by omega,
    sourceless_wtriple_transfer hwf hval hg hpres, ?_,
    sourced_stays_transfer hpres hso_ne⟩
  · intro v gv hgv
    rcases hclassify v gv hgv with ⟨heq, hrec⟩ | ⟨heq, hrec⟩ |
      ⟨hvl, hvg, hgv2⟩
    · subst hrec
      exact Or.inl rfl
    · subst hrec
      exact Or.inl rfl
    · exact Or.inr ⟨hvl, hvg⟩
  · intro x hx1 hx2
    rw [h2] at hx1
    have hxm : x = c.wires.length := by omega
    subst hxm
    rw [hsm]
    simp

theorem decomposeGate_BUFFER_maintain (c : Circuit) (gid : Nat) (g : Gate)
    (hwf : c.wfB = true) (hval : c.validate_connectivity = true)
    (harity : ∀ v gv, c.gateAt v = some gv → arityOkB gv = true)
    (hg : c.gateAt gid = some g) (hty : g.type = BUFFER) (a : Nat)
    (hin : g.inputs = [a]) :
    StepOut c (decomposeGate c gid) gid := by
  have hom : ∀ o, g.output = some o → o < c.wires.length := by
    intro o ho
    obtain ⟨w, hw, _⟩ := gate_output_backlink hwf hval hg ho
    exact wireAt_lt hw
  obtain ⟨h1, h2, h3, h4, hgat_old, hgat_gid, hgat_n, hwt_old, hwt_o, hwm,
    hcnt_old, hcnt_gid⟩ := decomposeGate_BUFFER_facts c gid g hg hty a hin hom
  have hglt : gid < c.gates.length := gateAt_lt hg
  have hal : a < c.wires.length := input_lt_wires hval hg (by rw [hin]; simp)
  have hpres : ∀ y, y < c.wires.length → g.output ≠ some y →
      wtriple (decomposeGate c gid) y = wtriple c y :=
    fun y hy hgo => hwt_old y (by omega) hgo
  have hgat_pres : ∀ v, v < c.gates.length → v ≠ gid →
      (decomposeGate c gid).gateAt v = c.gateAt v :=
    fun v hvl hv => hgat_old v (fun he => hv he.symm) (by omega)
  have hsm : (decomposeGate c gid).sourceOf c.wires.length = some gid := by
    rw [Circuit.sourceOf, hwm]
    rfl
  have hso : ∀ o, g.output = some o →
      (decomposeGate c gid).sourceOf o = some c.gates.length := by
    intro o ho
    obtain ⟨wx, hwx⟩ := wireAt_of_lt (hom o ho)
    have h6 := hwt_o o ho
    rw [hwx] at h6
    simp only [Option.map_some'] at h6
    exact sourceOf_of_wtriple h6
  have hclassify : ∀ v gv, (decomposeGate c gid).gateAt v = some gv →
      (v = gid ∧ gv = { g with
                        type := GateType.NAND,
                        inputs := [a, a],
                        output := some c.wires.length }) ∨
      (v = c.gates.length ∧ gv = { id := c.gates.length,
                                   type := GateType.NAND,
                                   inputs := [c.wires.length, c.wires.length],
                                   output := g.output, state := false,
                                   dirty := true }) ∨
      (v < c.gates.length ∧ v ≠ gid ∧ c.gateAt v = some gv) := by
    intro v gv hgv
    by_cases hvg : v = gid
    · subst hvg
      rw [hgat_gid] at hgv
      injection hgv with he
      exact Or.inl ⟨rfl, he.symm⟩
    · by_cases hvn : v = c.gates.length
      · subst hvn
        rw [hgat_n] at hgv
        injection hgv with he
        exact Or.inr (Or.inl ⟨rfl, he.symm⟩)
      · refine Or.inr (Or.inr ⟨?_, hvg, ?_⟩)
        · by_contra hge
          rw [gateAt_none_of_ge (by rw [h1]; omega)] at hgv
          exact Option.noConfusion hgv
        · rw [← hgat_old v (fun he => hvg he.symm) hvn]
          exact hgv
  have hwire_classify : ∀ x w, (decomposeGate c gid).wireAt x = some w →
      x < c.wires.length ∨
      (x = c.wires.length ∧
        w = { id := c.wires.length, value := false, previousValue := false,
              source := some gid,
              destinations := [c.gates.length, c.gates.length] }) := by
    intro x w hw
    by_cases hxm : x = c.wires.length
    · subst hxm
      rw [hwm] at hw
      injection hw with he
      exact Or.inr ⟨rfl, he.symm⟩
    · left
      have hlt := wireAt_lt hw
      rw [h2] at hlt
      omega
  have hso_ne : ∀ o, g.output = some o →
      (decomposeGate c gid).sourceOf o ≠ none := by
    intro o ho
    rw [hso o ho]
    simp
  have hwf' : (decomposeGate c gid).wfB = true := by
    apply wfB_of
    · intro v gv hgv
      rcases hclassify v gv hgv with ⟨heq, hrec⟩ | ⟨heq, hrec⟩ |
        ⟨hvl, hvg, hgv2⟩
      · subst heq
        subst hrec
        show g.id = v
        exact wf_gate_id hwf hg
      · subst heq
        subst hrec
        rfl
      · exact wf_gate_id hwf hgv2
    · intro x w hw
      rcases hwire_classify x w hw with hx | ⟨heq, hrec⟩
      · by_cases hwo : g.output = some x
        · obtain ⟨w0, hw0, hid, hsrc, _⟩ :=
            wtriple_omap_elim (hwt_o x hwo) hw
          rw [hid]
          exact wf_wire_id hwf hw0
        · obtain ⟨w0, hw0, hid, hsrc, _⟩ :=
            wtriple_some_elim (hwt_old x (by omega) hwo) hw
          rw [← hid]
          exact wf_wire_id hwf hw0
      · subst heq
        subst hrec
        rfl
  have harity' : ∀ v gv, (decomposeGate c gid).gateAt v = some gv →
      arityOkB gv = true := by
    intro v gv hgv
    rcases hclassify v gv hgv with ⟨heq, hrec⟩ | ⟨heq, hrec⟩ |
      ⟨hvl, hvg, hgv2⟩
    · subst hrec
      rfl
    · subst hrec
      rfl
    · exact harity v gv hgv2
  have hval' : (decomposeGate c gid).validate_connectivity = true := by
    apply validate_of hwf'
    · intro v gv hgv o ho
      rcases hclassify v gv hgv with ⟨heq, hrec⟩ | ⟨heq, hrec⟩ |
        ⟨hvl, hvg, hgv2⟩
      · subst heq
        subst hrec
        have ho' : some c.wires.length = some o := ho
        injection ho' with he2
        subst he2
        exact ⟨_, hwm, rfl⟩
      · subst heq
        subst hrec
        have ho' : g.output = some o := ho
        obtain ⟨w', hw'⟩ := wireAt_of_lt
          (show o < (decomposeGate c gid).wires.length by
            rw [h2]
            have := hom o ho'
            omega)
        obtain ⟨w0, hw0, hid, hsrc, _⟩ := wtriple_omap_elim (hwt_o o ho') hw'
        exact ⟨w', hw', hsrc⟩
      · exact output_backlink_transfer hwf hval hg hpres hvg hgv2 ho
    · intro x w hw s hs
      rcases hwire_classify x w hw with hx | ⟨heq, hrec⟩
      · by_cases hwo : g.output = some x
        · obtain ⟨w0, hw0, hid, hsrc, _⟩ :=
            wtriple_omap_elim (hwt_o x hwo) hw
          rw [hsrc] at hs
          injection hs with he2
          subst he2
          exact ⟨_, hgat_n, hwo⟩
        · exact source_backlink_transfer hwf hval hg hpres hgat_pres hx hwo
            hw hs
      · subst heq
        subst hrec
        have hs' : some gid = some s := hs
        injection hs' with he2
        subst he2
        exact ⟨_, hgat_gid, rfl⟩
    · intro v gv hgv wid hwid
      rw [h2]
      rcases hclassify v gv hgv with ⟨heq, hrec⟩ | ⟨heq, hrec⟩ |
        ⟨hvl, hvg, hgv2⟩
      · subst hrec
        have hwid' : wid ∈ [a, a] := hwid
        have : wid = a := by simpa using hwid'
        omega
      · subst hrec
        have hwid' : wid ∈ [c.wires.length, c.wires.length] := hwid
        have : wid = c.wires.length := by simpa using hwid'
        omega
      · have := input_lt_wires hval hgv2 hwid
        omega
    · intro x w hw v hv
      rw [h1]
      rcases hwire_classify x w hw with hx | ⟨heq, hrec⟩
      · have hcp : 0 < cntD (decomposeGate c gid) x v := by
          rw [cntD_of_wireAt hw]
          exact List.count_pos_iff.mpr hv
        by_cases hvg : v = gid
        · omega
        · by_cases hvn : v = c.gates.length
          · omega
          · rw [hcnt_old x v (by omega) hvg] at hcp
            obtain ⟨w0, hw0⟩ := wireAt_of_lt hx
            rw [cntD_of_wireAt hw0] at hcp
            obtain ⟨gv, hgv, _⟩ := wire_dests_mirror hval hw0
              (List.count_pos_iff.mp hcp)
            have := gateAt_lt hgv
            omega
      · subst hrec
        have hv' : v ∈ [c.gates.length, c.gates.length] := hv
        have : v = c.gates.length := by simpa using hv'
        omega
    · intro v gv hgv x hxd
      rw [h2] at hxd
      rcases hclassify v gv hgv with ⟨heq, hrec⟩ | ⟨heq, hrec⟩ |
        ⟨hvl, hvg, hgv2⟩
      · subst heq
        subst hrec
        by_cases hxm : x = c.wires.length
        · subst hxm
          have hL : List.count c.wires.length [a, a] = 0 := by
            rw [count_two, if_neg (show ¬a = c.wires.length by omega)]
          rw [cntD_of_wireAt hwm]
          show List.count c.wires.length [a, a] =
            List.count v [c.gates.length, c.gates.length]
          have hR : List.count v [c.gates.length, c.gates.length] = 0 := by
            rw [count_two, if_neg (show ¬c.gates.length = v by omega)]
          omega
        · have hx : x < c.wires.length := by omega
          obtain ⟨w0, hw0⟩ := wireAt_of_lt hx
          have hio := count_io hwf hval hw0 hg
          have hD : cntD c x v = w0.destinations.count v :=
            cntD_of_wireAt hw0
          rw [hcnt_gid x hx, hin]
          show List.count x [a, a] = cntD c x v - List.count x [a] +
            List.count x [a, a]
          have h5 : List.count x [a] = cntD c x v := by
            rw [hD, ← hin]
            exact hio
          omega
      · subst heq
        subst hrec
        by_cases hxm : x = c.wires.length
        · subst hxm
          have hL : List.count c.wires.length
              [c.wires.length, c.wires.length] = 1 + 1 := by
            rw [count_two, if_pos rfl]
          rw [cntD_of_wireAt hwm]
          show List.count c.wires.length [c.wires.length, c.wires.length] =
            List.count c.gates.length [c.gates.length, c.gates.length]
          have hR : List.count c.gates.length
              [c.gates.length, c.gates.length] = 1 + 1 := by
            rw [count_two, if_pos rfl]
          omega
        · have hx : x < c.wires.length := by omega
          have hL : List.count x [c.wires.length, c.wires.length] = 0 := by
            rw [count_two, if_neg (show ¬c.wires.length = x by omega)]
          rw [hcnt_old x c.gates.length (by omega) (by omega),
            cntD_ge_gates hval (le_refl _)]
          show List.count x [c.wires.length, c.wires.length] = 0
          exact hL
      · by_cases hxm : x = c.wires.length
        · subst hxm
          rw [count_inputs_ge hval hgv2 (le_refl _), cntD_of_wireAt hwm]
          show 0 = List.count v [c.gates.length, c.gates.length]
          have hR : List.count v [c.gates.length, c.gates.length] = 0 := by
            rw [count_two, if_neg (show ¬c.gates.length = v by omega)]
          omega
        · have hx : x < c.wires.length := by omega
          obtain ⟨w0, hw0⟩ := wireAt_of_lt hx
          rw [hcnt_old x v (by omega) hvg, cntD_of_wireAt hw0]
          exact count_io hwf hval hw0 hgv2
  refine ⟨hwf', hval', harity', hgat_pres, ?_, h3, h4, by omega, by omega,
    sourceless_wtriple_transfer hwf hval hg hpres, ?_,
    sourced_stays_transfer hpres hso_ne⟩
  · intro v gv hgv
    rcases hclassify v gv hgv with ⟨heq, hrec⟩ | ⟨heq, hrec⟩ |
      ⟨hvl, hvg, hgv2⟩
    · subst hrec
      exact Or.inl rfl
    · subst hrec
      exact Or.inl rfl
    · exact Or.inr ⟨hvl, hvg⟩
  · intro x hx1 hx2
    rw [h2] at hx1
    have hxm : x = c.wires.length := by omega
    subst hxm
    rw [hsm]
    simp

theorem decomposeGate_OR_maintain (c : Circuit) (gid : Nat) (g : Gate)
    (hwf : c.wfB = true) (hval : c.validate_connectivity = true)
    (harity : ∀ v gv, c.gateAt v = some gv → arityOkB gv = true)
    (hg : c.gateAt gid = some g) (hty : g.type = OR) (a b : Nat)
    (hin : g.inputs = [a, b]) :
    StepOut c (decomposeGate c gid) gid := by
  have hom : ∀ o, g.output = some o → o < c.wires.length := by
    intro o ho
    obtain ⟨w, hw, _⟩ := gate_output_backlink hwf hval hg ho
    exact wireAt_lt hw
  have hal : a < c.wires.length := input_lt_wires hval hg (by rw [hin]; simp)
  have hbl : b < c.wires.length := input_lt_wires hval hg (by rw [hin]; simp)
  obtain ⟨h1, h2, h3, h4, hgat_old, hgat_gid, hgat_n, hgat_n1, hwt_old, hwt_o,
    hwm, hwm1, hcnt_old, hcnt_gid, hcnt_n⟩ :=
    decomposeGate_OR_facts c gid g hg hty a b hin hom hbl
  have hglt : gid < c.gates.length := gateAt_lt hg
  have hpres : ∀ y, y < c.wires.length → g.output ≠ some y →
      wtriple (decomposeGate c gid) y = wtriple c y :=
    fun y hy hgo => hwt_old y (by omega) (by omega) hgo
  have hgat_pres : ∀ v, v < c.gates.length → v ≠ gid →
      (decomposeGate c gid).gateAt v = c.gateAt v :=
    fun v hvl hv => hgat_old v (fun he => hv he.symm) (by omega) (by omega)
  have hsm : (decomposeGate c gid).sourceOf c.wires.length = some gid := by
    rw [Circuit.sourceOf, hwm]
    rfl
  have hsm1 : (decomposeGate c gid).sourceOf (c.wires.length + 1) =
      some c.gates.length := by
    rw [Circuit.sourceOf, hwm1]
    rfl
  have hso : ∀ o, g.output = some o →
      (decomposeGate c gid).sourceOf o = some (c.gates.length + 1) := by
    intro o ho
    obtain ⟨wx, hwx⟩ := wireAt_of_lt (hom o ho)
    have h6 := hwt_o o ho
    rw [hwx] at h6
    simp only [Option.map_some'] at h6
    exact sourceOf_of_wtriple h6
  have hclassify : ∀ v gv, (decomposeGate c gid).gateAt v = some gv →
      (v = gid ∧ gv = { g with
                        type := GateType.NAND,
                        inputs := [a, a],
                        output := some c.wires.length }) ∨
      (v = c.gates.length ∧ gv = { id := c.gates.length,
                                   type := GateType.NAND, inputs := [b, b],
                                   output := some (c.wires.length + 1),
                                   state := false, dirty := true }) ∨
      (v = c.gates.length + 1 ∧ gv = { id := c.gates.length + 1,
                                       type := GateType.NAND,
                                       inputs := [c.wires.length,
                                         c.wires.length + 1],
                                       output := g.output, state := false,
                                       dirty := true }) ∨
      (v < c.gates.length ∧ v ≠ gid ∧ c.gateAt v = some gv) := by
    intro v gv hgv
    by_cases hvg : v = gid
    · subst hvg
      rw [hgat_gid] at hgv
      injection hgv with he
      exact Or.inl ⟨rfl, he.symm⟩
    · by_cases hvn : v = c.gates.length
      · subst hvn
        rw [hgat_n] at hgv
        injection hgv with he
        exact Or.inr (Or.inl ⟨rfl, he.symm⟩)
      · by_cases hvn1 : v = c.gates.length + 1
        · subst hvn1
          rw [hgat_n1] at hgv
          injection hgv with he
          exact Or.inr (Or.inr (Or.inl ⟨rfl, he.symm⟩))
        · refine Or.inr (Or.inr (Or.inr ⟨?_, hvg, ?_⟩))
          · by_contra hge
            rw [gateAt_none_of_ge (by rw [h1]; omega)] at hgv
            exact Option.noConfusion hgv
          · rw [← hgat_old v (fun he => hvg he.symm) hvn hvn1]
            exact hgv
  have hwire_classify : ∀ x w, (decomposeGate c gid).wireAt x = some w →
      x < c.wires.length ∨
      (x = c.wires.length ∧
        w = { id := c.wires.length, value := false, previousValue := false,
              source := some gid, destinations := [c.gates.length + 1] }) ∨
      (x = c.wires.length + 1 ∧
        w = { id := c.wires.length + 1, value := false,
              previousValue := false, source := some c.gates.length,
              destinations := [c.gates.length + 1] }) := by
    intro x w hw
    by_cases hxm : x = c.wires.length
    · subst hxm
      rw [hwm] at hw
      injection hw with he
      exact Or.inr (Or.inl ⟨rfl, he.symm⟩)
    · by_cases hxm1 : x = c.wires.length + 1
      · subst hxm1
        rw [hwm1] at hw
        injection hw with he
        exact Or.inr (Or.inr ⟨rfl, he.symm⟩)
      · left
        have hlt := wireAt_lt hw
        rw [h2] at hlt
        omega
  have hso_ne : ∀ o, g.output = some o →
      (decomposeGate c gid).sourceOf o ≠ none := by
    intro o ho
    rw [hso o ho]
    simp
  have hwf' : (decomposeGate c gid).wfB = true := by
    apply wfB_of
    · intro v gv hgv
      rcases hclassify v gv hgv with ⟨heq, hrec⟩ | ⟨heq, hrec⟩ |
        ⟨heq, hrec⟩ | ⟨hvl, hvg, hgv2⟩
      · subst heq
        subst hrec
        show g.id = v
        exact wf_gate_id hwf hg
      · subst heq
        subst hrec
        rfl
      · subst heq
        subst hrec
        rfl
      · exact wf_gate_id hwf hgv2
    · intro x w hw
      rcases hwire_classify x w hw with hx | ⟨heq, hrec⟩ | ⟨heq, hrec⟩
      · by_cases hwo : g.output = some x
        · obtain ⟨w0, hw0, hid, hsrc, _⟩ :=
            wtriple_omap_elim (hwt_o x hwo) hw
          rw [hid]
          exact wf_wire_id hwf hw0
        · obtain ⟨w0, hw0, hid, hsrc, _⟩ :=
            wtriple_some_elim (hwt_old x (by omega) (by omega) hwo) hw
          rw [← hid]
          exact wf_wire_id hwf hw0
      · subst heq
        subst hrec
        rfl
      · subst heq
        subst hrec
        rfl
  have harity' : ∀ v gv, (decomposeGate c gid).gateAt v = some gv →
      arityOkB gv = true := by
    intro v gv hgv
    rcases hclassify v gv hgv with ⟨heq, hrec⟩ | ⟨heq, hrec⟩ |
      ⟨heq, hrec⟩ | ⟨hvl, hvg, hgv2⟩
    · subst hrec
      rfl
    · subst hrec
      rfl
    · subst hrec
      rfl
    · exact harity v gv hgv2
  have hval' : (decomposeGate c gid).validate_connectivity = true := by
    apply validate_of hwf'
    · intro v gv hgv o ho
      rcases hclassify v gv hgv with ⟨heq, hrec⟩ | ⟨heq, hrec⟩ |
        ⟨heq, hrec⟩ | ⟨hvl, hvg, hgv2⟩
      · subst heq
        subst hrec
        have ho' : some c.wires.length = some o := ho
        injection ho' with he2
        subst he2
        exact ⟨_, hwm, rfl⟩
      · subst heq
        subst hrec
        have ho' : some (c.wires.length + 1) = some o := ho
        injection ho' with he2
        subst he2
        exact ⟨_, hwm1, rfl⟩
      · subst heq
        subst hrec
        have ho' : g.output = some o := ho
        obtain ⟨w', hw'⟩ := wireAt_of_lt
          (show o < (decomposeGate c gid).wires.length by
            rw [h2]
            have := hom o ho'
            omega)
        obtain ⟨w0, hw0, hid, hsrc, _⟩ := wtriple_omap_elim (hwt_o o ho') hw'
        exact ⟨w', hw', hsrc⟩
      · exact output_backlink_transfer hwf hval hg hpres hvg hgv2 ho
    · intro x w hw s hs
      rcases hwire_classify x w hw with hx | ⟨heq, hrec⟩ | ⟨heq, hrec⟩
      · by_cases hwo : g.output = some x
        · obtain ⟨w0, hw0, hid, hsrc, _⟩ :=
            wtriple_omap_elim (hwt_o x hwo) hw
          rw [hsrc] at hs
          injection hs with he2
          subst he2
          exact ⟨_, hgat_n1, hwo⟩
        · exact source_backlink_transfer hwf hval hg hpres hgat_pres hx hwo
            hw hs
      · subst heq
        subst hrec
        have hs' : some gid = some s := hs
        injection hs' with he2
        subst he2
        exact ⟨_, hgat_gid, rfl⟩
      · subst heq
        subst hrec
        have hs' : some c.gates.length = some s := hs
        injection hs' with he2
        subst he2
        exact ⟨_, hgat_n, rfl⟩
    · intro v gv hgv wid hwid
      rw [h2]
      rcases hclassify v gv hgv with ⟨heq, hrec⟩ | ⟨heq, hrec⟩ |
        ⟨heq, hrec⟩ | ⟨hvl, hvg, hgv2⟩
      · subst hrec
        have hwid' : wid ∈ [a, a] := hwid
        have : wid = a := by simpa using hwid'
        omega
      · subst hrec
        have hwid' : wid ∈ [b, b] := hwid
        have : wid = b := by simpa using hwid'
        omega
      · subst hrec
        have hwid' : wid ∈ [c.wires.length, c.wires.length + 1] := hwid
        rcases (show wid = c.wires.length ∨ wid = c.wires.length + 1 by
          simpa using hwid') with rfl | rfl <;> omega
      · have := input_lt_wires hval hgv2 hwid
        omega
    · intro x w hw v hv
      rw [h1]
      rcases hwire_classify x w hw with hx | ⟨heq, hrec⟩ | ⟨heq, hrec⟩
      · have hcp : 0 < cntD (decomposeGate c gid) x v := by
          rw [cntD_of_wireAt hw]
          exact List.count_pos_iff.mpr hv
        by_cases hvg : v = gid
        · omega
        · by_cases hvn : v = c.gates.length
          · omega
          · by_cases hvn1 : v = c.gates.length + 1
            · omega
            · rw [hcnt_old x v (by omega) (by omega) hvg hvn] at hcp
              obtain ⟨w0, hw0⟩ := wireAt_of_lt hx
              rw [cntD_of_wireAt hw0] at hcp
              obtain ⟨gv, hgv, _⟩ := wire_dests_mirror hval hw0
                (List.count_pos_iff.mp hcp)
              have := gateAt_lt hgv
              omega
      · subst hrec
        have hv' : v ∈ [c.gates.length + 1] := hv
        have : v = c.gates.length + 1 := by simpa using hv'
        omega
      · subst hrec
        have hv' : v ∈ [c.gates.length + 1] := hv
        have : v = c.gates.length + 1 := by simpa using hv'
        omega
    · intro v gv hgv x hxd
      rw [h2] at hxd
      rcases hclassify v gv hgv with ⟨heq, hrec⟩ | ⟨heq, hrec⟩ |
        ⟨heq, hrec⟩ | ⟨hvl, hvg, hgv2⟩
      · subst heq
        subst hrec
        by_cases hxm : x = c.wires.length
        · subst hxm
          have hL : List.count c.wires.length [a, a] = 0 := by
            rw [count_two, if_neg (show ¬a = c.wires.length by omega)]
          rw [cntD_of_wireAt hwm]
          show List.count c.wires.length [a, a] =
            List.count v [c.gates.length + 1]
          have hR : List.count v [c.gates.length + 1] = 0 := by
            rw [count_one, if_neg (show ¬c.gates.length + 1 = v by omega)]
          omega
        · by_cases hxm1 : x = c.wires.length + 1
          · subst hxm1
            have hL : List.count (c.wires.length + 1) [a, a] = 0 := by
              rw [count_two,
                if_neg (show ¬a = c.wires.length + 1 by omega)]
            rw [cntD_of_wireAt hwm1]
            show List.count (c.wires.length + 1) [a, a] =
              List.count v [c.gates.length + 1]
            have hR : List.count v [c.gates.length + 1] = 0 := by
              rw [count_one, if_neg (show ¬c.gates.length + 1 = v by omega)]
            omega
          · have hx : x < c.wires.length := by omega
            obtain ⟨w0, hw0⟩ := wireAt_of_lt hx
            have hio := count_io hwf hval hw0 hg
            have hD : cntD c x v = w0.destinations.count v :=
              cntD_of_wireAt hw0
            rw [hcnt_gid x hx, hin]
            show List.count x [a, a] = cntD c x v - List.count x [a, b] +
              List.count x [a, a]
            have h5 : List.count x [a, b] = cntD c x v := by
              rw [hD, ← hin]
              exact hio
            omega
      · subst heq
        subst hrec
        by_cases hxm : x = c.wires.length
        · subst hxm
          have hL : List.count c.wires.length [b, b] = 0 := by
            rw [count_two, if_neg (show ¬b = c.wires.length by omega)]
          rw [cntD_of_wireAt hwm]
          show List.count c.wires.length [b, b] =
            List.count c.gates.length [c.gates.length + 1]
          have hR : List.count c.gates.length [c.gates.length + 1] = 0 := by
            rw [count_one,
              if_neg (show ¬c.gates.length + 1 = c.gates.length by omega)]
          omega
        · by_cases hxm1 : x = c.wires.length + 1
          · subst hxm1
            have hL : List.count (c.wires.length + 1) [b, b] = 0 := by
              rw [count_two,
                if_neg (show ¬b = c.wires.length + 1 by omega)]
            rw [cntD_of_wireAt hwm1]
            show List.count (c.wires.length + 1) [b, b] =
              List.count c.gates.length [c.gates.length + 1]
            have hR : List.count c.gates.length [c.gates.length + 1] = 0 := by
              rw [count_one,
                if_neg (show ¬c.gates.length + 1 = c.gates.length by omega)]
            omega
          · have hx : x < c.wires.length := by omega
            rw [hcnt_n x hx, cntD_ge_gates hval (le_refl _)]
            show List.count x [b, b] = 0 + List.count x [b, b]
            omega
      · subst heq
        subst hrec
        by_cases hxm : x = c.wires.length
        · subst hxm
          have hL : List.count c.wires.length
              [c.wires.length, c.wires.length + 1] = 1 + 0 := by
            rw [count_two, if_pos rfl,
              if_neg (show ¬c.wires.length + 1 = c.wires.length by omega)]
          rw [cntD_of_wireAt hwm]
          show List.count c.wires.length
              [c.wires.length, c.wires.length + 1] =
            List.count (c.gates.length + 1) [c.gates.length + 1]
          have hR : List.count (c.gates.length + 1) [c.gates.length + 1] =
              1 := by
            rw [count_one, if_pos rfl]
          omega
        · by_cases hxm1 : x = c.wires.length + 1
          · subst hxm1
            have hL : List.count (c.wires.length + 1)
                [c.wires.length, c.wires.length + 1] = 0 + 1 := by
              rw [count_two,
                if_neg (show ¬c.wires.length = c.wires.length + 1 by omega),
                if_pos rfl]
            rw [cntD_of_wireAt hwm1]
            show List.count (c.wires.length + 1)
                [c.wires.length, c.wires.length + 1] =
              List.count (c.gates.length + 1) [c.gates.length + 1]
            have hR : List.count (c.gates.length + 1) [c.gates.length + 1] =
                1 := by
              rw [count_one, if_pos rfl]
            omega
          · have hx : x < c.wires.length := by omega
            have hL : List.count x
                [c.wires.length, c.wires.length + 1] = 0 := by
              rw [count_two, if_neg (show ¬c.wires.length = x by omega),
                if_neg (show ¬c.wires.length + 1 = x by omega)]
            rw [hcnt_old x (c.gates.length + 1) (by omega) (by omega)
              (by omega) (by omega), cntD_ge_gates hval (by omega)]
            show List.count x [c.wires.length, c.wires.length + 1] = 0
            exact hL
      · by_cases hxm : x = c.wires.length
        · subst hxm
          rw [count_inputs_ge hval hgv2 (le_refl _), cntD_of_wireAt hwm]
          show 0 = List.count v [c.gates.length + 1]
          have hR : List.count v [c.gates.length + 1] = 0 := by
            rw [count_one, if_neg (show ¬c.gates.length + 1 = v by omega)]
          omega
        · by_cases hxm1 : x = c.wires.length + 1
          · subst hxm1
            rw [count_inputs_ge hval hgv2 (by omega), cntD_of_wireAt hwm1]
            show 0 = List.count v [c.gates.length + 1]
            have hR : List.count v [c.gates.length + 1] = 0 := by
              rw [count_one, if_neg (show ¬c.gates.length + 1 = v by omega)]
            omega
          · have hx : x < c.wires.length := by omega
            obtain ⟨w0, hw0⟩ := wireAt_of_lt hx
            rw [hcnt_old x v (by omega) (by omega) hvg (by omega),
              cntD_of_wireAt hw0]
            exact count_io hwf hval hw0 hgv2
  refine ⟨hwf', hval', harity', hgat_pres, ?_, h3, h4, by omega, by omega,
    sourceless_wtriple_transfer hwf hval hg hpres, ?_,
    sourced_stays_transfer hpres hso_ne⟩
  · intro v gv hgv
    rcases hclassify v gv hgv with ⟨heq, hrec⟩ | ⟨heq, hrec⟩ |
      ⟨heq, hrec⟩ | ⟨hvl, hvg, hgv2⟩
    · subst hrec
      exact Or.inl rfl
    · subst hrec
      exact Or.inl rfl
    · subst hrec
      exact Or.inl rfl
    · exact Or.inr ⟨hvl, hvg⟩
  · intro x hx1 hx2
    rw [h2] at hx1
    by_cases hxm : x = c.wires.length
    · subst hxm
      rw [hsm]
      simp
    · have hxm1 : x = c.wires.length + 1 := by omega
      subst hxm1
      rw [hsm1]
      simp

theorem decomposeGate_XOR_maintain (c : Circuit) (gid : Nat) (g : Gate)
    (hwf : c.wfB = true) (hval : c.validate_connectivity = true)
    (harity : ∀ v gv, c.gateAt v = some gv → arityOkB gv = true)
    (hg : c.gateAt gid = some g) (hty : g.type = XOR) (a b : Nat)
    (hin : g.inputs = [a, b]) :
    StepOut c (decomposeGate c gid) gid := by
  have hom : ∀ o, g.output = some o → o < c.wires.length := by
    intro o ho
    obtain ⟨w, hw, _⟩ := gate_output_backlink hwf hval hg ho
    exact wireAt_lt hw
  have hal : a < c.wires.length := input_lt_wires hval hg (by rw [hin]; simp)
  have hbl : b < c.wires.length := input_lt_wires hval hg (by rw [hin]; simp)
  obtain ⟨h1, h2, h3, h4, hgat_old, hgat_gid, hgat_n, hgat_n1, hgat_n2,
    hwt_old, hwt_o, hwm, hwm1, hwm2, hcnt_old, hcnt_gid, hcnt_n, hcnt_n1⟩ :=
    decomposeGate_XOR_facts c gid g hg hty a b hin hom hal hbl
  have hglt : gid < c.gates.length := gateAt_lt hg
  have hpres : ∀ y, y < c.wires.length → g.output ≠ some y →
      wtriple (decomposeGate c gid) y = wtriple c y :=
    fun y hy hgo => hwt_old y (by omega) (by omega) (by omega) hgo
  have hgat_pres : ∀ v, v < c.gates.length → v ≠ gid →
      (decomposeGate c gid).gateAt v = c.gateAt v :=
    fun v hvl hv => hgat_old v (fun he => hv he.symm) (by omega) (by omega)
      (by omega)
  have hsm : (decomposeGate c gid).sourceOf c.wires.length = some gid := by
    rw [Circuit.sourceOf, hwm]
    rfl
  have hsm1 : (decomposeGate c gid).sourceOf (c.wires.length + 1) =
      some c.gates.length := by
    rw [Circuit.sourceOf, hwm1]
    rfl
  have hsm2 : (decomposeGate c gid).sourceOf (c.wires.length + 1 + 1) =
      some (c.gates.length + 1) := by
    rw [Circuit.sourceOf, hwm2]
    rfl
  have hso : ∀ o, g.output = some o →
      (decomposeGate c gid).sourceOf o = some (c.gates.length + 1 + 1) := by
    intro o ho
    obtain ⟨wx, hwx⟩ := wireAt_of_lt (hom o ho)
    have h6 := hwt_o o ho
    rw [hwx] at h6
    simp only [Option.map_some'] at h6
    exact sourceOf_of_wtriple h6
  have hclassify : ∀ v gv, (decomposeGate c gid).gateAt v = some gv →
      (v = gid ∧ gv = { g with
                        type := GateType.NAND,
                        inputs := [a, b],
                        output := some c.wires.length }) ∨
      (v = c.gates.length ∧ gv = { id := c.gates.length,
                                   type := GateType.NAND,
                                   inputs := [a, c.wires.length],
                                   output := some (c.wires.length + 1),
                                   state := false, dirty := true }) ∨
      (v = c.gates.length + 1 ∧ gv = { id := c.gates.length + 1,
                                       type := GateType.NAND,
                                       inputs := [b, c.wires.length],
                                       output := some (c.wires.length + 1 + 1),
                                       state := false, dirty := true }) ∨
      (v = c.gates.length + 1 + 1 ∧ gv = { id := c.gates.length + 1 + 1,
                                           type := GateType.NAND,
                                           inputs := [c.wires.length + 1,
                                             c.wires.length + 1 + 1],
                                           output := g.output, state := false,
                                           dirty := true }) ∨
      (v < c.gates.length ∧ v ≠ gid ∧ c.gateAt v = some gv) := by
    intro v gv hgv
    by_cases hvg : v = gid
    · subst hvg
      rw [hgat_gid] at hgv
      injection hgv with he
      exact Or.inl ⟨rfl, he.symm⟩
    · by_cases hvn : v = c.gates.length
      · subst hvn
        rw [hgat_n] at hgv
        injection hgv with he
        exact Or.inr (Or.inl ⟨rfl, he.symm⟩)
      · by_cases hvn1 : v = c.gates.length + 1
        · subst hvn1
          rw [hgat_n1] at hgv
          injection hgv with he
          exact Or.inr (Or.inr (Or.inl ⟨rfl, he.symm⟩))
        · by_cases hvn2 : v = c.gates.length + 1 + 1
          · subst hvn2
            rw [hgat_n2] at hgv
            injection hgv with he
            exact Or.inr (Or.inr (Or.inr (Or.inl ⟨rfl, he.symm⟩)))
          · refine Or.inr (Or.inr (Or.inr (Or.inr ⟨?_, hvg, ?_⟩)))
            · by_contra hge
              rw [gateAt_none_of_ge (by rw [h1]; omega)] at hgv
              exact Option.noConfusion hgv
            · rw [← hgat_old v (fun he => hvg he.symm) hvn hvn1 hvn2]
              exact hgv
  have hwire_classify : ∀ x w, (decomposeGate c gid).wireAt x = some w →
      x < c.wires.length ∨
      (x = c.wires.length ∧
        w = { id := c.wires.length, value := false, previousValue := false,
              source := some gid,
              destinations := [c.gates.length, c.gates.length + 1] }) ∨
      (x = c.wires.length + 1 ∧
        w = { id := c.wires.length + 1, value := false,
              previousValue := false, source := some c.gates.length,
              destinations := [c.gates.length + 1 + 1] }) ∨
      (x = c.wires.length + 1 + 1 ∧
        w = { id := c.wires.length + 1 + 1, value := false,
              previousValue := false, source := some (c.gates.length + 1),
              destinations := [c.gates.length + 1 + 1] }) := by
    intro x w hw
    by_cases hxm : x = c.wires.length
    · subst hxm
      rw [hwm] at hw
      injection hw with he
      exact Or.inr (Or.inl ⟨rfl, he.symm⟩)
    · by_cases hxm1 : x = c.wires.length + 1
      · subst hxm1
        rw [hwm1] at hw
        injection hw with he
        exact Or.inr (Or.inr (Or.inl ⟨rfl, he.symm⟩))
      · by_cases hxm2 : x = c.wires.length + 1 + 1
        · subst hxm2
          rw [hwm2] at hw
          injection hw with he
          exact Or.inr (Or.inr (Or.inr ⟨rfl, he.symm⟩))
        · left
          have hlt := wireAt_lt hw
          rw [h2] at hlt
          omega
  have hso_ne : ∀ o, g.output = some o →
      (decomposeGate c gid).sourceOf o ≠ none := by
    intro o ho
    rw [hso o ho]
    simp
  have hwf' : (decomposeGate c gid).wfB = true := by
    apply wfB_of
    · intro v gv hgv
      rcases hclassify v gv hgv with ⟨heq, hrec⟩ | ⟨heq, hrec⟩ |
        ⟨heq, hrec⟩ | ⟨heq, hrec⟩ | ⟨hvl, hvg, hgv2⟩
      · subst heq
        subst hrec
        show g.id = v
        exact wf_gate_id hwf hg
      · subst heq
        subst hrec
        rfl
      · subst heq
        subst hrec
        rfl
      · subst heq
        subst hrec
        rfl
      · exact wf_gate_id hwf hgv2
    · intro x w hw
      rcases hwire_classify x w hw with hx | ⟨heq, hrec⟩ | ⟨heq, hrec⟩ |
        ⟨heq, hrec⟩
      · by_cases hwo : g.output = some x
        · obtain ⟨w0, hw0, hid, hsrc, _⟩ :=
            wtriple_omap_elim (hwt_o x hwo) hw
          rw [hid]
          exact wf_wire_id hwf hw0
        · obtain ⟨w0, hw0, hid, hsrc, _⟩ := wtriple_some_elim
            (hwt_old x (by omega) (by omega) (by omega) hwo) hw
          rw [← hid]
          exact wf_wire_id hwf hw0
      · subst heq
        subst hrec
        rfl
      · subst heq
        subst hrec
        rfl
      · subst heq
        subst hrec
        rfl
  have harity' : ∀ v gv, (decomposeGate c gid).gateAt v = some gv →
      arityOkB gv = true := by
    intro v gv hgv
    rcases hclassify v gv hgv with ⟨heq, hrec⟩ | ⟨heq, hrec⟩ |
      ⟨heq, hrec⟩ | ⟨heq, hrec⟩ | ⟨hvl, hvg, hgv2⟩
    · subst hrec
      rfl
    · subst hrec
      rfl
    · subst hrec
      rfl
    · subst hrec
      rfl
    · exact harity v gv hgv2
  have hval' : (decomposeGate c gid).validate_connectivity = true := by
    apply validate_of hwf'
    · intro v gv hgv o ho
      rcases hclassify v gv hgv with ⟨heq, hrec⟩ | ⟨heq, hrec⟩ |
        ⟨heq, hrec⟩ | ⟨heq, hrec⟩ | ⟨hvl, hvg, hgv2⟩
      · subst heq
        subst hrec
        have ho' : some c.wires.length = some o := ho
        injection ho' with he2
        subst he2
        exact ⟨_, hwm, rfl⟩
      · subst heq
        subst hrec
        have ho' : some (c.wires.length + 1) = some o := ho
        injection ho' with he2
        subst he2
        exact ⟨_, hwm1, rfl⟩
      · subst heq
        subst hrec
        have ho' : some (c.wires.length + 1 + 1) = some o := ho
        injection ho' with he2
        subst he2
        exact ⟨_, hwm2, rfl⟩
      · subst heq
        subst hrec
        have ho' : g.output = some o := ho
        obtain ⟨w', hw'⟩ := wireAt_of_lt
          (show o < (decomposeGate c gid).wires.length by
            rw [h2]
            have := hom o ho'
            omega)
        obtain ⟨w0, hw0, hid, hsrc, _⟩ := wtriple_omap_elim (hwt_o o ho') hw'
        exact ⟨w', hw', hsrc⟩
      · exact output_backlink_transfer hwf hval hg hpres hvg hgv2 ho
    · intro x w hw s hs
      rcases hwire_classify x w hw with hx | ⟨heq, hrec⟩ | ⟨heq, hrec⟩ |
        ⟨heq, hrec⟩
      · by_cases hwo : g.output = some x
        · obtain ⟨w0, hw0, hid, hsrc, _⟩ :=
            wtriple_omap_elim (hwt_o x hwo) hw
          rw [hsrc] at hs
          injection hs with he2
          subst he2
          exact ⟨_, hgat_n2, hwo⟩
        · exact source_backlink_transfer hwf hval hg hpres hgat_pres hx hwo
            hw hs
      · subst heq
        subst hrec
        have hs' : some gid = some s := hs
        injection hs' with he2
        subst he2
        exact ⟨_, hgat_gid, rfl⟩
      · subst heq
        subst hrec
        have hs' : some c.gates.length = some s := hs
        injection hs' with he2
        subst he2
        exact ⟨_, hgat_n, rfl⟩
      · subst heq
        subst hrec
        have hs' : some (c.gates.length + 1) = some s := hs
        injection hs' with he2
        subst he2
        exact ⟨_, hgat_n1, rfl⟩
    · intro v gv hgv wid hwid
      rw [h2]
      rcases hclassify v gv hgv with ⟨heq, hrec⟩ | ⟨heq, hrec⟩ |
        ⟨heq, hrec⟩ | ⟨heq, hrec⟩ | ⟨hvl, hvg, hgv2⟩
      · subst hrec
        have hwid' : wid ∈ [a, b] := hwid
        rcases (show wid = a ∨ wid = b by simpa using hwid') with rfl | rfl <;>
          omega
      · subst hrec
        have hwid' : wid ∈ [a, c.wires.length] := hwid
        rcases (show wid = a ∨ wid = c.wires.length by simpa using hwid') with
          rfl | rfl <;> omega
      · subst hrec
        have hwid' : wid ∈ [b, c.wires.length] := hwid
        rcases (show wid = b ∨ wid = c.wires.length by simpa using hwid') with
          rfl | rfl <;> omega
      · subst hrec
        have hwid' : wid ∈ [c.wires.length + 1, c.wires.length + 1 + 1] :=
          hwid
        rcases (show wid = c.wires.length + 1 ∨ wid = c.wires.length + 1 + 1
          by simpa using hwid') with rfl | rfl <;> omega
      · have := input_lt_wires hval hgv2 hwid
        omega
    · intro x w hw v hv
      rw [h1]
      rcases hwire_classify x w hw with hx | ⟨heq, hrec⟩ | ⟨heq, hrec⟩ |
        ⟨heq, hrec⟩
      · have hcp : 0 < cntD (decomposeGate c gid) x v := by
          rw [cntD_of_wireAt hw]
          exact List.count_pos_iff.mpr hv
        by_cases hvg : v = gid
        · omega
        · by_cases hvn : v = c.gates.length
          · omega
          · by_cases hvn1 : v = c.gates.length + 1
            · omega
            · rw [hcnt_old x v (by omega) (by omega) (by omega) hvg hvn
                hvn1] at hcp
              obtain ⟨w0, hw0⟩ := wireAt_of_lt hx
              rw [cntD_of_wireAt hw0] at hcp
              obtain ⟨gv, hgv, _⟩ := wire_dests_mirror hval hw0
                (List.count_pos_iff.mp hcp)
              have := gateAt_lt hgv
              omega
      · subst hrec
        have hv' : v ∈ [c.gates.length, c.gates.length + 1] := hv
        rcases (show v = c.gates.length ∨ v = c.gates.length + 1 by
          simpa using hv') with rfl | rfl <;> omega
      · subst hrec
        have hv' : v ∈ [c.gates.length + 1 + 1] := hv
        have : v = c.gates.length + 1 + 1 := by simpa using hv'
        omega
      · subst hrec
        have hv' : v ∈ [c.gates.length + 1 + 1] := hv
        have : v = c.gates.length + 1 + 1 := by simpa using hv'
        omega
    · intro v gv hgv x hxd
      rw [h2] at hxd
      rcases hclassify v gv hgv with ⟨heq, hrec⟩ | ⟨heq, hrec⟩ |
        ⟨heq, hrec⟩ | ⟨heq, hrec⟩ | ⟨hvl, hvg, hgv2⟩
      · subst heq
        subst hrec
        by_cases hxm : x = c.wires.length
        · subst hxm
          have hL : List.count c.wires.length [a, b] = 0 := by
            rw [count_two, if_neg (show ¬a = c.wires.length by omega),
              if_neg (show ¬b = c.wires.length by omega)]
          rw [cntD_of_wireAt hwm]
          show List.count c.wires.length [a, b] =
            List.count v [c.gates.length, c.gates.length + 1]
          have hR : List.count v [c.gates.length, c.gates.length + 1] = 0 := by
            rw [count_two, if_neg (show ¬c.gates.length = v by omega),
              if_neg (show ¬c.gates.length + 1 = v by omega)]
          omega
        · by_cases hxm1 : x = c.wires.length + 1
          · subst hxm1
            have hL : List.count (c.wires.length + 1) [a, b] = 0 := by
              rw [count_two, if_neg (show ¬a = c.wires.length + 1 by omega),
                if_neg (show ¬b = c.wires.length + 1 by omega)]
            rw [cntD_of_wireAt hwm1]
            show List.count (c.wires.length + 1) [a, b] =
              List.count v [c.gates.length + 1 + 1]
            have hR : List.count v [c.gates.length + 1 + 1] = 0 := by
              rw [count_one,
                if_neg (show ¬c.gates.length + 1 + 1 = v by omega)]
            omega
          · by_cases hxm2 : x = c.wires.length + 1 + 1
            · subst hxm2
              have hL : List.count (c.wires.length + 1 + 1) [a, b] = 0 := by
                rw [count_two,
                  if_neg (show ¬a = c.wires.length + 1 + 1 by omega),
                  if_neg (show ¬b = c.wires.length + 1 + 1 by omega)]
              rw [cntD_of_wireAt hwm2]
              show List.count (c.wires.length + 1 + 1) [a, b] =
                List.count v [c.gates.length + 1 + 1]
              have hR : List.count v [c.gates.length + 1 + 1] = 0 := by
                rw [count_one,
                  if_neg (show ¬c.gates.length + 1 + 1 = v by omega)]
              omega
            · have hx : x < c.wires.length := by omega
              obtain ⟨w0, hw0⟩ := wireAt_of_lt hx
              have hio := count_io hwf hval hw0 hg
              have hD : cntD c x v = w0.destinations.count v :=
                cntD_of_wireAt hw0
              rw [hcnt_gid x hx, hin]
              show List.count x [a, b] = cntD c x v - List.count x [a, b] +
                List.count x [a, b]
              have h5 : List.count x [a, b] = cntD c x v := by
                rw [hD, ← hin]
                exact hio
              omega
      · subst heq
        subst hrec
        by_cases hxm : x = c.wires.length
        · subst hxm
          have hL : List.count c.wires.length [a, c.wires.length] = 0 + 1 := by
            rw [count_two, if_neg (show ¬a = c.wires.length by omega),
              if_pos rfl]
          rw [cntD_of_wireAt hwm]
          show List.count c.wires.length [a, c.wires.length] =
            List.count c.gates.length [c.gates.length, c.gates.length + 1]
          have hR : List.count c.gates.length
              [c.gates.length, c.gates.length + 1] = 1 + 0 := by
            rw [count_two, if_pos rfl,
              if_neg (show ¬c.gates.length + 1 = c.gates.length by omega)]
          omega
        · by_cases hxm1 : x = c.wires.length + 1
          · subst hxm1
            have hL : List.count (c.wires.length + 1)
                [a, c.wires.length] = 0 := by
              rw [count_two, if_neg (show ¬a = c.wires.length + 1 by omega),
                if_neg (show ¬c.wires.length = c.wires.length + 1 by omega)]
            rw [cntD_of_wireAt hwm1]
            show List.count (c.wires.length + 1) [a, c.wires.length] =
              List.count c.gates.length [c.gates.length + 1 + 1]
            have hR : List.count c.gates.length
                [c.gates.length + 1 + 1] = 0 := by
              rw [count_one,
                if_neg (show ¬c.gates.length + 1 + 1 = c.gates.length by
                  omega)]
            omega
          · by_cases hxm2 : x = c.wires.length + 1 + 1
            · subst hxm2
              have hL : List.count (c.wires.length + 1 + 1)
                  [a, c.wires.length] = 0 := by
                rw [count_two,
                  if_neg (show ¬a = c.wires.length + 1 + 1 by omega),
                  if_neg (show ¬c.wires.length = c.wires.length + 1 + 1 by
                    omega)]
              rw [cntD_of_wireAt hwm2]
              show List.count (c.wires.length + 1 + 1) [a, c.wires.length] =
                List.count c.gates.length [c.gates.length + 1 + 1]
              have hR : List.count c.gates.length
                  [c.gates.length + 1 + 1] = 0 := by
                rw [count_one,
                  if_neg (show ¬c.gates.length + 1 + 1 = c.gates.length by
                    omega)]
              omega
            · have hx : x < c.wires.length := by omega
              rw [hcnt_n x hx, cntD_ge_gates hval (le_refl _)]
              show List.count x [a, c.wires.length] =
                0 + List.count x [a, c.wires.length]
              omega
      · subst heq
        subst hrec
        by_cases hxm : x = c.wires.length
        · subst hxm
          have hL : List.count c.wires.length [b, c.wires.length] = 0 + 1 := by
            rw [count_two, if_neg (show ¬b = c.wires.length by omega),
              if_pos rfl]
          rw [cntD_of_wireAt hwm]
          show List.count c.wires.length [b, c.wires.length] =
            List.count (c.gates.length + 1)
              [c.gates.length, c.gates.length + 1]
          have hR : List.count (c.gates.length + 1)
              [c.gates.length, c.gates.length + 1] = 0 + 1 := by
            rw [count_two,
              if_neg (show ¬c.gates.length = c.gates.length + 1 by omega),
              if_pos rfl]
          omega
        · by_cases hxm1 : x = c.wires.length + 1
          · subst hxm1
            have hL : List.count (c.wires.length + 1)
                [b, c.wires.length] = 0 := by
              rw [count_two, if_neg (show ¬b = c.wires.length + 1 by omega),
                if_neg (show ¬c.wires.length = c.wires.length + 1 by omega)]
            rw [cntD_of_wireAt hwm1]
            show List.count (c.wires.length + 1) [b, c.wires.length] =
              List.count (c.gates.length + 1) [c.gates.length + 1 + 1]
            have hR : List.count (c.gates.length + 1)
                [c.gates.length + 1 + 1] = 0 := by
              rw [count_one,
                if_neg (show ¬c.gates.length + 1 + 1 = c.gates.length + 1 by
                  omega)]
            omega
          · by_cases hxm2 : x = c.wires.length + 1 + 1
            · subst hxm2
              have hL : List.count (c.wires.length + 1 + 1)
                  [b, c.wires.length] = 0 := by
                rw [count_two,
                  if_neg (show ¬b = c.wires.length + 1 + 1 by omega),
                  if_neg (show ¬c.wires.length = c.wires.length + 1 + 1 by
                    omega)]
              rw [cntD_of_wireAt hwm2]
              show List.count (c.wires.length + 1 + 1) [b, c.wires.length] =
                List.count (c.gates.length + 1) [c.gates.length + 1 + 1]
              have hR : List.count (c.gates.length + 1)
                  [c.gates.length + 1 + 1] = 0 := by
                rw [count_one,
                  if_neg (show ¬c.gates.length + 1 + 1 = c.gates.length + 1 by
                    omega)]
              omega
            · have hx : x < c.wires.length := by omega
              rw [hcnt_n1 x hx, cntD_ge_gates hval (by omega)]
              show List.count x [b, c.wires.length] =
                0 + List.count x [b, c.wires.length]
              omega
      · subst heq
        subst hrec
        by_cases hxm : x = c.wires.length
        · subst hxm
          have hL : List.count c.wires.length
              [c.wires.length + 1, c.wires.length + 1 + 1] = 0 := by
            rw [count_two,
              if_neg (show ¬c.wires.length + 1 = c.wires.length by omega),
              if_neg (show ¬c.wires.length + 1 + 1 = c.wires.length by omega)]
          rw [cntD_of_wireAt hwm]
          show List.count c.wires.length
              [c.wires.length + 1, c.wires.length + 1 + 1] =
            List.count (c.gates.length + 1 + 1)
              [c.gates.length, c.gates.length + 1]
          have hR : List.count (c.gates.length + 1 + 1)
              [c.gates.length, c.gates.length + 1] = 0 := by
            rw [count_two,
              if_neg (show ¬c.gates.length = c.gates.length + 1 + 1 by omega),
              if_neg (show ¬c.gates.length + 1 = c.gates.length + 1 + 1 by
                omega)]
          omega
        · by_cases hxm1 : x = c.wires.length + 1
          · subst hxm1
            have hL : List.count (c.wires.length + 1)
                [c.wires.length + 1, c.wires.length + 1 + 1] = 1 + 0 := by
              rw [count_two, if_pos rfl,
                if_neg (show ¬c.wires.length + 1 + 1 = c.wires.length + 1 by
                  omega)]
            rw [cntD_of_wireAt hwm1]
            show List.count (c.wires.length + 1)
                [c.wires.length + 1, c.wires.length + 1 + 1] =
              List.count (c.gates.length + 1 + 1) [c.gates.length + 1 + 1]
            have hR : List.count (c.gates.length + 1 + 1)
                [c.gates.length + 1 + 1] = 1 := by
              rw [count_one, if_pos rfl]
            omega
          · by_cases hxm2 : x = c.wires.length + 1 + 1
            · subst hxm2
              have hL : List.count (c.wires.length + 1 + 1)
                  [c.wires.length + 1, c.wires.length + 1 + 1] = 0 + 1 := by
                rw [count_two,
                  if_neg (show ¬c.wires.length + 1 = c.wires.length + 1 + 1 by
                    omega), if_pos rfl]
              rw [cntD_of_wireAt hwm2]
              show List.count (c.wires.length + 1 + 1)
                  [c.wires.length + 1, c.wires.length + 1 + 1] =
                List.count (c.gates.length + 1 + 1) [c.gates.length + 1 + 1]
              have hR : List.count (c.gates.length + 1 + 1)
                  [c.gates.length + 1 + 1] = 1 := by
                rw [count_one, if_pos rfl]
              omega
            · have hx : x < c.wires.length := by omega
              have hL : List.count x
                  [c.wires.length + 1, c.wires.length + 1 + 1] = 0 := by
                rw [count_two,
                  if_neg (show ¬c.wires.length + 1 = x by omega),
                  if_neg (show ¬c.wires.length + 1 + 1 = x by omega)]
              rw [hcnt_old x (c.gates.length + 1 + 1) (by omega) (by omega)
                (by omega) (by omega) (by omega) (by omega),
                cntD_ge_gates hval (by omega)]
              show List.count x
                [c.wires.length + 1, c.wires.length + 1 + 1] = 0
              exact hL
      · by_cases hxm : x = c.wires.length
        · subst hxm
          rw [count_inputs_ge hval hgv2 (le_refl _), cntD_of_wireAt hwm]
          show 0 = List.count v [c.gates.length, c.gates.length + 1]
          have hR : List.count v [c.gates.length, c.gates.length + 1] = 0 := by
            rw [count_two, if_neg (show ¬c.gates.length = v by omega),
              if_neg (show ¬c.gates.length + 1 = v by omega)]
          omega
        · by_cases hxm1 : x = c.wires.length + 1
          · subst hxm1
            rw [count_inputs_ge hval hgv2 (by omega), cntD_of_wireAt hwm1]
            show 0 = List.count v [c.gates.length + 1 + 1]
            have hR : List.count v [c.gates.length + 1 + 1] = 0 := by
              rw [count_one,
                if_neg (show ¬c.gates.length + 1 + 1 = v by omega)]
            omega
          · by_cases hxm2 : x = c.wires.length + 1 + 1
            · subst hxm2
              rw [count_inputs_ge hval hgv2 (by omega), cntD_of_wireAt hwm2]
              show 0 = List.count v [c.gates.length + 1 + 1]
              have hR : List.count v [c.gates.length + 1 + 1] = 0 := by
                rw [count_one,
                  if_neg (show ¬c.gates.length + 1 + 1 = v by omega)]
              omega
            · have hx : x < c.wires.length := by omega
              obtain ⟨w0, hw0⟩ := wireAt_of_lt hx
              rw [hcnt_old x v (by omega) (by omega) (by omega) hvg
                (by omega) (by omega), cntD_of_wireAt hw0]
              exact count_io hwf hval hw0 hgv2
  refine ⟨hwf', hval', harity', hgat_pres, ?_, h3, h4, by omega, by omega,
    sourceless_wtriple_transfer hwf hval hg hpres, ?_,
    sourced_stays_transfer hpres hso_ne⟩
  · intro v gv hgv
    rcases hclassify v gv hgv with ⟨heq, hrec⟩ | ⟨heq, hrec⟩ |
      ⟨heq, hrec⟩ | ⟨heq, hrec⟩ | ⟨hvl, hvg, hgv2⟩
    · subst hrec
      exact Or.inl rfl
    · subst hrec
      exact Or.inl rfl
    · subst hrec
      exact Or.inl rfl
    · subst hrec
      exact Or.inl rfl
    · exact Or.inr ⟨hvl, hvg⟩
  · intro x hx1 hx2
    rw [h2] at hx1
    by_cases hxm : x = c.wires.length
    · subst hxm
      rw [hsm]
      simp
    · by_cases hxm1 : x = c.wires.length + 1
      · subst hxm1
        rw [hsm1]
        simp
      · have hxm2 : x = c.wires.length + 1 + 1 := by omega
        subst hxm2
        rw [hsm2]
        simp

/-! ## C1: the rewrite fold preserves the invariant -/

theorem DecompInv_step (c d d' : Circuit) (gid : Nat) (rest : List Nat)
    (hInv : DecompInv c (gid :: rest) d)
    (hstep : StepOut d d' gid)
    (hev : ∀ env x v, x < d.wires.length → Evals d env x v →
      Evals d' env x v)
    (hgr' : ∃ rk', Graded d' rk')
    (hgnr : gid ∉ rest) :
    DecompInv c rest d' := by
  obtain ⟨hwf, hval, harity, hnand, hpend, hgrd, hevals, hiw, how, hwle, hgle,
    hsrcless, hnewsrc, hsrcstay⟩ := hInv
  obtain ⟨hwf', hval', harity', hgat_pres, hnandold, hiw', how', hwle', hgle',
    hsless', hnew', hstay'⟩ := hstep
  refine ⟨hwf', hval', harity', ?_, ?_, hgr', ?_, hiw'.trans hiw,
    how'.trans how, le_trans hwle hwle', le_trans hgle hgle', ?_, ?_, ?_⟩
  · intro v gv hgv
    rcases hnandold v gv hgv with hn | ⟨hvl, hvg⟩
    · exact Or.inl hn
    · have hgd : d.gateAt v = some gv := by
        rw [← hgat_pres v hvl hvg]
        exact hgv
      rcases hnand v gv hgd with hn | hmem
      · exact Or.inl hn
      · rcases List.mem_cons.mp hmem with rfl | hr
        · exact absurd rfl hvg
        · exact Or.inr hr
  · intro v hv
    obtain ⟨hdgc, hvc⟩ := hpend v (List.mem_cons_of_mem _ hv)
    have hvg : v ≠ gid := fun he => hgnr (he ▸ hv)
    refine ⟨?_, hvc⟩
    rw [hgat_pres v (by omega) hvg]
    exact hdgc
  · intro env x v hx hev0
    exact hev env x v (by omega) (hevals env x v hx hev0)
  · intro x hx hnone
    have hd := hsrcless x hx hnone
    have hdnone : d.sourceOf x = none := by
      rw [sourceOf_of_wtriple_eq hd]
      exact hnone
    rw [hsless' x (by omega) hdnone]
    exact hd
  · intro x hxd' hcx
    by_cases hxd : x < d.wires.length
    · exact hstay' x hxd (hnewsrc x hxd hcx)
    · exact hnew' x hxd' (by omega)
  · intro x hx hne
    exact hstay' x (by omega) (hsrcstay x hx hne)

theorem decomposeGateE_ok (c : Circuit) (gid : Nat)
    (h : ∀ g, c.gateAt gid = some g → g.type = GateType.NAND ∨
      g.type = GateType.NOT ∨ g.output ≠ none) :
    decomposeGateE c gid = .ok (decomposeGate c gid) := by
  unfold decomposeGateE
  cases hg : c.gateAt gid with
  | none => rfl
  | some g =>
    have hnl : nullLink g = false := by
      rcases h g hg with h1 | h1 | h1
      · simp [nullLink, h1]
      · simp [nullLink, h1]
      · cases ho : g.output with
        | none => exact absurd ho h1
        | some o => simp [nullLink, ho]
    show (if nullLink g = true then
        (Except.error "null wire dereference in link_output" :
          Except String Circuit)
      else .ok (decomposeGate c gid)) = .ok (decomposeGate c gid)
    rw [hnl]
    simp

theorem decompose_fold (c : Circuit)
    (harity_c : ∀ v gv, c.gateAt v = some gv → arityOkB gv = true)
    (hsmall_c : ∀ v gv, c.gateAt v = some gv → gv.type ≠ GateType.NAND →
      gv.inputs.length ≤ 2)
    (hout_c : ∀ v gv, c.gateAt v = some gv → gv.type ≠ GateType.NAND →
      gv.type ≠ GateType.NOT → gv.output ≠ none) :
    ∀ todo, todo.Nodup →
      (∀ v ∈ todo, ∀ gv, c.gateAt v = some gv →
        gv.type ≠ GateType.NAND) →
      ∀ d, DecompInv c todo d →
        DecompInv c [] (todo.foldl decomposeGate d) ∧
        decomposeLoop todo d = .ok (todo.foldl decomposeGate d) := by
  intro todo
  induction todo with
  | nil =>
    intro _ _ d h
    rw [List.foldl_nil]
    exact ⟨h, rfl⟩
  | cons gid rest ih =>
    intro hnd hnn d hInv
    rw [List.foldl_cons]
    have hgnr : gid ∉ rest := (List.nodup_cons.mp hnd).1
    have hInv' := hInv
    obtain ⟨hwf, hval, harity, hnand, hpend, ⟨rk, hgr⟩, hevals, hiw, how,
      hwle, hgle, hsrcless, hnewsrc, hsrcstay⟩ := hInv'
    obtain ⟨hdg, hglt⟩ := hpend gid (List.mem_cons_self gid rest)
    obtain ⟨g, hgc⟩ := gateAt_of_lt hglt
    have hgd : d.gateAt gid = some g := by rw [hdg]; exact hgc
    have hnN : g.type ≠ GateType.NAND :=
      hnn gid (List.mem_cons_self gid rest) g hgc
    have hsm2 : g.inputs.length ≤ 2 := hsmall_c gid g hgc hnN
    have har : arityOkB g = true := harity_c gid g hgc
    have hom : ∀ o, g.output = some o → o < d.wires.length := by
      intro o ho
      obtain ⟨w, hw, _⟩ := gate_output_backlink hwf hval hgd ho
      exact wireAt_lt hw
    suffices hstep : DecompInv c rest (decomposeGate d gid) by
      obtain ⟨h1, h2⟩ := ih (List.nodup_cons.mp hnd).2
        (fun v hv gv hgv => hnn v (List.mem_cons_of_mem _ hv) gv hgv)
        (decomposeGate d gid) hstep
      refine ⟨h1, ?_⟩
      have hone : decomposeGateE d gid = .ok (decomposeGate d gid) := by
        apply decomposeGateE_ok
        intro g2 hg2
        rw [hgd] at hg2
        injection hg2 with he2
        subst he2
        by_cases hnot : g.type = GateType.NOT
        · exact Or.inr (Or.inl hnot)
        · exact Or.inr (Or.inr (hout_c gid g hgc hnN hnot))
      simp only [decomposeLoop, hone]
      exact h2
    cases hty : g.type with
    | NAND => exact absurd hty hnN
    | NOT =>
      have hlen1 : g.inputs.length = 1 := by
        have h := har
        simp only [arityOkB, hty] at h
        simpa using h
      obtain ⟨a, hina⟩ := List.length_eq_one.mp hlen1
      exact DecompInv_step c d _ gid rest hInv
        (decomposeGate_NOT_maintain d gid g hwf hval harity hgd hty a hina)
        (decomposeGate_NOT_evals d gid g hwf hval hgd hty a hina rk hgr)
        (decomposeGate_NOT_graded d gid g hgd hty a hina rk hgr) hgnr
    | BUFFER =>
      have hlen1 : g.inputs.length = 1 := by
        have h := har
        simp only [arityOkB, hty] at h
        simpa using h
      obtain ⟨a, hina⟩ := List.length_eq_one.mp hlen1
      exact DecompInv_step c d _ gid rest hInv
        (decomposeGate_BUFFER_maintain d gid g hwf hval harity hgd hty a hina)
        (decomposeGate_BUFFER_evals d gid g hwf hval hgd hty a hina hom rk
          hgr)
        (decomposeGate_BUFFER_graded d gid g hwf hval hgd hty a hina hom rk
          hgr) hgnr
    | AND =>
      have hlen2 : g.inputs.length = 2 := by
        have h := har
        simp only [arityOkB, hty] at h
        have h2 : 2 ≤ g.inputs.length := by simpa using h
        omega
      obtain ⟨a, b, hinab⟩ := List.length_eq_two.mp hlen2
      exact DecompInv_step c d _ gid rest hInv
        (decomposeGate_AND_maintain d gid g hwf hval harity hgd hty a b hinab)
        (decomposeGate_AND_evals d gid g hwf hval hgd hty a b hinab hom rk
          hgr)
        (decomposeGate_AND_graded d gid g hwf hval hgd hty a b hinab hom rk
          hgr) hgnr
    | OR =>
      have hlen2 : g.inputs.length = 2 := by
        have h := har
        simp only [arityOkB, hty] at h
        have h2 : 2 ≤ g.inputs.length := by simpa using h
        omega
      obtain ⟨a, b, hinab⟩ := List.length_eq_two.mp hlen2
      have hbl : b < d.wires.length :=
        input_lt_wires hval hgd (by rw [hinab]; simp)
      exact DecompInv_step c d _ gid rest hInv
        (decomposeGate_OR_maintain d gid g hwf hval harity hgd hty a b hinab)
        (decomposeGate_OR_evals d gid g hwf hval hgd hty a b hinab hom hbl rk
          hgr)
        (decomposeGate_OR_graded d gid g hwf hval hgd hty a b hinab hom rk
          hgr) hgnr
    | XOR =>
      have hlen2 : g.inputs.length = 2 := by
        have h := har
        simp only [arityOkB, hty] at h
        have h2 : 2 ≤ g.inputs.length := by simpa using h
        omega
      obtain ⟨a, b, hinab⟩ := List.length_eq_two.mp hlen2
      have hal : a < d.wires.length :=
        input_lt_wires hval hgd (by rw [hinab]; simp)
      have hbl : b < d.wires.length :=
        input_lt_wires hval hgd (by rw [hinab]; simp)
      exact DecompInv_step c d _ gid rest hInv
        (decomposeGate_XOR_maintain d gid g hwf hval harity hgd hty a b hinab)
        (decomposeGate_XOR_evals d gid g hwf hval hgd hty a b hinab hom hal
          hbl rk hgr)
        (decomposeGate_XOR_graded d gid g hwf hval hgd hty a b hinab hom rk
          hgr) hgnr

/-! ## C1: everything the semantics reads is determined by the shape -/

theorem wireAt_of_shape_eq {c₁ c₂ : Circuit} (h : c₁.shape = c₂.shape)
    (wid : Nat) :
    (c₁.wireAt wid).map Wire.shape = (c₂.wireAt wid).map Wire.shape := by
  have hw : c₁.wires.map Wire.shape = c₂.wires.map Wire.shape :=
    congrArg (fun s => s.2.1) h
  calc (c₁.wireAt wid).map Wire.shape
      = (c₁.wires.map Wire.shape).get? wid := by
        rw [Circuit.wireAt, List.get?_eq_getElem?, List.get?_eq_getElem?,
          List.getElem?_map]
    _ = (c₂.wires.map Wire.shape).get? wid := by rw [hw]
    _ = (c₂.wireAt wid).map Wire.shape := by
        rw [Circuit.wireAt, List.get?_eq_getElem?, List.get?_eq_getElem?,
          List.getElem?_map]

theorem gateAt_shape_elim {c₁ c₂ : Circuit} (h : c₁.shape = c₂.shape)
    {v : Nat} {g : Gate} (hg : c₁.gateAt v = some g) :
    ∃ g₂, c₂.gateAt v = some g₂ ∧ g₂.shape = g.shape := by
  have hmap := gateAt_of_shape_eq h v
  rw [hg] at hmap
  cases hg₂ : c₂.gateAt v with
  | none => rw [hg₂] at hmap; simp at hmap
  | some g₂ =>
    rw [hg₂] at hmap
    simp only [Option.map_some'] at hmap
    exact ⟨g₂, rfl, (Option.some.inj hmap).symm⟩

theorem wireAt_shape_elim {c₁ c₂ : Circuit} (h : c₁.shape = c₂.shape)
    {x : Nat} {w : Wire} (hw : c₁.wireAt x = some w) :
    ∃ w₂, c₂.wireAt x = some w₂ ∧ w₂.shape = w.shape := by
  have hmap := wireAt_of_shape_eq h x
  rw [hw] at hmap
  cases hw₂ : c₂.wireAt x with
  | none => rw [hw₂] at hmap; simp at hmap
  | some w₂ =>
    rw [hw₂] at hmap
    simp only [Option.map_some'] at hmap
    exact ⟨w₂, rfl, (Option.some.inj hmap).symm⟩

theorem gate_shape_parts {g₁ g₂ : Gate} (h : g₁.shape = g₂.shape) :
    g₁.id = g₂.id ∧ g₁.type = g₂.type ∧ g₁.inputs = g₂.inputs ∧
      g₁.output = g₂.output :=
  ⟨congrArg (fun s => s.1) h, congrArg (fun s => s.2.1) h,
    congrArg (fun s => s.2.2.1) h, congrArg (fun s => s.2.2.2) h⟩

theorem wire_shape_parts {w₁ w₂ : Wire} (h : w₁.shape = w₂.shape) :
    w₁.id = w₂.id ∧ w₁.source = w₂.source ∧
      w₁.destinations = w₂.destinations :=
  ⟨congrArg (fun s => s.1) h, congrArg (fun s => s.2.1) h,
    congrArg (fun s => s.2.2) h⟩

theorem shape_wires_length {c₁ c₂ : Circuit} (h : c₁.shape = c₂.shape) :
    c₁.wires.length = c₂.wires.length := by
  have h2 : (c₁.wires.map Wire.shape).length =
      (c₂.wires.map Wire.shape).length := congrArg (fun s => s.2.1.length) h
  simpa using h2

theorem shape_gates_length {c₁ c₂ : Circuit} (h : c₁.shape = c₂.shape) :
    c₁.gates.length = c₂.gates.length := by
  have h2 : (c₁.gates.map Gate.shape).length =
      (c₂.gates.map Gate.shape).length := congrArg (fun s => s.1.length) h
  simpa using h2

theorem sourceOf_of_shape {c₁ c₂ : Circuit} (h : c₁.shape = c₂.shape)
    (wid : Nat) : c₁.sourceOf wid = c₂.sourceOf wid := by
  apply sourceOf_of_wire_source
  have hmap := wireAt_of_shape_eq h wid
  cases h1 : c₁.wireAt wid with
  | none =>
    rw [h1] at hmap
    cases h2 : c₂.wireAt wid with
    | none => rfl
    | some w => rw [h2] at hmap; simp at hmap
  | some w =>
    rw [h1] at hmap
    cases h2 : c₂.wireAt wid with
    | none => rw [h2] at hmap; simp at hmap
    | some w₂ =>
      rw [h2] at hmap
      simp only [Option.map_some'] at hmap
      simp only [Option.map_some']
      rw [(wire_shape_parts (Option.some.inj hmap)).2.1]

theorem wireVal_of_shape {c₁ c₂ : Circuit} (h : c₁.shape = c₂.shape) :
    ∀ f wid env, wireVal c₁ env f wid = wireVal c₂ env f wid := by
  apply wireVal_struct_congr
  · exact sourceOf_of_shape h
  · intro gid
    have hmap := gateAt_of_shape_eq h gid
    cases h1 : c₁.gateAt gid with
    | none =>
      rw [h1] at hmap
      cases h2 : c₂.gateAt gid with
      | none => rfl
      | some g => rw [h2] at hmap; simp at hmap
    | some g =>
      rw [h1] at hmap
      cases h2 : c₂.gateAt gid with
      | none => rw [h2] at hmap; simp at hmap
      | some g₂ =>
        rw [h2] at hmap
        simp only [Option.map_some'] at hmap
        simp only [Option.map_some']
        obtain ⟨_, hty, hin, _⟩ := gate_shape_parts (Option.some.inj hmap)
        rw [hty, hin]

theorem evals_of_shape {c₁ c₂ : Circuit} (h : c₁.shape = c₂.shape)
    {env : Nat → Bool} {x : Nat} {v : Bool} (he : Evals c₁ env x v) :
    Evals c₂ env x v := by
  obtain ⟨N, hN⟩ := he
  exact ⟨N, fun f hf => by rw [← wireVal_of_shape h f x env]; exact hN f hf⟩

theorem wfB_true_of_shape {c₁ c₂ : Circuit} (h : c₁.shape = c₂.shape)
    (hwf₂ : c₂.wfB = true) : c₁.wfB = true := by
  apply wfB_of
  · intro v g hg
    obtain ⟨g₂, hg₂, hsh⟩ := gateAt_shape_elim h hg
    rw [← (gate_shape_parts hsh).1]
    exact wf_gate_id hwf₂ hg₂
  · intro x w hw
    obtain ⟨w₂, hw₂, hsh⟩ := wireAt_shape_elim h hw
    rw [← (wire_shape_parts hsh).1]
    exact wf_wire_id hwf₂ hw₂

theorem cntD_of_shape {c₁ c₂ : Circuit} (h : c₁.shape = c₂.shape)
    (x v : Nat) : cntD c₁ x v = cntD c₂ x v := by
  cases hw : c₁.wireAt x with
  | none =>
    have hmap := wireAt_of_shape_eq h x
    rw [hw] at hmap
    cases hw2 : c₂.wireAt x with
    | none => rw [cntD, cntD, hw, hw2]
    | some w => rw [hw2] at hmap; simp at hmap
  | some w =>
    obtain ⟨w₂, hw₂, hsh⟩ := wireAt_shape_elim h hw
    rw [cntD_of_wireAt hw, cntD_of_wireAt hw₂,
      (wire_shape_parts hsh).2.2]

theorem validate_true_of_shape {c₁ c₂ : Circuit} (h : c₁.shape = c₂.shape)
    (hwf₂ : c₂.wfB = true) (hv₂ : c₂.validate_connectivity = true) :
    c₁.validate_connectivity = true := by
  apply validate_of (wfB_true_of_shape h hwf₂)
  · intro v g hg o ho
    obtain ⟨g₂, hg₂, hsh⟩ := gateAt_shape_elim h hg
    have ho₂ : g₂.output = some o := by
      rw [(gate_shape_parts hsh).2.2.2]
      exact ho
    obtain ⟨w₂, hw₂, hws₂⟩ := gate_output_backlink hwf₂ hv₂ hg₂ ho₂
    obtain ⟨w₁, hw₁, hsh₁⟩ := wireAt_shape_elim h.symm hw₂
    exact ⟨w₁, hw₁, by rw [(wire_shape_parts hsh₁).2.1, hws₂]⟩
  · intro x w hw s hs
    obtain ⟨w₂, hw₂, hsh⟩ := wireAt_shape_elim h hw
    have hs₂ : w₂.source = some s := by
      rw [(wire_shape_parts hsh).2.1]
      exact hs
    obtain ⟨g₂, hg₂, hgo₂⟩ := wire_source_backlink hwf₂ hv₂ hw₂ hs₂
    obtain ⟨g₁, hg₁, hsh₁⟩ := gateAt_shape_elim h.symm hg₂
    exact ⟨g₁, hg₁, by rw [(gate_shape_parts hsh₁).2.2.2, hgo₂]⟩
  · intro v g hg wid hwid
    obtain ⟨g₂, hg₂, hsh⟩ := gateAt_shape_elim h hg
    have hwid₂ : wid ∈ g₂.inputs := by
      rw [(gate_shape_parts hsh).2.2.1]
      exact hwid
    rw [shape_wires_length h]
    exact input_lt_wires hv₂ hg₂ hwid₂
  · intro x w hw v hv
    obtain ⟨w₂, hw₂, hsh⟩ := wireAt_shape_elim h hw
    have hv₂' : v ∈ w₂.destinations := by
      rw [(wire_shape_parts hsh).2.2]
      exact hv
    obtain ⟨g₂, hg₂, _⟩ := wire_dests_mirror hv₂ hw₂ hv₂'
    rw [shape_gates_length h]
    exact gateAt_lt hg₂
  · intro v g hg x hx
    obtain ⟨g₂, hg₂, hsh⟩ := gateAt_shape_elim h hg
    obtain ⟨w₂, hw₂⟩ := wireAt_of_lt (by rw [← shape_wires_length h]; exact hx)
    rw [← (gate_shape_parts hsh).2.2.1, cntD_of_shape h,
      cntD_of_wireAt hw₂]
    exact count_io hwf₂ hv₂ hw₂ hg₂

theorem edge_of_feeds {c : Circuit} (hwf : c.wfB = true)
    (hval : c.validate_connectivity = true) {u v : Nat}
    (hf : Feeds c u v) : Edge c u v := by
  obtain ⟨gv, hgv, wid, hwid, hsrc⟩ := hf
  cases hw : c.wireAt wid with
  | none =>
    rw [Circuit.sourceOf, hw] at hsrc
    exact absurd hsrc (by simp)
  | some w =>
    have hws : w.source = some u := by
      rw [Circuit.sourceOf, hw] at hsrc
      exact hsrc
    have hcnt := count_io hwf hval hw hgv
    have hpos : 0 < w.destinations.count v := by
      rw [← hcnt]
      exact List.count_pos_iff.mpr hwid
    exact ⟨w, mem_of_wireAt hw, hws, List.count_pos_iff.mp hpos⟩

theorem edge_iff_of_shape {c₁ c₂ : Circuit} (h : c₁.shape = c₂.shape)
    (u v : Nat) : Edge c₁ u v ↔ Edge c₂ u v := by
  constructor
  · rintro ⟨w, hmem, hsrc, hdst⟩
    obtain ⟨x, hw⟩ := wireAt_of_mem hmem
    obtain ⟨w₂, hw₂, hsh⟩ := wireAt_shape_elim h hw
    exact ⟨w₂, mem_of_wireAt hw₂,
      by rw [(wire_shape_parts hsh).2.1, hsrc],
      by rw [(wire_shape_parts hsh).2.2]; exact hdst⟩
  · rintro ⟨w, hmem, hsrc, hdst⟩
    obtain ⟨x, hw⟩ := wireAt_of_mem hmem
    obtain ⟨w₁, hw₁, hsh⟩ := wireAt_shape_elim h.symm hw
    exact ⟨w₁, mem_of_wireAt hw₁,
      by rw [(wire_shape_parts hsh).2.1, hsrc],
      by rw [(wire_shape_parts hsh).2.2]; exact hdst⟩

theorem graded_of_orderOk {c : Circuit} (hwf : c.wfB = true)
    (hval : c.validate_connectivity = true) {ord : List Nat}
    (hord : OrderOk c ord) : ∃ rk, Graded c rk := by
  obtain ⟨hnd, hbnd, hcomp, hsound⟩ := hord
  refine ⟨fun u => ord.indexOf u, ?_⟩
  intro u v hf
  have hedge := edge_of_feeds hwf hval hf
  obtain ⟨gv, hgv, wid, hwid, hsrc⟩ := hf
  have hult : u < c.gates.length := source_lt_gates hwf hval hsrc
  have hvlt : v < c.gates.length := gateAt_lt hgv
  exact hsound u v hedge (ord.indexOf u) (ord.indexOf v)
    (List.indexOf_get? (hcomp u hult)) (List.indexOf_get? (hcomp v hvlt))

/-! ## C1: the propagation loop computes the denotational wire values -/

theorem propStep_eq_none (c : Circuit) (res : PropagationResult) (gid : Nat)
    (g : Gate) (hg : c.gateAt gid = some g) (b : Bool)
    (hev : evaluate g.type (g.inputs.map
      (fun wid => ((c.wireAt wid).map (fun w => w.value)).getD false)) =
      .ok b)
    (ho : g.output = none) :
    ∃ res', propStep c res gid =
      .ok (c.updGate gid (fun g0 => { g0 with state := b, dirty := false }),
        res') := by
  simp only [propStep, hg, hev, ho]
  exact ⟨_, rfl⟩

theorem propStep_eq_some (c : Circuit) (res : PropagationResult) (gid : Nat)
    (g : Gate) (hg : c.gateAt gid = some g) (b : Bool)
    (hev : evaluate g.type (g.inputs.map
      (fun wid => ((c.wireAt wid).map (fun w => w.value)).getD false)) =
      .ok b)
    {o : Nat} (ho : g.output = some o) :
    ∃ res', propStep c res gid =
      .ok ((c.updGate gid
        (fun g0 => { g0 with state := b, dirty := false })).updWire o
          (fun w => w.set_value b), res') := by
  simp only [propStep, hg, hev, ho]
  exact ⟨_, rfl⟩

theorem propLoop_adequate (d : Circuit) (hwf : d.wfB = true)
    (hval : d.validate_connectivity = true) (ord : List Nat)
    (hord : OrderOk d ord)
    (harity : ∀ v g, d.gateAt v = some g → arityOkB g = true) :
    ∀ rest k e res, ord.drop k = rest → e.shape = d.shape →
      PropVals d ord k e →
      ∃ p, propLoop rest e res = .ok p ∧ p.1.shape = d.shape ∧
        PropVals d ord ord.length p.1 := by
  obtain ⟨hnd, hbnd, hcomp, hsound⟩ := hord
  intro rest
  induction rest with
  | nil =>
    intro k e res hdrop hsh hpv
    refine ⟨(e, res), rfl, hsh, ?_⟩
    have hk : ord.length ≤ k := by
      have hlen := congrArg List.length hdrop
      rw [List.length_drop] at hlen
      simp only [List.length_nil] at hlen
      omega
    intro x w hw
    obtain ⟨hnw, hwv⟩ := hpv x w hw
    constructor
    · intro hnw2
      apply hnw
      intro i u hi hu
      have hilen : i < ord.length := by
        by_contra hge
        rw [List.get?_eq_none.mpr (by omega)] at hu
        exact Option.noConfusion hu
      exact hnw2 i u hilen hu
    · intro i u hi hu hsrc f hf
      exact hwv i u (by omega) hu hsrc f hf
  | cons gid rest' ih =>
    intro k e res hdrop hsh hpv
    have hgetk : ord.get? k = some gid := by
      have h := List.get?_drop ord k 0
      rw [hdrop] at h
      simpa using h.symm
    have hdrop' : ord.drop (k + 1) = rest' := by
      have h := List.drop_drop 1 k ord
      rw [hdrop] at h
      simp only [List.drop_one, List.tail_cons] at h
      exact h.symm
    have hklen : k < ord.length := by
      by_contra hge
      rw [List.get?_eq_none.mpr (by omega)] at hgetk
      exact Option.noConfusion hgetk
    have hgid_lt : gid < d.gates.length := hbnd gid (List.get?_mem hgetk)
    obtain ⟨dg, hdg⟩ := gateAt_of_lt hgid_lt
    obtain ⟨eg, heg, hegsh⟩ := gateAt_shape_elim hsh.symm hdg
    obtain ⟨heid, hety, hein, heout⟩ := gate_shape_parts hegsh
    have hinstable : ∀ wid ∈ dg.inputs, ∀ f, k ≤ f →
        wireVal d (initEnv d) f wid =
          ((e.wireAt wid).map (fun w => w.value)).getD false := by
      intro wid hwid f hf
      have hwidl : wid < d.wires.length := input_lt_wires hval hdg hwid
      obtain ⟨dw, hdw⟩ := wireAt_of_lt hwidl
      obtain ⟨ew, hew, hewsh⟩ := wireAt_shape_elim hsh.symm hdw
      rw [hew]
      simp only [Option.map_some', Option.getD_some]
      cases hsrc : d.sourceOf wid with
      | none =>
        rw [wireVal_sourceless d _ f wid hsrc]
        have h1 := (hpv wid ew hew).1 (by
          intro i u hi hu
          rw [hsrc]
          simp)
        rw [h1]
      | some u =>
        have hult : u < d.gates.length := source_lt_gates hwf hval hsrc
        obtain ⟨j, hj⟩ := List.mem_iff_get?.mp (hcomp u hult)
        have hedge : Edge d u gid :=
          edge_of_feeds hwf hval ⟨dg, hdg, wid, hwid, hsrc⟩
        have hjk : j < k := hsound u gid hedge j k hj hgetk
        exact (hpv wid ew hew).2 j u hjk hj hsrc f (by omega)
    have hvals : eg.inputs.map
        (fun wid => ((e.wireAt wid).map (fun w => w.value)).getD false) =
        dg.inputs.map (wireVal d (initEnv d) k) := by
      rw [hein]
      exact (List.map_congr_left
        (fun wid hwid => hinstable wid hwid k (le_refl k))).symm
    have hstable : ∀ f, k ≤ f →
        dg.inputs.map (wireVal d (initEnv d) f) =
          dg.inputs.map (wireVal d (initEnv d) k) := by
      intro f hf
      apply List.map_congr_left
      intro wid hwid
      rw [hinstable wid hwid f hf, hinstable wid hwid k (le_refl k)]
    obtain ⟨nb, hnb⟩ := (evaluate_isOk_iff dg.type
        (dg.inputs.map (wireVal d (initEnv d) k))).mpr
      (by rw [List.length_map]; exact (arityOkB_iff dg).mp (harity gid dg hdg))
    have hev_e : evaluate eg.type (eg.inputs.map
        (fun wid => ((e.wireAt wid).map (fun w => w.value)).getD false)) =
        .ok nb := by
      rw [hety, hvals]
      exact hnb
    cases ho : dg.output with
    | none =>
      have ho_e : eg.output = none := by rw [heout, ho]
      obtain ⟨res', hstep⟩ := propStep_eq_none e res gid eg heg nb hev_e ho_e
      have hsh' : (e.updGate gid
          (fun g0 => { g0 with state := nb, dirty := false })).shape =
          d.shape := (shape_updGate e gid
            (fun g0 => { g0 with state := nb, dirty := false })
            (fun g0 => rfl)).trans hsh
      have hpv' : PropVals d ord (k + 1) (e.updGate gid
          (fun g0 => { g0 with state := nb, dirty := false })) := by
        intro x w hw
        rw [congrFun (wireAt_updGate e gid _) x] at hw
        obtain ⟨hnw, hwv⟩ := hpv x w hw
        constructor
        · intro hnw2
          apply hnw
          intro i u hi hu
          exact hnw2 i u (by omega) hu
        · intro i u hi hu hsrc f hf
          by_cases hik : i < k
          · exact hwv i u hik hu hsrc f hf
          · have hik2 : i = k := by omega
            subst hik2
            rw [hgetk] at hu
            injection hu with he2
            subst he2
            cases hdx : d.wireAt x with
            | none =>
              rw [Circuit.sourceOf, hdx] at hsrc
              exact absurd hsrc (by simp)
            | some dw =>
              have hdws : dw.source = some gid := by
                rw [Circuit.sourceOf, hdx] at hsrc
                exact hsrc
              obtain ⟨gg, hgg, hggo⟩ :=
                wire_source_backlink hwf hval hdx hdws
              rw [hdg] at hgg
              injection hgg with he3
              subst he3
              rw [ho] at hggo
              exact Option.noConfusion hggo
      obtain ⟨p, hp, hpsh, hpend⟩ := ih (k + 1) _ res' hdrop' hsh' hpv'
      refine ⟨p, ?_, hpsh, hpend⟩
      rw [propLoop_cons, hstep]
      exact hp
    | some o =>
      obtain ⟨dwo, hdwo, hdwos⟩ := gate_output_backlink hwf hval hdg ho
      have hol : o < d.wires.length := wireAt_lt hdwo
      have hsrco : d.sourceOf o = some gid := by
        rw [Circuit.sourceOf, hdwo]
        exact hdwos
      have hostable : ∀ f, k + 1 ≤ f →
          wireVal d (initEnv d) f o = nb := by
        intro f hf
        obtain ⟨f', rfl⟩ : ∃ f', f = f' + 1 := ⟨f - 1, by omega⟩
        rw [wireVal_succ_of_gate d _ f' gid o dg hsrco hdg,
          hstable f' (by omega), hnb]
      have ho_e : eg.output = some o := by rw [heout, ho]
      obtain ⟨res', hstep⟩ := propStep_eq_some e res gid eg heg nb hev_e ho_e
      have hsh' : ((e.updGate gid
          (fun g0 => { g0 with state := nb, dirty := false })).updWire o
            (fun w => w.set_value nb)).shape = d.shape :=
        (shape_updWire _ o (fun w => w.set_value nb) (fun w => rfl)).trans
          ((shape_updGate e gid
            (fun g0 => { g0 with state := nb, dirty := false })
            (fun g0 => rfl)).trans hsh)
      have hpv' : PropVals d ord (k + 1) ((e.updGate gid
          (fun g0 => { g0 with state := nb, dirty := false })).updWire o
            (fun w => w.set_value nb)) := by
        intro x w hw
        by_cases hxo : x = o
        · subst hxo
          rw [wireAt_updWire_self, congrFun (wireAt_updGate e gid _) x] at hw
          cases hex : e.wireAt x with
          | none =>
            rw [hex] at hw
            exact Option.noConfusion hw
          | some ew =>
            rw [hex] at hw
            injection hw with he4
            constructor
            · intro hnw2
              exact absurd hsrco (hnw2 k gid (by omega) hgetk)
            · intro i u hi hu hsrc2 f hf
              have hu_gid : u = gid := by
                rw [hsrco] at hsrc2
                exact (Option.some.inj hsrc2).symm
              subst hu_gid
              have hik : i = k := by
                apply List.get?_inj (by omega) hnd
                rw [hu, hgetk]
              subst hik
              rw [← he4]
              exact hostable f (by omega)
        · rw [wireAt_updWire_ne _ o x _ (fun he => hxo he.symm),
            congrFun (wireAt_updGate e gid _) x] at hw
          obtain ⟨hnw, hwv⟩ := hpv x w hw
          constructor
          · intro hnw2
            apply hnw
            intro i u hi hu
            exact hnw2 i u (by omega) hu
          · intro i u hi hu hsrc2 f hf
            by_cases hik : i < k
            · exact hwv i u hik hu hsrc2 f hf
            · have hik2 : i = k := by omega
              subst hik2
              rw [hgetk] at hu
              injection hu with he2
              subst he2
              cases hdx : d.wireAt x with
              | none =>
                rw [Circuit.sourceOf, hdx] at hsrc2
                exact absurd hsrc2 (by simp)
              | some dw =>
                have hdws : dw.source = some gid := by
                  rw [Circuit.sourceOf, hdx] at hsrc2
                  exact hsrc2
                obtain ⟨gg, hgg, hggo⟩ :=
                  wire_source_backlink hwf hval hdx hdws
                rw [hdg] at hgg
                injection hgg with he3
                subst he3
                rw [ho] at hggo
                injection hggo with he5
                exact absurd he5.symm hxo
      obtain ⟨p, hp, hpsh, hpend⟩ := ih (k + 1) _ res' hdrop' hsh' hpv'
      refine ⟨p, ?_, hpsh, hpend⟩
      rw [propLoop_cons, hstep]
      exact hp

theorem evals_of_wireVal_eq {c₁ c₂ : Circuit}
    (h : ∀ f wid env, wireVal c₁ env f wid = wireVal c₂ env f wid)
    {env : Nat → Bool} {x : Nat} {v : Bool} (he : Evals c₁ env x v) :
    Evals c₂ env x v := by
  obtain ⟨N, hN⟩ := he
  exact ⟨N, fun f hf => by rw [← h f x env]; exact hN f hf⟩

theorem propagate_adequate (d : Circuit) (hwf : d.wfB = true)
    (hval : d.validate_connectivity = true) (hfin : d.finalized = true)
    (hord : OrderOk d d.topoOrder)
    (harity : ∀ v g, d.gateAt v = some g → arityOkB g = true) :
    ∃ p, d.propagate = .ok p ∧ p.1.shape = d.shape ∧
      ∀ x w, p.1.wireAt x = some w → Evals d (initEnv d) x w.value := by
  have hbase : PropVals d d.topoOrder 0 d := by
    intro x w hw
    refine ⟨fun _ => ?_, fun i u hi => absurd hi (by omega)⟩
    show w.value = initEnv d x
    show w.value = ((d.wireAt x).map (fun w0 => w0.value)).getD false
    rw [hw]
    rfl
  obtain ⟨p, hp, hsh, hpv⟩ := propLoop_adequate d hwf hval d.topoOrder hord
    harity d.topoOrder 0 d ⟨[], []⟩ rfl rfl hbase
  refine ⟨p, ?_, hsh, ?_⟩
  · rw [Circuit.propagate, if_neg (by simp [hfin])]
    exact hp
  · intro x w hw
    obtain ⟨hnw, hwv⟩ := hpv x w hw
    cases hsrc : d.sourceOf x with
    | none =>
      have hv := hnw (by
        intro i u hi hu
        rw [hsrc]
        simp)
      refine ⟨0, fun f _ => ?_⟩
      rw [wireVal_sourceless d _ f x hsrc, hv]
    | some u =>
      have hult : u < d.gates.length := source_lt_gates hwf hval hsrc
      obtain ⟨j, hj⟩ := List.mem_iff_get?.mp (hord.2.2.1 u hult)
      have hjlen : j < d.topoOrder.length := by
        by_contra hge
        rw [List.get?_eq_none.mpr (by omega)] at hj
        exact Option.noConfusion hj
      exact ⟨j + 1, fun f hf => hwv j u hjlen hj hsrc f hf⟩

/-! ## C1: setting the primary inputs only changes wire values -/

theorem setInputs_shape (c : Circuit) (bs : List Bool) :
    (c.setInputs bs).shape = c.shape := by
  rw [Circuit.setInputs]
  generalize (List.zip (List.range bs.length) bs) = L
  induction L generalizing c with
  | nil => rfl
  | cons p t ih =>
    rw [List.foldl_cons]
    exact (ih _).trans (shape_updWire c _ _ (fun w => rfl))

theorem wtriple_updWire_set_value (c : Circuit) (i : Nat) (v : Bool)
    (x : Nat) :
    wtriple (c.updWire i (fun w => w.set_value v)) x =
      if x = i then (wtriple c x).map (fun t => (t.1, t.2.1, v))
      else wtriple c x := by
  by_cases hxi : x = i
  · subst hxi
    rw [if_pos rfl, wtriple, wireAt_updWire_self]
    cases hw : c.wireAt x with
    | none => rw [wtriple, hw]; rfl
    | some w => rw [wtriple, hw]; rfl
  · rw [if_neg hxi, wtriple, wtriple,
      wireAt_updWire_ne _ _ _ _ (fun he => hxi he.symm)]

theorem setInputs_wtriple_congr (c₁ c₂ : Circuit) (bs : List Bool)
    (hio : c₁.inputWires = c₂.inputWires) (x : Nat)
    (ht : wtriple c₁ x = wtriple c₂ x) :
    wtriple (c₁.setInputs bs) x = wtriple (c₂.setInputs bs) x := by
  rw [Circuit.setInputs, Circuit.setInputs]
  generalize (List.zip (List.range bs.length) bs) = L
  induction L generalizing c₁ c₂ with
  | nil => exact ht
  | cons p t ih =>
    rw [List.foldl_cons, List.foldl_cons]
    apply ih
    · rw [updWire_inputWires, updWire_inputWires, hio]
    · rw [hio, wtriple_updWire_set_value, wtriple_updWire_set_value, ht]

theorem initEnv_eq_of_wtriple {c₁ c₂ : Circuit} {x : Nat}
    (h : wtriple c₁ x = wtriple c₂ x) : initEnv c₁ x = initEnv c₂ x := by
  show ((c₁.wireAt x).map (fun w => w.value)).getD false =
    ((c₂.wireAt x).map (fun w => w.value)).getD false
  cases hw : c₁.wireAt x with
  | none =>
    rw [wtriple, wtriple, hw] at h
    cases hw2 : c₂.wireAt x with
    | none => rfl
    | some w => rw [hw2] at h; simp at h
  | some w =>
    obtain ⟨w2, hw2, _, _, hv⟩ := wtriple_some_elim h hw
    rw [hw2]
    simp only [Option.map_some', Option.getD_some]
    exact hv.symm

theorem getD_mem_of_lt {l : List Nat} {i : Nat} (h : i < l.length) :
    l.getD i 0 ∈ l := by
  rw [List.getD_eq_getElem?_getD, List.getElem?_eq_getElem h]
  exact List.getElem_mem h

/-! ## C1: from a finalized circuit to the fully rewritten one -/

theorem wfB_congr {c1 c2 : Circuit} (hg : c1.gates = c2.gates)
    (hw : c1.wires = c2.wires) : c1.wfB = c2.wfB := by
  unfold Circuit.wfB
  rw [hg, hw]

theorem gateAt_id {c : Circuit} (hwf : c.wfB = true) {g : Gate}
    (h : g ∈ c.gates) : c.gateAt g.id = some g := by
  obtain ⟨i, hi⟩ := gateAt_of_mem h
  rw [wf_gate_id hwf hi]
  exact hi

theorem map_id_eq_range {c : Circuit} (hwf : c.wfB = true) :
    c.gates.map (fun g => g.id) = List.range c.gates.length := by
  apply List.ext_get?
  intro n
  by_cases hn : n < c.gates.length
  · rw [List.get?_eq_getElem?, List.getElem?_map,
      List.getElem?_eq_getElem hn, List.get?_eq_getElem?,
      List.getElem?_range hn]
    simp only [Option.map_some']
    have hxg : c.gateAt n = some c.gates[n] := by
      rw [Circuit.gateAt, List.get?_eq_getElem?]
      exact List.getElem?_eq_getElem hn
    rw [wf_gate_id hwf hxg]
  · rw [List.get?_eq_getElem?, List.getElem?_map,
      List.getElem?_eq_none (by omega), List.get?_eq_getElem?,
      List.getElem?_eq_none (by simpa using hn)]
    rfl

theorem decompose_core (c₀ c : Circuit) (hwf : c₀.wfB = true)
    (hfin : c₀.finalize = .ok c)
    (harity : ∀ g ∈ c₀.gates, arityOkB g = true)
    (hsmall : ∀ g ∈ c₀.gates, g.type ≠ GateType.NAND →
      g.inputs.length ≤ 2)
    (hout : ∀ g ∈ c₀.gates, g.type ≠ GateType.NAND →
      g.type ≠ GateType.NOT → g.output ≠ none) :
    ∃ D, decompose_to_nand c = D.finalize ∧ DecompInv c [] D := by
  obtain ⟨hval₀, hklen, hceq⟩ := finalize_ok_eq hfin
  have hgates : c.gates = c₀.gates := by rw [hceq]
  have hwires : c.wires = c₀.wires := by rw [hceq]
  have hwfc : c.wfB = true := by rw [wfB_congr hgates hwires]; exact hwf
  have hvalc : c.validate_connectivity = true := by
    rw [validate_congr hgates hwires]
    exact hval₀
  have harityc : ∀ v gv, c.gateAt v = some gv → arityOkB gv = true := by
    intro v gv hgv
    rw [congrFun (gateAt_congr hgates) v] at hgv
    exact harity gv (mem_of_gateAt hgv)
  have hsmallc : ∀ v gv, c.gateAt v = some gv →
      gv.type ≠ GateType.NAND → gv.inputs.length ≤ 2 := by
    intro v gv hgv hn
    rw [congrFun (gateAt_congr hgates) v] at hgv
    exact hsmall gv (mem_of_gateAt hgv) hn
  have houtc : ∀ v gv, c.gateAt v = some gv → gv.type ≠ GateType.NAND →
      gv.type ≠ GateType.NOT → gv.output ≠ none := by
    intro v gv hgv hn1 hn2
    rw [congrFun (gateAt_congr hgates) v] at hgv
    exact hout gv (mem_of_gateAt hgv) hn1 hn2
  have hAc : Acyclic c₀ := by
    by_contra hn
    have h2 := (finalize_topological_sort c₀ hwf hval₀).2 hn
    rw [hfin] at h2
    exact Except.noConfusion h2
  obtain ⟨c', hfin', hlen', hcount', hbnd', hsound'⟩ :=
    (finalize_topological_sort c₀ hwf hval₀).1 hAc
  rw [hfin] at hfin'
  injection hfin' with he
  subst he
  have hedgec : ∀ u v, Edge c u v ↔ Edge c₀ u v := by
    intro u v
    unfold Edge
    rw [hwires]
  have hOrd : OrderOk c c.topoOrder := by
    refine ⟨?_, ?_, ?_, ?_⟩
    · rw [List.nodup_iff_count_le_one]
      intro a
      by_cases ha : a < c₀.gates.length
      · rw [hcount' a ha]
      · have hnm : a ∉ c.topoOrder := fun hmem => ha (hbnd' a hmem)
        rw [List.count_eq_zero.mpr hnm]
        omega
    · intro g hg
      rw [hgates]
      exact hbnd' g hg
    · intro g hg
      rw [hgates] at hg
      exact List.count_pos_iff.mp (by rw [hcount' g hg]; omega)
    · intro u v he i j hi hj
      exact hsound' u v ((hedgec u v).mp he) i j hi hj
  have hgrc : ∃ rk, Graded c rk := graded_of_orderOk hwfc hvalc hOrd
  have hsnap_mem : ∀ v gv, c.gateAt v = some gv →
      gv.type ≠ GateType.NAND →
      v ∈ (c.gates.filter (fun g => g.type != GateType.NAND)).map
        (fun g => g.id) := by
    intro v gv hgv hn
    apply List.mem_map.mpr
    refine ⟨gv, ?_, wf_gate_id hwfc hgv⟩
    apply List.mem_filter.mpr
    exact ⟨mem_of_gateAt hgv, by simpa using hn⟩
  have hsnn : ∀ v ∈ (c.gates.filter (fun g => g.type != GateType.NAND)).map
      (fun g => g.id), ∀ gv, c.gateAt v = some gv →
      gv.type ≠ GateType.NAND := by
    intro v hv gv hgv
    obtain ⟨g1, hg1f, hg1id⟩ := List.mem_map.mp hv
    obtain ⟨hg1mem, hg1ty⟩ := List.mem_filter.mp hg1f
    have hga := gateAt_id hwfc hg1mem
    rw [hg1id, hgv] at hga
    injection hga with he2
    subst he2
    simpa using hg1ty
  have hsnlt : ∀ v ∈ (c.gates.filter (fun g => g.type != GateType.NAND)).map
      (fun g => g.id), v < c.gates.length := by
    intro v hv
    obtain ⟨g1, hg1f, hg1id⟩ := List.mem_map.mp hv
    obtain ⟨hg1mem, _⟩ := List.mem_filter.mp hg1f
    have hga := gateAt_id hwfc hg1mem
    rw [hg1id] at hga
    exact gateAt_lt hga
  have hsnd : ((c.gates.filter (fun g => g.type != GateType.NAND)).map
      (fun g => g.id)).Nodup := by
    have hsub : ((c.gates.filter (fun g => g.type != GateType.NAND)).map
        (fun g => g.id)).Sublist (c.gates.map (fun g => g.id)) :=
      (List.filter_sublist _).map _
    have hnd2 : (c.gates.map (fun g => g.id)).Nodup := by
      rw [map_id_eq_range hwfc]
      exact List.nodup_range _
    exact hnd2.sublist hsub
  have hbase : DecompInv c ((c.gates.filter
      (fun g => g.type != GateType.NAND)).map (fun g => g.id)) c := by
    refine ⟨hwfc, hvalc, harityc, ?_, ?_, hgrc, ?_, rfl, rfl, le_refl _,
      le_refl _, ?_, ?_, ?_⟩
    · intro v gv hgv
      by_cases hn : gv.type = GateType.NAND
      · exact Or.inl hn
      · exact Or.inr (hsnap_mem v gv hgv hn)
    · intro v hv
      exact ⟨rfl, hsnlt v hv⟩
    · intro env x v hx h
      exact h
    · intro x hx h
      rfl
    · intro x h1 h2
      exact absurd h1 (by omega)
    · intro x hx h
      exact h
  obtain ⟨hfold, hloop⟩ :=
    decompose_fold c harityc hsmallc houtc _ hsnd hsnn c hbase
  refine ⟨((c.gates.filter (fun g => g.type != GateType.NAND)).map
      (fun g => g.id)).foldl decomposeGate c, ?_, hfold⟩
  unfold decompose_to_nand
  show (match decomposeLoop ((c.gates.filter
      (fun g => g.type != GateType.NAND)).map (fun g => g.id)) c with
    | Except.error e => Except.error e
    | Except.ok c' => c'.finalize) =
    (((c.gates.filter (fun g => g.type != GateType.NAND)).map
      (fun g => g.id)).foldl decomposeGate c).finalize
  rw [hloop]

theorem evals_env_congr {c : Circuit} {env₁ env₂ : Nat → Bool}
    (h : ∀ wid, c.sourceOf wid = none → env₁ wid = env₂ wid)
    {x : Nat} {v : Bool} (he : Evals c env₁ x v) : Evals c env₂ x v := by
  obtain ⟨N, hN⟩ := he
  exact ⟨N, fun f hf => by
    rw [← wireVal_env_congr c env₁ env₂ h f x]
    exact hN f hf⟩

theorem orderOk_of_shape {c₁ c₂ : Circuit} (h : c₁.shape = c₂.shape)
    {ord : List Nat} (ho : OrderOk c₂ ord) : OrderOk c₁ ord := by
  obtain ⟨hnd, hbnd, hcomp, hsound⟩ := ho
  refine ⟨hnd, ?_, ?_, ?_⟩
  · intro g hg
    rw [shape_gates_length h]
    exact hbnd g hg
  · intro g hg
    rw [shape_gates_length h] at hg
    exact hcomp g hg
  · intro u v he i j hi hj
    exact hsound u v ((edge_iff_of_shape h u v).mp he) i j hi hj

/-- C1 counterexample: a finalized circuit whose single AND gate has two
inputs, passes the arity rule and drives no output wire satisfies every
hypothesis of the original claim, yet `decompose_to_nand` has no defined
result on it — the AND rewrite ends with `link_output` on the gate's null
original output pointer, a null `wire->set_source` dereference. -/
theorem decompose_null_output_crash :
    danglingAnd0.wfB = true ∧
    (∀ wid ∈ danglingAnd0.inputWires ++ danglingAnd0.outputWires,
      wid < danglingAnd0.wires.length) ∧
    danglingAnd0.finalize = .ok danglingAndF ∧
    (∀ g ∈ danglingAnd0.gates, arityOkB g = true) ∧
    (∀ g ∈ danglingAnd0.gates, g.type ≠ GateType.NAND →
      g.inputs.length ≤ 2) ∧
    decompose_to_nand danglingAndF =
      .error "null wire dereference in link_output" :=
  ⟨by decide, by decide, by rfl, by decide, by decide, by rfl⟩

/-- C1 (amended): `decompose_to_nand` is behavior-preserving on circuits
whose BUFFER/AND/OR/XOR gates all drive an output wire.  For every circuit
built through the arena API (ids equal indices, pin lists live) that
finalizes successfully, whose gates all satisfy their arity rule, whose
non-NAND gates have at most two inputs and whose non-NAND non-NOT gates
each have an output wire: the pass succeeds, afterwards every gate is a
NAND, and for every assignment of the primary-input wires, propagating and
reading each primary output yields the same value before and after the
decomposition. -/
theorem decompose_to_nand_behavior_preserving (c₀ c : Circuit)
    (hwf : c₀.wfB = true)
    (hpins : ∀ wid ∈ c₀.inputWires ++ c₀.outputWires,
      wid < c₀.wires.length)
    (hfin : c₀.finalize = .ok c)
    (harity : ∀ g ∈ c₀.gates, arityOkB g = true)
    (hsmall : ∀ g ∈ c₀.gates, g.type ≠ GateType.NAND →
      g.inputs.length ≤ 2)
    (hout : ∀ g ∈ c₀.gates, g.type ≠ GateType.NAND →
      g.type ≠ GateType.NOT → g.output ≠ none) :
    ∃ c', decompose_to_nand c = .ok c' ∧
      (∀ g ∈ c'.gates, g.type = GateType.NAND) ∧
      ∀ bs, ∃ p p', (c.setInputs bs).propagate = .ok p ∧
        (c'.setInputs bs).propagate = .ok p' ∧
        ∀ i, i < c.outputWires.length →
          p.1.get_output i = p'.1.get_output i := by
  obtain ⟨hval₀, hklen₀, hceq⟩ := finalize_ok_eq hfin
  have hgates : c.gates = c₀.gates := by rw [hceq]
  have hwires : c.wires = c₀.wires := by rw [hceq]
  have hOW : c.outputWires = c₀.outputWires := by rw [hceq]
  have hfinz : c.finalized = true := by rw [hceq]
  have hwfc : c.wfB = true := by rw [wfB_congr hgates hwires]; exact hwf
  have hvalc : c.validate_connectivity = true := by
    rw [validate_congr hgates hwires]
    exact hval₀
  have harityc : ∀ v gv, c.gateAt v = some gv → arityOkB gv = true := by
    intro v gv hgv
    rw [congrFun (gateAt_congr hgates) v] at hgv
    exact harity gv (mem_of_gateAt hgv)
  have hAc : Acyclic c₀ := by
    by_contra hn
    have h2 := (finalize_topological_sort c₀ hwf hval₀).2 hn
    rw [hfin] at h2
    exact Except.noConfusion h2
  obtain ⟨cc, hfin', hlen', hcount', hbnd', hsound'⟩ :=
    (finalize_topological_sort c₀ hwf hval₀).1 hAc
  rw [hfin] at hfin'
  injection hfin' with he
  subst he
  have hedgec : ∀ u v, Edge c u v ↔ Edge c₀ u v := by
    intro u v
    unfold Edge
    rw [hwires]
  have hOrdc : OrderOk c c.topoOrder := by
    refine ⟨?_, ?_, ?_, ?_⟩
    · rw [List.nodup_iff_count_le_one]
      intro a
      by_cases ha : a < c₀.gates.length
      · rw [hcount' a ha]
      · have hnm : a ∉ c.topoOrder := fun hmem => ha (hbnd' a hmem)
        rw [List.count_eq_zero.mpr hnm]
        omega
    · intro g hg
      rw [hgates]
      exact hbnd' g hg
    · intro g hg
      rw [hgates] at hg
      exact List.count_pos_iff.mp (by rw [hcount' g hg]; omega)
    · intro u v he i j hi hj
      exact hsound' u v ((hedgec u v).mp he) i j hi hj
  obtain ⟨D, hD, hInvD⟩ := decompose_core c₀ c hwf hfin harity hsmall hout
  obtain ⟨hwfD, hvalD, harityD, hnandD, _, ⟨rkD, hgrD⟩, hevalsD, hiwD, howD,
    hwleD, hgleD, hsrclessD, hnewD, hstayD⟩ := hInvD
  have hAcD : Acyclic D := graded_acyclic hwfD hvalD hgrD
  obtain ⟨c', hfinD, hlenD, hcountD, hbndD, hsoundD⟩ :=
    (finalize_topological_sort D hwfD hvalD).1 hAcD
  obtain ⟨hvalD2, hklenD, hc'eq⟩ := finalize_ok_eq hfinD
  have hgatesc' : c'.gates = D.gates := by rw [hc'eq]
  have hwiresc' : c'.wires = D.wires := by rw [hc'eq]
  have hfinzc' : c'.finalized = true := by rw [hc'eq]
  have hIWc' : c'.inputWires = c.inputWires := by
    rw [show c'.inputWires = D.inputWires by rw [hc'eq]]
    exact hiwD
  have hOWc' : c'.outputWires = c.outputWires := by
    rw [show c'.outputWires = D.outputWires by rw [hc'eq]]
    exact howD
  have hwfc' : c'.wfB = true := by
    rw [wfB_congr hgatesc' hwiresc']
    exact hwfD
  have hvalc' : c'.validate_connectivity = true := by
    rw [validate_congr hgatesc' hwiresc']
    exact hvalD
  have harityc' : ∀ v gv, c'.gateAt v = some gv → arityOkB gv = true := by
    intro v gv hgv
    rw [congrFun (gateAt_congr hgatesc') v] at hgv
    exact harityD v gv hgv
  have hedgec' : ∀ u v, Edge c' u v ↔ Edge D u v := by
    intro u v
    unfold Edge
    rw [hwiresc']
  have hOrdc' : OrderOk c' c'.topoOrder := by
    refine ⟨?_, ?_, ?_, ?_⟩
    · rw [List.nodup_iff_count_le_one]
      intro a
      by_cases ha : a < D.gates.length
      · rw [hcountD a ha]
      · have hnm : a ∉ c'.topoOrder := fun hmem => ha (hbndD a hmem)
        rw [List.count_eq_zero.mpr hnm]
        omega
    · intro g hg
      rw [hgatesc']
      exact hbndD g hg
    · intro g hg
      rw [hgatesc'] at hg
      exact List.count_pos_iff.mp (by rw [hcountD g hg]; omega)
    · intro u v he i j hi hj
      exact hsoundD u v ((hedgec' u v).mp he) i j hi hj
  have hDc'val : ∀ f wid env, wireVal D env f wid = wireVal c' env f wid :=
    wireVal_struct_congr D c'
      (fun wid => congrFun (sourceOf_congr hwiresc'.symm) wid)
      (fun gid => by rw [congrFun (gateAt_congr hgatesc') gid])
  refine ⟨c', by rw [hD]; exact hfinD, ?_, ?_⟩
  · intro g hg
    rw [hgatesc'] at hg
    obtain ⟨v, hv⟩ := gateAt_of_mem hg
    rcases hnandD v g hv with hn | hmem
    · exact hn
    · exact absurd hmem (List.not_mem_nil v)
  · intro bs
    have hAsh : (c.setInputs bs).shape = c.shape := setInputs_shape c bs
    have hBsh : (c'.setInputs bs).shape = c'.shape := setInputs_shape c' bs
    have hfinA : (c.setInputs bs).finalized = true := by
      have hp : (c.setInputs bs).finalized = c.finalized :=
        congrArg (fun s => s.2.2.2.2.2) hAsh
      rw [hp, hfinz]
    have hfinB : (c'.setInputs bs).finalized = true := by
      have hp : (c'.setInputs bs).finalized = c'.finalized :=
        congrArg (fun s => s.2.2.2.2.2) hBsh
      rw [hp, hfinzc']
    have htopoA : (c.setInputs bs).topoOrder = c.topoOrder :=
      congrArg (fun s => s.2.2.2.2.1) hAsh
    have htopoB : (c'.setInputs bs).topoOrder = c'.topoOrder :=
      congrArg (fun s => s.2.2.2.2.1) hBsh
    obtain ⟨p, hpA, hpAsh, hpAvals⟩ := propagate_adequate (c.setInputs bs)
      (wfB_true_of_shape hAsh hwfc)
      (validate_true_of_shape hAsh hwfc hvalc) hfinA
      (by rw [htopoA]; exact orderOk_of_shape hAsh hOrdc)
      (fun v => arity_cond_of_shape_eq hAsh v (fun g hg => harityc v g hg))
    obtain ⟨p', hpB, hpBsh, hpBvals⟩ := propagate_adequate (c'.setInputs bs)
      (wfB_true_of_shape hBsh hwfc')
      (validate_true_of_shape hBsh hwfc' hvalc') hfinB
      (by rw [htopoB]; exact orderOk_of_shape hBsh hOrdc')
      (fun v => arity_cond_of_shape_eq hBsh v (fun g hg => harityc' v g hg))
    refine ⟨p, p', hpA, hpB, ?_⟩
    intro i hi
    have hol : c.outputWires.getD i 0 < c.wires.length := by
      rw [show c.wires.length = c₀.wires.length by rw [hwires]]
      apply hpins
      apply List.mem_append_right
      rw [← hOW]
      exact getD_mem_of_lt hi
    have holp : c.outputWires.getD i 0 < p.1.wires.length := by
      rw [shape_wires_length hpAsh, shape_wires_length hAsh]
      exact hol
    obtain ⟨wA, hwA⟩ := wireAt_of_lt holp
    have holp' : c.outputWires.getD i 0 < p'.1.wires.length := by
      have h9 : p'.1.wires.length = D.wires.length := by
        rw [shape_wires_length hpBsh, shape_wires_length hBsh, hwiresc']
      omega
    obtain ⟨wB, hwB⟩ := wireAt_of_lt holp'
    have hEvA := hpAvals (c.outputWires.getD i 0) wA hwA
    have hEvB := hpBvals (c.outputWires.getD i 0) wB hwB
    have hagree : ∀ wid, (c'.setInputs bs).sourceOf wid = none →
        initEnv (c.setInputs bs) wid = initEnv (c'.setInputs bs) wid := by
      intro wid hsnone
      have hsc' : c'.sourceOf wid = none := by
        rw [sourceOf_of_shape hBsh.symm wid]
        exact hsnone
      have hsD : D.sourceOf wid = none := by
        rw [congrFun (sourceOf_congr hwiresc'.symm) wid]
        exact hsc'
      by_cases hwd : wid < D.wires.length
      · by_cases hcw : wid < c.wires.length
        · have hscnone : c.sourceOf wid = none := by
            by_contra hne
            exact (hstayD wid hcw hne) hsD
          have htri : wtriple D wid = wtriple c wid :=
            hsrclessD wid hcw hscnone
          have htric' : wtriple c' wid = wtriple c wid := by
            rw [show wtriple c' wid = wtriple D wid by
              rw [wtriple, wtriple, wireAt_congr hwiresc'], htri]
          have htriAB : wtriple (c'.setInputs bs) wid =
              wtriple (c.setInputs bs) wid :=
            setInputs_wtriple_congr c' c bs hIWc' wid htric'
          exact (initEnv_eq_of_wtriple htriAB).symm
        · exact absurd hsD (hnewD wid hwd (by omega))
      · have hgeA : (c.setInputs bs).wires.length ≤ wid := by
          rw [shape_wires_length hAsh]
          omega
        have hgeB : (c'.setInputs bs).wires.length ≤ wid := by
          rw [shape_wires_length hBsh, hwiresc']
          omega
        show (((c.setInputs bs).wireAt wid).map
            (fun w => w.value)).getD false =
          (((c'.setInputs bs).wireAt wid).map (fun w => w.value)).getD false
        rw [wireAt_none_of_ge hgeA, wireAt_none_of_ge hgeB]
    have hchain : Evals (c'.setInputs bs) (initEnv (c'.setInputs bs))
        (c.outputWires.getD i 0) wA.value := by
      apply evals_env_congr hagree
      apply evals_of_shape hBsh.symm
      apply evals_of_wireVal_eq hDc'val
      apply hevalsD (initEnv (c.setInputs bs)) (c.outputWires.getD i 0)
        wA.value hol
      exact evals_of_shape hAsh hEvA
    have huniq : wA.value = wB.value := evals_unique hchain hEvB
    have hOWp : p.1.outputWires = c.outputWires := by
      have h1 : p.1.outputWires = (c.setInputs bs).outputWires :=
        congrArg (fun s => s.2.2.2.1) hpAsh
      have h2 : (c.setInputs bs).outputWires = c.outputWires :=
        congrArg (fun s => s.2.2.2.1) hAsh
      rw [h1, h2]
    have hOWp' : p'.1.outputWires = c.outputWires := by
      have h1 : p'.1.outputWires = (c'.setInputs bs).outputWires :=
        congrArg (fun s => s.2.2.2.1) hpBsh
      have h2 : (c'.setInputs bs).outputWires = c'.outputWires :=
        congrArg (fun s => s.2.2.2.1) hBsh
      rw [h1, h2, hOWc']
    rw [Circuit.get_output, Circuit.get_output, hOWp, hOWp', if_pos hi,
      hwA, hwB]
    simp only [Option.map_some', Option.getD_some]
    rw [huniq, if_pos hi]

theorem decompose_to_nand_behavior_preserving_witness :
    ∃ c', decompose_to_nand halfAdderF = .ok c' ∧
      (∀ g ∈ c'.gates, g.type = GateType.NAND) ∧
      ∀ bs, ∃ p p', (halfAdderF.setInputs bs).propagate = .ok p ∧
        (c'.setInputs bs).propagate = .ok p' ∧
        ∀ i, i < halfAdderF.outputWires.length →
          p.1.get_output i = p'.1.get_output i :=
  decompose_to_nand_behavior_preserving halfAdder0 halfAdderF
    (by decide) (by decide) (by rfl) (by decide) (by decide) (by decide)

end gateflow
